import Mathlib

/-!
# SSTorytime: the graph data model, the node directory, the link merger,
the stored functions, the path solver and the SQL marshalling

A shallow embedding of `pkg/SSTorytime/SSTorytime.go`.

* A Go `string` is a finite sequence of bytes: `GoString := List Nat`, every
  element standing for one byte.  `len(s)` is the list length.
* A Go `int` (64 bit) is an `Int`; none of the functions below can overflow
  one (they count bytes and slice elements).
* A `float64` weight is only ever copied by the functions below, so it is
  carried as its 64-bit pattern, a `Nat`.
* Package-level variables (`NODE_DIRECTORY`, `ARROW_DIRECTORY`,
  `INVERSE_ARROWS`) are passed explicitly.
* A run-time panic (index out of range) is the result `none`; `os.Exit` is a
  separate outcome of the functions that call it.
-/

namespace SSTorytime

/-- A Go string: its bytes, in order. -/
abbrev GoString := List Nat

/-- The bytes of an ASCII literal. -/
def str (s : String) : GoString := s.toList.map Char.toNat

/-! ## Constants -/

def WARN_DIFFERENT_CAPITALS : GoString := str "WARNING: Another capitalization exists"

def NEAR : Int := 0
def LEADSTO : Int := 1
def CONTAINS : Int := 2
def EXPRESS : Int := 3

def ST_ZERO : Int := EXPRESS
def ST_TOP : Int := ST_ZERO + EXPRESS + 1

def I_MEXPR : String := "Im3"
def I_MCONT : String := "Im2"
def I_MLEAD : String := "Im1"
def I_NEAR : String := "In0"
def I_PLEAD : String := "Il1"
def I_PCONT : String := "Ic2"
def I_PEXPR : String := "Ie3"

def N1GRAM : Int := 1
def N2GRAM : Int := 2
def N3GRAM : Int := 3
def LT128 : Int := 4
def LT1024 : Int := 5
def GT1024 : Int := 6

/-! ## Size classifier -/

/-- The loop of `StorageClass`: walk the bytes, count the byte `' '` (32), and
break as soon as the count exceeds 2. -/
def StorageClass.scan : GoString → Int → Int
  | [], spaces => spaces
  | c :: rest, spaces =>
    let spaces := if c = 32 then spaces + 1 else spaces
    if spaces > 2 then spaces else StorageClass.scan rest spaces

/-- `StorageClass(s)`: the byte length and the size class of a text. -/
def StorageClass (s : GoString) : Int × Int :=
  let spaces := StorageClass.scan s 0
  let l : Int := s.length
  if spaces = 0 then (l, N1GRAM)
  else if spaces = 1 then (l, N2GRAM)
  else if spaces = 2 then (l, N3GRAM)
  else if l < 128 then (l, LT128)
  else if l < 1024 then (l, LT1024)
  else (l, GT1024)


/-- The class `StorageClass` is specified to return: by the number of ASCII
spaces (bytes 32) when there are at most two, by the byte length otherwise. -/
def classOf (s : GoString) : Int :=
  if s.count 32 = 0 then 1
  else if s.count 32 = 1 then 2
  else if s.count 32 = 2 then 3
  else if s.length < 128 then 4
  else if s.length < 1024 then 5
  else 6

/-! ## Data model -/

/-- A Go `type NodePtr struct`: size class and index within the class lane. -/
structure NodePtr where
  Class : Int
  CPtr : Int
deriving DecidableEq, Repr

/-- A Go `type Link struct`: a half-edge stored on its source node. -/
structure Link where
  Arr : Int
  Wgt : Nat
  Ctx : List GoString
  Dst : NodePtr
deriving DecidableEq, Repr

/-- A Go `type Node struct`; `I` is the array of the `ST_TOP` buckets. -/
structure Node where
  L : Int
  S : GoString
  Chap : GoString
  NPtr : NodePtr
  I : List (List Link)
deriving DecidableEq, Repr

/-- A Go `type ArrowDirectory struct`: one registered arrow. -/
structure ArrowDirectory where
  STAindex : Int
  Long : GoString
  Short : GoString
  Ptr : Int
deriving DecidableEq, Repr

/-- A slice read `xs[i]` with a Go `int` index; `none` is the index-out-of-range
panic. -/
def index? {α : Type} (xs : List α) (i : Int) : Option α :=
  if i < 0 then none else xs[i.toNat]?

/-- A read `m[k]` of a Go `map[ArrowPtr]ArrowPtr` kept as a list of entries:
the value of the key, or the zero value when the key is absent. -/
def mapRead (m : List (Int × Int)) (k : Int) : Int :=
  (m.lookup k).getD 0

/-- `STIndexToSTType`: shifted array index to signed type. -/
def STIndexToSTType (stindex : Int) : Int := stindex - ST_ZERO

/-- `STTypeToSTIndex`: signed type to shifted array index. -/
def STTypeToSTIndex (stindex : Int) : Int := stindex + ST_ZERO

/-- `STTypeDBChannel`: the column of the `Node` table that holds the bucket of
a signed type; `none` is the `os.Exit(-1)` of the default branch. -/
def STTypeDBChannel (sttype : Int) : Option String :=
  if sttype = NEAR then some I_NEAR
  else if sttype = LEADSTO then some I_PLEAD
  else if sttype = CONTAINS then some I_PCONT
  else if sttype = EXPRESS then some I_PEXPR
  else if sttype = -LEADSTO then some I_MLEAD
  else if sttype = -CONTAINS then some I_MCONT
  else if sttype = -EXPRESS then some I_MEXPR
  else none

/-! ## Link merger -/

/-- The reserved context token. -/
def SEQUENCE : GoString := str "_sequence_"

/-- The order in which a Go `for s := range m` visits the keys of a map is not
specified: every key is visited once, in some order.  A `RangeOrder` is one
such choice. -/
structure RangeOrder where
  order : List GoString → List GoString
  perm : ∀ keys, (order keys).Perm keys

/-- The iteration that visits the keys in insertion order. -/
def RangeOrder.insertion : RangeOrder := ⟨fun keys => keys, fun _ => List.Perm.refl _⟩

/-- `MergeContexts`: both slices are entered as keys of a map, then the keys
other than `_sequence_` are collected in the order of the map iteration. -/
def MergeContexts (ro : RangeOrder) (one two : List GoString) : List GoString :=
  (ro.order (one ++ two).dedup).filter (fun s => s ≠ SEQUENCE)

/-- The scan of `MergeLinks` over `list`: the first link with the arrow and the
destination of `lnk` gets the merged context and the scan stops; when there is
none, `lnk` is appended. -/
def MergeLinks.scan (ro : RangeOrder) (lnk : Link) : List Link → List Link
  | [] => [lnk]
  | x :: rest =>
    if x.Arr = lnk.Arr ∧ x.Dst = lnk.Dst then
      { x with Ctx := MergeContexts ro x.Ctx lnk.Ctx } :: rest
    else x :: MergeLinks.scan ro lnk rest

/-- `MergeLinks`: strip `_sequence_` from the context of `lnk`, then merge it
into the bucket. -/
def MergeLinks (ro : RangeOrder) (list : List Link) (lnk : Link) : List Link :=
  let ctx := lnk.Ctx.filter (fun c => c ≠ SEQUENCE)
  MergeLinks.scan ro { lnk with Ctx := ctx } list

/-- Merging the same link once per element of `ros`, each merge with its own
map iteration order. -/
def MergeLinksRepeated (ros : List RangeOrder) (list : List Link) (lnk : Link) : List Link :=
  ros.foldl (fun bucket ro => MergeLinks ro bucket lnk) list

/-- Two links agree in arrow, weight and destination, and their contexts hold
the same tokens. -/
def SameLink (a b : Link) : Prop :=
  a.Arr = b.Arr ∧ a.Wgt = b.Wgt ∧ a.Dst = b.Dst ∧ ∀ s, s ∈ a.Ctx ↔ s ∈ b.Ctx

/-! ## Persistence: the half-edge writes -/

/-- How a call ends: it returns a value, or the process ends in `os.Exit`, or
the Go run time panics. -/
inductive Outcome (α : Type) where
  | ret (a : α)
  | exit (code : Int)
  | panic
deriving DecidableEq, Repr

/-- The statement `UPDATE NODE set <link_table>=array_append(<link_table>,
<literal>) where (NPtr).CPtr = .. and (NPtr).Chan = .. and ..` that
`AppendDBLinkToNode` sends to the store, by the values it is formatted from:
the column, the link of the literal and the node that is updated. -/
structure DBAppend where
  link_table : String
  literal : Link
  n1ptr : NodePtr
deriving DecidableEq, Repr

/-- A run against the store: the statements sent, in order, and how the call
ended. -/
structure DBRun (α : Type) where
  sent : List DBAppend
  out : Outcome α
deriving DecidableEq, Repr

/-- `AppendDBLinkToNode`; `db q` tells whether the store accepts the statement
`q` (no `err`). -/
def AppendDBLinkToNode (db : DBAppend → Bool) (n1ptr : NodePtr) (lnk : Link) (sttype : Int) :
    DBRun Bool :=
  if sttype < -EXPRESS ∨ sttype > EXPRESS then ⟨[], .exit (-1)⟩
  else if n1ptr = lnk.Dst then ⟨[], .ret false⟩
  else
    match STTypeDBChannel sttype with
    | none => ⟨[], .exit (-1)⟩
    | some link_table =>
      let q : DBAppend := ⟨link_table, lnk, n1ptr⟩
      ⟨[q], .ret (db q)⟩

/-- `IdempDBAddLink`, over the arrow directory and the inverse map. -/
def IdempDBAddLink (db : DBAppend → Bool) (ARROW_DIRECTORY : List ArrowDirectory)
    (INVERSE_ARROWS : List (Int × Int)) (from_ : Node) (link : Link) (to_ : Node) : DBRun Unit :=
  let frptr := from_.NPtr
  let toptr := to_.NPtr
  let link := { link with Dst := toptr }
  if frptr = toptr then ⟨[], .exit (-1)⟩
  else if link.Arr < 0 then ⟨[], .exit (-1)⟩
  else
    match index? ARROW_DIRECTORY link.Arr with
    | none => ⟨[], .panic⟩
    | some entry =>
      let sttype := STIndexToSTType entry.STAindex
      let fwd := AppendDBLinkToNode db frptr link sttype
      match fwd.out with
      | .exit code => ⟨fwd.sent, .exit code⟩
      | .panic => ⟨fwd.sent, .panic⟩
      | .ret _ =>
        let invlink : Link :=
          { Arr := mapRead INVERSE_ARROWS link.Arr, Wgt := link.Wgt, Ctx := [], Dst := frptr }
        let bwd := AppendDBLinkToNode db toptr invlink (-sttype)
        match bwd.out with
        | .exit code => ⟨fwd.sent ++ bwd.sent, .exit code⟩
        | .panic => ⟨fwd.sent ++ bwd.sent, .panic⟩
        | .ret _ => ⟨fwd.sent ++ bwd.sent, .ret ()⟩

/-! ## Node directory -/

/-- A Go `map[string]ClassedNodePtr`, as the list of its entries; no key occurs
twice. -/
abbrev GramMap := List (GoString × Int)

/-- The read `v, ok = m[k]`: the zero value and `false` when the key is absent. -/
def mapGet : GramMap → GoString → Int × Bool
  | [], _ => (0, false)
  | (k', v) :: rest, k => if k' = k then (v, true) else mapGet rest k

/-- The write `m[k] = v`. -/
def mapSet (m : GramMap) (k : GoString) (v : Int) : GramMap :=
  (k, v) :: m.filter (fun e => e.1 ≠ k)

/-- A Go `type NodeDirectory struct`. -/
structure NodeDirectory where
  N1grams : GramMap
  N1directory : List Node
  N1_top : Int
  N2grams : GramMap
  N2directory : List Node
  N2_top : Int
  N3grams : GramMap
  N3directory : List Node
  N3_top : Int
  LT128 : List Node
  LT128_top : Int
  LT1024 : List Node
  LT1024_top : Int
  GT1024 : List Node
  GT1024_top : Int
deriving DecidableEq, Repr

/-- The directory after `MemoryInit`: empty maps, empty vectors, counters 0. -/
def NodeDirectory.empty : NodeDirectory :=
  ⟨[], [], 0, [], [], 0, [], [], 0, [], 0, [], 0, [], 0⟩

/-- The zero value of `Node` (`var node Node`). -/
def Node.zero : Node := ⟨0, [], [], ⟨0, 0⟩, List.replicate 7 []⟩

/-- The value `NO_NODE_PTR` that `Open` sets. -/
def NO_NODE_PTR : NodePtr := ⟨0, -1⟩

/-- The node vector of a class (empty for a number that is no class). -/
def NodeDirectory.vec (d : NodeDirectory) (c : Int) : List Node :=
  if c = SSTorytime.N1GRAM then d.N1directory
  else if c = SSTorytime.N2GRAM then d.N2directory
  else if c = SSTorytime.N3GRAM then d.N3directory
  else if c = SSTorytime.LT128 then d.LT128
  else if c = SSTorytime.LT1024 then d.LT1024
  else if c = SSTorytime.GT1024 then d.GT1024
  else []

/-- The top counter of a class. -/
def NodeDirectory.top (d : NodeDirectory) (c : Int) : Int :=
  if c = SSTorytime.N1GRAM then d.N1_top
  else if c = SSTorytime.N2GRAM then d.N2_top
  else if c = SSTorytime.N3GRAM then d.N3_top
  else if c = SSTorytime.LT128 then d.LT128_top
  else if c = SSTorytime.LT1024 then d.LT1024_top
  else if c = SSTorytime.GT1024 then d.GT1024_top
  else 0

/-- The hash map of an n-gram class (empty for the other classes). -/
def NodeDirectory.grams (d : NodeDirectory) (c : Int) : GramMap :=
  if c = SSTorytime.N1GRAM then d.N1grams
  else if c = SSTorytime.N2GRAM then d.N2grams
  else if c = SSTorytime.N3GRAM then d.N3grams
  else []

/-- `GetNodeFromPtr`. -/
def GetNodeFromPtr (d : NodeDirectory) (frptr : NodePtr) : Option Node :=
  let class_ := frptr.Class
  let index := frptr.CPtr
  if class_ = N1GRAM then index? d.N1directory index
  else if class_ = N2GRAM then index? d.N2directory index
  else if class_ = N3GRAM then index? d.N3directory index
  else if class_ = LT128 then index? d.LT128 index
  else if class_ = LT1024 then index? d.LT1024 index
  else if class_ = GT1024 then index? d.GT1024 index
  else some Node.zero

/-- `GetNodeTxtFromPtr`. -/
def GetNodeTxtFromPtr (d : NodeDirectory) (frptr : NodePtr) : Option GoString :=
  let class_ := frptr.Class
  let index := frptr.CPtr
  let node : Option Node :=
    if class_ = N1GRAM then index? d.N1directory index
    else if class_ = N2GRAM then index? d.N2directory index
    else if class_ = N3GRAM then index? d.N3directory index
    else if class_ = LT128 then index? d.LT128 index
    else if class_ = LT1024 then index? d.LT1024 index
    else if class_ = GT1024 then index? d.GT1024 index
    else some Node.zero
  node.map (fun n => n.S)

/-- The loop of `LinearFindText` from index `i` on; `lower` is
`strings.ToLower`. -/
def LinearFindText.loop (lower : GoString → GoString) (event : Node) (ignore_caps : Bool) :
    List Node → Int → Int × Bool
  | [], _ => (-1, false)
  | n :: rest, i =>
    if event.L ≠ n.L then LinearFindText.loop lower event ignore_caps rest (i + 1)
    else if ignore_caps then
      if lower n.S = lower event.S then (i, true)
      else LinearFindText.loop lower event ignore_caps rest (i + 1)
    else
      if n.S = event.S then (i, true)
      else LinearFindText.loop lower event ignore_caps rest (i + 1)

/-- `LinearFindText`. -/
def LinearFindText (lower : GoString → GoString) (in_ : List Node) (event : Node)
    (ignore_caps : Bool) : Int × Bool :=
  LinearFindText.loop lower event ignore_caps in_ 0

/-- The loop `for key := range m` of `CheckExistingOrAltCaps`: is some key
equal to the text after lower-casing. -/
def altCapsKey (lower : GoString → GoString) (m : GramMap) (s : GoString) : Bool :=
  m.any (fun e => decide (lower e.1 = lower s))

/-- `CheckExistingOrAltCaps`: the slot and the `ok` flag, and the messages
handed to `ErrFunc`, in order. -/
def CheckExistingOrAltCaps (lower : GoString → GoString) (d : NodeDirectory) (event : Node) :
    (Int × Bool) × List GoString :=
  let class_ := event.NPtr.Class
  let found : Int × Bool :=
    if class_ = N1GRAM then mapGet d.N1grams event.S
    else if class_ = N2GRAM then mapGet d.N2grams event.S
    else if class_ = N3GRAM then mapGet d.N3grams event.S
    else if class_ = LT128 then LinearFindText lower d.LT128 event false
    else if class_ = LT1024 then LinearFindText lower d.LT1024 event false
    else if class_ = GT1024 then LinearFindText lower d.GT1024 event false
    else (-1, false)
  if found.2 then (found, [])
  else
    let alternative_caps : Bool :=
      if class_ = N1GRAM then altCapsKey lower d.N1grams event.S
      else if class_ = N2GRAM then altCapsKey lower d.N2grams event.S
      else if class_ = N3GRAM then altCapsKey lower d.N3grams event.S
      else if class_ = LT128 then (LinearFindText lower d.LT128 event true).2
      else if class_ = LT1024 then (LinearFindText lower d.LT1024 event true).2
      else if class_ = GT1024 then (LinearFindText lower d.GT1024 event true).2
      else false
    if alternative_caps then
      (found, [WARN_DIFFERENT_CAPITALS ++ str " (" ++ event.S ++ str ")"])
    else (found, [])

/-- `strings.Contains(s, substr)`. -/
def strings_Contains (s substr : GoString) : Bool := decide (substr <:+: s)

/-- The assignment `dir[cptr].Chap = newchap`. -/
def setChap (dir : List Node) (cptr : Int) (newchap : GoString) : Option (List Node) :=
  match index? dir cptr with
  | none => none
  | some node => some (dir.set cptr.toNat { node with Chap := newchap })

/-- `IdempAddChapterToNode`. -/
def IdempAddChapterToNode (d : NodeDirectory) (class_ : Int) (cptr : Int) (chap : GoString) :
    Option NodeDirectory :=
  let read : Option Node :=
    if class_ = N1GRAM then index? d.N1directory cptr
    else if class_ = N2GRAM then index? d.N2directory cptr
    else if class_ = N3GRAM then index? d.N3directory cptr
    else if class_ = LT128 then index? d.LT128 cptr
    else if class_ = LT1024 then index? d.LT1024 cptr
    else if class_ = GT1024 then index? d.GT1024 cptr
    else some Node.zero
  match read with
  | none => none
  | some node =>
    if strings_Contains node.Chap chap then some d
    else
      let newchap := node.Chap ++ str "," ++ chap
      if class_ = N1GRAM then
        (setChap d.N1directory cptr newchap).map (fun v => { d with N1directory := v })
      else if class_ = N2GRAM then
        (setChap d.N2directory cptr newchap).map (fun v => { d with N2directory := v })
      else if class_ = N3GRAM then
        (setChap d.N3directory cptr newchap).map (fun v => { d with N3directory := v })
      else if class_ = LT128 then
        (setChap d.LT128 cptr newchap).map (fun v => { d with LT128 := v })
      else if class_ = LT1024 then
        (setChap d.LT1024 cptr newchap).map (fun v => { d with LT1024 := v })
      else if class_ = GT1024 then
        (setChap d.GT1024 cptr newchap).map (fun v => { d with GT1024 := v })
      else some d

/-- What a call of `AppendTextToDirectory` leaves: the pointer returned, the
directory, and the messages handed to `ErrFunc`. -/
structure Appended where
  ptr : NodePtr
  dir : NodeDirectory
  errs : List GoString
deriving DecidableEq, Repr

/-- `AppendTextToDirectory`; `none` is a run-time panic. -/
def AppendTextToDirectory (lower : GoString → GoString) (d : NodeDirectory) (event : Node) :
    Option Appended :=
  let chk := CheckExistingOrAltCaps lower d event
  let cnode_slot := chk.1.1
  let ok := chk.1.2
  let class_ := event.NPtr.Class
  if ok then
    (IdempAddChapterToNode d class_ cnode_slot event.Chap).map
      (fun d' => ⟨⟨class_, cnode_slot⟩, d', chk.2⟩)
  else if class_ = N1GRAM then
    let ptr : NodePtr := ⟨class_, d.N1_top⟩
    let event := { event with NPtr := ptr }
    some ⟨ptr, { d with N1directory := d.N1directory ++ [event], N1grams := mapSet d.N1grams event.S d.N1_top, N1_top := d.N1_top + 1 }, chk.2⟩
  else if class_ = N2GRAM then
    let ptr : NodePtr := ⟨class_, d.N2_top⟩
    let event := { event with NPtr := ptr }
    some ⟨ptr, { d with N2directory := d.N2directory ++ [event], N2grams := mapSet d.N2grams event.S d.N2_top, N2_top := d.N2_top + 1 }, chk.2⟩
  else if class_ = N3GRAM then
    let ptr : NodePtr := ⟨class_, d.N3_top⟩
    let event := { event with NPtr := ptr }
    some ⟨ptr, { d with N3directory := d.N3directory ++ [event], N3grams := mapSet d.N3grams event.S d.N3_top, N3_top := d.N3_top + 1 }, chk.2⟩
  else if class_ = LT128 then
    let ptr : NodePtr := ⟨class_, d.LT128_top⟩
    let event := { event with NPtr := ptr }
    some ⟨ptr, { d with LT128 := d.LT128 ++ [event], LT128_top := d.LT128_top + 1 }, chk.2⟩
  else if class_ = LT1024 then
    let ptr : NodePtr := ⟨class_, d.LT1024_top⟩
    let event := { event with NPtr := ptr }
    some ⟨ptr, { d with LT1024 := d.LT1024 ++ [event], LT1024_top := d.LT1024_top + 1 }, chk.2⟩
  else if class_ = GT1024 then
    let ptr : NodePtr := ⟨class_, d.GT1024_top⟩
    let event := { event with NPtr := ptr }
    some ⟨ptr, { d with GT1024 := d.GT1024 ++ [event], GT1024_top := d.GT1024_top + 1 }, chk.2⟩
  else some ⟨NO_NODE_PTR, d, chk.2⟩

/-- The directories that calls of `AppendTextToDirectory` build from the empty
one. -/
inductive Reachable (lower : GoString → GoString) : NodeDirectory → Prop where
  | init : Reachable lower NodeDirectory.empty
  | step {d : NodeDirectory} {r : Appended} (event : Node) :
      Reachable lower d → AppendTextToDirectory lower d event = some r → Reachable lower r.dir

/-- The assignment `dir[frm].I[stindex] = MergeLinks(dir[frm].I[stindex],link)`. -/
def mergeAt (ro : RangeOrder) (dir : List Node) (frm stindex : Int) (link : Link) :
    Option (List Node) :=
  match index? dir frm with
  | none => none
  | some node =>
    match index? node.I stindex with
    | none => none
    | some bucket =>
      some (dir.set frm.toNat
        { node with I := node.I.set stindex.toNat (MergeLinks ro bucket link) })

/-- `AppendLinkToNode`, over the arrow directory. -/
def AppendLinkToNode (ro : RangeOrder) (ARROW_DIRECTORY : List ArrowDirectory)
    (d : NodeDirectory) (frptr : NodePtr) (link : Link) (toptr : NodePtr) :
    Option NodeDirectory :=
  let frclass := frptr.Class
  let frm := frptr.CPtr
  match index? ARROW_DIRECTORY link.Arr with
  | none => none
  | some entry =>
    let stindex := entry.STAindex
    let link := { link with Dst := toptr }
    if frclass = N1GRAM then
      (mergeAt ro d.N1directory frm stindex link).map (fun v => { d with N1directory := v })
    else if frclass = N2GRAM then
      (mergeAt ro d.N2directory frm stindex link).map (fun v => { d with N2directory := v })
    else if frclass = N3GRAM then
      (mergeAt ro d.N3directory frm stindex link).map (fun v => { d with N3directory := v })
    else if frclass = LT128 then
      (mergeAt ro d.LT128 frm stindex link).map (fun v => { d with LT128 := v })
    else if frclass = LT1024 then
      (mergeAt ro d.LT1024 frm stindex link).map (fun v => { d with LT1024 := v })
    else if frclass = GT1024 then
      (mergeAt ro d.GT1024 frm stindex link).map (fun v => { d with GT1024 := v })
    else some d

/-- Go's `strings.ToLower` on the texts of the examples below: an ASCII capital
goes to its small letter, and the rune U+212A KELVIN SIGN (bytes E2 84 AA) goes
to `k` (byte 6B), as in Go's Unicode tables; every other byte is kept (the rest
of the Unicode case table is not reproduced). -/
def ToLower : GoString → GoString
  | 0xE2 :: 0x84 :: 0xAA :: rest => 0x6B :: ToLower rest
  | c :: rest => (if 65 ≤ c ∧ c ≤ 90 then c + 32 else c) :: ToLower rest
  | [] => []

/-! ## Views of the directory used in the statements and proofs -/

/-- One class lane of the directory: its hash map (empty for the classes that
have none), its node vector and its top counter. -/
structure Lane where
  grams : GramMap
  vec : List Node
  top : Int

/-- The lane of class `c`. -/
def NodeDirectory.lane (d : NodeDirectory) (c : Int) : Lane := ⟨d.grams c, d.vec c, d.top c⟩

/-- The first `switch` of `CheckExistingOrAltCaps`, read on the lane of the
class: a hash lookup for the n-gram classes, the exact linear scan for the
others. -/
def laneFind (lower : GoString → GoString) (c : Int) (l : Lane) (event : Node) : Int × Bool :=
  if c ≤ 3 then mapGet l.grams event.S else LinearFindText lower l.vec event false

/-- The second `switch` of `CheckExistingOrAltCaps`, read on the lane. -/
def laneAlt (lower : GoString → GoString) (c : Int) (l : Lane) (event : Node) : Bool :=
  if c ≤ 3 then altCapsKey lower l.grams event.S else (LinearFindText lower l.vec event true).2

/-- The messages `CheckExistingOrAltCaps` hands to `ErrFunc`, read on the lane. -/
def laneErrs (lower : GoString → GoString) (c : Int) (l : Lane) (event : Node) : List GoString :=
  if (laneFind lower c l event).2 then []
  else if laneAlt lower c l event then
    [WARN_DIFFERENT_CAPITALS ++ str " (" ++ event.S ++ str ")"]
  else []

/-- The chapter `IdempAddChapterToNode` leaves on a node. -/
def mergedChap (old chap : GoString) : GoString :=
  if strings_Contains old chap then old else old ++ str "," ++ chap

/-- The test of one iteration of `LinearFindText`. -/
def textMatch (lower : GoString → GoString) (event : Node) (ignore_caps : Bool) (n : Node) :
    Prop :=
  event.L = n.L ∧ (if ignore_caps then lower n.S = lower event.S else n.S = event.S)

instance (lower : GoString → GoString) (event : Node) (ignore_caps : Bool) (n : Node) :
    Decidable (textMatch lower event ignore_caps n) := by
  unfold textMatch; infer_instance

/-- The invariant of the lane of class `c`. -/
structure LaneInv (d : NodeDirectory) (c : Int) : Prop where
  top_eq : d.top c = ((d.vec c).length : Int)
  nptr : ∀ (i : Nat) (node : Node), (d.vec c)[i]? = some node → node.NPtr = ⟨c, (i : Int)⟩
  sound : c ≤ 3 → ∀ k v, mapGet (d.grams c) k = (v, true) →
    ∃ node, index? (d.vec c) v = some node ∧ node.S = k
  complete : c ≤ 3 → ∀ (i : Nat) (node : Node), (d.vec c)[i]? = some node →
    mapGet (d.grams c) node.S = ((i : Int), true)

/-- The invariant of the directory: that of each of the six lanes. -/
def DirInv (d : NodeDirectory) : Prop := ∀ c, 1 ≤ c → c ≤ 6 → LaneInv d c

/-- A call of `AppendTextToDirectory` that did not find the text: what it
returned and how the directory changed. -/
def StepMiss (lower : GoString → GoString) (d : NodeDirectory) (event : Node) (c : Int)
    (r : Appended) : Prop :=
  (laneFind lower c (d.lane c) event).2 = false ∧
  r.ptr = ⟨c, d.top c⟩ ∧ r.errs = laneErrs lower c (d.lane c) event ∧
  r.dir.vec c = d.vec c ++ [{ event with NPtr := ⟨c, d.top c⟩ }] ∧
  r.dir.top c = d.top c + 1 ∧
  r.dir.grams c = (if c ≤ 3 then mapSet (d.grams c) event.S (d.top c) else d.grams c) ∧
  ∀ c', c' ≠ c →
    r.dir.vec c' = d.vec c' ∧ r.dir.top c' = d.top c' ∧ r.dir.grams c' = d.grams c'

/-- A call of `AppendTextToDirectory` that found the text in `slot`. -/
def StepHit (lower : GoString → GoString) (d : NodeDirectory) (event : Node) (c : Int)
    (slot : Int) (node : Node) (r : Appended) : Prop :=
  laneFind lower c (d.lane c) event = (slot, true) ∧
  index? (d.vec c) slot = some node ∧ (node.S = event.S ∧ (¬ c ≤ 3 → node.L = event.L)) ∧
  r.ptr = ⟨c, slot⟩ ∧ r.errs = [] ∧
  r.dir.vec c =
    (d.vec c).set slot.toNat { node with Chap := mergedChap node.Chap event.Chap } ∧
  (∀ c', r.dir.top c' = d.top c') ∧ (∀ c', r.dir.grams c' = d.grams c') ∧
  ∀ c', c' ≠ c → r.dir.vec c' = d.vec c'

/-- Two nodes that differ at most in the chapter. -/
def sameKey (x y : Node) : Prop := x.L = y.L ∧ x.S = y.S ∧ x.NPtr = y.NPtr ∧ x.I = y.I

/-! ## Sample data -/

/-- The text `a b c k`: three spaces, 7 bytes. -/
def textSmallK : GoString := str "a b c k"

/-- The text `a b c K` with `K` the Kelvin sign U+212A (bytes E2 84 AA): three
spaces, 9 bytes. -/
def textKelvin : GoString := str "a b c " ++ [0xE2, 0x84, 0xAA]

/-- The seven empty buckets of a node without links. -/
def noLinks : List (List Link) := List.replicate 7 []

/-- A node event for the text `t`, with the length and the class that
`StorageClass` derives from it (`n.L,n.NPtr.Class = StorageClass(n.S)`). -/
def nodeEvent (t chap : GoString) (cptr : Int) (I : List (List Link)) : Node :=
  ⟨(StorageClass t).1, t, chap, ⟨(StorageClass t).2, cptr⟩, I⟩

/-- An arrow directory with `then` (`leadsto`, `+`: index 4) and its inverse
`prior` (`leadsto`, `-`: index 2), as `InsertArrowDirectory` registers them. -/
def sampleArrows : List ArrowDirectory :=
  [⟨4, str "then", str "then", 0⟩, ⟨2, str "prior", str "prior", 1⟩]

/-- The inverse map after `InsertInverseArrowDirectory(0,1)`. -/
def sampleInverses : List (Int × Int) := [(0, 1), (1, 0)]

/-- Node `A`, stored at `(1,0)`. -/
def sampleNodeA : Node := ⟨1, str "A", str "one", ⟨1, 0⟩, noLinks⟩

/-- Node `B`, stored at `(1,1)`. -/
def sampleNodeB : Node := ⟨1, str "B", str "one", ⟨1, 1⟩, noLinks⟩

/-- The directory that holds node `A` only. -/
def sampleDirA : NodeDirectory :=
  { NodeDirectory.empty with
    N1grams := [(str "A", 0)], N1directory := [sampleNodeA], N1_top := 1 }

/-- A link with the arrow `then` that points at node `A`. -/
def sampleLoop : Link := { Arr := 0, Wgt := 0, Ctx := [str "x"], Dst := ⟨1, 0⟩ }

/-- The directory in which node `A` holds `sampleLoop` in bucket 4. -/
def sampleDirALoop : NodeDirectory :=
  { sampleDirA with
    N1directory := [{ sampleNodeA with I := [[], [], [], [], [sampleLoop], [], []] }] }

/-- A sample link: arrow 0, one context token next to `_sequence_`. -/
def sampleLink : Link :=
  { Arr := 0, Wgt := 0, Ctx := [str "x", SEQUENCE], Dst := ⟨1, 1⟩ }

/-! ## Arrow directory -/

/-- `GetSTIndexByName`: the shifted index of a type name and a polarity. -/
def GetSTIndexByName (stname pm : GoString) : Int :=
  let sign : Int := if pm = str "+" then 1 else if pm = str "-" then -1 else 0
  if stname = str "leadsto" then ST_ZERO + LEADSTO * sign
  else if stname = str "contains" then ST_ZERO + CONTAINS * sign
  else if stname = str "properties" then ST_ZERO + EXPRESS * sign
  else if stname = str "similarity" then ST_ZERO + NEAR
  else 0


/-! ## The store and its stored functions

The functions that `DefineStoredFunctions` installs are PL/pgSQL texts.  They
are embedded as follows.

* An SQL `text` is the list of its characters (code points), `SQLText`; the
  context of a stored `Link` is read as the `text[]` that `lnk.Ctx::text[]`
  gives.
* The table `Node` is the list of its rows, in the order a scan returns them; a
  NULL column is `none`.
* A composite value (`NodePtr`, `Link`) has no NULL field: the Go code writes
  every field.
* A function that raises an exception, or does not end, has the result `none`.
* The built-in functions `lower`, `unaccent`, `substring(.. from ..)` and
  `LIKE` are parameters (`Builtins`).
* SQL `int` arithmetic is taken without overflow: depths are far below 2^31.
-/

/-- An SQL `text`: its characters, in order. -/
abbrev SQLText := List Nat

/-- One row of the table `Node`. -/
structure NodeRow where
  NPtr : NodePtr
  L : Int
  S : SQLText
  Chap : SQLText
  Im3 : Option (List Link)
  Im2 : Option (List Link)
  Im1 : Option (List Link)
  In0 : Option (List Link)
  Il1 : Option (List Link)
  Ic2 : Option (List Link)
  Ie3 : Option (List Link)
deriving DecidableEq, Repr

/-- The built-in functions of the store that the stored functions call:
`lower(t)`, `unaccent(t)`, `substring(t from pattern)` (NULL, here `none`, when
the pattern does not match) and `t LIKE pattern`. -/
structure Builtins where
  lower : SQLText → SQLText
  unaccent : SQLText → SQLText
  substring_from : SQLText → SQLText → Option SQLText
  like : SQLText → SQLText → Bool

/-- The value of a `Link[]` column of a row, by the name of the column. -/
def NodeRow.column (row : NodeRow) (link_table : String) : Option (List Link) :=
  if link_table = I_MEXPR then row.Im3
  else if link_table = I_MCONT then row.Im2
  else if link_table = I_MLEAD then row.Im1
  else if link_table = I_NEAR then row.In0
  else if link_table = I_PLEAD then row.Il1
  else if link_table = I_PCONT then row.Ic2
  else if link_table = I_PEXPR then row.Ie3
  else none

/-- The weight `1.0` of the seed link, a `real`. -/
def realOne : Nat := 0x3F800000

/-- `GetSingletonAsLink`: the link `(0,1.0,{},(0,0))` with `Dst` set to `start`. -/
def GetSingletonAsLink (start : NodePtr) : Link := ⟨0, realOne, [], start⟩

/-- `GetSingletonAsLinkArray`. -/
def GetSingletonAsLinkArray (start : NodePtr) : List Link := [⟨0, realOne, [], start⟩]

/-- `GetNeighboursByType`: `CASE sttype WHEN st THEN SELECT <column of st> INTO
fwdlinks FROM Node WHERE Nptr=start`, one branch for each `st` in -3..3 with
the column `STTypeDBChannel(st)`, `ELSE RAISE EXCEPTION`.  The inner `none` is
NULL: no such row, or a NULL column. -/
def GetNeighboursByType (db : List NodeRow) (start : NodePtr) (sttype : Int) :
    Option (Option (List Link)) :=
  match STTypeDBChannel sttype with
  | none => none
  | some link_table =>
    some ((db.find? (fun row => row.NPtr = start)).bind (fun row => row.column link_table))

/-- `GetFwdNodes`. -/
def GetFwdNodes (db : List NodeRow) (start : NodePtr) (exclude : Option (List NodePtr))
    (sttype : Int) : Option (List NodePtr) :=
  match GetNeighboursByType db start sttype with
  | none => none
  | some none => some []
  | some (some fwdlinks) =>
    some (fwdlinks.foldl (fun neighbours lnk =>
      if lnk.Arr = 0 then neighbours
      else match exclude with
        | none => neighbours
        | some ex => if lnk.Dst ∉ ex then neighbours ++ [lnk.Dst] else neighbours) [])

/-- `GetFwdLinks`. -/
def GetFwdLinks (db : List NodeRow) (start : NodePtr) (exclude : Option (List NodePtr))
    (sttype : Int) : Option (List Link) :=
  match GetNeighboursByType db start sttype with
  | none => none
  | some none => some []
  | some (some fwdlinks) =>
    some (fwdlinks.foldl (fun neighbours lnk =>
      if lnk.Arr = 0 then neighbours
      else match exclude with
        | none => neighbours
        | some ex => if lnk.Dst ∉ ex then neighbours ++ [lnk] else neighbours) [])

/-- The variables of `FwdConeAsNodes`; `cone` and `partlevel` start as NULL. -/
structure NodeCone where
  level : List NodePtr
  exclude : List NodePtr
  cone : Option (List NodePtr)
  partlevel : Option (List NodePtr)
deriving DecidableEq, Repr

/-- One pass of the body of `FOREACH neigh IN ARRAY nextlevel` in
`FwdConeAsNodes`. -/
def FwdConeAsNodes.visit (db : List NodeRow) (sttype : Int) (st : NodeCone) (neigh : NodePtr) :
    Option NodeCone :=
  let seen : Option NodeCone :=
    if neigh ∉ st.exclude then
      (GetFwdNodes db neigh (some (st.exclude ++ [neigh])) sttype).map
        (fun part => ⟨st.level, st.exclude ++ [neigh], some (st.cone.getD [] ++ [neigh]), some part⟩)
    else some st
  seen.map (fun s =>
    match s.partlevel with
    | some part => ⟨s.level ++ part, s.exclude, s.cone, s.partlevel⟩
    | none => s)

/-- The inner loop of `FwdConeAsNodes` over the copy `nextlevel`. -/
def FwdConeAsNodes.sweep (db : List NodeRow) (sttype : Int) :
    List NodePtr → NodeCone → Option NodeCone
  | [], st => some st
  | neigh :: rest, st =>
    match FwdConeAsNodes.visit db sttype st neigh with
    | none => none
    | some st' => FwdConeAsNodes.sweep db sttype rest st'

/-- The outer `LOOP` of `FwdConeAsNodes`, `n` passes: `nextlevel` is a copy of
`level`, then the inner loop runs over it. -/
def FwdConeAsNodes.loop (db : List NodeRow) (sttype : Int) : Nat → NodeCone → Option NodeCone
  | 0, st => some st
  | n + 1, st =>
    match FwdConeAsNodes.sweep db sttype st.level st with
    | none => none
    | some st' => FwdConeAsNodes.loop db sttype n st'

/-- `FwdConeAsNodes`: the loop ends when `counter = maxdepth+1`, which never
holds for `maxdepth < -1`. -/
def FwdConeAsNodes (db : List NodeRow) (start : NodePtr) (sttype maxdepth : Int) :
    Option (Option (List NodePtr)) :=
  if maxdepth + 1 < 0 then none
  else
    (FwdConeAsNodes.loop db sttype (maxdepth + 1).toNat ⟨[start], [⟨0, 0⟩], none, none⟩).map
      (fun st => st.cone)

/-- The variables of `FwdConeAsLinks`. -/
structure LinkCone where
  level : List Link
  exclude : List NodePtr
  cone : Option (List Link)
  partlevel : Option (List Link)
deriving DecidableEq, Repr

/-- One pass of the body of `FOREACH neigh IN ARRAY nextlevel` in
`FwdConeAsLinks`. -/
def FwdConeAsLinks.visit (db : List NodeRow) (sttype : Int) (st : LinkCone) (neigh : Link) :
    Option LinkCone :=
  let seen : Option LinkCone :=
    if neigh.Dst ∉ st.exclude then
      (GetFwdLinks db neigh.Dst (some (st.exclude ++ [neigh.Dst])) sttype).map
        (fun part =>
          ⟨st.level, st.exclude ++ [neigh.Dst], some (st.cone.getD [] ++ [neigh]), some part⟩)
    else some st
  seen.map (fun s =>
    match s.partlevel with
    | some part => ⟨s.level ++ part, s.exclude, s.cone, s.partlevel⟩
    | none => s)

/-- The inner loop of `FwdConeAsLinks`. -/
def FwdConeAsLinks.sweep (db : List NodeRow) (sttype : Int) :
    List Link → LinkCone → Option LinkCone
  | [], st => some st
  | neigh :: rest, st =>
    match FwdConeAsLinks.visit db sttype st neigh with
    | none => none
    | some st' => FwdConeAsLinks.sweep db sttype rest st'

/-- The outer `LOOP` of `FwdConeAsLinks`, `n` passes. -/
def FwdConeAsLinks.loop (db : List NodeRow) (sttype : Int) : Nat → LinkCone → Option LinkCone
  | 0, st => some st
  | n + 1, st =>
    match FwdConeAsLinks.sweep db sttype st.level st with
    | none => none
    | some st' => FwdConeAsLinks.loop db sttype n st'

/-- `FwdConeAsLinks`. -/
def FwdConeAsLinks (db : List NodeRow) (start : NodePtr) (sttype maxdepth : Int) :
    Option (Option (List Link)) :=
  if maxdepth + 1 < 0 then none
  else
    (FwdConeAsLinks.loop db sttype (maxdepth + 1).toNat
      ⟨GetSingletonAsLinkArray start, [⟨0, 0⟩], none, none⟩).map (fun st => st.cone)

/-- The test `length(substring(try from lower(unicode))) > 3` of `match_context`;
a NULL length fails it. -/
def match_context.test (env : Builtins) (unicode try_ : SQLText) : Bool :=
  match env.substring_from try_ (env.lower unicode) with
  | some m => decide (m.length > 3)
  | none => false

/-- The loop of `match_context` over `user_set`, with `db_ref` the lower-cased,
accent-stripped tokens of `db_set`. -/
def match_context.scan (env : Builtins) (db_ref : List SQLText) : List SQLText → Bool
  | [] => false
  | item :: rest =>
    if item = str "any" ∨ item = [] then true
    else
      let unicode := item.filter (fun ch => ch ≠ 124)
      if db_ref.any (fun try_ => match_context.test env unicode try_) then true
      else match_context.scan env db_ref rest

/-- `match_context(db_set,user_set)`; `array_length(x,1)` is NULL for the empty
array (and for NULL, which is read as the empty array here). -/
def match_context (env : Builtins) (db_set user_set : List SQLText) : Bool :=
  if user_set = [] then true
  else if db_set = [] then true
  else match_context.scan env (db_set.map (fun item => env.lower (env.unaccent item))) user_set

/-- `ArrowInList`. -/
def ArrowInList (arrow : Int) (links : Option (List Link)) : Bool :=
  match links with
  | none => false
  | some ls => ls.any (fun lnk => decide (lnk.Arr = arrow))

/-- `GetStoryStartNodes`: `SELECT array_agg(Nptr) FROM Node WHERE
ArrowInList(arrow,<column of st>) AND NOT ArrowInList(inverse,<column of -st>)`;
`array_agg` over no row is NULL. -/
def GetStoryStartNodes (db : List NodeRow) (arrow inverse sttype : Int) :
    Option (Option (List NodePtr)) :=
  match STTypeDBChannel sttype, STTypeDBChannel (-sttype) with
  | some fwd_table, some bwd_table =>
    let rows := db.filter (fun row =>
      ArrowInList arrow (row.column fwd_table) && !ArrowInList inverse (row.column bwd_table))
    some (if rows = [] then none else some (rows.map (fun row => row.NPtr)))
  | _, _ => none

/-- `GetNCNeighboursByType`: as `GetNeighboursByType`, with the row filter
`lower(Chap) LIKE lower(chp)` for `chp = '%' || chapter || '%'`. -/
def GetNCNeighboursByType (env : Builtins) (db : List NodeRow) (start : NodePtr)
    (chapter : SQLText) (sttype : Int) : Option (Option (List Link)) :=
  let chp := str "%" ++ chapter ++ str "%"
  match STTypeDBChannel sttype with
  | none => none
  | some link_table =>
    some ((db.find? (fun row =>
      decide (row.NPtr = start) && env.like (env.lower row.Chap) (env.lower chp))).bind
        (fun row => row.column link_table))

/-- `GetNCFwdLinks`. -/
def GetNCFwdLinks (env : Builtins) (db : List NodeRow) (start : NodePtr) (chapter : SQLText)
    (context : List SQLText) (exclude : Option (List NodePtr)) (sttype : Int) :
    Option (List Link) :=
  match GetNCNeighboursByType env db start chapter sttype with
  | none => none
  | some none => some []
  | some (some fwdlinks) =>
    some (fwdlinks.foldl (fun neighbours lnk =>
      if ¬ match_context env lnk.Ctx context then neighbours
      else match exclude with
        | none => neighbours
        | some ex => if lnk.Dst ∉ ex then neighbours ++ [lnk] else neighbours) [])


/-- A row with links in the bucket `+1` only. -/
def leadsRow (p : NodePtr) (s : SQLText) (links : List Link) : NodeRow :=
  ⟨p, s.length, s, str "one", some [], some [], some [], some [], some links, some [], some []⟩

/-- A stored link with the arrow `arr` and no context. -/
def plainLink (arr : Int) (dst : NodePtr) : Link := ⟨arr, realOne, [], dst⟩

/-- The graph `A→B`, `B→C`, `A→C` in the bucket `+1`, with `A = (1,0)`,
`B = (1,1)`, `C = (1,2)` and the arrow 7. -/
def triangleDB : List NodeRow :=
  [leadsRow ⟨1, 0⟩ (str "A") [plainLink 7 ⟨1, 1⟩, plainLink 7 ⟨1, 2⟩],
   leadsRow ⟨1, 1⟩ (str "B") [plainLink 7 ⟨1, 2⟩],
   leadsRow ⟨1, 2⟩ (str "C") []]

/-- Node `A` with one link of arrow 7 to the pointer `(0,0)`. -/
def danglingDB : List NodeRow := [leadsRow ⟨1, 0⟩ (str "A") [plainLink 7 ⟨0, 0⟩]]

/-- The links of the bucket `s` of the row of `x`: empty when there is no such
row, when the column is NULL, and for an `s` outside -3..3. -/
def bucketOf (db : List NodeRow) (x : NodePtr) (s : Int) : List Link :=
  match GetNeighboursByType db x s with
  | some (some ls) => ls
  | _ => []

/-- The links of the bucket `s` of a row. -/
def NodeRow.bucket (row : NodeRow) (s : Int) : List Link :=
  match STTypeDBChannel s with
  | some link_table => (row.column link_table).getD []
  | none => []

/-- `substring(t from pattern)` for a pattern without regular-expression
metacharacters: the pattern itself when it occurs in `t`, NULL otherwise. -/
def literalSubstring (t pattern : SQLText) : Option SQLText :=
  if pattern <:+: t then some pattern else none

/-- `t LIKE pattern` for a pattern without escape character: `%` (37) stands
for any run of characters, `_` (95) for any one character. -/
def sqlLike : SQLText → SQLText → Bool
  | t, [] => t.isEmpty
  | t, p :: ps =>
    if p = 37 then t.tails.any (fun rest => sqlLike rest ps)
    else
      match t with
      | [] => false
      | c :: cs => (decide (p = 95) || decide (p = c)) && sqlLike cs ps

/-- Built-in functions for texts of ASCII letters: `lower` on the ASCII
capitals, no accent to strip, patterns without metacharacters. -/
def sampleBuiltins : Builtins := ⟨ToLower, fun t => t, literalSubstring, sqlLike⟩

/-- Node `A` whose bucket `+1` holds one link with the arrow 0, to `B`. -/
def sentinelDB : List NodeRow :=
  [leadsRow ⟨1, 0⟩ (str "A") [plainLink 0 ⟨1, 1⟩], leadsRow ⟨1, 1⟩ (str "B") []]

/-- The story `A then B then C` with the arrow `then` = 7 in the bucket `+1` and
its inverse `prior` = 8 in the bucket `-1`. -/
def storyDB : List NodeRow :=
  [⟨⟨1, 0⟩, 1, str "A", str "one", some [], some [], some [], some [], some [plainLink 7 ⟨1, 1⟩], some [], some []⟩,
   ⟨⟨1, 1⟩, 1, str "B", str "one", some [], some [], some [plainLink 8 ⟨1, 0⟩], some [], some [plainLink 7 ⟨1, 2⟩], some [], some []⟩,
   ⟨⟨1, 2⟩, 1, str "C", str "one", some [], some [], some [plainLink 8 ⟨1, 1⟩], none, none, some [], some []⟩]

/-- The invariant of the variables of `FwdConeAsLinks` once the seed link is in
the cone: the cone is the seed followed by links with a non-zero arrow, the
start node is excluded, and the other arrays hold the seed or links with a
non-zero arrow. -/
def LinkConeInv (start : NodePtr) (st : LinkCone) : Prop :=
  (∃ rest, st.cone = some (GetSingletonAsLink start :: rest) ∧ ∀ l ∈ rest, l.Arr ≠ 0) ∧
  start ∈ st.exclude ∧
  (∀ l ∈ st.level, l = GetSingletonAsLink start ∨ l.Arr ≠ 0) ∧
  (∀ part, st.partlevel = some part → ∀ l ∈ part, l.Arr ≠ 0)

/-- One step of the forward cone: the bucket `s` of `x` holds a link with a
non-zero arrow whose destination is `y`, and `y` is not the pointer `(0,0)`. -/
def fwdEdge (db : List NodeRow) (s : Int) (x y : NodePtr) : Prop :=
  y ≠ ⟨0, 0⟩ ∧ ∃ l ∈ bucketOf db x s, l.Arr ≠ 0 ∧ l.Dst = y

/-- The node `p` is reachable from `start` by at most `n` steps. -/
inductive ReachWithin (db : List NodeRow) (s : Int) (start : NodePtr) : Nat → NodePtr → Prop where
  | start (n : Nat) : ReachWithin db s start n start
  | step {n : Nat} {x y : NodePtr} :
      ReachWithin db s start n x → fwdEdge db s x y → ReachWithin db s start (n + 1) y

/-- The invariant of the variables of `FwdConeAsNodes` during the pass that
collects the nodes at `n + 1` steps. -/
def NodeConeSweep (db : List NodeRow) (s : Int) (start : NodePtr) (n : Nat) (st : NodeCone) :
    Prop :=
  ∃ cone, st.cone = some cone ∧ st.exclude = ⟨0, 0⟩ :: cone ∧ cone.Nodup ∧
    (⟨0, 0⟩ : NodePtr) ∉ cone ∧
    (∀ p ∈ cone, ReachWithin db s start (n + 1) p) ∧
    (∀ p ∈ st.level, ReachWithin db s start (n + 2) p) ∧
    (∀ part, st.partlevel = some part → ∀ p ∈ part, ReachWithin db s start (n + 2) p) ∧
    (∀ x ∈ cone, ∀ y, fwdEdge db s x y → y ∈ st.level ∨ y ∈ cone)

/-- The invariant of the variables of `FwdConeAsNodes` after the pass that
collects the nodes at `n` steps. -/
def NodeConeInv (db : List NodeRow) (s : Int) (start : NodePtr) (n : Nat) (st : NodeCone) :
    Prop :=
  ∃ cone, st.cone = some cone ∧ st.exclude = ⟨0, 0⟩ :: cone ∧ cone.Nodup ∧
    (⟨0, 0⟩ : NodePtr) ∉ cone ∧
    (∀ p, p ∈ cone ↔ ReachWithin db s start n p) ∧
    (∀ p ∈ st.level, ReachWithin db s start (n + 1) p) ∧
    (∀ part, st.partlevel = some part → ∀ p ∈ part, ReachWithin db s start (n + 1) p) ∧
    (∀ x ∈ cone, ∀ y, fwdEdge db s x y → y ∈ st.level ∨ y ∈ cone)

/-! ## The stored path enumerators

A `Text` of paths is kept by its structure: the list of its lines (separated by
the newline of `Format('%s\n%s',..)`), each line the list of the links that
`Format('%s;%s',..)` joined; the empty line is `[]`. -/

/-- A text of paths: its lines, each a list of links. -/
abbrev PathText := List (List Link)

/-- `Format('%s\n%s',a,b)`: a NULL argument is formatted as the empty string,
which is one empty line. -/
def formatLines (a b : Option PathText) : PathText := a.getD [[]] ++ b.getD [[]]

/-- The run `stlinks := get(st); fwdlinks := array_cat(fwdlinks,stlinks)` over the
signed types of a `CASE` branch. -/
def probeTypes (get : Int → Option (List Link)) : List Int → Option (List Link)
  | [] => some []
  | st :: rest =>
    match get st with
    | none => none
    | some stlinks => (probeTypes get rest).map (fun more => stlinks ++ more)

/-- The signed types that `SumAllPaths` probes, in its order. -/
def SumAllPaths.types (orientation : SQLText) : List Int :=
  if orientation = str "bwd" then [-3, -2, -1, 0]
  else if orientation = str "fwd" then [0, 1, 2, 3]
  else [-3, -2, -1, 0, 1, 2, 3]

/-- The signed types that `SumAllNCPaths` probes, in its order. -/
def SumAllNCPaths.types (orientation : SQLText) : List Int :=
  if orientation = str "bwd" then [-1, 0, -2, -3]
  else if orientation = str "fwd" then [0, 2, 3, 1]
  else [-1, 0, 2, -2, 3, -3, 1]

/-- The loop `FOREACH lnk IN ARRAY fwdlinks` of `SumAllPaths`, with `descend` the
recursive call at `depth+1`. A link read from a stored array has its four fields,
so the branch `lnk IS NULL` is not taken. -/
def SumAllPaths.walk (descend : Link → List Link → List NodePtr → Option (Option PathText))
    (path : List Link) : List Link → List NodePtr → Option PathText → Option (Option PathText)
  | [], _, ret_paths => some ret_paths
  | lnk :: rest, exclude, ret_paths =>
    if lnk.Dst ∈ exclude then SumAllPaths.walk descend path rest exclude ret_paths
    else
      match descend lnk (path ++ [lnk]) (exclude ++ [lnk.Dst]) with
      | none => none
      | some (some appendix) =>
        SumAllPaths.walk descend path rest (exclude ++ [lnk.Dst])
          (some (formatLines ret_paths (some appendix)))
      | some none =>
        SumAllPaths.walk descend path rest (exclude ++ [lnk.Dst])
          (some (formatLines ret_paths (some [path ++ [lnk]])))

/-- `SumAllPaths`; the first argument bounds the depth of the recursion, and
`none` is a run that needs more, or an exception. -/
def SumAllPaths (db : List NodeRow) :
    Nat → Link → List Link → SQLText → Int → Int → List NodePtr → Option (Option PathText)
  | 0, _, _, _, _, _, _ => none
  | fuel + 1, start, path, orientation, depth, maxdepth, exclude =>
    if depth = maxdepth then some (some (formatLines none (some [path])))
    else
      match probeTypes (fun st => GetFwdLinks db start.Dst (some exclude) st)
          (SumAllPaths.types orientation) with
      | none => none
      | some fwdlinks =>
        SumAllPaths.walk
          (fun lnk tot_path excl =>
            SumAllPaths db fuel lnk tot_path orientation (depth + 1) maxdepth excl)
          path fwdlinks exclude none

/-- `AllPathsAsLinks`. -/
def AllPathsAsLinks (db : List NodeRow) (fuel : Nat) (start : NodePtr) (orientation : SQLText)
    (maxdepth : Int) : Option (Option PathText) :=
  SumAllPaths db fuel (GetSingletonAsLink start) [GetSingletonAsLink start] orientation 1 maxdepth
    [start]

/-- The loop `FOREACH lnk IN ARRAY fwdlinks` of `SumAllNCPaths`: a link whose
context does not match is skipped after its destination was excluded, and a NULL
`appendix` makes `ret_paths := tot_path`. -/
def SumAllNCPaths.walk (env : Builtins) (context : List SQLText)
    (descend : Link → List Link → List NodePtr → Option (Option PathText))
    (path : List Link) : List Link → List NodePtr → Option PathText → Option (Option PathText)
  | [], _, ret_paths => some ret_paths
  | lnk :: rest, exclude, ret_paths =>
    if lnk.Dst ∈ exclude then SumAllNCPaths.walk env context descend path rest exclude ret_paths
    else if ¬ match_context env lnk.Ctx context then
      SumAllNCPaths.walk env context descend path rest (exclude ++ [lnk.Dst]) ret_paths
    else
      match descend lnk (path ++ [lnk]) (exclude ++ [lnk.Dst]) with
      | none => none
      | some (some appendix) =>
        SumAllNCPaths.walk env context descend path rest (exclude ++ [lnk.Dst])
          (some (formatLines ret_paths (some appendix)))
      | some none =>
        SumAllNCPaths.walk env context descend path rest (exclude ++ [lnk.Dst])
          (some [path ++ [lnk]])

/-- `SumAllNCPaths`. -/
def SumAllNCPaths (env : Builtins) (db : List NodeRow) :
    Nat → Link → List Link → SQLText → Int → Int → SQLText → List SQLText → List NodePtr →
      Option (Option PathText)
  | 0, _, _, _, _, _, _, _, _ => none
  | fuel + 1, start, path, orientation, depth, maxdepth, chapter, context, exclude =>
    if depth = maxdepth then some (some (formatLines none (some [path])))
    else
      match probeTypes
          (fun st => GetNCFwdLinks env db start.Dst chapter context (some exclude) st)
          (SumAllNCPaths.types orientation) with
      | none => none
      | some fwdlinks =>
        SumAllNCPaths.walk env context
          (fun lnk tot_path excl =>
            SumAllNCPaths env db fuel lnk tot_path orientation (depth + 1) maxdepth chapter context
              excl)
          path fwdlinks exclude none

/-- `AllNCPathsAsLinks`. -/
def AllNCPathsAsLinks (env : Builtins) (db : List NodeRow) (fuel : Nat) (start : NodePtr)
    (chapter : SQLText) (context : List SQLText) (orientation : SQLText) (maxdepth : Int) :
    Option (Option PathText) :=
  SumAllNCPaths env db fuel (GetSingletonAsLink start) [GetSingletonAsLink start] orientation 1
    maxdepth chapter context [start]

/-- The graph `A→B`, `A→C` in the bucket `+1`, with the arrow 7. -/
def forkDB : List NodeRow :=
  [leadsRow ⟨1, 0⟩ (str "A") [plainLink 7 ⟨1, 1⟩, plainLink 7 ⟨1, 2⟩],
   leadsRow ⟨1, 1⟩ (str "B") [], leadsRow ⟨1, 2⟩ (str "C") []]

/-! ## Wave fronts

`WaveFrontsOverlap` and its helpers work on paths in memory. Its parameters
`ctx`, `ldepth` and `rdepth` are not read by the body and are left out. -/

/-- `WaveFront`, the loop over `l`: the destination of the last link of
`path[l]` is appended; an index out of range panics. -/
def WaveFront.loop (path : List (List Link)) : List Nat → List NodePtr → Option (List NodePtr)
  | [], front => some front
  | l :: rest, front =>
    match path[l]? with
    | none => none
    | some p =>
      match p.getLast? with
      | none => none
      | some lnk => WaveFront.loop path rest (front ++ [lnk.Dst])

/-- `WaveFront`: the last destinations of the first `num` paths. -/
def WaveFront (path : List (List Link)) (num : Int) : Option (List NodePtr) :=
  WaveFront.loop path (List.range num.toNat) []

/-- `NodesOverlap`: the map from an index `l` of `left` to the indices `r` of
`right` with `left[l] == right[r]`, in ascending order; an `l` without such an
`r` has no entry. Listed by ascending key. -/
def NodesOverlap (left right : List NodePtr) : List (Nat × List Nat) :=
  ((List.range left.length).map
      (fun l => (l, (List.range right.length).filter (fun r => left[l]? = right[r]?)))).filter
    (fun entry => entry.2 ≠ [])

/-- `LeftJoin`. -/
def LeftJoin (LRsplice seq : List Link) : List Link :=
  seq.foldl (fun acc lnk => acc ++ [lnk]) LRsplice

/-- `RightComplementJoin`: the loop starts at `j = 1`. -/
def RightComplementJoin (LRsplice adjoint : List Link) : List Link :=
  (adjoint.drop 1).foldl (fun acc lnk => acc ++ [lnk]) LRsplice

/-- `IsDAG`, the map `freq` after the first loop; a key that was never counted
reads as 0. -/
def IsDAG.freq (seq : List Link) : NodePtr → Nat :=
  seq.foldl (fun freq lnk => fun n => if n = lnk.Dst then freq n + 1 else freq n) (fun _ => 0)

/-- `IsDAG`: the keys of `freq` are the destinations of `seq`; the answer does not
depend on the order in which they are visited. -/
def IsDAG (seq : List Link) : Bool :=
  (seq.map (fun lnk => lnk.Dst)).all (fun n => ¬ (IsDAG.freq seq n > 1))

/-- `AdjointLinkPath`, the loop for `j` from `len(LL)-1` down to 0, over the
reversed path. -/
def AdjointLinkPath.loop (INVERSE_ARROWS : List (Int × Int)) :
    List Link → Int → List Link → List Link
  | [], _, adjoint => adjoint
  | lnk :: rest, prevarrow, adjoint =>
    AdjointLinkPath.loop INVERSE_ARROWS rest lnk.Arr
      (adjoint ++ [{ lnk with Arr := mapRead INVERSE_ARROWS prevarrow }])

/-- `AdjointLinkPath`. -/
def AdjointLinkPath (INVERSE_ARROWS : List (Int × Int)) (LL : List Link) : List Link :=
  AdjointLinkPath.loop INVERSE_ARROWS LL.reverse (mapRead INVERSE_ARROWS 0) []

/-- The order in which a `range` over a `map[int][]int` visits its entries. -/
structure IncidenceOrder where
  order : List (Nat × List Nat) → List (Nat × List Nat)
  perm : ∀ entries, (order entries).Perm entries

/-- The iteration that visits the keys in ascending order. -/
def IncidenceOrder.ascending : IncidenceOrder := ⟨fun entries => entries, fun _ => List.Perm.refl _⟩

/-- The iteration that visits the keys in descending order. -/
def IncidenceOrder.descending : IncidenceOrder :=
  ⟨fun entries => entries.reverse, fun entries => List.reverse_perm entries⟩

/-- The index pairs `(lp, rp)` in the order in which the two nested `range` loops
of `WaveFrontsOverlap` visit them. -/
def WaveFrontsOverlap.visits (ord : IncidenceOrder) (incidence : List (Nat × List Nat)) :
    List (Nat × Nat) :=
  (ord.order incidence).flatMap (fun entry => entry.2.map (fun rp => (entry.1, rp)))

/-- The body of the nested loops of `WaveFrontsOverlap`, over the visited pairs. -/
def WaveFrontsOverlap.loop (INVERSE_ARROWS : List (Int × Int))
    (left_paths right_paths : List (List Link)) :
    List (Nat × Nat) → List (List Link) → List (List Link) →
      Option (List (List Link) × List (List Link))
  | [], solutions, loops => some (solutions, loops)
  | (lp, rp) :: rest, solutions, loops =>
    match left_paths[lp]?, right_paths[rp]? with
    | some lpath, some rpath =>
      let LRsplice := RightComplementJoin (LeftJoin [] lpath) (AdjointLinkPath INVERSE_ARROWS rpath)
      if IsDAG LRsplice then
        WaveFrontsOverlap.loop INVERSE_ARROWS left_paths right_paths rest
          (solutions ++ [LRsplice]) loops
      else
        WaveFrontsOverlap.loop INVERSE_ARROWS left_paths right_paths rest solutions
          (loops ++ [LRsplice])
    | _, _ => none

/-- `WaveFrontsOverlap`: the pair `(solutions, loops)`, or `none` for a panic. -/
def WaveFrontsOverlap (INVERSE_ARROWS : List (Int × Int)) (ord : IncidenceOrder)
    (left_paths right_paths : List (List Link)) (Lnum Rnum : Int) :
    Option (List (List Link) × List (List Link)) :=
  match WaveFront left_paths Lnum with
  | none => none
  | some leftfront =>
    match WaveFront right_paths Rnum with
    | none => none
    | some rightfront =>
      WaveFrontsOverlap.loop INVERSE_ARROWS left_paths right_paths
        (WaveFrontsOverlap.visits ord (NodesOverlap leftfront rightfront)) [] []

/-- `GetEntireNCSuperConePathsAsLinks`: `answer` is what the store returns for
`select AllSuperNCPathsAsLinks(..)` after `ParseLinkPath`, and `none` when the
query fails. -/
def GetEntireNCSuperConePathsAsLinks
    (answer : GoString → List NodePtr → Int → GoString → List GoString →
      Option (List (List Link)))
    (orientation : GoString) (start : List NodePtr) (depth : Int) (chapter : GoString)
    (context : List GoString) : Outcome (List (List Link) × Int) :=
  match answer orientation start depth chapter context with
  | none => .exit (-1)
  | some retval => .ret (retval, retval.length)

/-- The `for` loop of `GetPathsAndSymmetries`; the first argument bounds the
number of turns and `none` is a run that needs more. -/
def GetPathsAndSymmetries.loop (INVERSE_ARROWS : List (Int × Int)) (ord : IncidenceOrder)
    (answer : GoString → List NodePtr → Int → GoString → List GoString →
      Option (List (List Link)))
    (start_set end_set : List NodePtr) (chapter : GoString) (context : List GoString)
    (maxdepth : Int) :
    Nat → Int → Int → Int → List (List Link) → Option (Outcome (List (List Link)))
  | 0, _, _, _, _ => none
  | fuel + 1, turn, ldepth, rdepth, solutions =>
    if ldepth < maxdepth ∧ rdepth < maxdepth then
      match GetEntireNCSuperConePathsAsLinks answer (str "fwd") start_set ldepth chapter context with
      | .exit code => some (.exit code)
      | .panic => some .panic
      | .ret (left_paths, Lnum) =>
        match GetEntireNCSuperConePathsAsLinks answer (str "bwd") end_set rdepth chapter
            context with
        | .exit code => some (.exit code)
        | .panic => some .panic
        | .ret (right_paths, Rnum) =>
          match WaveFrontsOverlap INVERSE_ARROWS ord left_paths right_paths Lnum Rnum with
          | none => some .panic
          | some (found, _) =>
            if found.length > 0 then some (.ret found)
            else if turn % 2 = 0 then
              GetPathsAndSymmetries.loop INVERSE_ARROWS ord answer start_set end_set chapter
                context maxdepth fuel (turn + 1) (ldepth + 1) rdepth found
            else
              GetPathsAndSymmetries.loop INVERSE_ARROWS ord answer start_set end_set chapter
                context maxdepth fuel (turn + 1) ldepth (rdepth + 1) found
    else some (.ret solutions)

/-- `GetPathsAndSymmetries`; a `nil` slice is `none`. The loop is given
`2*maxdepth+1` turns, which it never uses up. -/
def GetPathsAndSymmetries (INVERSE_ARROWS : List (Int × Int)) (ord : IncidenceOrder)
    (answer : GoString → List NodePtr → Int → GoString → List GoString →
      Option (List (List Link)))
    (start_set end_set : Option (List NodePtr)) (chapter : GoString) (context : List GoString)
    (maxdepth : Int) : Option (Outcome (List (List Link))) :=
  match start_set, end_set with
  | some starts, some ends =>
    GetPathsAndSymmetries.loop INVERSE_ARROWS ord answer starts ends chapter context maxdepth
      (2 * maxdepth.toNat + 1) 0 1 1 []
  | _, _ => some (.ret [])

/-- The node at which a path ends. -/
def lastDst (p : List Link) : Option NodePtr := p.getLast?.map (fun lnk => lnk.Dst)

/-- The index pairs `(l, r)` of a left and a right path that end at the same
node, each once. -/
def endPairs (left_paths right_paths : List (List Link)) : List (Nat × Nat) :=
  (List.product (List.range left_paths.length) (List.range right_paths.length)).filter
    (fun p => lastDst (left_paths.getD p.1 []) = lastDst (right_paths.getD p.2 []))

/-- The path `left_paths[l]` followed by `AdjointLinkPath(right_paths[r])` without
its first link. -/
def splicePath (INVERSE_ARROWS : List (Int × Int)) (left_paths right_paths : List (List Link))
    (p : Nat × Nat) : List Link :=
  left_paths.getD p.1 [] ++ (AdjointLinkPath INVERSE_ARROWS (right_paths.getD p.2 [])).drop 1

/-- Left paths `A→B` and `A→C→A`, from the singleton of `A`. -/
def sampleLeftPaths : List (List Link) :=
  [[GetSingletonAsLink ⟨1, 0⟩, plainLink 0 ⟨1, 1⟩],
   [GetSingletonAsLink ⟨1, 0⟩, plainLink 0 ⟨1, 2⟩, plainLink 0 ⟨1, 0⟩]]

/-- Right paths `D→B` and `C→A`, followed backwards from the singletons of `D`
and `C`. -/
def sampleRightPaths : List (List Link) :=
  [[GetSingletonAsLink ⟨1, 3⟩, plainLink 1 ⟨1, 1⟩], [GetSingletonAsLink ⟨1, 2⟩, plainLink 1 ⟨1, 0⟩]]

/-- A store that answers every depth with the sample paths. -/
def sampleAnswer : GoString → List NodePtr → Int → GoString → List GoString →
    Option (List (List Link)) :=
  fun orientation _ _ _ _ =>
    if orientation = str "fwd" then some sampleLeftPaths else some sampleRightPaths

/-! ## Adjoint paths: the closed form of the loop -/

/-- The links that the loop of `AdjointLinkPath` appends for the remaining links
`xs`, when `prevarrow` is the arrow of the link before them: every link takes
the inverse of the arrow of its predecessor. -/
def AdjointLinkPath.shifted (INVERSE_ARROWS : List (Int × Int)) : Int → List Link → List Link
  | _, [] => []
  | prevarrow, lnk :: rest =>
    { lnk with Arr := mapRead INVERSE_ARROWS prevarrow } ::
      AdjointLinkPath.shifted INVERSE_ARROWS lnk.Arr rest

/-- The arrow of the last link of `xs`, or `prevarrow` when there is none. -/
def AdjointLinkPath.lastArr (prevarrow : Int) (xs : List Link) : Int :=
  (xs.getLast?.map (fun lnk => lnk.Arr)).getD prevarrow

/-- The loop of `GetPathsAndSymmetries` once more, returning next to `solutions`
the values of `ldepth` and `rdepth` with which it ends. -/
def GetPathsAndSymmetries.trace (INVERSE_ARROWS : List (Int × Int)) (ord : IncidenceOrder)
    (answer : GoString → List NodePtr → Int → GoString → List GoString →
      Option (List (List Link)))
    (start_set end_set : List NodePtr) (chapter : GoString) (context : List GoString)
    (maxdepth : Int) :
    Nat → Int → Int → Int → List (List Link) → Option (Outcome (List (List Link) × Int × Int))
  | 0, _, _, _, _ => none
  | fuel + 1, turn, ldepth, rdepth, solutions =>
    if ldepth < maxdepth ∧ rdepth < maxdepth then
      match GetEntireNCSuperConePathsAsLinks answer (str "fwd") start_set ldepth chapter context with
      | .exit code => some (.exit code)
      | .panic => some .panic
      | .ret (left_paths, Lnum) =>
        match GetEntireNCSuperConePathsAsLinks answer (str "bwd") end_set rdepth chapter
            context with
        | .exit code => some (.exit code)
        | .panic => some .panic
        | .ret (right_paths, Rnum) =>
          match WaveFrontsOverlap INVERSE_ARROWS ord left_paths right_paths Lnum Rnum with
          | none => some .panic
          | some (found, _) =>
            if found.length > 0 then some (.ret (found, ldepth, rdepth))
            else if turn % 2 = 0 then
              GetPathsAndSymmetries.trace INVERSE_ARROWS ord answer start_set end_set chapter
                context maxdepth fuel (turn + 1) (ldepth + 1) rdepth found
            else
              GetPathsAndSymmetries.trace INVERSE_ARROWS ord answer start_set end_set chapter
                context maxdepth fuel (turn + 1) ldepth (rdepth + 1) found
    else some (.ret (solutions, ldepth, rdepth))

/-- What `GetPathsAndSymmetries.loop` returns, read off the trace. -/
def GetPathsAndSymmetries.forget :
    Option (Outcome (List (List Link) × Int × Int)) → Option (Outcome (List (List Link)))
  | none => none
  | some (.ret (solutions, _, _)) => some (.ret solutions)
  | some (.exit code) => some (.exit code)
  | some .panic => some .panic

/-- A store without paths: every query is answered with no row. -/
def emptyAnswer : GoString → List NodePtr → Int → GoString → List GoString →
    Option (List (List Link)) :=
  fun _ _ _ _ _ => some []

/-! ## Supernodes -/

/-- `InNodeSet`. -/
def InNodeSet (list : List NodePtr) (node : NodePtr) : Bool :=
  list.any (fun n => n = node)

/-- `IdempAddNodePtr`. -/
def IdempAddNodePtr (set : List NodePtr) (n : NodePtr) : List NodePtr :=
  if ¬ InNodeSet set n then set ++ [n] else set

/-- The loop `for i := range matroid` of `Together`: the first class that holds
`n1` or `n2` takes both; `none` when no class holds either. -/
def Together.scan (n1 n2 : NodePtr) : List (List NodePtr) → Option (List (List NodePtr))
  | [] => none
  | c :: rest =>
    if InNodeSet c n1 || InNodeSet c n2 then
      some (IdempAddNodePtr (IdempAddNodePtr c n1) n2 :: rest)
    else (Together.scan n1 n2 rest).map (fun joined => c :: joined)

/-- `Together`. -/
def Together (matroid : List (List NodePtr)) (n1 n2 : NodePtr) : List (List NodePtr) :=
  if matroid.length = 0 then [if n1 ≠ n2 then [n1, n2] else [n1]]
  else
    match Together.scan n1 n2 matroid with
    | some joined => joined
    | none => matroid ++ [IdempAddNodePtr (IdempAddNodePtr [] n1) n2]

/-- The loop over `p_j` in `SuperNodesByConicPath`, for the path `solutions[p_i]`
and the paths after it; `none` is an index out of range. The right operand of
`&&` is read only when the left one holds. -/
def SuperNodesByConicPath.pairs (depth : Int) (path_i : List Link) :
    List (List Link) → List (List NodePtr) → Option (List (List NodePtr))
  | [], supernodes => some supernodes
  | path_j :: rest, supernodes =>
    if depth < 1 ∨ depth > (path_j.length : Int) - 2 then some supernodes
    else
      (index? path_i (depth - 1)).bind fun before_i =>
      (index? path_j (depth - 1)).bind fun before_j =>
      if before_i.Dst = before_j.Dst then
        (index? path_i (depth + 1)).bind fun after_i =>
        (index? path_j (depth + 1)).bind fun after_j =>
        if after_i.Dst = after_j.Dst then
          (index? path_i depth).bind fun here_i =>
          (index? path_j depth).bind fun here_j =>
          SuperNodesByConicPath.pairs depth path_i rest
            (Together supernodes here_i.Dst here_j.Dst)
        else SuperNodesByConicPath.pairs depth path_i rest supernodes
      else SuperNodesByConicPath.pairs depth path_i rest supernodes

/-- The first statement of the loop over `p_i`:
`if depth == len(solutions[p_i])-1 { supernodes = Together(..) }`. -/
def SuperNodesByConicPath.last (depth : Int) (path_i : List Link)
    (supernodes : List (List NodePtr)) : Option (List (List NodePtr)) :=
  if depth = (path_i.length : Int) - 1 then
    (index? path_i depth).bind fun here => some (Together supernodes here.Dst here.Dst)
  else some supernodes

/-- The loop over `p_i` in `SuperNodesByConicPath`, over the paths from
`solutions[p_i]` on. -/
def SuperNodesByConicPath.row (depth : Int) :
    List (List Link) → List (List NodePtr) → Option (List (List NodePtr))
  | [], supernodes => some supernodes
  | path_i :: rest, supernodes =>
    (SuperNodesByConicPath.last depth path_i supernodes).bind fun supernodes =>
    if depth > (path_i.length : Int) - 1 then SuperNodesByConicPath.row depth rest supernodes
    else
      (index? path_i depth).bind fun here =>
      (SuperNodesByConicPath.pairs depth path_i rest
        (Together supernodes here.Dst here.Dst)).bind fun supernodes =>
      SuperNodesByConicPath.row depth rest supernodes

/-- The loop over `depth`, for the depths that are left. -/
def SuperNodesByConicPath.sweep (solutions : List (List Link)) :
    List Nat → List (List NodePtr) → Option (List (List NodePtr))
  | [], supernodes => some supernodes
  | depth :: more, supernodes =>
    (SuperNodesByConicPath.row (depth : Int) solutions supernodes).bind fun supernodes =>
    SuperNodesByConicPath.sweep solutions more supernodes

/-- `SuperNodesByConicPath`: `depth` runs from 0 to `maxdepth*2 - 1`. -/
def SuperNodesByConicPath (solutions : List (List Link)) (maxdepth : Int) :
    Option (List (List NodePtr)) :=
  SuperNodesByConicPath.sweep solutions (List.range (maxdepth * 2).toNat) []

/-- `GetPathTransverseSuperNodes`: the loops of `SuperNodesByConicPath`, with
`depth` running from 0 to `maxdepth - 1`. -/
def GetPathTransverseSuperNodes (solutions : List (List Link)) (maxdepth : Int) :
    Option (List (List NodePtr)) :=
  SuperNodesByConicPath.sweep solutions (List.range maxdepth.toNat) []

/-- Two nodes lie in one common class. -/
def Joined (classes : List (List NodePtr)) (a b : NodePtr) : Prop :=
  ∃ c ∈ classes, a ∈ c ∧ b ∈ c

/-- Every class of `old` is part of a class of `new`. -/
def Grows (old new : List (List NodePtr)) : Prop :=
  ∀ c ∈ old, ∃ c' ∈ new, ∀ x ∈ c, x ∈ c'

/-- The two solutions of the graph `A→B→C→D→E`, `A→X→E`, with `A = (1,0)`,
`B = (1,1)`, `C = (1,2)`, `D = (1,3)`, `E = (1,4)` and `X = (1,5)`. -/
def scenarioPaths : List (List Link) :=
  [[GetSingletonAsLink ⟨1, 0⟩, plainLink 7 ⟨1, 1⟩, plainLink 7 ⟨1, 2⟩, plainLink 7 ⟨1, 3⟩,
    plainLink 7 ⟨1, 4⟩],
   [GetSingletonAsLink ⟨1, 0⟩, plainLink 7 ⟨1, 5⟩, plainLink 7 ⟨1, 4⟩]]

/-- The solutions `A,B,C,E`, `A,Y,E` and `A,B,X,E`, with `Y = (1,9)`. -/
def brokenPaths : List (List Link) :=
  [[GetSingletonAsLink ⟨1, 0⟩, plainLink 7 ⟨1, 1⟩, plainLink 7 ⟨1, 2⟩, plainLink 7 ⟨1, 4⟩],
   [GetSingletonAsLink ⟨1, 0⟩, plainLink 7 ⟨1, 9⟩, plainLink 7 ⟨1, 4⟩],
   [GetSingletonAsLink ⟨1, 0⟩, plainLink 7 ⟨1, 1⟩, plainLink 7 ⟨1, 5⟩, plainLink 7 ⟨1, 4⟩]]

/-- The solutions `A,B` and `A,B,C`. -/
def unevenPaths : List (List Link) :=
  [[GetSingletonAsLink ⟨1, 0⟩, plainLink 7 ⟨1, 1⟩],
   [GetSingletonAsLink ⟨1, 0⟩, plainLink 7 ⟨1, 1⟩, plainLink 7 ⟨1, 2⟩]]

/-- The solutions `A,B,E` and `A,X,E`. -/
def diamondPaths : List (List Link) :=
  [[GetSingletonAsLink ⟨1, 0⟩, plainLink 7 ⟨1, 1⟩, plainLink 7 ⟨1, 4⟩],
   [GetSingletonAsLink ⟨1, 0⟩, plainLink 7 ⟨1, 5⟩, plainLink 7 ⟨1, 4⟩]]

/-- The paths `p` and `q` pass through nodes with the same pointer at the depths
`d-1` and `d+1`, and `x`, `y` are the nodes at depth `d` of `p` and of `q`. -/
def Conic (d : Int) (p q : List Link) (x y : NodePtr) : Prop :=
  1 ≤ d ∧ ∃ bp bq ap aq hp hq : Link,
    index? p (d - 1) = some bp ∧ index? q (d - 1) = some bq ∧ bp.Dst = bq.Dst ∧
    index? p (d + 1) = some ap ∧ index? q (d + 1) = some aq ∧ ap.Dst = aq.Dst ∧
    index? p d = some hp ∧ index? q d = some hq ∧ hp.Dst = x ∧ hq.Dst = y

/-! ## Axial paths -/

/-- The loop of `TruncatePathsByArrow` from `hop` on, over the links that are
left: the first link with another arrow cuts the path. -/
def TruncatePathsByArrow.loop (path : List Link) (arrow : Int) :
    Nat → List Link → List Link × Int
  | _, [] => (path, path.length)
  | hop, lnk :: rest =>
    if lnk.Arr ≠ arrow then (path.take hop, hop)
    else TruncatePathsByArrow.loop path arrow (hop + 1) rest

/-- `TruncatePathsByArrow`: the loop starts at `hop = 1`. -/
def TruncatePathsByArrow (path : List Link) (arrow : Int) : List Link × Int :=
  TruncatePathsByArrow.loop path arrow 1 (path.drop 1)

/-- The loop over `pth` in `GetLongestAxialPath`, with the variables `paths` and
`max`. -/
def GetLongestAxialPath.loop (arrowptr : Int) :
    List Nat → List (List Link) → Int → Option (List (List Link) × Int)
  | [], paths, max => some (paths, max)
  | pth :: more, paths, max =>
    match paths[pth]? with
    | none => none
    | some path =>
      let cut := TruncatePathsByArrow path arrowptr
      GetLongestAxialPath.loop arrowptr more
        (paths.set pth (if cut.1.length = 1 then [] else cut.1))
        (if cut.2 > max then pth else max)

/-- `GetLongestAxialPath`: `answer sttype` is what the store returns for
`GetFwdPathsAsLinks(ctx,nptr,sttype,100)`; `none` is an index out of range. -/
def GetLongestAxialPath (ARROW_DIRECTORY : List ArrowDirectory)
    (answer : Int → List (List Link)) (arrowptr : Int) : Option (List Link) :=
  match index? ARROW_DIRECTORY arrowptr with
  | none => none
  | some entry =>
    let paths := answer (STIndexToSTType entry.STAindex)
    match GetLongestAxialPath.loop arrowptr (List.range paths.length) paths 1 with
    | none => none
    | some (paths, max) => index? paths max

/-- One forward path from `A`, whose first hop carries the arrow 1. -/
def strayPaths : List (List Link) := [[GetSingletonAsLink ⟨1, 0⟩, plainLink 1 ⟨1, 1⟩]]

/-- Three forward paths from `A` along the arrow 0, with 4, 1 and 2 hops. -/
def axialPaths : List (List Link) :=
  [[GetSingletonAsLink ⟨1, 0⟩, plainLink 0 ⟨1, 1⟩, plainLink 0 ⟨1, 2⟩, plainLink 0 ⟨1, 3⟩,
    plainLink 0 ⟨1, 4⟩],
   [GetSingletonAsLink ⟨1, 0⟩, plainLink 0 ⟨1, 5⟩],
   [GetSingletonAsLink ⟨1, 0⟩, plainLink 0 ⟨1, 6⟩, plainLink 0 ⟨1, 7⟩]]

/-! ## SQL marshalling

The library functions `strings.Replace` (with `n = -1` and a non-empty `old`) and
`sort.Strings` are modelled by what they compute on the bytes of a string. -/

/-- The scan of `strings.Replace(s, old, new, -1)`: `skip` bytes of a match are
still to be passed over. -/
def strings_Replace.go (old new : GoString) : Nat → GoString → GoString
  | _, [] => []
  | skip + 1, _ :: rest => strings_Replace.go old new skip rest
  | 0, c :: rest =>
    if old.isPrefixOf (c :: rest) then new ++ strings_Replace.go old new (old.length - 1) rest
    else c :: strings_Replace.go old new 0 rest

/-- `strings.Replace(s, old, new, -1)` for a non-empty `old`: the
non-overlapping occurrences of `old`, from the left, are replaced by `new`. -/
def strings_Replace (s old new : GoString) : GoString :=
  strings_Replace.go old new 0 s

/-- `SQLEscape`. -/
def SQLEscape (s : GoString) : GoString := strings_Replace s (str "'") (str "''")

/-- The order `a <= b` of Go strings: byte by byte, a proper prefix first. -/
def strLE : GoString → GoString → Bool
  | [], _ => true
  | _ :: _, [] => false
  | a :: as, b :: bs => if a < b then true else if b < a then false else strLE as bs

/-- `sort.Strings`, by its result: the ascending arrangement of the strings. -/
def sort_Strings (array : List GoString) : List GoString :=
  array.insertionSort (fun a b => strLE a b = true)

/-- The loop of `FormatSQLStringArray`: every element is written between double
quotes after `SQLEscape`, with `", "` after every element but the last. -/
def FormatSQLStringArray.loop : List GoString → GoString
  | [] => []
  | [s] => str "\"" ++ SQLEscape s ++ str "\""
  | s :: t :: rest =>
    str "\"" ++ SQLEscape s ++ str "\"" ++ str ", " ++ FormatSQLStringArray.loop (t :: rest)

/-- `FormatSQLStringArray`. -/
def FormatSQLStringArray (array : List GoString) : GoString :=
  if array.length = 0 then str "'\x7b \x7d'"
  else str "'\x7b " ++ FormatSQLStringArray.loop (sort_Strings array) ++ str " \x7d' "

/-! ## Orbits

`GetNodeOrbit` reads the probe paths from the store
(`GetEntireConePathsAsLinks(ctx,"any",nptr,probe_radius)`, here `sweep`), the
arrows from the loaded `ARROW_DIRECTORY`, and the text of a node from the store
(`GetDBNodeByNodePtr(ctx,p).S`, here `text p`). `GetEntireConePathsAsLinks` is
modelled on the stored function `AllPathsAsLinks`, so that the probe paths of a
graph can be computed. -/

/-- The order in which `sort.Slice(retval, len(retval[i]) < len(retval[j]))` leaves
the paths: some arrangement by ascending length (the sort is not stable). -/
structure SliceOrder where
  arrange : List (List Link) → List (List Link)
  perm : ∀ paths, (arrange paths).Perm paths
  sorted : ∀ paths, (arrange paths).Sorted (fun p q => p.length ≤ q.length)

/-- The arrangement that keeps paths of one length in their order. -/
def SliceOrder.stable : SliceOrder :=
  ⟨fun paths => paths.insertionSort (fun p q => p.length ≤ q.length),
    fun paths => List.perm_insertionSort _ paths,
    fun paths => by
      haveI : IsTotal (List Link) (fun p q => p.length ≤ q.length) :=
        ⟨fun p q => Nat.le_total p.length q.length⟩
      haveI : IsTrans (List Link) (fun p q => p.length ≤ q.length) :=
        ⟨fun _ _ _ hpq hqr => Nat.le_trans hpq hqr⟩
      exact List.sorted_insertionSort _ paths⟩

/-- `ParseLinkPath` on a text kept by its structure: the empty lines and the
lines of fewer than two links are skipped; each link of a line is read back by
`ParseSQLLinkString` and is kept here as the store holds it. -/
def ParseLinkPath (whole : PathText) : List (List Link) :=
  whole.filter (fun line => 2 ≤ line.length)

/-- `GetEntireConePathsAsLinks`: the answer of the store to
`select AllPathsAsLinks from AllPathsAsLinks(start,orientation,depth)` is parsed
and sorted by length. A NULL answer is scanned as the empty text; `none` is a
query that fails (`row` is nil and `row.Next()` panics) or needs more fuel. -/
def GetEntireConePathsAsLinks (db : List NodeRow) (fuel : Nat) (ord : SliceOrder)
    (orientation : GoString) (start : NodePtr) (depth : Int) :
    Option (List (List Link) × Int) :=
  (AllPathsAsLinks db fuel start orientation depth).map fun whole =>
    (ord.arrange (ParseLinkPath (whole.getD [])),
      ((ord.arrange (ParseLinkPath (whole.getD []))).length : Int))

/-- A Go `type Orbit struct`. -/
structure Orbit where
  Radius : Int
  Arrow : GoString
  STindex : Int
  Dst : NodePtr
  Ctx : GoString
  Text : GoString
deriving DecidableEq, Repr

/-- `Array2Str`: the strings joined by `", "`. -/
def Array2Str : List GoString → GoString
  | [] => []
  | [s] => s
  | s :: t :: rest => s ++ str ", " ++ Array2Str (t :: rest)

/-- `IdempAddNote`. -/
def IdempAddNote (list : List Orbit) (item : Orbit) : List Orbit :=
  if list.any (fun o => o.Dst = item.Dst ∧ o.Arrow = item.Arrow ∧ o.Text = item.Text) then list
  else list ++ [item]

/-- `GetDBArrowByPtr` once the arrows are loaded (`ARROW_DIRECTORY_TOP > 0`):
the read `ARROW_DIRECTORY[arrowptr]`. -/
def GetDBArrowByPtr (ARROW_DIRECTORY : List ArrowDirectory) (arrowptr : Int) :
    Option ArrowDirectory :=
  index? ARROW_DIRECTORY arrowptr

/-- The constant `probe_radius` of `GetNodeOrbit`. -/
def probe_radius : Int := 3

/-- The values of `depth` in `for depth := 2; depth < probe_radius && ..`. -/
def GetNodeOrbit.depths : List Int :=
  ((List.range probe_radius.toNat).drop 2).map (fun depth => (depth : Int))

/-- The loop over `depth` in `GetNodeOrbit`, for the depths that are left, with
the variables `arrow` and `notes[stindex]`; the body assigns every field of `nt`
before it reads one. -/
def GetNodeOrbit.deeper (ARROW_DIRECTORY : List ArrowDirectory) (text : NodePtr → GoString)
    (exclude_vector : GoString) (path : List Link) :
    List Int → ArrowDirectory → List Orbit → Option (List Orbit)
  | [], _, notes => some notes
  | depth :: more, arrow, notes =>
    if ¬ depth < (path.length : Int) then some notes
    else
      (index? path depth).bind fun next =>
      (GetDBArrowByPtr ARROW_DIRECTORY next.Arr).bind fun arrow' =>
      if arrow'.Long = exclude_vector ∨ arrow'.Short = exclude_vector then some notes
      else
        if STIndexToSTType arrow'.STAindex ≠ -STIndexToSTType arrow.STAindex then
          GetNodeOrbit.deeper ARROW_DIRECTORY text exclude_vector path more arrow'
            (IdempAddNote notes
              ⟨depth, arrow'.Long, arrow'.STAindex, next.Dst, Array2Str next.Ctx, text next.Dst⟩)
        else
          GetNodeOrbit.deeper ARROW_DIRECTORY text exclude_vector path more arrow' notes

/-- The loop over `angle` in `GetNodeOrbit`, for one `stindex` and the probe
paths that are left. -/
def GetNodeOrbit.angles (ARROW_DIRECTORY : List ArrowDirectory) (text : NodePtr → GoString)
    (exclude_vector : GoString) (stindex : Int) :
    List (List Link) → List Orbit → Option (List Orbit)
  | [], notes => some notes
  | path :: more, notes =>
    if path.length > 1 then
      (index? path 1).bind fun start =>
      (GetDBArrowByPtr ARROW_DIRECTORY start.Arr).bind fun arrow =>
      if arrow.STAindex = stindex then
        if arrow.Long = exclude_vector ∨ arrow.Short = exclude_vector then
          GetNodeOrbit.angles ARROW_DIRECTORY text exclude_vector stindex more notes
        else
          (GetNodeOrbit.deeper ARROW_DIRECTORY text exclude_vector path GetNodeOrbit.depths arrow
            (IdempAddNote notes
              ⟨1, arrow.Long, arrow.STAindex, start.Dst, [], text start.Dst⟩)).bind
          fun notes => GetNodeOrbit.angles ARROW_DIRECTORY text exclude_vector stindex more notes
      else GetNodeOrbit.angles ARROW_DIRECTORY text exclude_vector stindex more notes
    else GetNodeOrbit.angles ARROW_DIRECTORY text exclude_vector stindex more notes

/-- The loop over `stindex` in `GetNodeOrbit`: every `notes[stindex]` starts
empty. -/
def GetNodeOrbit.buckets (ARROW_DIRECTORY : List ArrowDirectory) (text : NodePtr → GoString)
    (exclude_vector : GoString) (sweep : List (List Link)) :
    List Nat → Option (List (List Orbit))
  | [] => some []
  | stindex :: more =>
    (GetNodeOrbit.angles ARROW_DIRECTORY text exclude_vector (stindex : Int) sweep []).bind
    fun notes =>
      (GetNodeOrbit.buckets ARROW_DIRECTORY text exclude_vector sweep more).map
        (fun rest => notes :: rest)

/-- `GetNodeOrbit`: the array `notes`, or `none` for a panic. -/
def GetNodeOrbit (ARROW_DIRECTORY : List ArrowDirectory) (text : NodePtr → GoString)
    (exclude_vector : GoString) (sweep : List (List Link)) : Option (List (List Orbit)) :=
  GetNodeOrbit.buckets ARROW_DIRECTORY text exclude_vector sweep (List.range ST_TOP.toNat)

/-- The arrow is the excluded one. -/
def Excluded (exclude_vector : GoString) (arrow : ArrowDirectory) : Prop :=
  arrow.Long = exclude_vector ∨ arrow.Short = exclude_vector

/-- The note `o` is the satellite at hop 1 of the probe path, or the satellite at
hop 2 when that hop is not excluded and does not backtrack; the first hop has
the index `stindex` and is not excluded. -/
def OrbitOrigin (ARROW_DIRECTORY : List ArrowDirectory) (text : NodePtr → GoString)
    (exclude_vector : GoString) (stindex : Int) (path : List Link) (o : Orbit) : Prop :=
  ∃ first a1, index? path 1 = some first ∧ index? ARROW_DIRECTORY first.Arr = some a1 ∧
    a1.STAindex = stindex ∧ ¬ Excluded exclude_vector a1 ∧
    (o = ⟨1, a1.Long, a1.STAindex, first.Dst, [], text first.Dst⟩ ∨
      ∃ second a2, index? path 2 = some second ∧
        index? ARROW_DIRECTORY second.Arr = some a2 ∧ ¬ Excluded exclude_vector a2 ∧
        STIndexToSTType a2.STAindex ≠ -STIndexToSTType a1.STAindex ∧
        o = ⟨2, a2.Long, a2.STAindex, second.Dst, Array2Str second.Ctx, text second.Dst⟩)

/-- Some note of the list stands for the satellite `item`: `IdempAddNote` compares
`Dst`, `Arrow` and `Text`. -/
def Noted (list : List Orbit) (item : Orbit) : Prop :=
  ∃ o ∈ list, o.Dst = item.Dst ∧ o.Arrow = item.Arrow ∧ o.Text = item.Text

/-- The text of the sample nodes: the letter of the node. -/
def sampleText (p : NodePtr) : GoString := [65 + p.CPtr.toNat]

/-- An arrow directory with `then` (`leadsto`, `+`: index 4) as arrow 1 and its
inverse `prior` (`leadsto`, `-`: index 2) as arrow 2, after a first arrow of the
type `similarity` (index 3). -/
def chainArrows : List ArrowDirectory :=
  [⟨3, str "similar", str "sim", 0⟩, ⟨4, str "then", str "then", 1⟩,
   ⟨2, str "prior", str "prior", 2⟩]

/-- The story `A then B then C then D`, with `A = (1,0)`, .., `D = (1,3)`: the
arrow 1 in the bucket `+1` and its inverse, the arrow 2, in the bucket `-1`. -/
def chainDB : List NodeRow :=
  [⟨⟨1, 0⟩, 1, str "A", str "one", some [], some [], some [], some [], some [plainLink 1 ⟨1, 1⟩], some [], some []⟩,
   ⟨⟨1, 1⟩, 1, str "B", str "one", some [], some [], some [plainLink 2 ⟨1, 0⟩], some [], some [plainLink 1 ⟨1, 2⟩], some [], some []⟩,
   ⟨⟨1, 2⟩, 1, str "C", str "one", some [], some [], some [plainLink 2 ⟨1, 1⟩], some [], some [plainLink 1 ⟨1, 3⟩], some [], some []⟩,
   ⟨⟨1, 3⟩, 1, str "D", str "one", some [], some [], some [plainLink 2 ⟨1, 2⟩], some [], some [], some [], some []⟩]

/-! ## SQL marshalling: links

`strings.TrimSpace` is a parameter of `ParseSQLLinkString` (`TrimSpace` below is
its action on strings of ASCII bytes, used for the examples); `fmt.Sscanf` with
`%d` is modelled on the bytes of an item that starts with no white space: an
optional sign and the digits that follow, read by `strconv.ParseInt` as a number
of 64 bits; the weight read by `%f` is a parameter.

A link reaches the store in the literal that `AppendDBLinkToNode` writes,
`(%d, %f, %s, (%d,%d)::NodePtr)::Link` with `FormatSQLStringArray(lnk.Ctx)` for
`%s`; the store keeps the value of that string literal as the `text` of the
context and prints the link as a composite value (`linkText`). -/

/-- `strings.Split(s, sep)` for a separator of one byte. -/
def strings_Split (sep : Nat) : GoString → List GoString
  | [] => [[]]
  | c :: rest =>
    if c = sep then [] :: strings_Split sep rest
    else
      match strings_Split sep rest with
      | [] => [[c]]
      | piece :: more => (c :: piece) :: more

/-- The ASCII white space of `strings.TrimSpace`: `\t`, `\n`, `\v`, `\f`, `\r` and the
blank. -/
def asciiSpace (b : Nat) : Bool := b = 9 ∨ b = 10 ∨ b = 11 ∨ b = 12 ∨ b = 13 ∨ b = 32

/-- `strings.TrimSpace` on a string of ASCII bytes. -/
def TrimSpace (s : GoString) : GoString :=
  ((s.dropWhile asciiSpace).reverse.dropWhile asciiSpace).reverse

/-- The digits that `%d` scans, as a number. -/
def Sscanf_d.value (digits : GoString) : Nat :=
  digits.foldl (fun v b => 10 * v + (b - 48)) 0

/-- The scan of an unsigned number by `%d`: the leading digits; `none` when there
is no digit. -/
def Sscanf_d.unsigned (s : GoString) : Option Nat :=
  if s.takeWhile (fun b => 48 ≤ b ∧ b ≤ 57) = [] then none
  else some (Sscanf_d.value (s.takeWhile (fun b => 48 ≤ b ∧ b ≤ 57)))

/-- `fmt.Sscanf(s, "%d", &n)`: an optional sign and the leading digits, read as an
`int64`; `none` is the error that leaves `n` as it was: no digit, or a number
below `-2^63` or above `2^63 - 1`. -/
def Sscanf_d (s : GoString) : Option Int :=
  match s with
  | 45 :: rest =>
    (Sscanf_d.unsigned rest).bind (fun (v : Nat) => if v ≤ 2 ^ 63 then some (-(v : Int)) else none)
  | 43 :: rest =>
    (Sscanf_d.unsigned rest).bind (fun (v : Nat) => if v < 2 ^ 63 then some (v : Int) else none)
  | _ =>
    (Sscanf_d.unsigned s).bind (fun (v : Nat) => if v < 2 ^ 63 then some (v : Int) else none)

/-- `ParseSQLLinkString`; `none` is an index out of range. The link starts as the
zero value, so a failed scan leaves 0. -/
def ParseSQLLinkString (trim : GoString → GoString) (scanWgt : GoString → Nat) (s : GoString) :
    Option Link :=
  let s := strings_Replace s (str "(") []
  let s := strings_Replace s (str ")") []
  let s := strings_Replace s (str "\"\"") (str ";")
  let s := strings_Replace s (str "\"") []
  let s := strings_Replace s (str "\\") []
  let items := (strings_Split 44 s).map (fun item =>
    trim (strings_Replace (strings_Replace (strings_Replace item (str "\x7b") [])
      (str "\x7d") []) (str ";") []))
  (index? items 0).bind fun arr =>
  (index? items 1).bind fun wgt =>
  (index? items ((items.length : Int) - 2)).bind fun cls =>
  (index? items ((items.length : Int) - 1)).bind fun cptr =>
  some ⟨(Sscanf_d arr).getD 0, scanWgt wgt, (items.take (items.length - 2)).drop 2,
    ⟨(Sscanf_d cls).getD 0, (Sscanf_d cptr).getD 0⟩⟩

/-- The decimal digits of `n` in front of `acc`; `fuel` bounds their number. -/
def decimal.digits : Nat → Nat → GoString → GoString
  | 0, _, acc => acc
  | fuel + 1, n, acc =>
    if n < 10 then (48 + n) :: acc
    else decimal.digits fuel (n / 10) ((48 + n % 10) :: acc)

/-- The decimal numeral of an integer, as `%d` of `fmt.Sprintf` writes it and as
the store prints an `int`. -/
def decimal (n : Int) : GoString :=
  if n < 0 then 45 :: decimal.digits (n.natAbs + 1) n.natAbs []
  else decimal.digits (n.natAbs + 1) n.natAbs []

/-- Modelled from the spec: the scan of an SQL string literal after its opening
quote; a doubled single quote stands for one, a single quote alone ends the
literal. -/
def sqlLiteralValue.scan : GoString → GoString
  | [] => []
  | [c] => if c = 39 then [] else [c]
  | c :: d :: rest =>
    if c = 39 then (if d = 39 then 39 :: sqlLiteralValue.scan rest else [])
    else c :: sqlLiteralValue.scan (d :: rest)

/-- Modelled from the spec: the value of an SQL string literal, the bytes between
its single quotes with every doubled single quote read as one. -/
def sqlLiteralValue : GoString → GoString
  | [] => []
  | c :: rest => if c = 39 then sqlLiteralValue.scan rest else []

/-- Modelled from the spec: a field of a composite value as the store prints it
when the field holds a blank, a comma, a parenthesis, a double quote or a
backslash: between double quotes, with every double quote and every backslash
of the field doubled. -/
def recordQuote (field : GoString) : GoString :=
  str "\"" ++ field.flatMap (fun b => if b = 34 ∨ b = 92 then [b, b] else [b]) ++ str "\""

/-- Modelled from the spec: the store's text form of a link written by
`AppendDBLinkToNode`. The context is the value of the literal
`FormatSQLStringArray(lnk.Ctx)`, which always holds a blank, and the destination
is the composite `(class,cptr)`; both are printed between double quotes:
`(77,0.34,"{ ""angel air"", ""fairy castles"" }","(4,2)")`, and
`(0,0,"{ }","(4,1)")` for an empty context list. `wgt` is the text of the
weight. -/
def linkText (wgt : GoString) (lnk : Link) : GoString :=
  str "(" ++ decimal lnk.Arr ++ str "," ++ wgt ++ str "," ++
    recordQuote (sqlLiteralValue (FormatSQLStringArray lnk.Ctx)) ++ str "," ++
    recordQuote (str "(" ++ decimal lnk.Dst.Class ++ str "," ++ decimal lnk.Dst.CPtr ++ str ")") ++
    str ")"

/-- The bytes that `ParseSQLLinkString` removes, and the comma at which it
splits. -/
def linkSpecial (b : Nat) : Bool :=
  b = 40 ∨ b = 41 ∨ b = 34 ∨ b = 92 ∨ b = 123 ∨ b = 125 ∨ b = 59 ∨ b = 44

/-- The link of the comment in the source, `(77,0.34,{fairy castles, angel air},(4,2))`;
the weight is not compared. -/
def fairyLink : Link := ⟨77, 0, [str "fairy castles", str "angel air"], ⟨4, 2⟩⟩

/-- What is left of a text once `ParseSQLLinkString` has removed the parentheses,
the double quotes, the backslashes, the braces and the semicolons. -/
def linkClean (s : GoString) : GoString :=
  s.filter (fun b => b ≠ 40 ∧ b ≠ 41 ∧ b ≠ 34 ∧ b ≠ 92 ∧ b ≠ 123 ∧ b ≠ 125 ∧ b ≠ 59)

/-! ## Size classifier: proofs -/

theorem StorageClass.scan_eq (s : GoString) (k : Nat) (hk : k ≤ 2) :
    StorageClass.scan s (k : Int) = ((min 3 (k + s.count 32) : Nat) : Int) := by
  induction s generalizing k with
  | nil => simp [StorageClass.scan]; omega
  | cons c rest ih =>
    by_cases hc : c = 32
    · subst hc
      by_cases h2 : k = 2
      · subst h2
        simp [StorageClass.scan]
        omega
      · have hk1 : k + 1 ≤ 2 := by omega
        have := ih (k + 1) hk1
        simp only [StorageClass.scan, if_true, List.count_cons_self]
        have hnot : ¬ ((k : Int) + 1 > 2) := by omega
        rw [if_neg hnot]
        have e : ((k : Int) + 1) = ((k + 1 : Nat) : Int) := by push_cast; ring
        rw [e, this]
        congr 2
        omega
    · have hne : ¬ ((k : Int) > 2) := by omega
      simp only [StorageClass.scan, if_neg hc, if_neg hne]
      rw [ih k hk, List.count_cons_of_ne (Ne.symm hc)]

theorem StorageClass.scan_zero (s : GoString) :
    StorageClass.scan s 0 = ((min 3 (s.count 32) : Nat) : Int) := by
  have := StorageClass.scan_eq s 0 (by omega)
  simpa using this

theorem StorageClass_eq (s : GoString) : StorageClass s = ((s.length : Int), classOf s) := by
  unfold StorageClass classOf
  simp only [StorageClass.scan_zero]
  rcases Nat.lt_or_ge (s.count 32) 3 with h | h
  · have hm : min 3 (s.count 32) = s.count 32 := by omega
    rw [hm]
    by_cases h0 : s.count 32 = 0
    · simp [h0, N1GRAM]
    by_cases h1 : s.count 32 = 1
    · simp [h1, N2GRAM]
    have h2 : s.count 32 = 2 := by omega
    simp [h2, N3GRAM]
  · have hm : min 3 (s.count 32) = 3 := by omega
    rw [hm]
    have h0 : s.count 32 ≠ 0 := by omega
    have h1 : s.count 32 ≠ 1 := by omega
    have h2 : s.count 32 ≠ 2 := by omega
    simp only [h0, h1, h2, if_false]
    norm_num
    by_cases ha : s.length < 128
    · simp [ha, LT128]
    by_cases hb : s.length < 1024
    · simp [ha, hb, LT1024]
    simp [ha, hb, GT1024]

theorem StorageClass_snd (s : GoString) : (StorageClass s).2 = classOf s := by
  rw [StorageClass_eq]

theorem classOf_replicate (n : Nat) :
    classOf (List.replicate n 32) =
      if n = 0 then 1 else if n = 1 then 2 else if n = 2 then 3
      else if n < 128 then 4 else if n < 1024 then 5 else 6 := by
  unfold classOf
  rw [List.count_replicate_self, List.length_replicate]

/-- C6: for every string `s`, `StorageClass s` is the byte length of `s` paired
with the class fixed by the number of ASCII spaces (none: 1, one: 2, two: 3)
and otherwise by the byte length (below 128: 4, below 1024: 5, else 6); the
class lies in 1..6, and every one of the six classes is returned for some
string. -/
theorem StorageClass_spec :
    (∀ s : GoString,
      (StorageClass s).1 = (s.length : Int) ∧
      (s.count 32 = 0 → (StorageClass s).2 = N1GRAM) ∧
      (s.count 32 = 1 → (StorageClass s).2 = N2GRAM) ∧
      (s.count 32 = 2 → (StorageClass s).2 = N3GRAM) ∧
      (2 < s.count 32 → s.length < 128 → (StorageClass s).2 = LT128) ∧
      (2 < s.count 32 → 128 ≤ s.length → s.length < 1024 → (StorageClass s).2 = LT1024) ∧
      (2 < s.count 32 → 1024 ≤ s.length → (StorageClass s).2 = GT1024) ∧
      1 ≤ (StorageClass s).2 ∧ (StorageClass s).2 ≤ 6) ∧
    (∀ c : Int, 1 ≤ c → c ≤ 6 → ∃ s : GoString, (StorageClass s).2 = c) := by
  refine ⟨fun s => ?_, fun c h1 h6 => ?_⟩
  · rw [StorageClass_eq]
    refine ⟨rfl, ?_, ?_, ?_, ?_, ?_, ?_, ?_, ?_⟩
    · intro h; simp [classOf, h, N1GRAM]
    · intro h; simp [classOf, h, N2GRAM]
    · intro h; simp [classOf, h, N3GRAM]
    · intro h hl
      have h0 : s.count 32 ≠ 0 := by omega
      have h1 : s.count 32 ≠ 1 := by omega
      have h2 : s.count 32 ≠ 2 := by omega
      simp [classOf, h0, h1, h2, hl, LT128]
    · intro h hl hu
      have h0 : s.count 32 ≠ 0 := by omega
      have h1 : s.count 32 ≠ 1 := by omega
      have h2 : s.count 32 ≠ 2 := by omega
      have hl2 : ¬ s.length < 128 := by omega
      simp [classOf, h0, h1, h2, hl2, hu, LT1024]
    · intro h hl
      have h0 : s.count 32 ≠ 0 := by omega
      have h1 : s.count 32 ≠ 1 := by omega
      have h2 : s.count 32 ≠ 2 := by omega
      have hl2 : ¬ s.length < 128 := by omega
      have hl3 : ¬ s.length < 1024 := by omega
      simp [classOf, h0, h1, h2, hl2, hl3, GT1024]
    · simp only [classOf]; split_ifs <;> norm_num
    · simp only [classOf]; split_ifs <;> norm_num
  · have hc : c = 1 ∨ c = 2 ∨ c = 3 ∨ c = 4 ∨ c = 5 ∨ c = 6 := by omega
    rcases hc with rfl | rfl | rfl | rfl | rfl | rfl
    · exact ⟨List.replicate 0 32, by rw [StorageClass_snd, classOf_replicate]; norm_num⟩
    · exact ⟨List.replicate 1 32, by rw [StorageClass_snd, classOf_replicate]; norm_num⟩
    · exact ⟨List.replicate 2 32, by rw [StorageClass_snd, classOf_replicate]; norm_num⟩
    · exact ⟨List.replicate 3 32, by rw [StorageClass_snd, classOf_replicate]; norm_num⟩
    · exact ⟨List.replicate 128 32, by rw [StorageClass_snd, classOf_replicate]; norm_num⟩
    · exact ⟨List.replicate 1024 32, by rw [StorageClass_snd, classOf_replicate]; norm_num⟩


/-! ## Link merger: proofs -/

theorem mem_MergeContexts (ro : RangeOrder) (one two : List GoString) (s : GoString) :
    s ∈ MergeContexts ro one two ↔ (s ∈ one ∨ s ∈ two) ∧ s ≠ SEQUENCE := by
  unfold MergeContexts
  simp only [List.mem_filter, (ro.perm _).mem_iff, List.mem_dedup, List.mem_append,
    decide_eq_true_eq]

theorem mem_strip (ctx : List GoString) (s : GoString) :
    s ∈ ctx.filter (fun c => c ≠ SEQUENCE) ↔ s ∈ ctx ∧ s ≠ SEQUENCE := by
  simp only [List.mem_filter, decide_eq_true_eq]

theorem SameLink.refl (a : Link) : SameLink a a := ⟨rfl, rfl, rfl, fun _ => Iff.rfl⟩

theorem SameLink.trans {a b c : Link} (h₁ : SameLink a b) (h₂ : SameLink b c) : SameLink a c :=
  ⟨h₁.1.trans h₂.1, h₁.2.1.trans h₂.2.1, h₁.2.2.1.trans h₂.2.2.1,
    fun s => (h₁.2.2.2 s).trans (h₂.2.2.2 s)⟩

theorem sameBucket_refl (b : List Link) : List.Forall₂ SameLink b b := by
  induction b with
  | nil => exact List.Forall₂.nil
  | cons x rest ih => exact List.Forall₂.cons (SameLink.refl x) ih

theorem sameBucket_trans {a b c : List Link} (h₁ : List.Forall₂ SameLink a b)
    (h₂ : List.Forall₂ SameLink b c) : List.Forall₂ SameLink a c := by
  induction h₁ generalizing c with
  | nil => cases h₂; exact List.Forall₂.nil
  | cons hx _ ih =>
    cases h₂ with
    | cons hy hrest => exact List.Forall₂.cons (hx.trans hy) (ih hrest)

/-- Merging links with the same arrow, destination and context tokens into
buckets that agree link by link gives buckets that agree link by link. -/
theorem scan_congr (ro ro' : RangeOrder) (l l' : Link) (hl : SameLink l l')
    {b b' : List Link} (h : List.Forall₂ SameLink b b') :
    List.Forall₂ SameLink (MergeLinks.scan ro l b) (MergeLinks.scan ro' l' b') := by
  induction h with
  | nil => exact List.Forall₂.cons hl List.Forall₂.nil
  | @cons x y rest rest' hxy hrest ih =>
    simp only [MergeLinks.scan]
    have hcond : (x.Arr = l.Arr ∧ x.Dst = l.Dst) ↔ (y.Arr = l'.Arr ∧ y.Dst = l'.Dst) := by
      rw [hxy.1, hxy.2.2.1, hl.1, hl.2.2.1]
    by_cases hc : x.Arr = l.Arr ∧ x.Dst = l.Dst
    · rw [if_pos hc, if_pos (hcond.mp hc)]
      refine List.Forall₂.cons ⟨hxy.1, hxy.2.1, hxy.2.2.1, fun s => ?_⟩ hrest
      simp only [mem_MergeContexts, hxy.2.2.2 s, hl.2.2.2 s]
    · rw [if_neg hc, if_neg (fun h' => hc (hcond.mpr h'))]
      exact List.Forall₂.cons hxy ih

/-- A second merge of a link whose context is free of `_sequence_` changes
nothing but the order and the repetitions of the context tokens. -/
theorem scan_scan (ro ro' : RangeOrder) (l : Link) (hl : ∀ s ∈ l.Ctx, s ≠ SEQUENCE)
    (b : List Link) :
    List.Forall₂ SameLink (MergeLinks.scan ro' l (MergeLinks.scan ro l b))
      (MergeLinks.scan ro l b) := by
  induction b with
  | nil =>
    simp only [MergeLinks.scan, and_self, if_true]
    refine List.Forall₂.cons ⟨rfl, rfl, rfl, fun s => ?_⟩ List.Forall₂.nil
    simp only [mem_MergeContexts, or_self]
    exact ⟨fun h => h.1, fun h => ⟨h, hl s h⟩⟩
  | cons x rest ih =>
    simp only [MergeLinks.scan]
    by_cases hc : x.Arr = l.Arr ∧ x.Dst = l.Dst
    · rw [if_pos hc]
      simp only [MergeLinks.scan]
      rw [if_pos hc]
      refine List.Forall₂.cons ⟨rfl, rfl, rfl, fun s => ?_⟩ (sameBucket_refl rest)
      simp only [mem_MergeContexts]
      constructor
      · rintro ⟨h | h, hs⟩
        · exact h
        · exact ⟨Or.inr h, hs⟩
      · intro h
        exact ⟨Or.inl h, h.2⟩
    · rw [if_neg hc]
      simp only [MergeLinks.scan]
      rw [if_neg hc]
      exact List.Forall₂.cons (SameLink.refl x) ih

theorem MergeLinks_congr (ro ro' : RangeOrder) (l : Link) {b b' : List Link}
    (h : List.Forall₂ SameLink b b') :
    List.Forall₂ SameLink (MergeLinks ro b l) (MergeLinks ro' b' l) :=
  scan_congr ro ro' _ _ (SameLink.refl _) h

theorem MergeLinks_twice (ro ro' : RangeOrder) (l : Link) (b : List Link) :
    List.Forall₂ SameLink (MergeLinks ro' (MergeLinks ro b l) l) (MergeLinks ro b l) :=
  scan_scan ro ro' _ (fun s hs => ((mem_strip l.Ctx s).mp hs).2) b

theorem MergeLinksRepeated_cons (ro : RangeOrder) (ros : List RangeOrder) (list : List Link)
    (lnk : Link) :
    MergeLinksRepeated (ro :: ros) list lnk = MergeLinksRepeated ros (MergeLinks ro list lnk) lnk :=
  rfl

theorem MergeLinksRepeated_same (ro₀ ro : RangeOrder) (ros : List RangeOrder) (lnk : Link)
    (b b' : List Link) (h : List.Forall₂ SameLink b (MergeLinks ro₀ b' lnk)) :
    List.Forall₂ SameLink (MergeLinksRepeated (ro :: ros) b lnk) (MergeLinks ro₀ b' lnk) := by
  induction ros generalizing ro b with
  | nil =>
    exact sameBucket_trans (MergeLinks_congr ro ro lnk h) (MergeLinks_twice ro₀ ro lnk b')
  | cons ro' ros ih =>
    rw [MergeLinksRepeated_cons]
    exact ih ro' _ (sameBucket_trans (MergeLinks_congr ro ro lnk h) (MergeLinks_twice ro₀ ro lnk b'))

/-- C2: `MergeLinks` is idempotent.  Merging a link `N ≥ 1` times into a bucket
(each merge with whatever map iteration order) gives, link by link and in the
same order, the bucket of a single merge: the same number of links, each with
the same arrow, weight and destination and the same context tokens. -/
theorem MergeLinks_idempotent (ros : List RangeOrder) (ro : RangeOrder) (N : Nat)
    (list : List Link) (l : Link) (hlen : ros.length = N) (hN : 1 ≤ N) :
    List.Forall₂ SameLink (MergeLinksRepeated ros list l) (MergeLinks ro list l) ∧
    (MergeLinksRepeated ros list l).length = (MergeLinks ro list l).length := by
  suffices h : List.Forall₂ SameLink (MergeLinksRepeated ros list l) (MergeLinks ro list l) from
    ⟨h, h.length_eq⟩
  cases ros with
  | nil => simp at hlen; omega
  | cons r rest =>
    cases rest with
    | nil => exact MergeLinks_congr r ro l (sameBucket_refl list)
    | cons r' rest' =>
      rw [MergeLinksRepeated_cons]
      exact MergeLinksRepeated_same ro r' rest' l _ list
        (MergeLinks_congr r ro l (sameBucket_refl list))

theorem MergeLinks_idempotent_witness :
    [RangeOrder.insertion, RangeOrder.insertion].length = 2 ∧ 1 ≤ 2 ∧
    List.Forall₂ SameLink
      (MergeLinksRepeated [RangeOrder.insertion, RangeOrder.insertion] [] sampleLink)
      (MergeLinks RangeOrder.insertion [] sampleLink) ∧
    (MergeLinksRepeated [RangeOrder.insertion, RangeOrder.insertion] [] sampleLink).length =
      (MergeLinks RangeOrder.insertion [] sampleLink).length :=
  ⟨rfl, by decide,
    MergeLinks_idempotent [RangeOrder.insertion, RangeOrder.insertion] RangeOrder.insertion 2 []
      sampleLink rfl (by decide)⟩

theorem scan_append_of_free (ro : RangeOrder) (l : Link) (b : List Link)
    (hfree : ∀ x ∈ b, ¬ (x.Arr = l.Arr ∧ x.Dst = l.Dst)) :
    MergeLinks.scan ro l b = b ++ [l] := by
  induction b with
  | nil => rfl
  | cons x rest ih =>
    simp only [MergeLinks.scan]
    rw [if_neg (hfree x (List.mem_cons_self _ _)),
      ih (fun y hy => hfree y (List.mem_cons_of_mem _ hy))]
    rfl

theorem scan_merge_last (ro : RangeOrder) (l m : Link) (b : List Link)
    (hfree : ∀ x ∈ b, ¬ (x.Arr = l.Arr ∧ x.Dst = l.Dst)) (hm : m.Arr = l.Arr ∧ m.Dst = l.Dst) :
    MergeLinks.scan ro l (b ++ [m]) = b ++ [{ m with Ctx := MergeContexts ro m.Ctx l.Ctx }] := by
  induction b with
  | nil => simp only [List.nil_append, MergeLinks.scan]; rw [if_pos hm]
  | cons x rest ih =>
    simp only [List.cons_append, MergeLinks.scan]
    rw [if_neg (hfree x (List.mem_cons_self _ _))]
    exact congrArg (x :: ·) (ih (fun y hy => hfree y (List.mem_cons_of_mem _ hy)))

/-- C3: when the bucket holds no link with the arrow `a` and the destination
`d`, merging `lA` and then `lB`, both with that arrow and destination, leaves
the bucket as it was followed by one link `m` with that arrow and destination;
the tokens of `m.Ctx` are those of `lA.Ctx` and `lB.Ctx` other than
`_sequence_`, and `m` is the only link of the result with `(a, d)`. -/
theorem MergeLinks_context_union (roA roB : RangeOrder) (bucket : List Link) (a : Int)
    (d : NodePtr) (lA lB : Link)
    (hfree : ∀ x ∈ bucket, ¬ (x.Arr = a ∧ x.Dst = d))
    (hA : lA.Arr = a ∧ lA.Dst = d) (hB : lB.Arr = a ∧ lB.Dst = d) :
    ∃ m : Link,
      MergeLinks roB (MergeLinks roA bucket lA) lB = bucket ++ [m] ∧
      m.Arr = a ∧ m.Dst = d ∧
      (∀ s, s ∈ m.Ctx ↔ (s ∈ lA.Ctx ∨ s ∈ lB.Ctx) ∧ s ≠ SEQUENCE) ∧
      ((MergeLinks roB (MergeLinks roA bucket lA) lB).filter
        (fun x => decide (x.Arr = a ∧ x.Dst = d))).length = 1 := by
  obtain ⟨hAa, hAd⟩ := hA
  obtain ⟨hBa, hBd⟩ := hB
  subst hAa hAd
  have h1 : MergeLinks roA bucket lA =
      bucket ++ [{ lA with Ctx := lA.Ctx.filter (fun c => c ≠ SEQUENCE) }] :=
    scan_append_of_free roA _ bucket hfree
  have h2 : MergeLinks roB (MergeLinks roA bucket lA) lB =
      bucket ++ [{ lA with Ctx := MergeContexts roB (lA.Ctx.filter (fun c => c ≠ SEQUENCE)) (lB.Ctx.filter (fun c => c ≠ SEQUENCE)) }] := by
    rw [h1]
    exact scan_merge_last roB _ _ bucket (by simpa [hBa, hBd] using hfree) ⟨hBa.symm, hBd.symm⟩
  refine ⟨_, h2, rfl, rfl, fun s => ?_, ?_⟩
  · simp only [mem_MergeContexts, mem_strip]
    tauto
  · rw [h2, List.filter_append]
    have hnone : bucket.filter (fun x => decide (x.Arr = lA.Arr ∧ x.Dst = lA.Dst)) = [] := by
      rw [List.filter_eq_nil_iff]
      intro x hx
      simpa using hfree x hx
    rw [hnone]
    simp

theorem MergeLinks_context_union_witness :
    (∀ x ∈ ([] : List Link), ¬ (x.Arr = 0 ∧ x.Dst = ⟨1, 1⟩)) ∧
    ∃ m : Link,
      MergeLinks RangeOrder.insertion (MergeLinks RangeOrder.insertion [] sampleLink)
        { sampleLink with Ctx := [str "y"] } = [] ++ [m] ∧
      m.Arr = 0 ∧ m.Dst = ⟨1, 1⟩ ∧
      (∀ s, s ∈ m.Ctx ↔ (s ∈ sampleLink.Ctx ∨ s ∈ [str "y"]) ∧ s ≠ SEQUENCE) ∧
      ((MergeLinks RangeOrder.insertion (MergeLinks RangeOrder.insertion [] sampleLink)
        { sampleLink with Ctx := [str "y"] }).filter
        (fun x => decide (x.Arr = 0 ∧ x.Dst = ⟨1, 1⟩))).length = 1 :=
  ⟨by simp,
    MergeLinks_context_union RangeOrder.insertion RangeOrder.insertion [] 0 ⟨1, 1⟩ sampleLink
      { sampleLink with Ctx := [str "y"] } (by simp) ⟨rfl, rfl⟩ ⟨rfl, rfl⟩⟩

/-! ## Persistence: proofs -/

theorem STTypeDBChannel_isSome (k : Int) (hlo : -3 ≤ k) (hhi : k ≤ 3) :
    ∃ ch, STTypeDBChannel k = some ch := by
  have hk : k = -3 ∨ k = -2 ∨ k = -1 ∨ k = 0 ∨ k = 1 ∨ k = 2 ∨ k = 3 := by omega
  rcases hk with rfl | rfl | rfl | rfl | rfl | rfl | rfl <;> exact ⟨_, rfl⟩

/-- C1: for nodes with different pointers and a link whose arrow is registered
with a signed type `k` in -3..3, `IdempDBAddLink` returns after sending exactly
two statements: the append of the link (its arrow, weight and context, with
destination `to`) to the column of bucket `k` of the source node, then the
append of a link with the arrow `INVERSE_ARROWS[a]`, the same weight and the
destination `from` to the column of bucket `-k` of the destination node. -/
theorem IdempDBAddLink_two_half_edges (db : DBAppend → Bool)
    (ARROW_DIRECTORY : List ArrowDirectory) (INVERSE_ARROWS : List (Int × Int))
    (from_ to_ : Node) (link : Link) (entry : ArrowDirectory) (k : Int)
    (hne : from_.NPtr ≠ to_.NPtr)
    (hreg : index? ARROW_DIRECTORY link.Arr = some entry)
    (hk : STIndexToSTType entry.STAindex = k) (hrange : -3 ≤ k ∧ k ≤ 3) :
    ∃ fwd_table bwd_table : String,
      STTypeDBChannel k = some fwd_table ∧ STTypeDBChannel (-k) = some bwd_table ∧
      IdempDBAddLink db ARROW_DIRECTORY INVERSE_ARROWS from_ link to_ =
        ⟨[⟨fwd_table, ⟨link.Arr, link.Wgt, link.Ctx, to_.NPtr⟩, from_.NPtr⟩,
          ⟨bwd_table, ⟨mapRead INVERSE_ARROWS link.Arr, link.Wgt, [], from_.NPtr⟩, to_.NPtr⟩],
         .ret ()⟩ := by
  obtain ⟨hlo, hhi⟩ := hrange
  have hidx := hreg
  have hpos : 0 ≤ link.Arr := by
    unfold index? at hreg
    split_ifs at hreg with hi
    omega
  obtain ⟨ft, hft⟩ := STTypeDBChannel_isSome k hlo hhi
  obtain ⟨bt, hbt⟩ := STTypeDBChannel_isSome (-k) (by omega) (by omega)
  refine ⟨ft, bt, hft, hbt, ?_⟩
  have hnolt : ¬ link.Arr < 0 := by omega
  have hb1 : ¬ (k < -EXPRESS ∨ k > EXPRESS) := by simp only [EXPRESS]; omega
  have hb2 : ¬ (-k < -EXPRESS ∨ -k > EXPRESS) := by simp only [EXPRESS]; omega
  have hne' : ¬ to_.NPtr = from_.NPtr := fun h => hne h.symm
  simp only [IdempDBAddLink, if_neg hne, if_neg hnolt, hidx, hk, AppendDBLinkToNode, if_neg hb1,
    if_neg hb2, hft, hbt, if_neg hne', List.singleton_append]

/-- C4: `IdempDBAddLink` rejects self-loops: when `from` and `to` carry the same
pointer the call ends in `os.Exit(-1)` and no statement is sent to the store. -/
theorem IdempDBAddLink_self_loop (db : DBAppend → Bool)
    (ARROW_DIRECTORY : List ArrowDirectory) (INVERSE_ARROWS : List (Int × Int))
    (from_ to_ : Node) (link : Link) (hself : from_.NPtr = to_.NPtr) :
    IdempDBAddLink db ARROW_DIRECTORY INVERSE_ARROWS from_ link to_ = ⟨[], .exit (-1)⟩ := by
  simp only [IdempDBAddLink, if_pos hself]

/-! ## Node directory: proofs -/

theorem class_cases (c : Int) (h1 : 1 ≤ c) (h6 : c ≤ 6) :
    c = 1 ∨ c = 2 ∨ c = 3 ∨ c = 4 ∨ c = 5 ∨ c = 6 := by omega

theorem CheckExistingOrAltCaps_lane (lower : GoString → GoString) (d : NodeDirectory)
    (event : Node) (c : Int) (h1 : 1 ≤ c) (h6 : c ≤ 6) (hclass : event.NPtr.Class = c) :
    CheckExistingOrAltCaps lower d event =
      (laneFind lower c (d.lane c) event, laneErrs lower c (d.lane c) event) := by
  rcases class_cases c h1 h6 with rfl | rfl | rfl | rfl | rfl | rfl <;>
  · simp only [CheckExistingOrAltCaps, laneFind, laneErrs, laneAlt, NodeDirectory.lane,
      NodeDirectory.grams, NodeDirectory.vec, hclass, N1GRAM, N2GRAM, N3GRAM, LT128, LT1024,
      GT1024]
    norm_num
    split_ifs <;> rfl

theorem index?_set_self {α : Type} (xs : List α) (i : Int) (x : α) (h : index? xs i = some x) :
    xs.set i.toNat x = xs := by
  unfold index? at h
  split_ifs at h with hi
  apply List.ext_getElem?
  intro j
  rw [List.getElem?_set']
  split_ifs with hj
  · subst hj; simp [h]
  · rfl

theorem IdempAddChapterToNode_lane (d : NodeDirectory) (c : Int) (h1 : 1 ≤ c) (h6 : c ≤ 6)
    (cptr : Int) (chap : GoString) (node : Node) (hnode : index? (d.vec c) cptr = some node) :
    ∃ d', IdempAddChapterToNode d c cptr chap = some d' ∧
      d'.vec c = (d.vec c).set cptr.toNat { node with Chap := mergedChap node.Chap chap } ∧
      (∀ c', d'.top c' = d.top c') ∧ (∀ c', d'.grams c' = d.grams c') ∧
      ∀ c', c' ≠ c → d'.vec c' = d.vec c' := by
  by_cases hcon : strings_Contains node.Chap chap = true
  · refine ⟨d, ?_, ?_, fun _ => rfl, fun _ => rfl, fun _ _ => rfl⟩
    · rcases class_cases c h1 h6 with rfl | rfl | rfl | rfl | rfl | rfl <;>
      · simp only [NodeDirectory.vec, N1GRAM, N2GRAM, N3GRAM, LT128, LT1024, GT1024] at hnode
        norm_num at hnode
        simp only [IdempAddChapterToNode, N1GRAM, N2GRAM, N3GRAM, LT128, LT1024, GT1024]
        norm_num
        simp [hnode, hcon]
    · simp only [mergedChap, hcon, if_true]
      exact (index?_set_self _ _ _ hnode).symm
  · rcases class_cases c h1 h6 with rfl | rfl | rfl | rfl | rfl | rfl <;>
    · simp only [NodeDirectory.vec, N1GRAM, N2GRAM, N3GRAM, LT128, LT1024, GT1024] at hnode
      norm_num at hnode
      simp only [IdempAddChapterToNode, N1GRAM, N2GRAM, N3GRAM, LT128, LT1024, GT1024]
      norm_num
      simp only [hnode, hcon, setChap, mergedChap, Option.map_some']
      refine ⟨_, rfl, ?_, fun _ => rfl, fun _ => rfl, fun c' hc' => ?_⟩
      · simp [NodeDirectory.vec, N1GRAM, N2GRAM, N3GRAM, LT128, LT1024, GT1024]
      · simp [NodeDirectory.vec, N1GRAM, N2GRAM, N3GRAM, LT128, LT1024, GT1024, hc']

theorem AppendTextToDirectory_miss (lower : GoString → GoString) (d : NodeDirectory)
    (event : Node) (c : Int) (h1 : 1 ≤ c) (h6 : c ≤ 6) (hclass : event.NPtr.Class = c)
    (hmiss : (laneFind lower c (d.lane c) event).2 = false) :
    ∃ r, AppendTextToDirectory lower d event = some r ∧ r.ptr = ⟨c, d.top c⟩ ∧
      r.errs = laneErrs lower c (d.lane c) event ∧
      r.dir.vec c = d.vec c ++ [{ event with NPtr := ⟨c, d.top c⟩ }] ∧
      r.dir.top c = d.top c + 1 ∧
      r.dir.grams c = (if c ≤ 3 then mapSet (d.grams c) event.S (d.top c) else d.grams c) ∧
      ∀ c', c' ≠ c →
        r.dir.vec c' = d.vec c' ∧ r.dir.top c' = d.top c' ∧ r.dir.grams c' = d.grams c' := by
  have hchk := CheckExistingOrAltCaps_lane lower d event c h1 h6 hclass
  rcases class_cases c h1 h6 with rfl | rfl | rfl | rfl | rfl | rfl <;>
  · simp only [AppendTextToDirectory, hchk, hmiss, hclass, N1GRAM, N2GRAM, N3GRAM, LT128, LT1024,
      GT1024]
    norm_num
    refine ⟨?_, ?_, ?_, ?_, fun c' hc' => ?_⟩ <;>
      simp [NodeDirectory.vec, NodeDirectory.top, NodeDirectory.grams, N1GRAM, N2GRAM, N3GRAM,
        LT128, LT1024, GT1024, *]

theorem AppendTextToDirectory_hit (lower : GoString → GoString) (d : NodeDirectory)
    (event : Node) (c : Int) (h1 : 1 ≤ c) (h6 : c ≤ 6) (hclass : event.NPtr.Class = c)
    (slot : Int) (node : Node)
    (hhit : laneFind lower c (d.lane c) event = (slot, true))
    (hnode : index? (d.vec c) slot = some node) :
    ∃ r, AppendTextToDirectory lower d event = some r ∧ r.ptr = ⟨c, slot⟩ ∧ r.errs = [] ∧
      r.dir.vec c =
        (d.vec c).set slot.toNat { node with Chap := mergedChap node.Chap event.Chap } ∧
      (∀ c', r.dir.top c' = d.top c') ∧ (∀ c', r.dir.grams c' = d.grams c') ∧
      ∀ c', c' ≠ c → r.dir.vec c' = d.vec c' := by
  have hchk := CheckExistingOrAltCaps_lane lower d event c h1 h6 hclass
  obtain ⟨d', hd', hvec, htop, hgrams, hother⟩ :=
    IdempAddChapterToNode_lane d c h1 h6 slot event.Chap node hnode
  refine ⟨⟨⟨c, slot⟩, d', []⟩, ?_, rfl, rfl, hvec, htop, hgrams, hother⟩
  simp only [AppendTextToDirectory, hchk, hhit, hclass, if_true, hd', Option.map_some', laneErrs]

theorem AppendTextToDirectory_noclass (lower : GoString → GoString) (d : NodeDirectory)
    (event : Node) (hclass : ¬ (1 ≤ event.NPtr.Class ∧ event.NPtr.Class ≤ 6)) :
    AppendTextToDirectory lower d event = some ⟨NO_NODE_PTR, d, []⟩ := by
  have e1 : event.NPtr.Class ≠ 1 := by omega
  have e2 : event.NPtr.Class ≠ 2 := by omega
  have e3 : event.NPtr.Class ≠ 3 := by omega
  have e4 : event.NPtr.Class ≠ 4 := by omega
  have e5 : event.NPtr.Class ≠ 5 := by omega
  have e6 : event.NPtr.Class ≠ 6 := by omega
  simp [AppendTextToDirectory, CheckExistingOrAltCaps, N1GRAM, N2GRAM, N3GRAM, LT128, LT1024,
    GT1024, e1, e2, e3, e4, e5, e6]

/-! ### Facts about the lookups -/

theorem mapGet_true_mem (m : GramMap) (k : GoString) (v : Int) (h : mapGet m k = (v, true)) :
    (k, v) ∈ m := by
  induction m with
  | nil => simp [mapGet] at h
  | cons e rest ih =>
    obtain ⟨k', v'⟩ := e
    simp only [mapGet] at h
    split_ifs at h with hk
    · simp only [Prod.mk.injEq, and_true] at h
      subst hk h
      exact List.mem_cons_self _ _
    · exact List.mem_cons_of_mem _ (ih h)

theorem mapGet_of_mem (m : GramMap) (k : GoString) (v : Int) (h : (k, v) ∈ m) :
    ∃ v', mapGet m k = (v', true) := by
  induction m with
  | nil => simp at h
  | cons e rest ih =>
    obtain ⟨k', v'⟩ := e
    simp only [mapGet]
    split_ifs with hk
    · exact ⟨v', rfl⟩
    · rcases List.mem_cons.mp h with h' | h'
      · simp only [Prod.mk.injEq] at h'
        exact absurd h'.1.symm hk
      · exact ih h'

theorem mapGet_snd_false (m : GramMap) (k : GoString) (h : (mapGet m k).2 = false) :
    mapGet m k = (0, false) := by
  induction m with
  | nil => rfl
  | cons e rest ih =>
    obtain ⟨k', v'⟩ := e
    by_cases hk : k' = k
    · simp only [mapGet, if_pos hk] at h
      exact absurd h (by simp)
    · simp only [mapGet, if_neg hk] at h ⊢
      exact ih h

theorem mapGet_filter_ne (m : GramMap) (k s : GoString) (hks : k ≠ s) :
    mapGet (m.filter (fun e => e.1 ≠ s)) k = mapGet m k := by
  induction m with
  | nil => rfl
  | cons e rest ih =>
    obtain ⟨k', v'⟩ := e
    by_cases hk' : k' = s
    · have hne : ¬ k' = k := fun h => hks (h.symm.trans hk')
      rw [List.filter_cons_of_neg (by simpa using hk'), ih]
      simp only [mapGet, if_neg hne]
    · rw [List.filter_cons_of_pos (by simpa using hk')]
      simp only [mapGet]
      split_ifs
      · rfl
      · exact ih

theorem mapGet_mapSet_self (m : GramMap) (s : GoString) (v : Int) :
    mapGet (mapSet m s v) s = (v, true) := by
  simp [mapSet, mapGet]

theorem mapGet_mapSet_ne (m : GramMap) (k s : GoString) (v : Int) (hks : k ≠ s) :
    mapGet (mapSet m s v) k = mapGet m k := by
  have : ¬ s = k := fun h => hks h.symm
  simp only [mapSet, mapGet, this, if_false]
  exact mapGet_filter_ne m k s hks

theorem altCapsKey_iff (lower : GoString → GoString) (m : GramMap) (s : GoString) :
    altCapsKey lower m s = true ↔ ∃ k v, (k, v) ∈ m ∧ lower k = lower s := by
  simp only [altCapsKey, List.any_eq_true, decide_eq_true_eq, Prod.exists]

theorem loop_cons (lower : GoString → GoString) (event : Node) (ic : Bool) (n : Node)
    (rest : List Node) (i : Int) :
    LinearFindText.loop lower event ic (n :: rest) i =
      if textMatch lower event ic n then (i, true)
      else LinearFindText.loop lower event ic rest (i + 1) := by
  simp only [LinearFindText.loop, textMatch]
  by_cases hL : event.L = n.L
  · cases ic <;> simp [hL]
  · simp [hL]

theorem loop_none (lower : GoString → GoString) (event : Node) (ic : Bool) (xs : List Node)
    (i : Int) (h : ∀ n ∈ xs, ¬ textMatch lower event ic n) :
    LinearFindText.loop lower event ic xs i = (-1, false) := by
  induction xs generalizing i with
  | nil => rfl
  | cons n rest ih =>
    rw [loop_cons, if_neg (h n (List.mem_cons_self _ _))]
    exact ih _ (fun m hm => h m (List.mem_cons_of_mem _ hm))

theorem loop_false (lower : GoString → GoString) (event : Node) (ic : Bool) (xs : List Node)
    (i : Int) (h : (LinearFindText.loop lower event ic xs i).2 = false) :
    ∀ n ∈ xs, ¬ textMatch lower event ic n := by
  induction xs generalizing i with
  | nil => intro n hn; simp at hn
  | cons x rest ih =>
    rw [loop_cons] at h
    by_cases hm : textMatch lower event ic x
    · rw [if_pos hm] at h; simp at h
    · rw [if_neg hm] at h
      intro n hn
      rcases List.mem_cons.mp hn with rfl | hn'
      · exact hm
      · exact ih _ h n hn'

theorem loop_true (lower : GoString → GoString) (event : Node) (ic : Bool) (xs : List Node)
    (i j : Int) (h : LinearFindText.loop lower event ic xs i = (j, true)) :
    ∃ (k : Nat) (node : Node), j = i + k ∧ xs[k]? = some node ∧
      textMatch lower event ic node ∧ ∀ n ∈ xs.take k, ¬ textMatch lower event ic n := by
  induction xs generalizing i with
  | nil => simp [LinearFindText.loop] at h
  | cons x rest ih =>
    rw [loop_cons] at h
    by_cases hm : textMatch lower event ic x
    · rw [if_pos hm] at h
      simp only [Prod.mk.injEq, and_true] at h
      exact ⟨0, x, by simp [h], by simp, hm, by simp⟩
    · rw [if_neg hm] at h
      obtain ⟨k, node, hj, hk, hmn, hbefore⟩ := ih _ h
      refine ⟨k + 1, node, by push_cast; omega, by simpa using hk, hmn, ?_⟩
      intro n hn
      simp only [List.take_succ_cons, List.mem_cons] at hn
      rcases hn with rfl | hn
      · exact hm
      · exact hbefore n hn

theorem loop_append_miss (lower : GoString → GoString) (event : Node) (ic : Bool)
    (xs : List Node) (n : Node) (i : Int) (h : ∀ m ∈ xs, ¬ textMatch lower event ic m)
    (hn : textMatch lower event ic n) :
    LinearFindText.loop lower event ic (xs ++ [n]) i = (i + xs.length, true) := by
  induction xs generalizing i with
  | nil => simp [loop_cons, hn]
  | cons x rest ih =>
    rw [List.cons_append, loop_cons, if_neg (h x (List.mem_cons_self _ _)),
      ih _ (fun m hm => h m (List.mem_cons_of_mem _ hm))]
    simp only [List.length_cons, Prod.mk.injEq, and_true]
    push_cast; ring

theorem loop_set (lower : GoString → GoString) (event : Node) (ic : Bool) (xs : List Node)
    (j : Nat) (node node' : Node) (i : Int) (hj : xs[j]? = some node)
    (hL : node'.L = node.L) (hS : node'.S = node.S) :
    LinearFindText.loop lower event ic (xs.set j node') i =
      LinearFindText.loop lower event ic xs i := by
  induction xs generalizing i j with
  | nil => rfl
  | cons x rest ih =>
    cases j with
    | zero =>
      simp only [List.getElem?_cons_zero, Option.some.injEq] at hj
      subst hj
      simp only [List.set_cons_zero, loop_cons, textMatch, hL, hS]
    | succ j =>
      simp only [List.getElem?_cons_succ] at hj
      simp only [List.set_cons_succ, loop_cons]
      rw [ih j _ hj]

theorem loop_event_congr (lower : GoString → GoString) (e₁ e₂ : Node) (ic : Bool)
    (xs : List Node) (i : Int) (hL : e₁.L = e₂.L) (hS : e₁.S = e₂.S) :
    LinearFindText.loop lower e₁ ic xs i = LinearFindText.loop lower e₂ ic xs i := by
  induction xs generalizing i with
  | nil => rfl
  | cons x rest ih => simp only [loop_cons, textMatch, hL, hS, ih]

theorem index?_natCast {α : Type} (xs : List α) (k : Nat) : index? xs (k : Int) = xs[k]? := by
  simp [index?]

theorem index?_some {α : Type} (xs : List α) (i : Int) (x : α) (h : index? xs i = some x) :
    0 ≤ i ∧ xs[i.toNat]? = some x := by
  unfold index? at h
  split_ifs at h with hi
  exact ⟨by omega, h⟩

theorem laneFind_hit (lower : GoString → GoString) (d : NodeDirectory) (c : Int) (event : Node)
    (slot : Int) (hinv : LaneInv d c)
    (h : laneFind lower c (d.lane c) event = (slot, true)) :
    ∃ node, index? (d.vec c) slot = some node ∧ node.S = event.S ∧
      (¬ c ≤ 3 → node.L = event.L) := by
  unfold laneFind at h
  split_ifs at h with hc
  · obtain ⟨node, hnode, hS⟩ := hinv.sound hc _ _ h
    exact ⟨node, hnode, hS, fun hn => absurd hc hn⟩
  · obtain ⟨k, node, hj, hk, hm, _⟩ := loop_true lower event false (d.vec c) 0 slot h
    simp only [zero_add] at hj
    subst hj
    refine ⟨node, by rw [index?_natCast]; exact hk, ?_, fun _ => hm.1.symm⟩
    simpa [textMatch] using hm.2

theorem AppendTextToDirectory_cases (lower : GoString → GoString) (d : NodeDirectory)
    (event : Node) (hinv : DirInv d) :
    ∃ r, AppendTextToDirectory lower d event = some r ∧
      ((¬ (1 ≤ event.NPtr.Class ∧ event.NPtr.Class ≤ 6) ∧ r = ⟨NO_NODE_PTR, d, []⟩) ∨
       (1 ≤ event.NPtr.Class ∧ event.NPtr.Class ≤ 6 ∧
        (StepMiss lower d event event.NPtr.Class r ∨
         ∃ slot node, StepHit lower d event event.NPtr.Class slot node r))) := by
  by_cases hc : 1 ≤ event.NPtr.Class ∧ event.NPtr.Class ≤ 6
  · obtain ⟨h1, h6⟩ := hc
    cases hf : (laneFind lower event.NPtr.Class (d.lane event.NPtr.Class) event).2 with
    | false =>
      obtain ⟨r, hr, hrest⟩ := AppendTextToDirectory_miss lower d event _ h1 h6 rfl hf
      exact ⟨r, hr, Or.inr ⟨h1, h6, Or.inl ⟨hf, hrest⟩⟩⟩
    | true =>
      have hfind : laneFind lower event.NPtr.Class (d.lane event.NPtr.Class) event =
          ((laneFind lower event.NPtr.Class (d.lane event.NPtr.Class) event).1, true) := by
        rw [← hf]
      obtain ⟨node, hnode, hS⟩ := laneFind_hit lower d _ event _ (hinv _ h1 h6) hfind
      obtain ⟨r, hr, hrest⟩ :=
        AppendTextToDirectory_hit lower d event _ h1 h6 rfl _ node hfind hnode
      exact ⟨r, hr, Or.inr ⟨h1, h6, Or.inr ⟨_, node, hfind, hnode, hS, hrest⟩⟩⟩
  · exact ⟨_, AppendTextToDirectory_noclass lower d event hc, Or.inl ⟨hc, rfl⟩⟩

theorem LaneInv.congr {d d' : NodeDirectory} {c : Int} (hv : d'.vec c = d.vec c)
    (ht : d'.top c = d.top c) (hg : d'.grams c = d.grams c) (h : LaneInv d c) : LaneInv d' c := by
  refine ⟨?_, ?_, ?_, ?_⟩
  · rw [hv, ht]; exact h.top_eq
  · rw [hv]; exact h.nptr
  · rw [hv, hg]; exact h.sound
  · rw [hv, hg]; exact h.complete

theorem getElem?_set_sameKey (xs : List Node) (j : Nat) (node n' : Node)
    (hj : xs[j]? = some node) (hk : sameKey n' node) (i : Nat) (x : Node)
    (hx : (xs.set j n')[i]? = some x) : ∃ y, xs[i]? = some y ∧ sameKey x y := by
  rw [List.getElem?_set'] at hx
  split_ifs at hx with hij
  · subst hij
    rw [hj] at hx
    simp at hx
    subst hx
    exact ⟨node, hj, hk⟩
  · exact ⟨x, hx, rfl, rfl, rfl, rfl⟩

theorem getElem?_set_sameKey' (xs : List Node) (j : Nat) (node n' : Node)
    (hj : xs[j]? = some node) (hk : sameKey n' node) (i : Nat) (y : Node)
    (hy : xs[i]? = some y) : ∃ x, (xs.set j n')[i]? = some x ∧ sameKey x y := by
  rw [List.getElem?_set']
  split_ifs with hij
  · subst hij
    rw [hj] at hy
    simp only [Option.some.injEq] at hy
    subst hy
    exact ⟨n', by simp [hj], hk⟩
  · exact ⟨y, hy, rfl, rfl, rfl, rfl⟩

theorem index?_append_left {α : Type} (xs : List α) (y : α) (i : Int) (x : α)
    (h : index? xs i = some x) : index? (xs ++ [y]) i = some x := by
  unfold index? at h ⊢
  split_ifs at h ⊢ with hi
  have hlt : i.toNat < xs.length := by
    rcases Nat.lt_or_ge i.toNat xs.length with hlt | hge
    · exact hlt
    · rw [List.getElem?_eq_none hge] at h; simp at h
  rw [List.getElem?_append_left hlt]
  exact h

theorem index?_append_length {α : Type} (xs : List α) (y : α) :
    index? (xs ++ [y]) (xs.length : Int) = some y := by
  rw [index?_natCast]
  simp

theorem getElem?_append_singleton {α : Type} (xs : List α) (y : α) (i : Nat) (x : α)
    (h : (xs ++ [y])[i]? = some x) : xs[i]? = some x ∨ (i = xs.length ∧ x = y) := by
  rcases Nat.lt_trichotomy i xs.length with hlt | heq | hgt
  · rw [List.getElem?_append_left hlt] at h
    exact Or.inl h
  · subst heq
    simp at h
    exact Or.inr ⟨rfl, h.symm⟩
  · rw [List.getElem?_eq_none (by simp; omega)] at h
    simp at h

theorem LaneInv_miss (lower : GoString → GoString) (d : NodeDirectory) (event : Node) (c : Int)
    (r : Appended) (hinv : LaneInv d c) (hs : StepMiss lower d event c r) : LaneInv r.dir c := by
  obtain ⟨hmiss, _, _, hvec, htop, hgrams, _⟩ := hs
  have hlen := hinv.top_eq
  refine ⟨?_, ?_, ?_, ?_⟩
  · rw [htop, hvec, hlen]; simp
  · intro i node hnode
    rw [hvec] at hnode
    rcases getElem?_append_singleton _ _ _ _ hnode with h | ⟨hi, hn⟩
    · exact hinv.nptr i node h
    · subst hi hn
      simp [hlen]
  · intro hc k v hkv
    rw [hgrams, if_pos hc] at hkv
    rw [hvec]
    by_cases hk : k = event.S
    · subst hk
      rw [mapGet_mapSet_self] at hkv
      simp only [Prod.mk.injEq, and_true] at hkv
      subst hkv
      rw [hlen]
      exact ⟨_, index?_append_length _ _, rfl⟩
    · rw [mapGet_mapSet_ne _ _ _ _ hk] at hkv
      obtain ⟨node, hnode, hS⟩ := hinv.sound hc k v hkv
      exact ⟨node, index?_append_left _ _ _ _ hnode, hS⟩
  · intro hc i node hnode
    rw [hvec] at hnode
    rw [hgrams, if_pos hc]
    simp only [laneFind, if_pos hc, NodeDirectory.lane] at hmiss
    rcases getElem?_append_singleton _ _ _ _ hnode with h | ⟨hi, hn⟩
    · have hold := hinv.complete hc i node h
      have hne : node.S ≠ event.S := by
        intro heq
        rw [heq] at hold
        rw [hold] at hmiss
        simp at hmiss
      rw [mapGet_mapSet_ne _ _ _ _ hne]
      exact hold
    · subst hi hn
      simp only
      rw [mapGet_mapSet_self, hlen]

theorem LaneInv_hit (lower : GoString → GoString) (d : NodeDirectory) (event : Node) (c : Int)
    (slot : Int) (node : Node) (r : Appended) (hinv : LaneInv d c)
    (hs : StepHit lower d event c slot node r) : LaneInv r.dir c := by
  obtain ⟨_, hnode, _, _, _, hvec, htop, hgrams, _⟩ := hs
  obtain ⟨_, hj⟩ := index?_some _ _ _ hnode
  have hk : sameKey { node with Chap := mergedChap node.Chap event.Chap } node :=
    ⟨rfl, rfl, rfl, rfl⟩
  refine ⟨?_, ?_, ?_, ?_⟩
  · rw [htop, hvec, List.length_set]; exact hinv.top_eq
  · intro i x hx
    rw [hvec] at hx
    obtain ⟨y, hy, hxy⟩ := getElem?_set_sameKey _ _ _ _ hj hk i x hx
    rw [hxy.2.2.1]
    exact hinv.nptr i y hy
  · intro hc k v hkv
    rw [hgrams] at hkv
    obtain ⟨y, hy, hS⟩ := hinv.sound hc k v hkv
    obtain ⟨hv0, hy'⟩ := index?_some _ _ _ hy
    obtain ⟨x, hx, hxy⟩ := getElem?_set_sameKey' _ _ _ _ hj hk _ y hy'
    refine ⟨x, ?_, hxy.2.1.trans hS⟩
    rw [hvec]
    unfold index?
    rw [if_neg (by omega)]
    exact hx
  · intro hc i x hx
    rw [hvec] at hx
    obtain ⟨y, hy, hxy⟩ := getElem?_set_sameKey _ _ _ _ hj hk i x hx
    rw [hgrams, hxy.2.1]
    exact hinv.complete hc i y hy

theorem DirInv_step (lower : GoString → GoString) (d : NodeDirectory) (event : Node)
    (r : Appended) (hinv : DirInv d) (h : AppendTextToDirectory lower d event = some r) :
    DirInv r.dir := by
  obtain ⟨r', hr', hcases⟩ := AppendTextToDirectory_cases lower d event hinv
  rw [hr'] at h
  simp only [Option.some.injEq] at h
  subst h
  rcases hcases with ⟨_, hr⟩ | ⟨h1, h6, hmiss | ⟨slot, node, hhit⟩⟩
  · rw [hr]; exact hinv
  · intro c' h1' h6'
    by_cases hc : c' = event.NPtr.Class
    · subst hc
      exact LaneInv_miss lower d event _ _ (hinv _ h1 h6) hmiss
    · obtain ⟨hv, ht, hg⟩ := hmiss.2.2.2.2.2.2 c' hc
      exact LaneInv.congr hv ht hg (hinv c' h1' h6')
  · intro c' h1' h6'
    by_cases hc : c' = event.NPtr.Class
    · subst hc
      exact LaneInv_hit lower d event _ slot node _ (hinv _ h1 h6) hhit
    · obtain ⟨_, _, _, _, _, _, htop, hgrams, hother⟩ := hhit
      exact LaneInv.congr (hother c' hc) (htop c') (hgrams c') (hinv c' h1' h6')

theorem DirInv_empty : DirInv NodeDirectory.empty := by
  intro c h1 h6
  have hv : NodeDirectory.empty.vec c = [] := by
    simp [NodeDirectory.vec, NodeDirectory.empty]
  have ht : NodeDirectory.empty.top c = 0 := by
    simp [NodeDirectory.top, NodeDirectory.empty]
  have hg : NodeDirectory.empty.grams c = [] := by
    simp [NodeDirectory.grams, NodeDirectory.empty]
  refine ⟨?_, ?_, ?_, ?_⟩
  · rw [hv, ht]; rfl
  · intro i node h; rw [hv] at h; simp at h
  · intro _ k v h; rw [hg] at h; simp [mapGet] at h
  · intro _ i node h; rw [hv] at h; simp at h

theorem Reachable.inv {lower : GoString → GoString} {d : NodeDirectory}
    (h : Reachable lower d) : DirInv d := by
  induction h with
  | init => exact DirInv_empty
  | step event _ hstep ih => exact DirInv_step lower _ event _ ih hstep

theorem GetNodeFromPtr_lane (d : NodeDirectory) (c i : Int) (h1 : 1 ≤ c) (h6 : c ≤ 6) :
    GetNodeFromPtr d ⟨c, i⟩ = index? (d.vec c) i := by
  rcases class_cases c h1 h6 with rfl | rfl | rfl | rfl | rfl | rfl <;>
    simp [GetNodeFromPtr, NodeDirectory.vec, N1GRAM, N2GRAM, N3GRAM, LT128, LT1024, GT1024]

theorem GetNodeTxtFromPtr_eq (d : NodeDirectory) (p : NodePtr) :
    GetNodeTxtFromPtr d p = (GetNodeFromPtr d p).map (fun n => n.S) := rfl

theorem infix_mergedChap (old chap : GoString) : chap <:+: mergedChap old chap := by
  unfold mergedChap
  split_ifs with h
  · simpa [strings_Contains] using h
  · exact (List.suffix_append _ _).isInfix

theorem old_infix_mergedChap (old chap : GoString) : old <:+: mergedChap old chap := by
  unfold mergedChap
  split_ifs with h
  · exact List.infix_refl _
  · rw [List.append_assoc]
    exact (List.prefix_append _ _).isInfix

theorem index?_set {α : Type} (xs : List α) (i : Int) (x y : α) (h : index? xs i = some x) :
    index? (xs.set i.toNat y) i = some y := by
  unfold index? at h ⊢
  split_ifs at h ⊢ with hi
  have hlt : i.toNat < xs.length := by
    rcases Nat.lt_or_ge i.toNat xs.length with hlt | hge
    · exact hlt
    · rw [List.getElem?_eq_none hge] at h; simp at h
  simp [hlt]

/-- What holds after a call with an event of a class `c` in 1..6: the text is stored at
the pointer returned, and a lookup of the same text and length finds it there. -/
theorem find_after_append (lower : GoString → GoString) (d : NodeDirectory) (e₁ e₂ : Node)
    (c : Int) (r : Appended) (hinv : DirInv d) (h1 : 1 ≤ c) (h6 : c ≤ 6)
    (hclass : e₁.NPtr.Class = c) (hS : e₁.S = e₂.S) (hL : e₁.L = e₂.L)
    (h : AppendTextToDirectory lower d e₁ = some r) :
    ∃ node, r.ptr.Class = c ∧ laneFind lower c (r.dir.lane c) e₂ = (r.ptr.CPtr, true) ∧
      index? (r.dir.vec c) r.ptr.CPtr = some node ∧ node.S = e₁.S ∧
      (¬ c ≤ 3 → node.L = e₁.L) ∧ e₁.Chap <:+: node.Chap ∧
      (r.dir.vec c).length ≤ (d.vec c).length + 1 := by
  obtain ⟨r', hr', hcases⟩ := AppendTextToDirectory_cases lower d e₁ hinv
  rw [hr'] at h
  simp only [Option.some.injEq] at h
  subst h
  subst hclass
  have hlen := (hinv _ h1 h6).top_eq
  rcases hcases with ⟨hbad, _⟩ | ⟨_, _, hmiss | ⟨slot, node, hhit⟩⟩
  · exact absurd ⟨h1, h6⟩ hbad
  · obtain ⟨hfalse, hptr, _, hvec, htop, hgrams, _⟩ := hmiss
    refine ⟨{ e₁ with NPtr := ⟨e₁.NPtr.Class, d.top e₁.NPtr.Class⟩ }, by rw [hptr], ?_, ?_,
      rfl, fun _ => rfl, List.infix_refl _, by rw [hvec]; simp⟩
    · rw [hptr]
      simp only [laneFind, NodeDirectory.lane] at hfalse ⊢
      split_ifs at hfalse ⊢ with hc
      · rw [hgrams, if_pos hc, ← hS, mapGet_mapSet_self]
      · rw [hvec]
        unfold LinearFindText at hfalse ⊢
        rw [← loop_event_congr lower e₁ e₂ false _ 0 hL hS]
        rw [loop_append_miss lower e₁ false _
          { e₁ with NPtr := ⟨e₁.NPtr.Class, d.top e₁.NPtr.Class⟩ } 0
          (loop_false lower e₁ false _ 0 hfalse) ⟨rfl, by simp⟩, hlen]
        simp
    · rw [hptr, hvec, hlen]
      exact index?_append_length _ _
  · obtain ⟨hfind, hnode, ⟨hnS, hnL⟩, hptr, _, hvec, htop, hgrams, _⟩ := hhit
    refine ⟨{ node with Chap := mergedChap node.Chap e₁.Chap }, by rw [hptr], ?_, ?_, hnS, hnL,
      infix_mergedChap _ _, by rw [hvec, List.length_set]; omega⟩
    · rw [hptr]
      simp only [laneFind, NodeDirectory.lane] at hfind ⊢
      split_ifs at hfind ⊢ with hc
      · rw [hgrams, ← hS]; exact hfind
      · rw [hvec]
        unfold LinearFindText at hfind ⊢
        rw [← loop_event_congr lower e₁ e₂ false _ 0 hL hS]
        rw [loop_set lower e₁ false _ _ node { node with Chap := mergedChap node.Chap e₁.Chap } 0
          (index?_some _ _ _ hnode).2 rfl rfl]
        exact hfind
    · rw [hptr, hvec]
      exact index?_set _ _ _ _ hnode

/-! ## Node directory: main results -/

theorem StorageClass_range (s : GoString) : 1 ≤ (StorageClass s).2 ∧ (StorageClass s).2 ≤ 6 := by
  rw [StorageClass_snd]
  simp only [classOf]
  constructor <;> split_ifs <;> norm_num

theorem same_text_general (lower : GoString → GoString) (d : NodeDirectory) (e₁ e₂ : Node)
    (c : Int) (hinv : DirInv d) (h1 : 1 ≤ c) (h6 : c ≤ 6) (hc1 : e₁.NPtr.Class = c)
    (hc2 : e₂.NPtr.Class = c) (hS : e₁.S = e₂.S) (hL : e₁.L = e₂.L) :
    ∃ r₁ r₂, AppendTextToDirectory lower d e₁ = some r₁ ∧
      AppendTextToDirectory lower r₁.dir e₂ = some r₂ ∧ r₁.ptr = r₂.ptr ∧
      (r₂.dir.vec c).length ≤ (d.vec c).length + 1 ∧
      ∃ node, GetNodeFromPtr r₂.dir r₂.ptr = some node ∧ node.S = e₁.S ∧
        e₁.Chap <:+: node.Chap ∧ e₂.Chap <:+: node.Chap := by
  obtain ⟨r₁, hr₁, _⟩ := AppendTextToDirectory_cases lower d e₁ hinv
  have hinv₁ := DirInv_step lower d e₁ r₁ hinv hr₁
  obtain ⟨node₁, hcl, hfind, hnode, hnS, _, hchap, hlen⟩ :=
    find_after_append lower d e₁ e₂ c r₁ hinv h1 h6 hc1 hS hL hr₁
  obtain ⟨r₂, hr₂, hptr, _, hvec, _, _, _⟩ :=
    AppendTextToDirectory_hit lower r₁.dir e₂ c h1 h6 hc2 _ node₁ hfind hnode
  refine ⟨r₁, r₂, hr₁, hr₂, ?_, ?_, ?_⟩
  · rw [hptr, ← hcl]
  · rw [hvec, List.length_set]; exact hlen
  · refine ⟨{ node₁ with Chap := mergedChap node₁.Chap e₂.Chap }, ?_, hnS,
      List.IsInfix.trans hchap (old_infix_mergedChap _ _), infix_mergedChap _ _⟩
    rw [hptr, GetNodeFromPtr_lane _ _ _ h1 h6, hvec]
    exact index?_set _ _ _ _ hnode

/-- C7: in a directory built by `AppendTextToDirectory` calls, appending a text
`t` (with the length and class of `StorageClass t`) under chapter `chap1` and
then under `chap2` returns the same `NodePtr` both times, leaves the class with
at most one node more than before the first call, and the node at that pointer
holds `t` with a chapter in which both `chap1` and `chap2` occur. -/
theorem AppendTextToDirectory_same_text (lower : GoString → GoString) (d : NodeDirectory)
    (t chap1 chap2 : GoString) (cptr1 cptr2 : Int) (I1 I2 : List (List Link))
    (hreach : Reachable lower d) :
    ∃ r₁ r₂,
      AppendTextToDirectory lower d (nodeEvent t chap1 cptr1 I1) = some r₁ ∧
      AppendTextToDirectory lower r₁.dir (nodeEvent t chap2 cptr2 I2) = some r₂ ∧
      r₁.ptr = r₂.ptr ∧
      (r₂.dir.vec (StorageClass t).2).length ≤ (d.vec (StorageClass t).2).length + 1 ∧
      ∃ node, GetNodeFromPtr r₂.dir r₂.ptr = some node ∧ node.S = t ∧
        chap1 <:+: node.Chap ∧ chap2 <:+: node.Chap :=
  same_text_general lower d (nodeEvent t chap1 cptr1 I1) (nodeEvent t chap2 cptr2 I2)
    (StorageClass t).2 hreach.inv (StorageClass_range t).1 (StorageClass_range t).2 rfl rfl rfl rfl

theorem AppendTextToDirectory_same_text_witness :
    Reachable ToLower NodeDirectory.empty ∧
    ∃ r₁ r₂,
      AppendTextToDirectory ToLower NodeDirectory.empty
        (nodeEvent (str "Alice") (str "one") 0 noLinks) = some r₁ ∧
      AppendTextToDirectory ToLower r₁.dir (nodeEvent (str "Alice") (str "two") 0 noLinks) = some r₂ ∧
      r₁.ptr = r₂.ptr ∧
      (r₂.dir.vec (StorageClass (str "Alice")).2).length ≤
        (NodeDirectory.empty.vec (StorageClass (str "Alice")).2).length + 1 ∧
      ∃ node, GetNodeFromPtr r₂.dir r₂.ptr = some node ∧ node.S = str "Alice" ∧
        str "one" <:+: node.Chap ∧ str "two" <:+: node.Chap :=
  ⟨Reachable.init,
    AppendTextToDirectory_same_text ToLower NodeDirectory.empty (str "Alice") (str "one")
      (str "two") 0 0 noLinks noLinks Reachable.init⟩

theorem GetNodeFromPtr_noclass (d : NodeDirectory) (p : NodePtr)
    (h : ¬ (1 ≤ p.Class ∧ p.Class ≤ 6)) : GetNodeFromPtr d p = some Node.zero := by
  have e1 : p.Class ≠ 1 := by omega
  have e2 : p.Class ≠ 2 := by omega
  have e3 : p.Class ≠ 3 := by omega
  have e4 : p.Class ≠ 4 := by omega
  have e5 : p.Class ≠ 5 := by omega
  have e6 : p.Class ≠ 6 := by omega
  simp [GetNodeFromPtr, N1GRAM, N2GRAM, N3GRAM, LT128, LT1024, GT1024, e1, e2, e3, e4, e5, e6]

theorem laneFind_miss_of_new (lower : GoString → GoString) (d : NodeDirectory) (c : Int)
    (event : Node) (hinv : LaneInv d c) (hnew : ∀ n ∈ d.vec c, n.S ≠ event.S) :
    (laneFind lower c (d.lane c) event).2 = false := by
  cases hf : (laneFind lower c (d.lane c) event).2 with
  | false => rfl
  | true =>
    have hfind : laneFind lower c (d.lane c) event =
        ((laneFind lower c (d.lane c) event).1, true) := by rw [← hf]
    obtain ⟨node, hnode, hS, _⟩ := laneFind_hit lower d c event _ hinv hfind
    exact absurd hS (hnew node (List.mem_iff_getElem?.mpr ⟨_, (index?_some _ _ _ hnode).2⟩))

/-- C8: in a directory built by `AppendTextToDirectory` calls, appending an event
of a class `c` in 1..6 whose text no node of that class holds returns the
pointer `(c, top)` with `top` the number of nodes of the class before the call,
raises the counter and the number of nodes by one, stores the event under the
returned pointer (so that `GetNodeFromPtr` gives the event with that `NPtr` and
`GetNodeTxtFromPtr` its text), and leaves every node stored before, of every
class, as it was. -/
theorem AppendTextToDirectory_new_text (lower : GoString → GoString) (d : NodeDirectory)
    (event : Node) (c : Int) (hreach : Reachable lower d) (hc : 1 ≤ c ∧ c ≤ 6)
    (hclass : event.NPtr.Class = c) (hnew : ∀ n ∈ d.vec c, n.S ≠ event.S) :
    ∃ r, AppendTextToDirectory lower d event = some r ∧
      d.top c = ((d.vec c).length : Int) ∧
      r.ptr = ⟨c, d.top c⟩ ∧
      r.dir.top c = d.top c + 1 ∧
      (r.dir.vec c).length = (d.vec c).length + 1 ∧
      GetNodeFromPtr r.dir r.ptr = some { event with NPtr := r.ptr } ∧
      GetNodeTxtFromPtr r.dir r.ptr = some event.S ∧
      ∀ (p : NodePtr) (node : Node),
        GetNodeFromPtr d p = some node → GetNodeFromPtr r.dir p = some node := by
  obtain ⟨h1, h6⟩ := hc
  have hinv := hreach.inv
  have hlen := (hinv c h1 h6).top_eq
  have hmiss := laneFind_miss_of_new lower d c event (hinv c h1 h6) hnew
  obtain ⟨r, hr, hptr, _, hvec, htop, _, hother⟩ :=
    AppendTextToDirectory_miss lower d event c h1 h6 hclass hmiss
  have hget : GetNodeFromPtr r.dir r.ptr = some { event with NPtr := r.ptr } := by
    rw [hptr, GetNodeFromPtr_lane _ _ _ h1 h6, hvec, hlen]
    exact index?_append_length _ _
  refine ⟨r, hr, hlen, hptr, htop, by rw [hvec]; simp, hget, ?_, ?_⟩
  · rw [GetNodeTxtFromPtr_eq, hget]; rfl
  · intro p node hp
    by_cases hpc : 1 ≤ p.Class ∧ p.Class ≤ 6
    · obtain ⟨pc, pi⟩ := p
      simp only at hpc
      rw [GetNodeFromPtr_lane _ _ _ hpc.1 hpc.2] at hp ⊢
      by_cases hcc : pc = c
      · subst hcc
        rw [hvec]
        exact index?_append_left _ _ _ _ hp
      · rw [(hother pc hcc).1]
        exact hp
    · rw [GetNodeFromPtr_noclass _ _ hpc] at hp ⊢
      exact hp

theorem AppendTextToDirectory_new_text_witness :
    Reachable ToLower NodeDirectory.empty ∧ ((1 : Int) ≤ 1 ∧ (1 : Int) ≤ 6) ∧
    (nodeEvent (str "Alice") (str "one") 0 noLinks).NPtr.Class = 1 ∧
    (∀ n ∈ NodeDirectory.empty.vec 1, n.S ≠ (nodeEvent (str "Alice") (str "one") 0 noLinks).S) ∧
    ∃ r, AppendTextToDirectory ToLower NodeDirectory.empty
        (nodeEvent (str "Alice") (str "one") 0 noLinks) = some r ∧
      NodeDirectory.empty.top 1 = ((NodeDirectory.empty.vec 1).length : Int) ∧
      r.ptr = ⟨1, NodeDirectory.empty.top 1⟩ ∧
      r.dir.top 1 = NodeDirectory.empty.top 1 + 1 ∧
      (r.dir.vec 1).length = (NodeDirectory.empty.vec 1).length + 1 ∧
      GetNodeFromPtr r.dir r.ptr =
        some { nodeEvent (str "Alice") (str "one") 0 noLinks with NPtr := r.ptr } ∧
      GetNodeTxtFromPtr r.dir r.ptr = some (nodeEvent (str "Alice") (str "one") 0 noLinks).S ∧
      ∀ (p : NodePtr) (node : Node),
        GetNodeFromPtr NodeDirectory.empty p = some node →
          GetNodeFromPtr r.dir p = some node :=
  ⟨Reachable.init, by decide, by decide, by decide,
    AppendTextToDirectory_new_text ToLower NodeDirectory.empty
      (nodeEvent (str "Alice") (str "one") 0 noLinks) 1 Reachable.init (by decide) (by decide)
      (by decide)⟩

/-- C9: in every directory built from the empty one by `AppendTextToDirectory`
calls, for each class `c` in 1..6 the top counter is the length of the node
vector, every index below the top holds a node whose `NPtr` is `(c, index)`,
and for the n-gram classes 1..3 the hash map sends the text of that node to
its index; and no further call lowers a top counter. -/
theorem directory_invariant (lower : GoString → GoString) (d : NodeDirectory)
    (hreach : Reachable lower d) :
    (∀ c : Int, 1 ≤ c → c ≤ 6 →
      d.top c = ((d.vec c).length : Int) ∧
      ∀ i : Int, 0 ≤ i → i < d.top c →
        ∃ node, GetNodeFromPtr d ⟨c, i⟩ = some node ∧ node.NPtr = ⟨c, i⟩ ∧
          (c ≤ 3 → mapGet (d.grams c) node.S = (i, true))) ∧
    (∀ (event : Node) (r : Appended), AppendTextToDirectory lower d event = some r →
      ∀ c : Int, d.top c ≤ r.dir.top c) := by
  have hinv := hreach.inv
  refine ⟨fun c h1 h6 => ⟨(hinv c h1 h6).top_eq, fun i h0 hi => ?_⟩, fun event r hr c => ?_⟩
  · rw [(hinv c h1 h6).top_eq] at hi
    have hlt : i.toNat < (d.vec c).length := by omega
    have hcast : ((i.toNat : Nat) : Int) = i := Int.toNat_of_nonneg h0
    have hget : (d.vec c)[i.toNat]? = some ((d.vec c)[i.toNat]) := List.getElem?_eq_getElem hlt
    refine ⟨(d.vec c)[i.toNat], ?_, ?_, fun hc => ?_⟩
    · rw [GetNodeFromPtr_lane _ _ _ h1 h6]
      unfold index?
      rw [if_neg (by omega)]
      exact hget
    · rw [(hinv c h1 h6).nptr _ _ hget, hcast]
    · rw [(hinv c h1 h6).complete hc _ _ hget, hcast]
  · obtain ⟨r', hr', hcases⟩ := AppendTextToDirectory_cases lower d event hinv
    rw [hr'] at hr
    simp only [Option.some.injEq] at hr
    subst hr
    rcases hcases with ⟨_, hr⟩ | ⟨_, _, hmiss | ⟨slot, node, hhit⟩⟩
    · rw [hr]
    · obtain ⟨_, _, _, _, htop, _, hother⟩ := hmiss
      by_cases hc : c = event.NPtr.Class
      · subst hc; rw [htop]; omega
      · rw [(hother c hc).2.1]
    · obtain ⟨_, _, _, _, _, _, htop, _, _⟩ := hhit
      rw [htop c]

theorem sampleDirA_reachable : Reachable ToLower sampleDirA :=
  Reachable.step (r := ⟨⟨1, 0⟩, sampleDirA, []⟩) (nodeEvent (str "A") (str "one") 0 noLinks)
    Reachable.init (by decide)

theorem directory_invariant_witness :
    Reachable ToLower sampleDirA ∧
    ((∀ c : Int, 1 ≤ c → c ≤ 6 →
      sampleDirA.top c = ((sampleDirA.vec c).length : Int) ∧
      ∀ i : Int, 0 ≤ i → i < sampleDirA.top c →
        ∃ node, GetNodeFromPtr sampleDirA ⟨c, i⟩ = some node ∧ node.NPtr = ⟨c, i⟩ ∧
          (c ≤ 3 → mapGet (sampleDirA.grams c) node.S = (i, true))) ∧
    (∀ (event : Node) (r : Appended),
      AppendTextToDirectory ToLower sampleDirA event = some r →
      ∀ c : Int, sampleDirA.top c ≤ r.dir.top c)) :=
  ⟨sampleDirA_reachable, directory_invariant ToLower sampleDirA sampleDirA_reachable⟩

theorem sameKey_refl (n : Node) : sameKey n n := ⟨rfl, rfl, rfl, rfl⟩

theorem step_keeps (lower : GoString → GoString) (d : NodeDirectory) (event : Node)
    (r : Appended) (hinv : DirInv d) (h : AppendTextToDirectory lower d event = some r)
    (c i : Int) (n : Node) (hn : index? (d.vec c) i = some n) :
    ∃ n', index? (r.dir.vec c) i = some n' ∧ sameKey n' n := by
  obtain ⟨r', hr', hcases⟩ := AppendTextToDirectory_cases lower d event hinv
  rw [hr'] at h
  simp only [Option.some.injEq] at h
  subst h
  rcases hcases with ⟨_, hr⟩ | ⟨_, _, hmiss | ⟨slot, node, hhit⟩⟩
  · rw [hr]; exact ⟨n, hn, sameKey_refl n⟩
  · obtain ⟨_, _, _, hvec, _, _, hother⟩ := hmiss
    by_cases hc : c = event.NPtr.Class
    · subst hc
      rw [hvec]
      exact ⟨n, index?_append_left _ _ _ _ hn, sameKey_refl n⟩
    · rw [(hother c hc).1]
      exact ⟨n, hn, sameKey_refl n⟩
  · obtain ⟨_, hnode, _, _, _, hvec, _, _, hother⟩ := hhit
    by_cases hc : c = event.NPtr.Class
    · subst hc
      rw [hvec]
      obtain ⟨h0, hn'⟩ := index?_some _ _ _ hn
      obtain ⟨x, hx, hxy⟩ := getElem?_set_sameKey' _ _ node
        { node with Chap := mergedChap node.Chap event.Chap } (index?_some _ _ _ hnode).2
        ⟨rfl, rfl, rfl, rfl⟩ _ n hn'
      refine ⟨x, ?_, hxy⟩
      unfold index?
      rw [if_neg (by omega)]
      exact hx
    · rw [hother c hc]
      exact ⟨n, hn, sameKey_refl n⟩

theorem step_origin (lower : GoString → GoString) (d : NodeDirectory) (event : Node)
    (r : Appended) (hinv : DirInv d) (h : AppendTextToDirectory lower d event = some r)
    (c : Int) (n : Node) (hn : n ∈ r.dir.vec c) :
    (∃ n₀ ∈ d.vec c, sameKey n n₀) ∨ n.S = event.S := by
  obtain ⟨r', hr', hcases⟩ := AppendTextToDirectory_cases lower d event hinv
  rw [hr'] at h
  simp only [Option.some.injEq] at h
  subst h
  rcases hcases with ⟨_, hr⟩ | ⟨_, _, hmiss | ⟨slot, node, hhit⟩⟩
  · rw [hr] at hn; exact Or.inl ⟨n, hn, sameKey_refl n⟩
  · obtain ⟨_, _, _, hvec, _, _, hother⟩ := hmiss
    by_cases hc : c = event.NPtr.Class
    · subst hc
      rw [hvec] at hn
      rcases List.mem_append.mp hn with h' | h'
      · exact Or.inl ⟨n, h', sameKey_refl n⟩
      · simp only [List.mem_singleton] at h'
        subst h'
        exact Or.inr rfl
    · rw [(hother c hc).1] at hn
      exact Or.inl ⟨n, hn, sameKey_refl n⟩
  · obtain ⟨_, hnode, _, _, _, hvec, _, _, hother⟩ := hhit
    by_cases hc : c = event.NPtr.Class
    · subst hc
      rw [hvec] at hn
      obtain ⟨i, hi⟩ := List.mem_iff_getElem?.mp hn
      obtain ⟨y, hy, hxy⟩ := getElem?_set_sameKey _ _ node
        { node with Chap := mergedChap node.Chap event.Chap } (index?_some _ _ _ hnode).2
        ⟨rfl, rfl, rfl, rfl⟩ i n hi
      exact Or.inl ⟨y, List.getElem?_mem hy, hxy⟩
    · rw [hother c hc] at hn
      exact Or.inl ⟨n, hn, sameKey_refl n⟩

/-- A lookup that misses hands a message to the sink only if some node of the
class holds a different text with the same lower-casing. -/
theorem laneAlt_variant (lower : GoString → GoString) (d : NodeDirectory) (c : Int)
    (event : Node) (hinv : LaneInv d c)
    (hmiss : (laneFind lower c (d.lane c) event).2 = false)
    (halt : laneAlt lower c (d.lane c) event = true) :
    ∃ n ∈ d.vec c, lower n.S = lower event.S ∧ n.S ≠ event.S := by
  simp only [laneFind, laneAlt, NodeDirectory.lane] at hmiss halt
  split_ifs at hmiss halt with hc
  · obtain ⟨k, v, hmem, hlow⟩ := (altCapsKey_iff lower _ _).mp halt
    obtain ⟨v', hv'⟩ := mapGet_of_mem _ _ _ hmem
    obtain ⟨node, hnode, hS⟩ := hinv.sound hc k v' hv'
    refine ⟨node, List.getElem?_mem (index?_some _ _ _ hnode).2, by rw [hS]; exact hlow, ?_⟩
    intro heq
    rw [hS] at heq
    rw [← heq, hv'] at hmiss
    simp at hmiss
  · unfold LinearFindText at hmiss halt
    have hfind : LinearFindText.loop lower event true (d.vec c) 0 =
        ((LinearFindText.loop lower event true (d.vec c) 0).1, true) := Prod.ext rfl halt
    obtain ⟨k, node, _, hk, hm, _⟩ := loop_true lower event true (d.vec c) 0 _ hfind
    have hmem := List.getElem?_mem hk
    have hm2 : lower node.S = lower event.S := by simpa [textMatch] using hm.2
    refine ⟨node, hmem, hm2, fun heq => ?_⟩
    exact loop_false lower event false (d.vec c) 0 hmiss node hmem ⟨hm.1, by simpa using heq⟩

theorem no_variant_no_call (lower : GoString → GoString) (d : NodeDirectory) (event : Node)
    (r : Appended) (hinv : DirInv d) (h : AppendTextToDirectory lower d event = some r)
    (hnone : ∀ n ∈ d.vec event.NPtr.Class, lower n.S = lower event.S → n.S = event.S) :
    r.errs = [] := by
  obtain ⟨r', hr', hcases⟩ := AppendTextToDirectory_cases lower d event hinv
  rw [hr'] at h
  simp only [Option.some.injEq] at h
  subst h
  rcases hcases with ⟨_, hr⟩ | ⟨h1, h6, hmiss | ⟨slot, node, hhit⟩⟩
  · rw [hr]
  · obtain ⟨hfalse, _, herrs, _⟩ := hmiss
    rw [herrs]
    unfold laneErrs
    rw [hfalse]
    simp only [Bool.false_eq_true, if_false]
    split_ifs with halt
    · obtain ⟨n, hn, hlow, hne⟩ := laneAlt_variant lower d _ event (hinv _ h1 h6) hfalse halt
      exact absurd (hnone n hn hlow) hne
    · rfl
  · exact hhit.2.2.2.2.1

theorem StorageClass_fst (s : GoString) : (StorageClass s).1 = (s.length : Int) := by
  rw [StorageClass_eq]

theorem variant_warns (lower : GoString → GoString) (d : NodeDirectory) (e₂ node₁ : Node)
    (c : Int) (r₂ : Appended) (hinv : DirInv d) (h1 : 1 ≤ c) (h6 : c ≤ 6)
    (hclass : e₂.NPtr.Class = c) (hmem : node₁ ∈ d.vec c)
    (hlow : lower node₁.S = lower e₂.S) (hL : ¬ c ≤ 3 → e₂.L = node₁.L)
    (hnew : ∀ n ∈ d.vec c, n.S ≠ e₂.S)
    (h : AppendTextToDirectory lower d e₂ = some r₂) :
    r₂.errs = [WARN_DIFFERENT_CAPITALS ++ str " (" ++ e₂.S ++ str ")"] := by
  have hmiss := laneFind_miss_of_new lower d c e₂ (hinv c h1 h6) hnew
  obtain ⟨r, hr, _, herrs, _⟩ := AppendTextToDirectory_miss lower d e₂ c h1 h6 hclass hmiss
  rw [hr] at h
  simp only [Option.some.injEq] at h
  subst h
  rw [herrs]
  unfold laneErrs
  rw [hmiss]
  simp only [Bool.false_eq_true, if_false]
  have halt : laneAlt lower c (d.lane c) e₂ = true := by
    simp only [laneAlt, NodeDirectory.lane]
    split_ifs with hc
    · obtain ⟨i, hi⟩ := List.mem_iff_getElem?.mp hmem
      have hget := (hinv c h1 h6).complete hc i node₁ hi
      exact (altCapsKey_iff lower _ _).mpr ⟨node₁.S, i, mapGet_true_mem _ _ _ hget, hlow⟩
    · unfold LinearFindText
      cases hres : (LinearFindText.loop lower e₂ true (d.vec c) 0).2 with
      | true => rfl
      | false =>
        exact absurd ⟨hL hc, by simpa using hlow⟩
          (loop_false lower e₂ true (d.vec c) 0 hres node₁ hmem)
  rw [if_pos halt]

/-- What holds of a case variant: in a directory built by `AppendTextToDirectory`
calls, for two different texts of the same class that are equal after lower-casing,
appending the first and then the second returns two different pointers of that
class and both texts stay stored under them; the second call hands the sink
exactly one message, `WARN_DIFFERENT_CAPITALS` followed by the text in brackets,
when the second text was not stored before and, in the linearly scanned classes
4..6, the two texts have the same byte length; and a call hands the sink
nothing when no node of the class holds a different text with the same
lower-casing. -/
theorem AppendTextToDirectory_case_variant (lower : GoString → GoString) (d : NodeDirectory)
    (t1 t2 chap1 chap2 : GoString) (cptr1 cptr2 : Int) (I1 I2 : List (List Link))
    (hreach : Reachable lower d) (hne : t1 ≠ t2) (hlow : lower t1 = lower t2)
    (hcl : (StorageClass t1).2 = (StorageClass t2).2) :
    (∃ r₁ r₂ n₁ n₂,
      AppendTextToDirectory lower d (nodeEvent t1 chap1 cptr1 I1) = some r₁ ∧
      AppendTextToDirectory lower r₁.dir (nodeEvent t2 chap2 cptr2 I2) = some r₂ ∧
      r₁.ptr ≠ r₂.ptr ∧
      r₁.ptr.Class = (StorageClass t1).2 ∧ r₂.ptr.Class = (StorageClass t1).2 ∧
      GetNodeFromPtr r₂.dir r₁.ptr = some n₁ ∧ n₁.S = t1 ∧
      GetNodeFromPtr r₂.dir r₂.ptr = some n₂ ∧ n₂.S = t2 ∧
      ((∀ n ∈ d.vec (StorageClass t1).2, n.S ≠ t2) →
        ((StorageClass t1).2 ≤ 3 ∨ t1.length = t2.length) →
        r₂.errs = [WARN_DIFFERENT_CAPITALS ++ str " (" ++ t2 ++ str ")"])) ∧
    (∀ (event : Node) (r : Appended), AppendTextToDirectory lower d event = some r →
      (∀ n ∈ d.vec event.NPtr.Class, lower n.S = lower event.S → n.S = event.S) →
      r.errs = []) := by
  have hinv := hreach.inv
  refine ⟨?_, fun event r hr hnone => no_variant_no_call lower d event r hinv hr hnone⟩
  obtain ⟨h1, h6⟩ := StorageClass_range t1
  generalize hc : (StorageClass t1).2 = c at h1 h6 hcl ⊢
  have hc1 : (nodeEvent t1 chap1 cptr1 I1).NPtr.Class = c := hc
  have hc2 : (nodeEvent t2 chap2 cptr2 I2).NPtr.Class = c := hcl.symm
  obtain ⟨r₁, hr₁, _⟩ := AppendTextToDirectory_cases lower d (nodeEvent t1 chap1 cptr1 I1) hinv
  have hinv₁ := DirInv_step lower d _ r₁ hinv hr₁
  obtain ⟨r₂, hr₂, _⟩ :=
    AppendTextToDirectory_cases lower r₁.dir (nodeEvent t2 chap2 cptr2 I2) hinv₁
  obtain ⟨node₁, hcl₁, _, hnode₁, hS₁, hL₁, _, _⟩ :=
    find_after_append lower d _ _ c r₁ hinv h1 h6 hc1 rfl rfl hr₁
  obtain ⟨node₂, hcl₂, _, hnode₂, hS₂, _, _, _⟩ :=
    find_after_append lower r₁.dir _ _ c r₂ hinv₁ h1 h6 hc2 rfl rfl hr₂
  obtain ⟨n₁, hn₁, hkey⟩ := step_keeps lower r₁.dir _ r₂ hinv₁ hr₂ c _ node₁ hnode₁
  have hp₁ : r₁.ptr = ⟨c, r₁.ptr.CPtr⟩ := by rw [← hcl₁]
  have hp₂ : r₂.ptr = ⟨c, r₂.ptr.CPtr⟩ := by rw [← hcl₂]
  have hS₁' : n₁.S = t1 := hkey.2.1.trans hS₁
  have hS₂' : node₂.S = t2 := hS₂
  refine ⟨r₁, r₂, n₁, node₂, hr₁, hr₂, ?_, hcl₁, hcl₂, ?_, hS₁', ?_, hS₂', ?_⟩
  · intro heq
    rw [heq] at hn₁
    rw [hn₁] at hnode₂
    simp only [Option.some.injEq] at hnode₂
    rw [hnode₂] at hS₁'
    exact hne (hS₁'.symm.trans hS₂')
  · rw [hp₁, GetNodeFromPtr_lane _ _ _ h1 h6]; exact hn₁
  · rw [hp₂, GetNodeFromPtr_lane _ _ _ h1 h6]; exact hnode₂
  · intro hnew hlen
    have hmem₁ : node₁ ∈ r₁.dir.vec c := List.getElem?_mem (index?_some _ _ _ hnode₁).2
    refine variant_warns lower r₁.dir (nodeEvent t2 chap2 cptr2 I2) node₁ c r₂ hinv₁ h1 h6 hc2
      hmem₁ ?_ ?_ ?_ hr₂
    · rw [hS₁]; exact hlow
    · intro hc3
      rw [hL₁ hc3]
      simp only [nodeEvent, StorageClass_fst]
      rcases hlen with h | h
      · exact absurd h hc3
      · rw [h]
    · intro n hn
      rcases step_origin lower d _ r₁ hinv hr₁ c n hn with ⟨n₀, hn₀, hk⟩ | hS
      · rw [hk.2.1]; exact hnew n₀ hn₀
      · rw [hS]; exact hne

theorem AppendTextToDirectory_case_variant_witness :
    Reachable ToLower NodeDirectory.empty ∧ str "Alice" ≠ str "ALICE" ∧
    ToLower (str "Alice") = ToLower (str "ALICE") ∧
    (StorageClass (str "Alice")).2 = (StorageClass (str "ALICE")).2 ∧
    ((∃ r₁ r₂ n₁ n₂,
      AppendTextToDirectory ToLower NodeDirectory.empty
        (nodeEvent (str "Alice") (str "one") 0 noLinks) = some r₁ ∧
      AppendTextToDirectory ToLower r₁.dir (nodeEvent (str "ALICE") (str "one") 0 noLinks) = some r₂ ∧
      r₁.ptr ≠ r₂.ptr ∧
      r₁.ptr.Class = (StorageClass (str "Alice")).2 ∧
      r₂.ptr.Class = (StorageClass (str "Alice")).2 ∧
      GetNodeFromPtr r₂.dir r₁.ptr = some n₁ ∧ n₁.S = str "Alice" ∧
      GetNodeFromPtr r₂.dir r₂.ptr = some n₂ ∧ n₂.S = str "ALICE" ∧
      ((∀ n ∈ NodeDirectory.empty.vec (StorageClass (str "Alice")).2, n.S ≠ str "ALICE") →
        ((StorageClass (str "Alice")).2 ≤ 3 ∨ (str "Alice").length = (str "ALICE").length) →
        r₂.errs = [WARN_DIFFERENT_CAPITALS ++ str " (" ++ str "ALICE" ++ str ")"])) ∧
    (∀ (event : Node) (r : Appended),
      AppendTextToDirectory ToLower NodeDirectory.empty event = some r →
      (∀ n ∈ NodeDirectory.empty.vec event.NPtr.Class,
        ToLower n.S = ToLower event.S → n.S = event.S) →
      r.errs = [])) :=
  ⟨Reachable.init, by decide, by decide, by decide,
    AppendTextToDirectory_case_variant ToLower NodeDirectory.empty (str "Alice") (str "ALICE")
      (str "one") (str "one") 0 0 noLinks noLinks Reachable.init (by decide) (by decide) (by decide)⟩

/-- C10 (the failing input): the texts `a b c k` and `a b c K` with `K` the Kelvin
sign U+212A are different, both of class 4, and equal after lower-casing, but
have 7 and 9 bytes.  Appended in this order to the empty directory they get two
different pointers, and the second call hands nothing to the sink:
`LinearFindText` passes over a node of another length before it lower-cases.
The hash lanes of `CheckExistingOrAltCaps` have no such test: for the texts `k`
and `K` (the Kelvin sign), both of class 1, the second call hands the sink the
warning. -/
theorem case_variant_without_warning :
    textSmallK ≠ textKelvin ∧ ToLower textSmallK = ToLower textKelvin ∧
    (StorageClass textSmallK).2 = 4 ∧ (StorageClass textKelvin).2 = 4 ∧
    (∃ r₁ r₂,
      AppendTextToDirectory ToLower NodeDirectory.empty
        (nodeEvent textSmallK (str "one") 0 noLinks) = some r₁ ∧
      AppendTextToDirectory ToLower r₁.dir (nodeEvent textKelvin (str "one") 0 noLinks) = some r₂ ∧
      r₁.ptr = ⟨4, 0⟩ ∧ r₂.ptr = ⟨4, 1⟩ ∧ r₂.errs = []) ∧
    (StorageClass (str "k")).2 = 1 ∧ (StorageClass [0xE2, 0x84, 0xAA]).2 = 1 ∧
    ∃ s₁ s₂,
      AppendTextToDirectory ToLower NodeDirectory.empty
        (nodeEvent (str "k") (str "one") 0 noLinks) = some s₁ ∧
      AppendTextToDirectory ToLower s₁.dir
        (nodeEvent [0xE2, 0x84, 0xAA] (str "one") 0 noLinks) = some s₂ ∧
      s₁.ptr = ⟨1, 0⟩ ∧ s₂.ptr = ⟨1, 1⟩ ∧
      s₂.errs = [WARN_DIFFERENT_CAPITALS ++ str " (" ++ [0xE2, 0x84, 0xAA] ++ str ")"] := by
  refine ⟨by decide, by decide, by decide, by decide, ⟨_, _, rfl, rfl, rfl, rfl, rfl⟩,
    by decide, by decide, _, _, rfl, rfl, rfl, rfl, rfl⟩

/-- C5 (the failing input): node `A` is stored at `(1,0)` by one call of
`AppendTextToDirectory`; `AppendLinkToNode` from `(1,0)` to `(1,0)` with the
arrow `then` does not fail: it returns a changed directory in which bucket 4
of `A` holds a link whose destination is `A` itself. -/
theorem AppendLinkToNode_accepts_self_loop :
    AppendTextToDirectory ToLower NodeDirectory.empty (nodeEvent (str "A") (str "one") 0 noLinks) =
      some ⟨⟨1, 0⟩, sampleDirA, []⟩ ∧
    AppendLinkToNode RangeOrder.insertion sampleArrows sampleDirA ⟨1, 0⟩ sampleLink ⟨1, 0⟩ =
      some sampleDirALoop ∧
    sampleDirALoop ≠ sampleDirA ∧
    GetNodeFromPtr sampleDirALoop ⟨1, 0⟩ =
      some { sampleNodeA with I := [[], [], [], [], [sampleLoop], [], []] } ∧
    sampleLoop.Dst = sampleNodeA.NPtr := by
  refine ⟨by decide, by decide, by decide, by decide, by decide⟩

theorem IdempDBAddLink_two_half_edges_witness :
    sampleNodeA.NPtr ≠ sampleNodeB.NPtr ∧
    index? sampleArrows sampleLink.Arr = some ⟨4, str "then", str "then", 0⟩ ∧
    STIndexToSTType (4 : Int) = 1 ∧ ((-3 : Int) ≤ 1 ∧ (1 : Int) ≤ 3) ∧
    ∃ fwd_table bwd_table : String,
      STTypeDBChannel 1 = some fwd_table ∧ STTypeDBChannel (-1) = some bwd_table ∧
      IdempDBAddLink (fun _ => true) sampleArrows sampleInverses sampleNodeA sampleLink
          sampleNodeB =
        ⟨[⟨fwd_table, ⟨sampleLink.Arr, sampleLink.Wgt, sampleLink.Ctx, sampleNodeB.NPtr⟩,
            sampleNodeA.NPtr⟩,
          ⟨bwd_table, ⟨mapRead sampleInverses sampleLink.Arr, sampleLink.Wgt, [],
            sampleNodeA.NPtr⟩, sampleNodeB.NPtr⟩],
         .ret ()⟩ :=
  ⟨by decide, by decide, by decide, by decide,
    IdempDBAddLink_two_half_edges (fun _ => true) sampleArrows sampleInverses sampleNodeA
      sampleNodeB sampleLink ⟨4, str "then", str "then", 0⟩ 1 (by decide) (by decide) (by decide)
      (by decide)⟩

theorem IdempDBAddLink_self_loop_witness :
    sampleNodeA.NPtr = sampleNodeA.NPtr ∧
    IdempDBAddLink (fun _ => true) sampleArrows sampleInverses sampleNodeA sampleLink
      sampleNodeA = ⟨[], .exit (-1)⟩ :=
  ⟨rfl, IdempDBAddLink_self_loop (fun _ => true) sampleArrows sampleInverses sampleNodeA
    sampleNodeA sampleLink rfl⟩

theorem StorageClass_spec_witness :
    (str "fairy castles").count 32 = 1 ∧ (StorageClass (str "fairy castles")).2 = N2GRAM :=
  ⟨by decide, (StorageClass_spec.1 (str "fairy castles")).2.2.1 (by decide)⟩

/-! ## Chapters and arrow types -/

theorem NodeDirectory.ext_lanes (d d' : NodeDirectory) (hv : ∀ c, d'.vec c = d.vec c)
    (ht : ∀ c, d'.top c = d.top c) (hg : ∀ c, d'.grams c = d.grams c) : d' = d := by
  have v1 := hv 1
  have v2 := hv 2
  have v3 := hv 3
  have v4 := hv 4
  have v5 := hv 5
  have v6 := hv 6
  have t1 := ht 1
  have t2 := ht 2
  have t3 := ht 3
  have t4 := ht 4
  have t5 := ht 5
  have t6 := ht 6
  have g1 := hg 1
  have g2 := hg 2
  have g3 := hg 3
  clear hv ht hg
  cases d
  cases d'
  simp [NodeDirectory.vec, NodeDirectory.top, NodeDirectory.grams, N1GRAM, N2GRAM, N3GRAM,
    LT128, LT1024, GT1024] at v1 v2 v3 v4 v5 v6 t1 t2 t3 t4 t5 t6 g1 g2 g3
  subst_vars
  rfl

theorem index?_set_ne {α : Type} (xs : List α) (i j : Int) (y : α) (hi : 0 ≤ i) (hij : j ≠ i) :
    index? (xs.set i.toNat y) j = index? xs j := by
  unfold index?
  split_ifs with hj
  · rfl
  · rw [List.getElem?_set_ne]
    omega

theorem mergedChap_idem (old chap : GoString) :
    mergedChap (mergedChap old chap) chap = mergedChap old chap := by
  have h : strings_Contains (mergedChap old chap) chap = true := by
    simpa [strings_Contains] using infix_mergedChap old chap
  generalize hm : mergedChap old chap = m at h ⊢
  unfold mergedChap
  rw [if_pos h]

/-- C11: for a node stored at `(class, cptr)`, `IdempAddChapterToNode` returns the
directory as it was when the node's chapter contains `chap`; otherwise the
node's chapter becomes the old chapter, a comma and `chap`, with every other
field of the node, every other node, and the counters and maps as before; and
a second call with the same `chap` changes nothing more. -/
theorem IdempAddChapterToNode_spec (d : NodeDirectory) (class_ cptr : Int) (chap : GoString)
    (node : Node) (hc : 1 ≤ class_ ∧ class_ ≤ 6)
    (hnode : GetNodeFromPtr d ⟨class_, cptr⟩ = some node) :
    (chap <:+: node.Chap → IdempAddChapterToNode d class_ cptr chap = some d) ∧
    (¬ chap <:+: node.Chap →
      ∃ d', IdempAddChapterToNode d class_ cptr chap = some d' ∧
        GetNodeFromPtr d' ⟨class_, cptr⟩ =
          some { node with Chap := node.Chap ++ str "," ++ chap } ∧
        (∀ p : NodePtr, p ≠ ⟨class_, cptr⟩ → GetNodeFromPtr d' p = GetNodeFromPtr d p) ∧
        (∀ c, d'.top c = d.top c) ∧ (∀ c, d'.grams c = d.grams c)) ∧
    (∃ d₁, IdempAddChapterToNode d class_ cptr chap = some d₁ ∧
      IdempAddChapterToNode d₁ class_ cptr chap = some d₁) := by
  obtain ⟨h1, h6⟩ := hc
  rw [GetNodeFromPtr_lane _ _ _ h1 h6] at hnode
  obtain ⟨h0, _⟩ := index?_some _ _ _ hnode
  obtain ⟨d', hd', hvec, htop, hgrams, hother⟩ :=
    IdempAddChapterToNode_lane d class_ h1 h6 cptr chap node hnode
  refine ⟨fun hin => ?_, fun hnin => ?_, ?_⟩
  · have hm : mergedChap node.Chap chap = node.Chap := by
      unfold mergedChap
      rw [if_pos (by simpa [strings_Contains] using hin)]
    rw [hm] at hvec
    rw [hd']
    congr 1
    refine NodeDirectory.ext_lanes d d' (fun c => ?_) htop hgrams
    by_cases hcc : c = class_
    · subst hcc
      rw [hvec]
      exact index?_set_self _ _ _ hnode
    · exact hother c hcc
  · have hm : mergedChap node.Chap chap = node.Chap ++ str "," ++ chap := by
      unfold mergedChap
      rw [if_neg (by simpa [strings_Contains] using hnin)]
    rw [hm] at hvec
    refine ⟨d', hd', ?_, fun p hp => ?_, htop, hgrams⟩
    · rw [GetNodeFromPtr_lane _ _ _ h1 h6, hvec]
      exact index?_set _ _ _ _ hnode
    · by_cases hpc : 1 ≤ p.Class ∧ p.Class ≤ 6
      · obtain ⟨pc, pi⟩ := p
        simp only at hpc
        rw [GetNodeFromPtr_lane _ _ _ hpc.1 hpc.2, GetNodeFromPtr_lane _ _ _ hpc.1 hpc.2]
        by_cases hcc : pc = class_
        · subst hcc
          have hne : pi ≠ cptr := fun h => hp (by rw [h])
          rw [hvec]
          exact index?_set_ne _ _ _ _ h0 hne
        · rw [hother pc hcc]
      · rw [GetNodeFromPtr_noclass _ _ hpc, GetNodeFromPtr_noclass _ _ hpc]
  · refine ⟨d', hd', ?_⟩
    have hnode' : index? (d'.vec class_) cptr =
        some { node with Chap := mergedChap node.Chap chap } := by
      rw [hvec]; exact index?_set _ _ _ _ hnode
    obtain ⟨d₂, hd₂, hvec₂, htop₂, hgrams₂, hother₂⟩ :=
      IdempAddChapterToNode_lane d' class_ h1 h6 cptr chap _ hnode'
    rw [hd₂]
    congr 1
    refine NodeDirectory.ext_lanes d' d₂ (fun c => ?_) htop₂ hgrams₂
    by_cases hcc : c = class_
    · subst hcc
      rw [hvec₂]
      simp only [mergedChap_idem]
      exact index?_set_self _ _ _ hnode'
    · exact hother₂ c hcc

theorem IdempAddChapterToNode_spec_witness :
    ((1 : Int) ≤ 1 ∧ (1 : Int) ≤ 6) ∧ GetNodeFromPtr sampleDirA ⟨1, 0⟩ = some sampleNodeA ∧
    ((str "two" <:+: sampleNodeA.Chap →
        IdempAddChapterToNode sampleDirA 1 0 (str "two") = some sampleDirA) ∧
    (¬ str "two" <:+: sampleNodeA.Chap →
      ∃ d', IdempAddChapterToNode sampleDirA 1 0 (str "two") = some d' ∧
        GetNodeFromPtr d' ⟨1, 0⟩ =
          some { sampleNodeA with Chap := sampleNodeA.Chap ++ str "," ++ str "two" } ∧
        (∀ p : NodePtr, p ≠ ⟨1, 0⟩ → GetNodeFromPtr d' p = GetNodeFromPtr sampleDirA p) ∧
        (∀ c, d'.top c = sampleDirA.top c) ∧ (∀ c, d'.grams c = sampleDirA.grams c)) ∧
    (∃ d₁, IdempAddChapterToNode sampleDirA 1 0 (str "two") = some d₁ ∧
      IdempAddChapterToNode d₁ 1 0 (str "two") = some d₁)) :=
  ⟨by decide, by decide,
    IdempAddChapterToNode_spec sampleDirA 1 0 (str "two") sampleNodeA (by decide) (by decide)⟩

/-- C12: `GetSTIndexByName` gives `3 + k` for the polarity `+` and `3 - k` for
`-` on `leadsto`, `contains`, `properties` (k = 1, 2, 3) and 3 on `similarity`
for every polarity; these indices lie in 0..6, `STIndexToSTType` of them is the
signed type `+k`, `-k` or 0, so the two polarities of a name give opposite
types, and `STTypeToSTIndex` undoes `STIndexToSTType`. -/
theorem GetSTIndexByName_spec :
    (GetSTIndexByName (str "leadsto") (str "+") = 3 + 1 ∧
     GetSTIndexByName (str "leadsto") (str "-") = 3 - 1 ∧
     GetSTIndexByName (str "contains") (str "+") = 3 + 2 ∧
     GetSTIndexByName (str "contains") (str "-") = 3 - 2 ∧
     GetSTIndexByName (str "properties") (str "+") = 3 + 3 ∧
     GetSTIndexByName (str "properties") (str "-") = 3 - 3) ∧
    (∀ pm : GoString, GetSTIndexByName (str "similarity") pm = 3) ∧
    (∀ stname ∈ [str "leadsto", str "contains", str "properties", str "similarity"],
      ∀ pm ∈ [str "+", str "-"],
        0 ≤ GetSTIndexByName stname pm ∧ GetSTIndexByName stname pm ≤ 6) ∧
    (STIndexToSTType (GetSTIndexByName (str "leadsto") (str "+")) = 1 ∧
     STIndexToSTType (GetSTIndexByName (str "leadsto") (str "-")) = -1 ∧
     STIndexToSTType (GetSTIndexByName (str "contains") (str "+")) = 2 ∧
     STIndexToSTType (GetSTIndexByName (str "contains") (str "-")) = -2 ∧
     STIndexToSTType (GetSTIndexByName (str "properties") (str "+")) = 3 ∧
     STIndexToSTType (GetSTIndexByName (str "properties") (str "-")) = -3 ∧
     STIndexToSTType (GetSTIndexByName (str "similarity") (str "+")) = 0 ∧
     STIndexToSTType (GetSTIndexByName (str "similarity") (str "-")) = 0) ∧
    (∀ stname ∈ [str "leadsto", str "contains", str "properties", str "similarity"],
      STIndexToSTType (GetSTIndexByName stname (str "+")) =
        -STIndexToSTType (GetSTIndexByName stname (str "-"))) ∧
    (∀ i : Int, STTypeToSTIndex (STIndexToSTType i) = i) := by
  refine ⟨by decide, fun pm => ?_, by decide, by decide, by decide, fun i => ?_⟩
  · rfl
  · simp [STTypeToSTIndex, STIndexToSTType]


/-! ## Stored functions: the neighbour probes -/

theorem foldl_keep {α β : Type} (p : α → Prop) [DecidablePred p] (f : α → β) (xs : List α)
    (init : List β) :
    xs.foldl (fun acc x => if p x then acc ++ [f x] else acc) init =
      init ++ (xs.filter (fun x => decide (p x))).map f := by
  induction xs generalizing init with
  | nil => simp
  | cons x rest ih =>
    simp only [List.foldl_cons]
    rw [ih]
    by_cases hx : p x
    · simp [hx, List.filter_cons]
    · simp [hx, List.filter_cons]

theorem GetNeighboursByType_bucketOf (db : List NodeRow) (x : NodePtr) (s : Int) (col : String)
    (hcol : STTypeDBChannel s = some col) :
    GetNeighboursByType db x s = some none ∧ bucketOf db x s = [] ∨
    GetNeighboursByType db x s = some (some (bucketOf db x s)) := by
  unfold bucketOf
  simp only [GetNeighboursByType, hcol]
  cases (List.find? (fun row => decide (row.NPtr = x)) db).bind (fun row => row.column col) with
  | none => exact Or.inl ⟨rfl, rfl⟩
  | some ls => exact Or.inr rfl

theorem GetFwdLinks_eq (db : List NodeRow) (x : NodePtr) (ex : List NodePtr) (s : Int)
    (col : String) (hcol : STTypeDBChannel s = some col) :
    GetFwdLinks db x (some ex) s =
      some ((bucketOf db x s).filter (fun l => decide (l.Arr ≠ 0 ∧ l.Dst ∉ ex))) := by
  have hf : (fun (neighbours : List Link) (lnk : Link) =>
      if lnk.Arr = 0 then neighbours
      else match some ex with
        | none => neighbours
        | some ex => if lnk.Dst ∉ ex then neighbours ++ [lnk] else neighbours) =
      (fun acc l => if l.Arr ≠ 0 ∧ l.Dst ∉ ex then acc ++ [(fun l => l) l] else acc) := by
    funext acc l
    by_cases h0 : l.Arr = 0
    · simp [h0]
    · by_cases hd : l.Dst ∈ ex <;> simp [h0, hd]
  rcases GetNeighboursByType_bucketOf db x s col hcol with ⟨h, hb⟩ | h
  · simp only [GetFwdLinks, h, hb, List.filter_nil]
  · simp only [GetFwdLinks, h]
    rw [hf, foldl_keep]
    simp

theorem GetFwdNodes_eq (db : List NodeRow) (x : NodePtr) (ex : List NodePtr) (s : Int)
    (col : String) (hcol : STTypeDBChannel s = some col) :
    GetFwdNodes db x (some ex) s =
      some (((bucketOf db x s).filter (fun l => decide (l.Arr ≠ 0 ∧ l.Dst ∉ ex))).map
        (fun l => l.Dst)) := by
  have hf : (fun (neighbours : List NodePtr) (lnk : Link) =>
      if lnk.Arr = 0 then neighbours
      else match some ex with
        | none => neighbours
        | some ex => if lnk.Dst ∉ ex then neighbours ++ [lnk.Dst] else neighbours) =
      (fun acc l => if l.Arr ≠ 0 ∧ l.Dst ∉ ex then acc ++ [(fun l => l.Dst) l] else acc) := by
    funext acc l
    by_cases h0 : l.Arr = 0
    · simp [h0]
    · by_cases hd : l.Dst ∈ ex <;> simp [h0, hd]
  rcases GetNeighboursByType_bucketOf db x s col hcol with ⟨h, hb⟩ | h
  · simp only [GetFwdNodes, h, hb, List.filter_nil, List.map_nil]
  · simp only [GetFwdNodes, h]
    rw [hf, foldl_keep]
    simp

/-- C15 (the failing input): node `A` holds in its bucket `+1` one link with the
arrow 0 to `B`.  With the exclude list `{A}`, `GetFwdLinks` skips the link,
but `GetNCFwdLinks`, with a chapter pattern that matches and an empty context,
returns it: a link with the arrow 0. -/
theorem GetNCFwdLinks_returns_sentinel :
    GetFwdLinks sentinelDB ⟨1, 0⟩ (some [⟨1, 0⟩]) 1 = some [] ∧
    GetNCFwdLinks sampleBuiltins sentinelDB ⟨1, 0⟩ [] [] (some [⟨1, 0⟩]) 1 =
      some [plainLink 0 ⟨1, 1⟩] ∧
    (plainLink 0 ⟨1, 1⟩).Arr = 0 := by
  refine ⟨by decide, by decide, rfl⟩

/-! ## Stored functions: context match and story starts -/

theorem match_context.scan_true_iff (env : Builtins) (db_ref user_set : List SQLText)
    (hany : str "any" ∉ user_set) (hempty : [] ∉ user_set) :
    match_context.scan env db_ref user_set = true ↔
      ∃ u ∈ user_set, ∃ t ∈ db_ref, ∃ m,
        env.substring_from t (env.lower (u.filter (fun ch => ch ≠ 124))) = some m ∧
          3 < m.length := by
  induction user_set with
  | nil => simp [match_context.scan]
  | cons item rest ih =>
    have hitem : ¬ (item = str "any" ∨ item = []) := by
      rintro (h | h)
      · exact hany (h ▸ List.mem_cons_self _ _)
      · exact hempty (h ▸ List.mem_cons_self _ _)
    have ih' := ih (fun h => hany (List.mem_cons_of_mem _ h))
      (fun h => hempty (List.mem_cons_of_mem _ h))
    have hhead : (db_ref.any (fun try_ =>
          match_context.test env (item.filter (fun ch => ch ≠ 124)) try_) = true) ↔
        ∃ t ∈ db_ref, ∃ m,
          env.substring_from t (env.lower (item.filter (fun ch => ch ≠ 124))) = some m ∧
            3 < m.length := by
      simp only [List.any_eq_true]
      constructor
      · rintro ⟨t, ht, h⟩
        unfold match_context.test at h
        cases hsub : env.substring_from t (env.lower (item.filter (fun ch => ch ≠ 124))) with
        | none => rw [hsub] at h; simp at h
        | some m =>
          rw [hsub] at h
          exact ⟨t, ht, m, hsub, by simpa using h⟩
      · rintro ⟨t, ht, m, hm, hlen⟩
        refine ⟨t, ht, ?_⟩
        unfold match_context.test
        rw [hm]
        simpa using hlen
    simp only [match_context.scan, if_neg hitem]
    by_cases hh : (db_ref.any (fun try_ =>
          match_context.test env (item.filter (fun ch => ch ≠ 124)) try_) = true)
    · rw [if_pos hh]
      simp only [true_iff]
      obtain ⟨t, ht, m, hm, hlen⟩ := hhead.mp hh
      exact ⟨item, List.mem_cons_self _ _, t, ht, m, hm, hlen⟩
    · rw [if_neg hh, ih']
      constructor
      · rintro ⟨u, hu, rest'⟩
        exact ⟨u, List.mem_cons_of_mem _ hu, rest'⟩
      · rintro ⟨u, hu, t, ht, m, hm, hlen⟩
        rcases List.mem_cons.mp hu with rfl | hu'
        · exact absurd (hhead.mpr ⟨t, ht, m, hm, hlen⟩) hh
        · exact ⟨u, hu', t, ht, m, hm, hlen⟩

theorem match_context.scan_any (env : Builtins) (db_ref user_set : List SQLText)
    (h : str "any" ∈ user_set ∨ [] ∈ user_set) :
    match_context.scan env db_ref user_set = true := by
  induction user_set with
  | nil => simp at h
  | cons item rest ih =>
    simp only [match_context.scan]
    by_cases hitem : item = str "any" ∨ item = []
    · rw [if_pos hitem]
    · rw [if_neg hitem]
      have hrest : str "any" ∈ rest ∨ [] ∈ rest := by
        rcases h with h | h
        · rcases List.mem_cons.mp h with h' | h'
          · exact absurd (Or.inl h'.symm) hitem
          · exact Or.inl h'
        · rcases List.mem_cons.mp h with h' | h'
          · exact absurd (Or.inr h'.symm) hitem
          · exact Or.inr h'
      split_ifs
      · rfl
      · exact ih hrest

/-- C17 (as amended): `match_context` returns true when `user_set` is empty, when
`db_set` is empty, and when `user_set` holds the token `any` or the empty token;
in every other case it returns true exactly when, for some user token `u` and
some token `t` of `db_set`, the pattern match `substring(lower(unaccent(t)) from
lower(u without '|'))` is longer than 3 characters. -/
theorem match_context_spec (env : Builtins) (db_set user_set : List SQLText) :
    (user_set = [] → match_context env db_set user_set = true) ∧
    (db_set = [] → match_context env db_set user_set = true) ∧
    (str "any" ∈ user_set ∨ [] ∈ user_set → match_context env db_set user_set = true) ∧
    (user_set ≠ [] → db_set ≠ [] → str "any" ∉ user_set → [] ∉ user_set →
      (match_context env db_set user_set = true ↔
        ∃ u ∈ user_set, ∃ t ∈ db_set, ∃ m,
          env.substring_from (env.lower (env.unaccent t))
            (env.lower (u.filter (fun ch => ch ≠ 124))) = some m ∧ 3 < m.length)) := by
  refine ⟨fun h => ?_, fun h => ?_, fun h => ?_, fun hu hd hany hempty => ?_⟩
  · simp [match_context, h]
  · simp [match_context, h]
  · unfold match_context
    split_ifs
    · rfl
    · rfl
    · exact match_context.scan_any env _ _ h
  · unfold match_context
    rw [if_neg hu, if_neg hd, match_context.scan_true_iff env _ _ hany hempty]
    constructor
    · rintro ⟨u, hu', t, ht, m, hm, hlen⟩
      obtain ⟨t₀, ht₀, rfl⟩ := List.mem_map.mp ht
      exact ⟨u, hu', t₀, ht₀, m, hm, hlen⟩
    · rintro ⟨u, hu', t, ht, m, hm, hlen⟩
      exact ⟨u, hu', _, List.mem_map.mpr ⟨t, ht, rfl⟩, m, hm, hlen⟩

theorem match_context_spec_witness :
    ([str "chin"] ≠ ([] : List SQLText)) ∧ ([str "chinese"] ≠ ([] : List SQLText)) ∧
    str "any" ∉ [str "chin"] ∧ ([] : SQLText) ∉ [str "chin"] ∧
    (match_context sampleBuiltins [str "chinese"] [str "chin"] = true ↔
      ∃ u ∈ [str "chin"], ∃ t ∈ [str "chinese"], ∃ m,
        sampleBuiltins.substring_from (sampleBuiltins.lower (sampleBuiltins.unaccent t))
          (sampleBuiltins.lower (u.filter (fun ch => ch ≠ 124))) = some m ∧ 3 < m.length) ∧
    match_context sampleBuiltins [str "chinese"] [str "chin"] = true ∧
    match_context sampleBuiltins [str "chinese"] [str "french"] = false :=
  ⟨by decide, by decide, by decide, by decide,
    (match_context_spec sampleBuiltins [str "chinese"] [str "chin"]).2.2.2 (by decide) (by decide)
      (by decide) (by decide),
    by decide, by decide⟩

/-- C17 (counterexample): with an empty `db_set` and the user set `{french}`,
which is not empty and holds neither `any` nor the empty token, `match_context`
returns true although there is no token of `db_set` for `french` to occur in. -/
theorem match_context_empty_db :
    match_context sampleBuiltins [] [str "french"] = true ∧
    [str "french"] ≠ ([] : List SQLText) ∧ str "any" ∉ [str "french"] ∧
    ([] : SQLText) ∉ [str "french"] ∧
    ¬ ∃ u ∈ [str "french"], ∃ t ∈ ([] : List SQLText), sampleBuiltins.lower u <:+: t := by
  refine ⟨by decide, by decide, by decide, by decide, ?_⟩
  rintro ⟨u, _, t, ht, _⟩
  simp at ht

theorem NodeRow.bucket_any (row : NodeRow) (s : Int) (col : String) (arrow : Int)
    (hcol : STTypeDBChannel s = some col) :
    ArrowInList arrow (row.column col) = true ↔ ∃ l ∈ row.bucket s, l.Arr = arrow := by
  simp only [NodeRow.bucket, hcol]
  cases hcolumn : row.column col <;> simp [ArrowInList]

/-- C18: for a signed type `s` in -3..3, `GetStoryStartNodes(arrow, inverse, s)`
returns (NULL standing for no node) exactly the pointers of the rows whose
bucket `s` holds a link with `Arr = arrow` and whose bucket `-s` holds no link
with `Arr = inverse`. -/
theorem GetStoryStartNodes_spec (db : List NodeRow) (arrow inverse s : Int)
    (hs : -3 ≤ s ∧ s ≤ 3) :
    ∃ res, GetStoryStartNodes db arrow inverse s = some res ∧
      ∀ p : NodePtr, p ∈ res.getD [] ↔
        ∃ row ∈ db, row.NPtr = p ∧ (∃ l ∈ row.bucket s, l.Arr = arrow) ∧
          ¬ ∃ l ∈ row.bucket (-s), l.Arr = inverse := by
  obtain ⟨fwd, hfwd⟩ := STTypeDBChannel_isSome s hs.1 hs.2
  obtain ⟨bwd, hbwd⟩ := STTypeDBChannel_isSome (-s) (by omega) (by omega)
  simp only [GetStoryStartNodes, hfwd, hbwd]
  refine ⟨_, rfl, fun p => ?_⟩
  have hrow : ∀ row : NodeRow,
      (ArrowInList arrow (row.column fwd) && !ArrowInList inverse (row.column bwd)) = true ↔
        (∃ l ∈ row.bucket s, l.Arr = arrow) ∧ ¬ ∃ l ∈ row.bucket (-s), l.Arr = inverse := by
    intro row
    rw [Bool.and_eq_true, Bool.not_eq_true', ← Bool.not_eq_true,
      NodeRow.bucket_any row s fwd arrow hfwd, NodeRow.bucket_any row (-s) bwd inverse hbwd]
  split_ifs with hnil
  · simp only [Option.getD_none, List.not_mem_nil, false_iff]
    rintro ⟨row, hmem, _, hcond⟩
    have : row ∈ List.filter (fun row =>
        ArrowInList arrow (row.column fwd) && !ArrowInList inverse (row.column bwd)) db :=
      List.mem_filter.mpr ⟨hmem, (hrow row).mpr hcond⟩
    rw [hnil] at this
    simp at this
  · simp only [Option.getD_some, List.mem_map, List.mem_filter]
    constructor
    · rintro ⟨row, ⟨hmem, hc⟩, rfl⟩
      exact ⟨row, hmem, rfl, (hrow row).mp hc⟩
    · rintro ⟨row, hmem, rfl, hc⟩
      exact ⟨row, ⟨hmem, (hrow row).mpr hc⟩, rfl⟩

theorem GetStoryStartNodes_spec_witness :
    ((-3 : Int) ≤ 1 ∧ (1 : Int) ≤ 3) ∧
    (∃ res, GetStoryStartNodes storyDB 7 8 1 = some res ∧
      ∀ p : NodePtr, p ∈ res.getD [] ↔
        ∃ row ∈ storyDB, row.NPtr = p ∧ (∃ l ∈ row.bucket 1, l.Arr = 7) ∧
          ¬ ∃ l ∈ row.bucket (-1), l.Arr = 8) ∧
    GetStoryStartNodes storyDB 7 8 1 = some (some [⟨1, 0⟩]) :=
  ⟨by decide, GetStoryStartNodes_spec storyDB 7 8 1 (by decide), by decide⟩

/-! ## Stored functions: the forward cone as links -/

theorem GetFwdLinks_arrows (db : List NodeRow) (x : NodePtr) (ex : List NodePtr) (s : Int)
    (col : String) (hcol : STTypeDBChannel s = some col) :
    ∃ part, GetFwdLinks db x (some ex) s = some part ∧
      ∀ l ∈ part, l.Arr ≠ 0 ∧ l.Dst ∉ ex ∧ l ∈ bucketOf db x s := by
  refine ⟨_, GetFwdLinks_eq db x ex s col hcol, fun l hl => ?_⟩
  obtain ⟨hmem, hp⟩ := List.mem_filter.mp hl
  have hp' : l.Arr ≠ 0 ∧ l.Dst ∉ ex := by simpa using hp
  exact ⟨hp'.1, hp'.2, hmem⟩

theorem FwdConeAsLinks.linkVisit_inv (db : List NodeRow) (s : Int) (col : String)
    (hcol : STTypeDBChannel s = some col) (start : NodePtr) (st : LinkCone) (neigh : Link)
    (hinv : LinkConeInv start st) (hn : neigh = GetSingletonAsLink start ∨ neigh.Arr ≠ 0) :
    ∃ st', FwdConeAsLinks.visit db s st neigh = some st' ∧ LinkConeInv start st' := by
  obtain ⟨⟨rest, hcone, hrest⟩, hstart, hlevel, hpart⟩ := hinv
  by_cases hex : neigh.Dst ∈ st.exclude
  · cases hp : st.partlevel with
    | none =>
      refine ⟨st, ?_, ⟨rest, hcone, hrest⟩, hstart, hlevel, hpart⟩
      simp [FwdConeAsLinks.visit, hex, hp]
    | some part =>
      refine ⟨⟨st.level ++ part, st.exclude, st.cone, st.partlevel⟩, ?_,
        ⟨rest, hcone, hrest⟩, hstart, ?_, hpart⟩
      · simp [FwdConeAsLinks.visit, hex, hp]
      · intro l hl
        rcases List.mem_append.mp hl with h | h
        · exact hlevel l h
        · exact Or.inr (hpart part hp l h)
  · have hne : neigh.Arr ≠ 0 := by
      rcases hn with h | h
      · subst h
        exact absurd hstart hex
      · exact h
    obtain ⟨part, hget, hprop⟩ :=
      GetFwdLinks_arrows db neigh.Dst (st.exclude ++ [neigh.Dst]) s col hcol
    refine ⟨⟨st.level ++ part, st.exclude ++ [neigh.Dst], some (st.cone.getD [] ++ [neigh]),
      some part⟩, ?_, ⟨rest ++ [neigh], ?_, ?_⟩, ?_, ?_, ?_⟩
    · simp [FwdConeAsLinks.visit, hex, hget]
    · simp [hcone]
    · intro l hl
      rcases List.mem_append.mp hl with h | h
      · exact hrest l h
      · simp only [List.mem_singleton] at h
        rw [h]; exact hne
    · exact List.mem_append_left _ hstart
    · intro l hl
      rcases List.mem_append.mp hl with h | h
      · exact hlevel l h
      · exact Or.inr (hprop l h).1
    · intro part' hp' l hl
      simp only [Option.some.injEq] at hp'
      subst hp'
      exact (hprop l hl).1

theorem FwdConeAsLinks.linkSweep_inv (db : List NodeRow) (s : Int) (col : String)
    (hcol : STTypeDBChannel s = some col) (start : NodePtr) (xs : List Link) (st : LinkCone)
    (hinv : LinkConeInv start st)
    (hxs : ∀ l ∈ xs, l = GetSingletonAsLink start ∨ l.Arr ≠ 0) :
    ∃ st', FwdConeAsLinks.sweep db s xs st = some st' ∧ LinkConeInv start st' := by
  induction xs generalizing st with
  | nil => exact ⟨st, rfl, hinv⟩
  | cons x rest ih =>
    obtain ⟨st₁, h₁, hinv₁⟩ :=
      FwdConeAsLinks.linkVisit_inv db s col hcol start st x hinv (hxs x (List.mem_cons_self _ _))
    obtain ⟨st₂, h₂, hinv₂⟩ := ih st₁ hinv₁ (fun l hl => hxs l (List.mem_cons_of_mem _ hl))
    exact ⟨st₂, by simp only [FwdConeAsLinks.sweep, h₁, h₂], hinv₂⟩

theorem FwdConeAsLinks.linkLoop_inv (db : List NodeRow) (s : Int) (col : String)
    (hcol : STTypeDBChannel s = some col) (start : NodePtr) (n : Nat) (st : LinkCone)
    (hinv : LinkConeInv start st) :
    ∃ st', FwdConeAsLinks.loop db s n st = some st' ∧ LinkConeInv start st' := by
  induction n generalizing st with
  | zero => exact ⟨st, rfl, hinv⟩
  | succ n ih =>
    obtain ⟨st₁, h₁, hinv₁⟩ :=
      FwdConeAsLinks.linkSweep_inv db s col hcol start st.level st hinv hinv.2.2.1
    obtain ⟨st₂, h₂, hinv₂⟩ := ih st₁ hinv₁
    exact ⟨st₂, by simp only [FwdConeAsLinks.loop, h₁, h₂], hinv₂⟩

theorem FwdConeAsLinks.linkFirst_pass (db : List NodeRow) (s : Int) (col : String)
    (hcol : STTypeDBChannel s = some col) (start : NodePtr) (hstart : start ≠ ⟨0, 0⟩) :
    ∃ st', FwdConeAsLinks.sweep db s (GetSingletonAsLinkArray start)
        ⟨GetSingletonAsLinkArray start, [⟨0, 0⟩], none, none⟩ = some st' ∧
      LinkConeInv start st' := by
  obtain ⟨part, hget, hprop⟩ :=
    GetFwdLinks_arrows db start [⟨0, 0⟩, start] s col hcol
  have hex : start ∉ [(⟨0, 0⟩ : NodePtr)] := by simpa using hstart
  refine ⟨⟨GetSingletonAsLinkArray start ++ part, [⟨0, 0⟩, start],
    some [GetSingletonAsLink start], some part⟩, ?_, ⟨[], rfl, by simp⟩, by simp, ?_, ?_⟩
  · simp only [GetSingletonAsLinkArray, FwdConeAsLinks.sweep, FwdConeAsLinks.visit]
    simp only [if_pos hex]
    simp [hget, GetSingletonAsLink]
  · intro l hl
    rcases List.mem_append.mp hl with h | h
    · left
      simpa [GetSingletonAsLinkArray, GetSingletonAsLink] using h
    · exact Or.inr (hprop l h).1
  · intro part' hp' l hl
    simp only [Option.some.injEq] at hp'
    subst hp'
    exact (hprop l hl).1

/-- C14 (as amended): for a start node other than `(0,0)`, a signed type in -3..3
and a depth `d ≥ 0`, `FwdConeAsLinks` returns an array whose first element is
the seed link `(0, 1.0, {}, start)`, with the arrow 0, and every link after it
has a non-zero arrow. -/
theorem FwdConeAsLinks_arrows (db : List NodeRow) (start : NodePtr) (s d : Int)
    (hstart : start ≠ ⟨0, 0⟩) (hs : -3 ≤ s ∧ s ≤ 3) (hd : 0 ≤ d) :
    ∃ rest, FwdConeAsLinks db start s d = some (some (GetSingletonAsLink start :: rest)) ∧
      ∀ l ∈ rest, l.Arr ≠ 0 := by
  obtain ⟨col, hcol⟩ := STTypeDBChannel_isSome s hs.1 hs.2
  obtain ⟨n, hn⟩ : ∃ n : Nat, (d + 1).toNat = n + 1 := ⟨d.toNat, by omega⟩
  obtain ⟨st₁, h₁, hinv₁⟩ := FwdConeAsLinks.linkFirst_pass db s col hcol start hstart
  obtain ⟨st₂, h₂, ⟨rest, hcone, hrest⟩, _⟩ :=
    FwdConeAsLinks.linkLoop_inv db s col hcol start n st₁ hinv₁
  refine ⟨rest, ?_, hrest⟩
  have hneg : ¬ d + 1 < 0 := by omega
  simp only [FwdConeAsLinks, if_neg hneg, hn, FwdConeAsLinks.loop, h₁, h₂, Option.map_some',
    hcone]

theorem FwdConeAsLinks_arrows_witness :
    (⟨1, 0⟩ : NodePtr) ≠ ⟨0, 0⟩ ∧ ((-3 : Int) ≤ 1 ∧ (1 : Int) ≤ 3) ∧ (0 : Int) ≤ 2 ∧
    ∃ rest, FwdConeAsLinks triangleDB ⟨1, 0⟩ 1 2 =
        some (some (GetSingletonAsLink ⟨1, 0⟩ :: rest)) ∧
      ∀ l ∈ rest, l.Arr ≠ 0 :=
  ⟨by decide, by decide, by decide,
    FwdConeAsLinks_arrows triangleDB ⟨1, 0⟩ 1 2 (by decide) (by decide) (by decide)⟩

/-- C14 (counterexample): on the graph `A→B`, `B→C`, `A→C`, the array returned by
`FwdConeAsLinks(A, +1, 2)` begins with the seed link, whose arrow is 0. -/
theorem FwdConeAsLinks_holds_sentinel :
    FwdConeAsLinks triangleDB ⟨1, 0⟩ 1 2 =
      some (some [GetSingletonAsLink ⟨1, 0⟩, plainLink 7 ⟨1, 1⟩, plainLink 7 ⟨1, 2⟩]) ∧
    (GetSingletonAsLink ⟨1, 0⟩).Arr = 0 := by
  refine ⟨by decide, rfl⟩

/-! ## Stored functions: the forward cone as nodes -/

theorem ReachWithin.mono {db : List NodeRow} {s : Int} {start : NodePtr} {n : Nat}
    {p : NodePtr} (h : ReachWithin db s start n p) : ReachWithin db s start (n + 1) p := by
  induction h with
  | start n => exact ReachWithin.start _
  | step _ hedge ih => exact ReachWithin.step ih hedge

theorem ReachWithin.zero {db : List NodeRow} {s : Int} {start p : NodePtr}
    (h : ReachWithin db s start 0 p) : p = start := by
  cases h
  rfl

theorem ReachWithin.succ_cases {db : List NodeRow} {s : Int} {start : NodePtr} {n : Nat}
    {p : NodePtr} (h : ReachWithin db s start (n + 1) p) :
    ReachWithin db s start n p ∨ ∃ x, ReachWithin db s start n x ∧ fwdEdge db s x p := by
  cases h with
  | start => exact Or.inl (ReachWithin.start _)
  | step hx hedge => exact Or.inr ⟨_, hx, hedge⟩

theorem GetFwdNodes_edges (db : List NodeRow) (x : NodePtr) (ex : List NodePtr) (s : Int)
    (col : String) (hcol : STTypeDBChannel s = some col) (h00 : (⟨0, 0⟩ : NodePtr) ∈ ex) :
    ∃ part, GetFwdNodes db x (some ex) s = some part ∧
      (∀ p ∈ part, fwdEdge db s x p) ∧
      (∀ y, fwdEdge db s x y → y ∈ part ∨ y ∈ ex) := by
  refine ⟨_, GetFwdNodes_eq db x ex s col hcol, fun p hp => ?_, fun y hy => ?_⟩
  · obtain ⟨l, hl, rfl⟩ := List.mem_map.mp hp
    obtain ⟨hmem, hprop⟩ := List.mem_filter.mp hl
    have hprop' : l.Arr ≠ 0 ∧ l.Dst ∉ ex := by simpa using hprop
    exact ⟨fun h => hprop'.2 (h ▸ h00), l, hmem, hprop'.1, rfl⟩
  · obtain ⟨_, l, hmem, harr, rfl⟩ := hy
    by_cases hin : l.Dst ∈ ex
    · exact Or.inr hin
    · exact Or.inl (List.mem_map.mpr ⟨l, List.mem_filter.mpr ⟨hmem, by simpa using ⟨harr, hin⟩⟩,
        rfl⟩)

theorem FwdConeAsNodes.visit_inv (db : List NodeRow) (s : Int) (col : String)
    (hcol : STTypeDBChannel s = some col) (start : NodePtr) (n : Nat) (st : NodeCone)
    (neigh : NodePtr) (hinv : NodeConeSweep db s start n st)
    (hn : ReachWithin db s start (n + 1) neigh) :
    ∃ st', FwdConeAsNodes.visit db s st neigh = some st' ∧ NodeConeSweep db s start n st' ∧
      neigh ∈ st'.exclude ∧ ∀ p ∈ st.exclude, p ∈ st'.exclude := by
  obtain ⟨cone, hcone, hexcl, hnodup, h00, hreach, hlevel, hpart, hedges⟩ := hinv
  by_cases hex : neigh ∈ st.exclude
  · cases hp : st.partlevel with
    | none =>
      refine ⟨st, ?_, ⟨cone, hcone, hexcl, hnodup, h00, hreach, hlevel, hpart, hedges⟩, hex,
        fun p hp => hp⟩
      simp [FwdConeAsNodes.visit, hex, hp]
    | some part =>
      refine ⟨⟨st.level ++ part, st.exclude, st.cone, st.partlevel⟩, ?_,
        ⟨cone, hcone, hexcl, hnodup, h00, hreach, ?_, hpart, ?_⟩, hex, fun p hp => hp⟩
      · simp [FwdConeAsNodes.visit, hex, hp]
      · intro p hp'
        rcases List.mem_append.mp hp' with h | h
        · exact hlevel p h
        · exact hpart part hp p h
      · intro x hx y hy
        rcases hedges x hx y hy with h | h
        · exact Or.inl (List.mem_append_left _ h)
        · exact Or.inr h
  · have hne0 : neigh ≠ ⟨0, 0⟩ := by
      intro h
      apply hex
      rw [hexcl, h]
      exact List.mem_cons_self _ _
    have hnc : neigh ∉ cone := fun h => hex (by rw [hexcl]; exact List.mem_cons_of_mem _ h)
    obtain ⟨part, hget, hpe, hcover⟩ :=
      GetFwdNodes_edges db neigh (st.exclude ++ [neigh]) s col hcol
        (by rw [hexcl]; simp)
    refine ⟨⟨st.level ++ part, st.exclude ++ [neigh], some (st.cone.getD [] ++ [neigh]),
      some part⟩, ?_, ⟨cone ++ [neigh], ?_, ?_, ?_, ?_, ?_, ?_, ?_, ?_⟩, ?_, ?_⟩
    · simp [FwdConeAsNodes.visit, hex, hget]
    · simp [hcone]
    · simp [hexcl]
    · exact List.Nodup.append hnodup (List.nodup_singleton _) (by simpa using hnc)
    · simp only [List.mem_append, List.mem_singleton, not_or]
      exact ⟨h00, fun h => hne0 h.symm⟩
    · intro p hp
      rcases List.mem_append.mp hp with h | h
      · exact hreach p h
      · simp only [List.mem_singleton] at h
        rw [h]; exact hn
    · intro p hp
      rcases List.mem_append.mp hp with h | h
      · exact hlevel p h
      · exact ReachWithin.step hn (hpe p h)
    · intro part' hp' p hp
      simp only [Option.some.injEq] at hp'
      subst hp'
      exact ReachWithin.step hn (hpe p hp)
    · intro x hx y hy
      rcases List.mem_append.mp hx with h | h
      · rcases hedges x h y hy with h' | h'
        · exact Or.inl (List.mem_append_left _ h')
        · exact Or.inr (List.mem_append_left _ h')
      · simp only [List.mem_singleton] at h
        subst h
        rcases hcover y hy with h' | h'
        · exact Or.inl (List.mem_append_right _ h')
        · right
          rw [hexcl] at h'
          simp only [List.cons_append, List.mem_cons] at h'
          rcases h' with h' | h'
          · exact absurd h' hy.1
          · exact h'
    · simp
    · intro p hp
      exact List.mem_append_left _ hp

theorem FwdConeAsNodes.sweep_inv (db : List NodeRow) (s : Int) (col : String)
    (hcol : STTypeDBChannel s = some col) (start : NodePtr) (n : Nat) (xs : List NodePtr)
    (st : NodeCone) (hinv : NodeConeSweep db s start n st)
    (hxs : ∀ p ∈ xs, ReachWithin db s start (n + 1) p) :
    ∃ st', FwdConeAsNodes.sweep db s xs st = some st' ∧ NodeConeSweep db s start n st' ∧
      (∀ p ∈ xs, p ∈ st'.exclude) ∧ ∀ p ∈ st.exclude, p ∈ st'.exclude := by
  induction xs generalizing st with
  | nil => exact ⟨st, rfl, hinv, by simp, fun p hp => hp⟩
  | cons x rest ih =>
    obtain ⟨st₁, h₁, hinv₁, hx₁, hmono₁⟩ :=
      FwdConeAsNodes.visit_inv db s col hcol start n st x hinv (hxs x (List.mem_cons_self _ _))
    obtain ⟨st₂, h₂, hinv₂, hrest₂, hmono₂⟩ :=
      ih st₁ hinv₁ (fun p hp => hxs p (List.mem_cons_of_mem _ hp))
    refine ⟨st₂, by simp only [FwdConeAsNodes.sweep, h₁, h₂], hinv₂, ?_,
      fun p hp => hmono₂ p (hmono₁ p hp)⟩
    intro p hp
    rcases List.mem_cons.mp hp with rfl | h
    · exact hmono₂ p hx₁
    · exact hrest₂ p h

theorem FwdConeAsNodes.pass_inv (db : List NodeRow) (s : Int) (col : String)
    (hcol : STTypeDBChannel s = some col) (start : NodePtr) (n : Nat) (st : NodeCone)
    (hinv : NodeConeInv db s start n st) :
    ∃ st', FwdConeAsNodes.sweep db s st.level st = some st' ∧
      NodeConeInv db s start (n + 1) st' := by
  obtain ⟨cone, hcone, hexcl, hnodup, h00, hreach, hlevel, hpart, hedges⟩ := hinv
  have hsweep : NodeConeSweep db s start n st :=
    ⟨cone, hcone, hexcl, hnodup, h00, fun p hp => ((hreach p).mp hp).mono,
      fun p hp => (hlevel p hp).mono, fun part hp p hpp => (hpart part hp p hpp).mono, hedges⟩
  obtain ⟨st', hst', ⟨cone', hcone', hexcl', hnodup', h00', hreach', hlevel', hpart', hedges'⟩,
    hdone, hmono⟩ := FwdConeAsNodes.sweep_inv db s col hcol start n st.level st hsweep hlevel
  have hin : ∀ p, p ≠ (⟨0, 0⟩ : NodePtr) → p ∈ st'.exclude → p ∈ cone' := by
    intro p hp h
    rw [hexcl'] at h
    rcases List.mem_cons.mp h with h | h
    · exact absurd h hp
    · exact h
  have hold : ∀ p ∈ cone, p ∈ cone' := by
    intro p hp
    refine hin p (fun h => h00 (h ▸ hp)) (hmono p ?_)
    rw [hexcl]
    exact List.mem_cons_of_mem _ hp
  refine ⟨st', hst', cone', hcone', hexcl', hnodup', h00', fun p => ⟨hreach' p, fun hp => ?_⟩,
    hlevel', hpart', hedges'⟩
  rcases hp.succ_cases with h | ⟨x, hx, hedge⟩
  · exact hold p ((hreach p).mpr h)
  · rcases hedges x ((hreach x).mpr hx) p hedge with h | h
    · exact hin p hedge.1 (hdone p h)
    · exact hold p h

theorem FwdConeAsNodes.loop_inv (db : List NodeRow) (s : Int) (col : String)
    (hcol : STTypeDBChannel s = some col) (start : NodePtr) (k n : Nat) (st : NodeCone)
    (hinv : NodeConeInv db s start n st) :
    ∃ st', FwdConeAsNodes.loop db s k st = some st' ∧ NodeConeInv db s start (n + k) st' := by
  induction k generalizing st n with
  | zero => exact ⟨st, rfl, hinv⟩
  | succ k ih =>
    obtain ⟨st₁, h₁, hinv₁⟩ := FwdConeAsNodes.pass_inv db s col hcol start n st hinv
    obtain ⟨st₂, h₂, hinv₂⟩ := ih (n + 1) st₁ hinv₁
    refine ⟨st₂, by simp only [FwdConeAsNodes.loop, h₁, h₂], ?_⟩
    have e : n + (k + 1) = n + 1 + k := by omega
    rw [e]
    exact hinv₂

theorem FwdConeAsNodes.first_pass (db : List NodeRow) (s : Int) (col : String)
    (hcol : STTypeDBChannel s = some col) (start : NodePtr) (hstart : start ≠ ⟨0, 0⟩) :
    ∃ st', FwdConeAsNodes.sweep db s [start] ⟨[start], [⟨0, 0⟩], none, none⟩ = some st' ∧
      NodeConeInv db s start 0 st' := by
  obtain ⟨part, hget, hpe, hcover⟩ :=
    GetFwdNodes_edges db start [⟨0, 0⟩, start] s col hcol (by simp)
  have hex : start ∉ [(⟨0, 0⟩ : NodePtr)] := by simpa using hstart
  refine ⟨⟨[start] ++ part, [⟨0, 0⟩, start], some [start], some part⟩, ?_, [start], rfl, rfl,
    List.nodup_singleton _, by simpa using hstart.symm, fun p => ?_, ?_, ?_, ?_⟩
  · simp only [FwdConeAsNodes.sweep, FwdConeAsNodes.visit]
    simp only [if_pos hex]
    simp [hget]
  · simp only [List.mem_singleton]
    exact ⟨fun h => h ▸ ReachWithin.start 0, fun h => h.zero⟩
  · intro p hp
    rcases List.mem_append.mp hp with h | h
    · simp only [List.mem_singleton] at h
      rw [h]; exact ReachWithin.start _
    · exact ReachWithin.step (ReachWithin.start 0) (hpe p h)
  · intro part' hp' p hp
    simp only [Option.some.injEq] at hp'
    subst hp'
    exact ReachWithin.step (ReachWithin.start 0) (hpe p hp)
  · intro x hx y hy
    simp only [List.mem_singleton] at hx
    subst hx
    rcases hcover y hy with h | h
    · exact Or.inl (List.mem_append_right _ h)
    · right
      simp only [List.mem_cons, List.mem_singleton, List.not_mem_nil, or_false] at h
      rcases h with h | h
      · exact absurd h hy.1
      · simp [h]

/-- C13 (as amended): for a start node other than `(0,0)`, a signed type `s` in
-3..3 and a depth `d ≥ 0`, `FwdConeAsNodes(start, s, d)` returns an array
without repetition that holds exactly the nodes reachable from `start` by at
most `d` links of bucket `s` with a non-zero arrow and a destination other than
`(0,0)`: at depth 0 the start node alone, at depth 1 the start node and the
destinations of such links of its bucket `s`. -/
theorem FwdConeAsNodes_spec (db : List NodeRow) (start : NodePtr) (s d : Int)
    (hstart : start ≠ ⟨0, 0⟩) (hs : -3 ≤ s ∧ s ≤ 3) (hd : 0 ≤ d) :
    ∃ cone, FwdConeAsNodes db start s d = some (some cone) ∧ cone.Nodup ∧
      (∀ p, p ∈ cone ↔ ReachWithin db s start d.toNat p) ∧
      (d = 0 → ∀ p, p ∈ cone ↔ p = start) ∧
      (d = 1 → ∀ p, p ∈ cone ↔ p = start ∨ fwdEdge db s start p) := by
  obtain ⟨col, hcol⟩ := STTypeDBChannel_isSome s hs.1 hs.2
  have hn : (d + 1).toNat = d.toNat + 1 := by omega
  obtain ⟨st₁, h₁, hinv₁⟩ := FwdConeAsNodes.first_pass db s col hcol start hstart
  obtain ⟨st₂, h₂, cone, hcone, _, hnodup, _, hreach, _⟩ :=
    FwdConeAsNodes.loop_inv db s col hcol start d.toNat 0 st₁ hinv₁
  rw [Nat.zero_add] at hreach
  have hneg : ¬ d + 1 < 0 := by omega
  refine ⟨cone, ?_, hnodup, hreach, fun h0 p => ?_, fun h1 p => ?_⟩
  · simp only [FwdConeAsNodes, if_neg hneg, hn, FwdConeAsNodes.loop, h₁, h₂, Option.map_some',
      hcone]
  · rw [hreach p, h0]
    exact ⟨fun h => h.zero, fun h => h ▸ ReachWithin.start 0⟩
  · rw [hreach p, h1]
    constructor
    · intro h
      have h' : ReachWithin db s start (0 + 1) p := h
      rcases h'.succ_cases with h0 | ⟨x, hx, hedge⟩
      · exact Or.inl h0.zero
      · rw [hx.zero] at hedge
        exact Or.inr hedge
    · rintro (h | h)
      · rw [h]; exact ReachWithin.start _
      · exact ReachWithin.step (ReachWithin.start 0) h

theorem FwdConeAsNodes_spec_witness :
    (⟨1, 0⟩ : NodePtr) ≠ ⟨0, 0⟩ ∧ ((-3 : Int) ≤ 1 ∧ (1 : Int) ≤ 3) ∧ (0 : Int) ≤ 2 ∧
    (∃ cone, FwdConeAsNodes triangleDB ⟨1, 0⟩ 1 2 = some (some cone) ∧ cone.Nodup ∧
      (∀ p, p ∈ cone ↔ ReachWithin triangleDB 1 ⟨1, 0⟩ (2 : Int).toNat p) ∧
      ((2 : Int) = 0 → ∀ p, p ∈ cone ↔ p = ⟨1, 0⟩) ∧
      ((2 : Int) = 1 → ∀ p, p ∈ cone ↔ p = ⟨1, 0⟩ ∨ fwdEdge triangleDB 1 ⟨1, 0⟩ p)) ∧
    FwdConeAsNodes triangleDB ⟨1, 0⟩ 1 2 = some (some [⟨1, 0⟩, ⟨1, 1⟩, ⟨1, 2⟩]) :=
  ⟨by decide, by decide, by decide,
    FwdConeAsNodes_spec triangleDB ⟨1, 0⟩ 1 2 (by decide) (by decide) (by decide), by decide⟩

/-- C13 (counterexample): node `A` holds in its bucket `+1` a link with the
non-zero arrow 7 to the pointer `(0,0)`, so `(0,0)` is reachable from `A` by one
such link; `FwdConeAsNodes(A, +1, 1)` returns `A` alone. -/
theorem FwdConeAsNodes_skips_zero_pointer :
    FwdConeAsNodes danglingDB ⟨1, 0⟩ 1 1 = some (some [⟨1, 0⟩]) ∧
    (∃ l ∈ bucketOf danglingDB ⟨1, 0⟩ 1, l.Arr ≠ 0 ∧ l.Dst = ⟨0, 0⟩) ∧
    (⟨0, 0⟩ : NodePtr) ∉ [(⟨1, 0⟩ : NodePtr)] := by
  refine ⟨by decide, ⟨plainLink 7 ⟨0, 0⟩, by decide, by decide, rfl⟩, by decide⟩


/-! ## Stored functions: the path enumerators -/

/-- C16 (the failing input): on the graph `A→B`, `A→C` with depth 3, forward
orientation, an empty user context and the chapter pattern `%%`,
`AllPathsAsLinks` returns the two paths `A;B` and `A;C` (after one empty line),
but `AllNCPathsAsLinks` returns the path `A;C` alone. -/
theorem AllNCPathsAsLinks_drops_path (k : Nat) :
    AllPathsAsLinks forkDB (k + 3) ⟨1, 0⟩ (str "fwd") 3 =
      some (some [[], [GetSingletonAsLink ⟨1, 0⟩, plainLink 7 ⟨1, 1⟩],
        [GetSingletonAsLink ⟨1, 0⟩, plainLink 7 ⟨1, 2⟩]]) ∧
    AllNCPathsAsLinks sampleBuiltins forkDB (k + 3) ⟨1, 0⟩ [] [] (str "fwd") 3 =
      some (some [[GetSingletonAsLink ⟨1, 0⟩, plainLink 7 ⟨1, 2⟩]]) := by
  constructor <;> rfl

/-! ## Wave fronts: proofs -/

theorem foldl_snoc {α : Type} (l init : List α) :
    l.foldl (fun acc x => acc ++ [x]) init = init ++ l := by
  induction l generalizing init with
  | nil => simp
  | cons a l ih => simp [ih]

theorem LeftJoin_eq (LRsplice seq : List Link) : LeftJoin LRsplice seq = LRsplice ++ seq :=
  foldl_snoc seq LRsplice

theorem RightComplementJoin_eq (LRsplice adjoint : List Link) :
    RightComplementJoin LRsplice adjoint = LRsplice ++ adjoint.drop 1 :=
  foldl_snoc (adjoint.drop 1) LRsplice

theorem AdjointLinkPath.loop_length (INVERSE_ARROWS : List (Int × Int)) (LL : List Link)
    (prevarrow : Int) (adjoint : List Link) :
    (AdjointLinkPath.loop INVERSE_ARROWS LL prevarrow adjoint).length =
      adjoint.length + LL.length := by
  induction LL generalizing prevarrow adjoint with
  | nil => simp [AdjointLinkPath.loop]
  | cons lnk rest ih => simp [AdjointLinkPath.loop, ih]; omega

theorem AdjointLinkPath_length (INVERSE_ARROWS : List (Int × Int)) (LL : List Link) :
    (AdjointLinkPath INVERSE_ARROWS LL).length = LL.length := by
  simp [AdjointLinkPath, AdjointLinkPath.loop_length]

theorem IsDAG.freq_foldl (seq : List Link) (init : NodePtr → Nat) (n : NodePtr) :
    seq.foldl (fun freq lnk => fun n => if n = lnk.Dst then freq n + 1 else freq n) init n =
      init n + (seq.map (fun lnk => lnk.Dst)).count n := by
  induction seq generalizing init with
  | nil => simp
  | cons lnk rest ih =>
    rw [List.foldl_cons, ih, List.map_cons, List.count_cons]
    by_cases h : n = lnk.Dst
    · subst h; simp; omega
    · have h2 : ¬ (lnk.Dst == n) = true := by
        simpa using fun e => h e.symm
      simp [h, h2]

theorem IsDAG.freq_eq (seq : List Link) (n : NodePtr) :
    IsDAG.freq seq n = (seq.map (fun lnk => lnk.Dst)).count n := by
  simp [IsDAG.freq, IsDAG.freq_foldl]

theorem IsDAG_iff (seq : List Link) :
    IsDAG seq = true ↔ (seq.map (fun lnk => lnk.Dst)).Nodup := by
  rw [List.nodup_iff_count_le_one]
  simp only [IsDAG, List.all_eq_true, decide_eq_true_eq, IsDAG.freq_eq, not_lt]
  constructor
  · intro h n
    by_cases hn : n ∈ seq.map (fun lnk => lnk.Dst)
    · exact h n hn
    · rw [List.count_eq_zero_of_not_mem hn]; omega
  · intro h n _
    exact h n

theorem WaveFrontsOverlap.splices_sound (INVERSE_ARROWS : List (Int × Int))
    (left_paths right_paths : List (List Link)) (pairs : List (Nat × Nat))
    (solutions loops found cyclic : List (List Link))
    (hs : ∀ seq ∈ solutions, IsDAG seq = true) (hl : ∀ seq ∈ loops, IsDAG seq = false)
    (hrun : WaveFrontsOverlap.loop INVERSE_ARROWS left_paths right_paths pairs solutions loops =
      some (found, cyclic)) :
    (∀ seq ∈ found, IsDAG seq = true) ∧ (∀ seq ∈ cyclic, IsDAG seq = false) := by
  induction pairs generalizing solutions loops with
  | nil =>
    simp only [WaveFrontsOverlap.loop, Option.some.injEq, Prod.mk.injEq] at hrun
    obtain ⟨rfl, rfl⟩ := hrun
    exact ⟨hs, hl⟩
  | cons p rest ih =>
    obtain ⟨lp, rp⟩ := p
    unfold WaveFrontsOverlap.loop at hrun
    split at hrun
    · rename_i lpath rpath _ _
      simp only at hrun
      split at hrun
      · rename_i hdag
        refine ih _ _ ?_ hl hrun
        intro seq hseq
        rcases List.mem_append.1 hseq with h | h
        · exact hs seq h
        · rw [List.mem_singleton.1 h]; exact hdag
      · rename_i hdag
        refine ih _ _ hs ?_ hrun
        intro seq hseq
        rcases List.mem_append.1 hseq with h | h
        · exact hl seq h
        · rw [List.mem_singleton.1 h]; simpa using hdag
    · exact absurd hrun (by simp)

theorem WaveFrontsOverlap_sound (INVERSE_ARROWS : List (Int × Int)) (ord : IncidenceOrder)
    (left_paths right_paths : List (List Link)) (Lnum Rnum : Int)
    (found cyclic : List (List Link))
    (hrun : WaveFrontsOverlap INVERSE_ARROWS ord left_paths right_paths Lnum Rnum =
      some (found, cyclic)) :
    (∀ seq ∈ found, IsDAG seq = true) ∧ (∀ seq ∈ cyclic, IsDAG seq = false) := by
  unfold WaveFrontsOverlap at hrun
  split at hrun
  · exact absurd hrun (by simp)
  · split at hrun
    · exact absurd hrun (by simp)
    · exact WaveFrontsOverlap.splices_sound _ _ _ _ [] [] found cyclic (by simp) (by simp) hrun

theorem GetPathsAndSymmetries.loop_sound (INVERSE_ARROWS : List (Int × Int))
    (ord : IncidenceOrder)
    (answer : GoString → List NodePtr → Int → GoString → List GoString →
      Option (List (List Link)))
    (start_set end_set : List NodePtr) (chapter : GoString) (context : List GoString)
    (maxdepth : Int) (fuel : Nat) (turn ldepth rdepth : Int) (solutions out : List (List Link))
    (hs : ∀ seq ∈ solutions, IsDAG seq = true)
    (hrun : GetPathsAndSymmetries.loop INVERSE_ARROWS ord answer start_set end_set chapter context
      maxdepth fuel turn ldepth rdepth solutions = some (.ret out)) :
    ∀ seq ∈ out, IsDAG seq = true := by
  induction fuel generalizing turn ldepth rdepth solutions with
  | zero => simp [GetPathsAndSymmetries.loop] at hrun
  | succ fuel ih =>
    unfold GetPathsAndSymmetries.loop at hrun
    split at hrun
    · split at hrun
      · simp at hrun
      · simp at hrun
      · split at hrun
        · simp at hrun
        · simp at hrun
        · split at hrun
          · simp at hrun
          · rename_i found cyclic hwave
            have hfound := (WaveFrontsOverlap_sound _ _ _ _ _ _ found cyclic hwave).1
            split at hrun
            · simp only [Option.some.injEq, Outcome.ret.injEq] at hrun
              subst hrun
              exact hfound
            · split at hrun
              · exact ih _ _ _ _ hfound hrun
              · exact ih _ _ _ _ hfound hrun
    · simp only [Option.some.injEq, Outcome.ret.injEq] at hrun
      subst hrun
      exact hs

theorem GetPathsAndSymmetries.loop_total (INVERSE_ARROWS : List (Int × Int))
    (ord : IncidenceOrder)
    (answer : GoString → List NodePtr → Int → GoString → List GoString →
      Option (List (List Link)))
    (start_set end_set : List NodePtr) (chapter : GoString) (context : List GoString)
    (maxdepth : Int) (fuel : Nat) (turn ldepth rdepth : Int) (solutions : List (List Link))
    (hfuel : (maxdepth - ldepth).toNat + (maxdepth - rdepth).toNat < fuel) :
    GetPathsAndSymmetries.loop INVERSE_ARROWS ord answer start_set end_set chapter context
      maxdepth fuel turn ldepth rdepth solutions ≠ none := by
  induction fuel generalizing turn ldepth rdepth solutions with
  | zero => omega
  | succ fuel ih =>
    unfold GetPathsAndSymmetries.loop
    split
    · rename_i hcond
      split
      · simp
      · simp
      · split
        · simp
        · simp
        · split
          · simp
          · split
            · simp
            · split
              · exact ih _ _ _ _ (by omega)
              · exact ih _ _ _ _ (by omega)
    · simp

theorem GetPathsAndSymmetries_total (INVERSE_ARROWS : List (Int × Int)) (ord : IncidenceOrder)
    (answer : GoString → List NodePtr → Int → GoString → List GoString →
      Option (List (List Link)))
    (start_set end_set : Option (List NodePtr)) (chapter : GoString) (context : List GoString)
    (maxdepth : Int) :
    GetPathsAndSymmetries INVERSE_ARROWS ord answer start_set end_set chapter context maxdepth ≠
      none := by
  unfold GetPathsAndSymmetries
  split
  · exact GetPathsAndSymmetries.loop_total _ _ _ _ _ _ _ _ _ _ _ _ _ (by omega)
  · simp

theorem GetPathsAndSymmetries_sound (INVERSE_ARROWS : List (Int × Int)) (ord : IncidenceOrder)
    (answer : GoString → List NodePtr → Int → GoString → List GoString →
      Option (List (List Link)))
    (start_set end_set : Option (List NodePtr)) (chapter : GoString) (context : List GoString)
    (maxdepth : Int) (out : List (List Link))
    (hrun : GetPathsAndSymmetries INVERSE_ARROWS ord answer start_set end_set chapter context
      maxdepth = some (.ret out)) :
    ∀ seq ∈ out, IsDAG seq = true := by
  unfold GetPathsAndSymmetries at hrun
  split at hrun
  · exact GetPathsAndSymmetries.loop_sound _ _ _ _ _ _ _ _ _ _ _ _ [] out (by simp) hrun
  · simp only [Option.some.injEq, Outcome.ret.injEq] at hrun
    subst hrun
    simp

/-- C19: `IsDAG(seq)` is true exactly when no destination occurs twice in `seq`;
every path in the solutions list of `WaveFrontsOverlap` has pairwise distinct
link destinations and every path in its loops list repeats a destination;
`GetPathsAndSymmetries` always ends, and every solution it returns has pairwise
distinct link destinations. -/
theorem WaveFrontsOverlap_solutions_acyclic (INVERSE_ARROWS : List (Int × Int))
    (ord : IncidenceOrder) :
    (∀ seq : List Link, IsDAG seq = true ↔ (seq.map (fun lnk => lnk.Dst)).Nodup) ∧
    (∀ (left_paths right_paths : List (List Link)) (Lnum Rnum : Int)
      (solutions loops : List (List Link)),
      WaveFrontsOverlap INVERSE_ARROWS ord left_paths right_paths Lnum Rnum =
          some (solutions, loops) →
        (∀ seq ∈ solutions, (seq.map (fun lnk => lnk.Dst)).Nodup) ∧
        (∀ seq ∈ loops, ¬ (seq.map (fun lnk => lnk.Dst)).Nodup)) ∧
    (∀ (answer : GoString → List NodePtr → Int → GoString → List GoString →
        Option (List (List Link)))
      (start_set end_set : Option (List NodePtr)) (chapter : GoString) (context : List GoString)
      (maxdepth : Int),
      GetPathsAndSymmetries INVERSE_ARROWS ord answer start_set end_set chapter context maxdepth ≠
          none ∧
      ∀ solutions,
        GetPathsAndSymmetries INVERSE_ARROWS ord answer start_set end_set chapter context
            maxdepth = some (.ret solutions) →
          ∀ seq ∈ solutions, (seq.map (fun lnk => lnk.Dst)).Nodup) := by
  refine ⟨IsDAG_iff, ?_, ?_⟩
  · intro left_paths right_paths Lnum Rnum solutions loops hrun
    obtain ⟨hs, hl⟩ := WaveFrontsOverlap_sound _ _ _ _ _ _ _ _ hrun
    refine ⟨fun seq h => (IsDAG_iff seq).1 (hs seq h), fun seq h hnd => ?_⟩
    have := hl seq h
    rw [(IsDAG_iff seq).2 hnd] at this
    exact absurd this (by simp)
  · intro answer start_set end_set chapter context maxdepth
    refine ⟨GetPathsAndSymmetries_total _ _ _ _ _ _ _ _, fun solutions hrun seq h => ?_⟩
    exact (IsDAG_iff seq).1 (GetPathsAndSymmetries_sound _ _ _ _ _ _ _ _ _ hrun seq h)

/-- C19 at the sample paths `A→B`, `A→C→A` from the left and `D→B`, `C→A` from
the right: the one solution `A,B,D` has distinct destinations, the one loop
`A,C,A,C` repeats one, and the search returns the solution. -/
theorem WaveFrontsOverlap_solutions_acyclic_witness :
    WaveFrontsOverlap sampleInverses IncidenceOrder.descending sampleLeftPaths sampleRightPaths
        2 2 =
      some ([[GetSingletonAsLink ⟨1, 0⟩, plainLink 0 ⟨1, 1⟩, plainLink 0 ⟨1, 3⟩]],
        [[GetSingletonAsLink ⟨1, 0⟩, plainLink 0 ⟨1, 2⟩, plainLink 0 ⟨1, 0⟩,
          plainLink 0 ⟨1, 2⟩]]) ∧
    GetPathsAndSymmetries sampleInverses IncidenceOrder.descending sampleAnswer
        (some [⟨1, 0⟩]) (some [⟨1, 3⟩, ⟨1, 2⟩]) [] [] 3 =
      some (.ret [[GetSingletonAsLink ⟨1, 0⟩, plainLink 0 ⟨1, 1⟩, plainLink 0 ⟨1, 3⟩]]) ∧
    ([GetSingletonAsLink ⟨1, 0⟩, plainLink 0 ⟨1, 1⟩, plainLink 0 ⟨1, 3⟩].map
      (fun lnk => lnk.Dst)).Nodup ∧
    ¬ ([GetSingletonAsLink ⟨1, 0⟩, plainLink 0 ⟨1, 2⟩, plainLink 0 ⟨1, 0⟩,
      plainLink 0 ⟨1, 2⟩].map (fun lnk => lnk.Dst)).Nodup :=
  have hwave : WaveFrontsOverlap sampleInverses IncidenceOrder.descending sampleLeftPaths
      sampleRightPaths 2 2 =
      some ([[GetSingletonAsLink ⟨1, 0⟩, plainLink 0 ⟨1, 1⟩, plainLink 0 ⟨1, 3⟩]],
        [[GetSingletonAsLink ⟨1, 0⟩, plainLink 0 ⟨1, 2⟩, plainLink 0 ⟨1, 0⟩,
          plainLink 0 ⟨1, 2⟩]]) := by decide
  have hall := ((WaveFrontsOverlap_solutions_acyclic sampleInverses
    IncidenceOrder.descending).2.1 sampleLeftPaths sampleRightPaths 2 2 _ _ hwave)
  ⟨hwave, by decide, hall.1 _ (by simp), hall.2 _ (by simp)⟩

theorem WaveFront.front_eq (path : List (List Link)) (hne : ∀ p ∈ path, p ≠ [])
    (idx : List Nat) (front : List NodePtr) (hidx : ∀ i ∈ idx, i < path.length) :
    WaveFront.loop path idx front =
      some (front ++ idx.map (fun i => (lastDst (path.getD i [])).getD ⟨0, 0⟩)) := by
  induction idx generalizing front with
  | nil => simp [WaveFront.loop]
  | cons i rest ih =>
    have hi : i < path.length := hidx i (List.mem_cons_self _ _)
    have hget : path[i]? = some path[i] := List.getElem?_eq_getElem hi
    have hnil : path[i] ≠ [] := hne _ (List.getElem_mem hi)
    obtain ⟨lnk, hlast⟩ : ∃ lnk, path[i].getLast? = some lnk := by
      cases hl : path[i].getLast? with
      | none => exact absurd (List.getLast?_eq_none_iff.1 hl) hnil
      | some lnk => exact ⟨lnk, rfl⟩
    unfold WaveFront.loop
    simp only [hget, hlast]
    rw [ih _ (fun j hj => hidx j (List.mem_cons_of_mem _ hj))]
    simp [lastDst, hget, hlast]

theorem WaveFront_eq (path : List (List Link)) (hne : ∀ p ∈ path, p ≠ []) :
    WaveFront path path.length =
      some ((List.range path.length).map (fun i => (lastDst (path.getD i [])).getD ⟨0, 0⟩)) := by
  unfold WaveFront
  rw [WaveFront.front_eq path hne _ _ (by simp)]
  simp

theorem lastDst_getD (path : List (List Link)) (hne : ∀ p ∈ path, p ≠ []) (i : Nat)
    (hi : i < path.length) :
    lastDst (path.getD i []) = some ((lastDst (path.getD i [])).getD ⟨0, 0⟩) := by
  have hget : path[i]? = some path[i] := List.getElem?_eq_getElem hi
  have hnil : path[i] ≠ [] := hne _ (List.getElem_mem hi)
  cases hl : path[i].getLast? with
  | none => exact absurd (List.getLast?_eq_none_iff.1 hl) hnil
  | some lnk => simp [lastDst, hget, hl]

theorem NodesOverlap.pairs_aux (ls rs : List Nat) (c : Nat → Nat → Bool) :
    ((ls.map (fun l => (l, rs.filter (c l)))).filter (fun entry => entry.2 ≠ [])).flatMap
        (fun entry => entry.2.map (fun rp => (entry.1, rp))) =
      (List.product ls rs).filter (fun p => c p.1 p.2) := by
  induction ls with
  | nil => simp [List.product]
  | cons l ls ih =>
    have hprod : List.product (l :: ls) rs = rs.map (Prod.mk l) ++ List.product ls rs := by
      simp [List.product]
    rw [hprod, List.filter_append, ← ih, List.map_cons, List.filter_cons]
    have hmap : List.filter (fun p => c p.1 p.2) (rs.map (Prod.mk l)) =
        (rs.filter (c l)).map (fun rp => (l, rp)) := by
      rw [List.filter_map]; rfl
    rw [hmap]
    by_cases hnil : rs.filter (c l) = []
    · simp [hnil]
    · simp [hnil]

theorem NodesOverlap_endPairs (left_paths right_paths : List (List Link))
    (hleft : ∀ p ∈ left_paths, p ≠ []) (hright : ∀ p ∈ right_paths, p ≠ []) :
    (NodesOverlap
        ((List.range left_paths.length).map
          (fun i => (lastDst (left_paths.getD i [])).getD ⟨0, 0⟩))
        ((List.range right_paths.length).map
          (fun i => (lastDst (right_paths.getD i [])).getD ⟨0, 0⟩))).flatMap
        (fun entry => entry.2.map (fun rp => (entry.1, rp))) =
      endPairs left_paths right_paths := by
  unfold NodesOverlap endPairs
  simp only [List.length_map, List.length_range]
  rw [NodesOverlap.pairs_aux (List.range left_paths.length) (List.range right_paths.length)
    (fun l r =>
      decide (((List.range left_paths.length).map
          (fun i => (lastDst (left_paths.getD i [])).getD ⟨0, 0⟩))[l]? =
        ((List.range right_paths.length).map
          (fun i => (lastDst (right_paths.getD i [])).getD ⟨0, 0⟩))[r]?))]
  apply List.filter_congr
  intro p hp
  obtain ⟨l, r⟩ := p
  obtain ⟨hl, hr⟩ := List.pair_mem_product.1 hp
  rw [List.mem_range] at hl hr
  have e1 := lastDst_getD left_paths hleft l hl
  have e2 := lastDst_getD right_paths hright r hr
  simp only [List.getElem?_map, List.getElem?_range hl, List.getElem?_range hr, Option.map_some']
  rw [e1, e2]
  simp

theorem WaveFrontsOverlap.visits_perm (ord : IncidenceOrder)
    (incidence : List (Nat × List Nat)) :
    (WaveFrontsOverlap.visits ord incidence).Perm
      (incidence.flatMap (fun entry => entry.2.map (fun rp => (entry.1, rp)))) :=
  List.Perm.flatMap_right _ (ord.perm incidence)

theorem WaveFrontsOverlap.loop_eq (INVERSE_ARROWS : List (Int × Int))
    (left_paths right_paths : List (List Link)) (pairs : List (Nat × Nat))
    (solutions loops : List (List Link))
    (hin : ∀ p ∈ pairs, p.1 < left_paths.length ∧ p.2 < right_paths.length) :
    WaveFrontsOverlap.loop INVERSE_ARROWS left_paths right_paths pairs solutions loops =
      some (solutions ++
          (pairs.map (splicePath INVERSE_ARROWS left_paths right_paths)).filter IsDAG,
        loops ++
          (pairs.map (splicePath INVERSE_ARROWS left_paths right_paths)).filter
            (fun seq => !IsDAG seq)) := by
  induction pairs generalizing solutions loops with
  | nil => simp [WaveFrontsOverlap.loop]
  | cons p rest ih =>
    obtain ⟨lp, rp⟩ := p
    obtain ⟨hl, hr⟩ := hin (lp, rp) (List.mem_cons_self _ _)
    have hgl : left_paths[lp]? = some left_paths[lp] := List.getElem?_eq_getElem hl
    have hgr : right_paths[rp]? = some right_paths[rp] := List.getElem?_eq_getElem hr
    have hsp : splicePath INVERSE_ARROWS left_paths right_paths (lp, rp) =
        RightComplementJoin (LeftJoin [] left_paths[lp])
          (AdjointLinkPath INVERSE_ARROWS right_paths[rp]) := by
      simp [splicePath, RightComplementJoin_eq, LeftJoin_eq, hgl, hgr]
    unfold WaveFrontsOverlap.loop
    simp only [hgl, hgr]
    rw [← hsp]
    have hrest := fun s l => ih s l (fun q hq => hin q (List.mem_cons_of_mem _ hq))
    by_cases hdag : IsDAG (splicePath INVERSE_ARROWS left_paths right_paths (lp, rp)) = true
    · rw [if_pos hdag, hrest]
      simp [List.filter_cons, hdag]
    · rw [if_neg hdag, hrest]
      simp [List.filter_cons, hdag]

theorem mem_endPairs (left_paths right_paths : List (List Link)) (l r : Nat) :
    (l, r) ∈ endPairs left_paths right_paths ↔
      ∃ lpath rpath, left_paths[l]? = some lpath ∧ right_paths[r]? = some rpath ∧
        lastDst lpath = lastDst rpath := by
  unfold endPairs
  rw [List.mem_filter, List.pair_mem_product, List.mem_range, List.mem_range]
  constructor
  · rintro ⟨⟨hl, hr⟩, heq⟩
    have hgl : left_paths[l]? = some left_paths[l] := List.getElem?_eq_getElem hl
    have hgr : right_paths[r]? = some right_paths[r] := List.getElem?_eq_getElem hr
    refine ⟨_, _, hgl, hgr, ?_⟩
    simpa [hgl, hgr] using heq
  · rintro ⟨lpath, rpath, hgl, hgr, heq⟩
    have hl : l < left_paths.length := (List.getElem?_eq_some_iff.1 hgl).1
    have hr : r < right_paths.length := (List.getElem?_eq_some_iff.1 hgr).1
    refine ⟨⟨hl, hr⟩, ?_⟩
    simpa [hgl, hgr] using heq

theorem endPairs_nodup (left_paths right_paths : List (List Link)) :
    (endPairs left_paths right_paths).Nodup :=
  ((List.nodup_range _).product (List.nodup_range _)).filter _

theorem splicePath_length (INVERSE_ARROWS : List (Int × Int))
    (left_paths right_paths : List (List Link)) (hright : ∀ p ∈ right_paths, p ≠ [])
    (p : Nat × Nat) (hr : p.2 < right_paths.length) :
    (splicePath INVERSE_ARROWS left_paths right_paths p).length =
      (left_paths.getD p.1 []).length + (right_paths.getD p.2 []).length - 1 := by
  have hgr : right_paths[p.2]? = some right_paths[p.2] := List.getElem?_eq_getElem hr
  have hnil : right_paths[p.2] ≠ [] := hright _ (List.getElem_mem hr)
  have hpos : 0 < right_paths[p.2].length := List.length_pos.2 hnil
  simp only [splicePath, List.length_append, List.length_drop, AdjointLinkPath_length]
  simp only [List.getD_eq_getElem?_getD, hgr, Option.getD_some]
  omega

/-- C20: for non-empty left and right paths, with `Lnum` and `Rnum` their
numbers, `WaveFrontsOverlap` returns; its solutions and loops together are, up
to their order, one path for every index pair `(l, r)` whose left and right
paths end at the same node (the list `pairs` names each such pair once and no
other pair); that path is `left_paths[l]` followed by
`AdjointLinkPath(right_paths[r])` without its first link, and its length is
`len(left_paths[l]) + len(right_paths[r]) - 1`. -/
theorem WaveFrontsOverlap_spec (INVERSE_ARROWS : List (Int × Int)) (ord : IncidenceOrder)
    (left_paths right_paths : List (List Link))
    (hleft : ∀ p ∈ left_paths, p ≠ []) (hright : ∀ p ∈ right_paths, p ≠ []) :
    ∃ (solutions loops : List (List Link)) (pairs : List (Nat × Nat)),
      WaveFrontsOverlap INVERSE_ARROWS ord left_paths right_paths left_paths.length
          right_paths.length = some (solutions, loops) ∧
      pairs.Nodup ∧
      (∀ l r, (l, r) ∈ pairs ↔
        ∃ lpath rpath, left_paths[l]? = some lpath ∧ right_paths[r]? = some rpath ∧
          lpath.getLast?.map (fun lnk => lnk.Dst) = rpath.getLast?.map (fun lnk => lnk.Dst)) ∧
      (solutions ++ loops).Perm
        (pairs.map (fun p => left_paths.getD p.1 [] ++
          (AdjointLinkPath INVERSE_ARROWS (right_paths.getD p.2 [])).drop 1)) ∧
      ∀ p ∈ pairs,
        (left_paths.getD p.1 [] ++
            (AdjointLinkPath INVERSE_ARROWS (right_paths.getD p.2 [])).drop 1).length =
          (left_paths.getD p.1 []).length + (right_paths.getD p.2 []).length - 1 := by
  have hin : ∀ p ∈ endPairs left_paths right_paths,
      p.1 < left_paths.length ∧ p.2 < right_paths.length := by
    intro p hp
    obtain ⟨l, r⟩ := p
    have := (List.mem_filter.1 hp).1
    rw [List.pair_mem_product, List.mem_range, List.mem_range] at this
    exact this
  obtain ⟨visited, hvis, hperm⟩ : ∃ visited, visited = WaveFrontsOverlap.visits ord
      (NodesOverlap
        ((List.range left_paths.length).map
          (fun i => (lastDst (left_paths.getD i [])).getD ⟨0, 0⟩))
        ((List.range right_paths.length).map
          (fun i => (lastDst (right_paths.getD i [])).getD ⟨0, 0⟩))) ∧
      visited.Perm (endPairs left_paths right_paths) := by
    refine ⟨_, rfl, ?_⟩
    have h := WaveFrontsOverlap.visits_perm ord
      (NodesOverlap
        ((List.range left_paths.length).map
          (fun i => (lastDst (left_paths.getD i [])).getD ⟨0, 0⟩))
        ((List.range right_paths.length).map
          (fun i => (lastDst (right_paths.getD i [])).getD ⟨0, 0⟩)))
    rwa [NodesOverlap_endPairs left_paths right_paths hleft hright] at h
  refine ⟨(visited.map (splicePath INVERSE_ARROWS left_paths right_paths)).filter IsDAG,
    (visited.map (splicePath INVERSE_ARROWS left_paths right_paths)).filter
      (fun seq => !IsDAG seq),
    endPairs left_paths right_paths, ?_, endPairs_nodup _ _,
    mem_endPairs left_paths right_paths, ?_, ?_⟩
  · unfold WaveFrontsOverlap
    simp only [WaveFront_eq left_paths hleft, WaveFront_eq right_paths hright]
    rw [← hvis, WaveFrontsOverlap.loop_eq _ _ _ _ _ _ (fun p hp => hin p (hperm.mem_iff.1 hp))]
    simp
  · exact (List.filter_append_perm _ _).trans (hperm.map _)
  · intro p hp
    exact splicePath_length INVERSE_ARROWS left_paths right_paths hright p (hin p hp).2

/-- C20 at the sample paths `A→B`, `A→C→A` from the left and `D→B`, `C→A` from
the right, all of them non-empty. -/
theorem WaveFrontsOverlap_spec_witness :
    (∀ p ∈ sampleLeftPaths, p ≠ []) ∧ (∀ p ∈ sampleRightPaths, p ≠ []) ∧
    ∃ (solutions loops : List (List Link)) (pairs : List (Nat × Nat)),
      WaveFrontsOverlap sampleInverses IncidenceOrder.ascending sampleLeftPaths sampleRightPaths
          sampleLeftPaths.length sampleRightPaths.length = some (solutions, loops) ∧
      pairs.Nodup ∧
      (∀ l r, (l, r) ∈ pairs ↔
        ∃ lpath rpath, sampleLeftPaths[l]? = some lpath ∧ sampleRightPaths[r]? = some rpath ∧
          lpath.getLast?.map (fun lnk => lnk.Dst) = rpath.getLast?.map (fun lnk => lnk.Dst)) ∧
      (solutions ++ loops).Perm
        (pairs.map (fun p => sampleLeftPaths.getD p.1 [] ++
          (AdjointLinkPath sampleInverses (sampleRightPaths.getD p.2 [])).drop 1)) ∧
      ∀ p ∈ pairs,
        (sampleLeftPaths.getD p.1 [] ++
            (AdjointLinkPath sampleInverses (sampleRightPaths.getD p.2 [])).drop 1).length =
          (sampleLeftPaths.getD p.1 []).length + (sampleRightPaths.getD p.2 []).length - 1 :=
  ⟨by decide, by decide,
    WaveFrontsOverlap_spec sampleInverses IncidenceOrder.ascending sampleLeftPaths
      sampleRightPaths (by decide) (by decide)⟩

/-! ## Adjoint paths: proofs -/

theorem AdjointLinkPath.loop_shifted (INVERSE_ARROWS : List (Int × Int)) (xs : List Link)
    (prevarrow : Int) (adjoint : List Link) :
    AdjointLinkPath.loop INVERSE_ARROWS xs prevarrow adjoint =
      adjoint ++ AdjointLinkPath.shifted INVERSE_ARROWS prevarrow xs := by
  induction xs generalizing prevarrow adjoint with
  | nil => simp [AdjointLinkPath.loop, AdjointLinkPath.shifted]
  | cons lnk rest ih => simp [AdjointLinkPath.loop, AdjointLinkPath.shifted, ih]

theorem AdjointLinkPath_eq_shifted (INVERSE_ARROWS : List (Int × Int)) (LL : List Link) :
    AdjointLinkPath INVERSE_ARROWS LL =
      AdjointLinkPath.shifted INVERSE_ARROWS (mapRead INVERSE_ARROWS 0) LL.reverse := by
  simp [AdjointLinkPath, AdjointLinkPath.loop_shifted]

theorem AdjointLinkPath.shifted_snoc (INVERSE_ARROWS : List (Int × Int)) (xs : List Link)
    (y : Link) (prevarrow : Int) :
    AdjointLinkPath.shifted INVERSE_ARROWS prevarrow (xs ++ [y]) =
      AdjointLinkPath.shifted INVERSE_ARROWS prevarrow xs ++
        [{ y with Arr := mapRead INVERSE_ARROWS (AdjointLinkPath.lastArr prevarrow xs) }] := by
  induction xs generalizing prevarrow with
  | nil => simp [AdjointLinkPath.shifted, AdjointLinkPath.lastArr]
  | cons x rest ih =>
    rw [List.cons_append, AdjointLinkPath.shifted, ih, AdjointLinkPath.shifted]
    have hlast : AdjointLinkPath.lastArr x.Arr rest = AdjointLinkPath.lastArr prevarrow (x :: rest) := by
      cases rest with
      | nil => simp [AdjointLinkPath.lastArr]
      | cons z zs =>
        obtain ⟨w, hw⟩ : ∃ w, (z :: zs).getLast? = some w := by
          cases h : (z :: zs).getLast? with
          | none => simp at h
          | some w => exact ⟨w, rfl⟩
        simp [AdjointLinkPath.lastArr, List.getLast?_cons_cons, hw]
    simp [hlast]

theorem AdjointLinkPath.shifted_map_Dst (INVERSE_ARROWS : List (Int × Int)) (xs : List Link)
    (prevarrow : Int) :
    (AdjointLinkPath.shifted INVERSE_ARROWS prevarrow xs).map (fun lnk => lnk.Dst) =
      xs.map (fun lnk => lnk.Dst) := by
  induction xs generalizing prevarrow with
  | nil => simp [AdjointLinkPath.shifted]
  | cons x rest ih => simp [AdjointLinkPath.shifted, ih]

theorem AdjointLinkPath.shifted_twice (INVERSE_ARROWS : List (Int × Int)) (xs : List Link)
    (prevarrow : Int) :
    AdjointLinkPath.shifted INVERSE_ARROWS
        (mapRead INVERSE_ARROWS (AdjointLinkPath.lastArr prevarrow xs))
        (AdjointLinkPath.shifted INVERSE_ARROWS prevarrow xs).reverse =
      xs.reverse.map
        (fun lnk => { lnk with Arr := mapRead INVERSE_ARROWS (mapRead INVERSE_ARROWS lnk.Arr) }) := by
  induction xs using List.reverseRecOn with
  | nil => simp [AdjointLinkPath.shifted]
  | append_singleton ys y ih =>
    rw [AdjointLinkPath.shifted_snoc]
    have hlast : AdjointLinkPath.lastArr prevarrow (ys ++ [y]) = y.Arr := by
      simp [AdjointLinkPath.lastArr]
    simp only [hlast, List.reverse_append, List.reverse_singleton, List.singleton_append,
      AdjointLinkPath.shifted, List.map_cons, ih]

theorem AdjointLinkPath_twice (INVERSE_ARROWS : List (Int × Int)) (first : Link)
    (rest : List Link) :
    AdjointLinkPath INVERSE_ARROWS (AdjointLinkPath INVERSE_ARROWS (first :: rest)) =
      { first with Arr := mapRead INVERSE_ARROWS (mapRead INVERSE_ARROWS 0) } ::
        rest.map (fun lnk =>
          { lnk with Arr := mapRead INVERSE_ARROWS (mapRead INVERSE_ARROWS lnk.Arr) }) := by
  rw [AdjointLinkPath_eq_shifted, AdjointLinkPath_eq_shifted, List.reverse_cons,
    AdjointLinkPath.shifted_snoc, List.reverse_append, List.reverse_singleton,
    List.singleton_append, AdjointLinkPath.shifted]
  have h := AdjointLinkPath.shifted_twice INVERSE_ARROWS rest.reverse (mapRead INVERSE_ARROWS 0)
  simp only [List.reverse_reverse] at h
  simp only [h]

/-- C21 (as amended): for every link path whose first link carries the arrow
`INVERSE_ARROWS[INVERSE_ARROWS[0]]` (the seed link, when the inverse of the
inverse of arrow 0 is 0) and whose other links have arrows with
`INVERSE_ARROWS[INVERSE_ARROWS[a]] = a`, `AdjointLinkPath(AdjointLinkPath(path))`
equals `path`; and `AdjointLinkPath(path)` has the same length as `path`, with
the destinations in reverse order. -/
theorem AdjointLinkPath_involution (INVERSE_ARROWS : List (Int × Int)) (path : List Link)
    (hfirst : ∀ lnk ∈ path.head?, lnk.Arr = mapRead INVERSE_ARROWS (mapRead INVERSE_ARROWS 0))
    (hrest : ∀ lnk ∈ path.tail,
      mapRead INVERSE_ARROWS (mapRead INVERSE_ARROWS lnk.Arr) = lnk.Arr) :
    AdjointLinkPath INVERSE_ARROWS (AdjointLinkPath INVERSE_ARROWS path) = path ∧
    (AdjointLinkPath INVERSE_ARROWS path).length = path.length ∧
    (AdjointLinkPath INVERSE_ARROWS path).map (fun lnk => lnk.Dst) =
      (path.map (fun lnk => lnk.Dst)).reverse := by
  refine ⟨?_, AdjointLinkPath_length INVERSE_ARROWS path, ?_⟩
  · cases path with
    | nil => rfl
    | cons first rest =>
      rw [AdjointLinkPath_twice]
      have h1 : first.Arr = mapRead INVERSE_ARROWS (mapRead INVERSE_ARROWS 0) :=
        hfirst first (by simp)
      have h2 : rest.map (fun lnk =>
          ({ lnk with Arr := mapRead INVERSE_ARROWS (mapRead INVERSE_ARROWS lnk.Arr) } : Link)) =
          rest := by
        conv_rhs => rw [← List.map_id rest]
        apply List.map_congr_left
        intro lnk hl
        have := hrest lnk (by simpa using hl)
        simp [this]
      rw [h2, ← h1]
  · rw [AdjointLinkPath_eq_shifted, AdjointLinkPath.shifted_map_Dst, List.map_reverse]

/-- C21 at the path `A, B, C` that starts with the seed link of `A`, with the
arrows 0 and 1 inverse to each other. -/
theorem AdjointLinkPath_involution_witness :
    AdjointLinkPath sampleInverses (AdjointLinkPath sampleInverses
        [GetSingletonAsLink ⟨1, 0⟩, plainLink 1 ⟨1, 1⟩, plainLink 0 ⟨1, 2⟩]) =
      [GetSingletonAsLink ⟨1, 0⟩, plainLink 1 ⟨1, 1⟩, plainLink 0 ⟨1, 2⟩] ∧
    AdjointLinkPath sampleInverses
        [GetSingletonAsLink ⟨1, 0⟩, plainLink 1 ⟨1, 1⟩, plainLink 0 ⟨1, 2⟩] =
      [plainLink 0 ⟨1, 2⟩, plainLink 1 ⟨1, 1⟩, plainLink 0 ⟨1, 0⟩] :=
  ⟨(AdjointLinkPath_involution sampleInverses
      [GetSingletonAsLink ⟨1, 0⟩, plainLink 1 ⟨1, 1⟩, plainLink 0 ⟨1, 2⟩]
      (by decide) (by decide)).1, by decide⟩

/-- C21 (counterexample): the arrows 0 and 1 are inverse to each other, so the
one arrow of the path `[(1, B)]` satisfies `INVERSE_ARROWS[INVERSE_ARROWS[1]] = 1`;
the adjoint of its adjoint is `[(0, B)]`, not the path. -/
theorem AdjointLinkPath_loses_first_arrow :
    (∀ lnk ∈ [plainLink 1 ⟨1, 1⟩],
      mapRead sampleInverses (mapRead sampleInverses lnk.Arr) = lnk.Arr) ∧
    AdjointLinkPath sampleInverses (AdjointLinkPath sampleInverses [plainLink 1 ⟨1, 1⟩]) =
      [plainLink 0 ⟨1, 1⟩] ∧
    AdjointLinkPath sampleInverses (AdjointLinkPath sampleInverses [plainLink 1 ⟨1, 1⟩]) ≠
      [plainLink 1 ⟨1, 1⟩] := by
  decide

/-! ## The bidirectional search: the depths at which it stops -/

theorem GetPathsAndSymmetries.loop_forget (INVERSE_ARROWS : List (Int × Int))
    (ord : IncidenceOrder)
    (answer : GoString → List NodePtr → Int → GoString → List GoString →
      Option (List (List Link)))
    (start_set end_set : List NodePtr) (chapter : GoString) (context : List GoString)
    (maxdepth : Int) (fuel : Nat) (turn ldepth rdepth : Int) (solutions : List (List Link)) :
    GetPathsAndSymmetries.loop INVERSE_ARROWS ord answer start_set end_set chapter context
        maxdepth fuel turn ldepth rdepth solutions =
      GetPathsAndSymmetries.forget
        (GetPathsAndSymmetries.trace INVERSE_ARROWS ord answer start_set end_set chapter context
          maxdepth fuel turn ldepth rdepth solutions) := by
  induction fuel generalizing turn ldepth rdepth solutions with
  | zero => rfl
  | succ fuel ih =>
    unfold GetPathsAndSymmetries.loop GetPathsAndSymmetries.trace
    by_cases hgo : ldepth < maxdepth ∧ rdepth < maxdepth
    · simp only [if_pos hgo]
      cases GetEntireNCSuperConePathsAsLinks answer (str "fwd") start_set ldepth chapter
          context with
      | exit code => rfl
      | panic => rfl
      | ret left =>
        obtain ⟨left_paths, Lnum⟩ := left
        dsimp only
        cases GetEntireNCSuperConePathsAsLinks answer (str "bwd") end_set rdepth chapter
            context with
        | exit code => rfl
        | panic => rfl
        | ret right =>
          obtain ⟨right_paths, Rnum⟩ := right
          dsimp only
          cases WaveFrontsOverlap INVERSE_ARROWS ord left_paths right_paths Lnum Rnum with
          | none => rfl
          | some both =>
            obtain ⟨found, cyclic⟩ := both
            dsimp only
            by_cases hfound : found.length > 0
            · simp only [if_pos hfound]; rfl
            · simp only [if_neg hfound]
              by_cases hturn : turn % 2 = 0
              · simp only [if_pos hturn]; exact ih _ _ _ _
              · simp only [if_neg hturn]; exact ih _ _ _ _
    · simp only [if_neg hgo]; rfl

theorem GetPathsAndSymmetries.trace_stop (INVERSE_ARROWS : List (Int × Int))
    (ord : IncidenceOrder)
    (answer : GoString → List NodePtr → Int → GoString → List GoString →
      Option (List (List Link)))
    (start_set end_set : List NodePtr) (chapter : GoString) (context : List GoString)
    (maxdepth : Int) (fuel : Nat) (turn ldepth rdepth : Int) (solutions : List (List Link))
    (hstop : ¬ (ldepth < maxdepth ∧ rdepth < maxdepth)) :
    GetPathsAndSymmetries.trace INVERSE_ARROWS ord answer start_set end_set chapter context
        maxdepth (fuel + 1) turn ldepth rdepth solutions =
      some (.ret (solutions, ldepth, rdepth)) := by
  unfold GetPathsAndSymmetries.trace
  rw [if_neg hstop]

theorem GetPathsAndSymmetries.trace_step (INVERSE_ARROWS : List (Int × Int))
    (ord : IncidenceOrder)
    (answer : GoString → List NodePtr → Int → GoString → List GoString →
      Option (List (List Link)))
    (start_set end_set : List NodePtr) (chapter : GoString) (context : List GoString)
    (maxdepth : Int) (fuel : Nat) (turn ldepth rdepth : Int) (solutions : List (List Link))
    (hgo : ldepth < maxdepth ∧ rdepth < maxdepth)
    (hquiet : ∃ L R loops, answer (str "fwd") start_set ldepth chapter context = some L ∧
      answer (str "bwd") end_set rdepth chapter context = some R ∧
      WaveFrontsOverlap INVERSE_ARROWS ord L R L.length R.length = some ([], loops)) :
    GetPathsAndSymmetries.trace INVERSE_ARROWS ord answer start_set end_set chapter context
        maxdepth (fuel + 1) turn ldepth rdepth solutions =
      if turn % 2 = 0 then
        GetPathsAndSymmetries.trace INVERSE_ARROWS ord answer start_set end_set chapter context
          maxdepth fuel (turn + 1) (ldepth + 1) rdepth []
      else
        GetPathsAndSymmetries.trace INVERSE_ARROWS ord answer start_set end_set chapter context
          maxdepth fuel (turn + 1) ldepth (rdepth + 1) [] := by
  obtain ⟨L, R, loops, hL, hR, hwave⟩ := hquiet
  conv_lhs => unfold GetPathsAndSymmetries.trace
  simp only [if_pos hgo, GetEntireNCSuperConePathsAsLinks, hL, hR, hwave, List.length_nil,
    gt_iff_lt, lt_self_iff_false, if_false]

theorem GetPathsAndSymmetries.trace_quiet (INVERSE_ARROWS : List (Int × Int))
    (ord : IncidenceOrder)
    (answer : GoString → List NodePtr → Int → GoString → List GoString →
      Option (List (List Link)))
    (start_set end_set : List NodePtr) (chapter : GoString) (context : List GoString)
    (maxdepth : Int)
    (hquiet : ∀ ldepth rdepth : Int, ∃ L R loops,
      answer (str "fwd") start_set ldepth chapter context = some L ∧
      answer (str "bwd") end_set rdepth chapter context = some R ∧
      WaveFrontsOverlap INVERSE_ARROWS ord L R L.length R.length = some ([], loops))
    (n fuel : Nat) (turn depth : Int) (solutions : List (List Link))
    (hturn : turn % 2 = 0) (hn : (maxdepth - depth).toNat = n + 1) (hfuel : 2 * (n + 1) ≤ fuel) :
    GetPathsAndSymmetries.trace INVERSE_ARROWS ord answer start_set end_set chapter context
        maxdepth fuel turn depth depth solutions =
      some (.ret ([], maxdepth, maxdepth - 1)) := by
  induction n generalizing fuel turn depth solutions with
  | zero =>
    obtain ⟨f, rfl⟩ : ∃ f, fuel = f + 2 := ⟨fuel - 2, by omega⟩
    rw [GetPathsAndSymmetries.trace_step _ _ _ _ _ _ _ _ _ _ _ _ _ (by omega)
      (hquiet depth depth), if_pos hturn,
      GetPathsAndSymmetries.trace_stop _ _ _ _ _ _ _ _ _ _ _ _ _ (by omega)]
    have h1 : depth + 1 = maxdepth := by omega
    have h2 : depth = maxdepth - 1 := by omega
    rw [h1, ← h2]
  | succ n ih =>
    obtain ⟨f, rfl⟩ : ∃ f, fuel = f + 2 := ⟨fuel - 2, by omega⟩
    rw [GetPathsAndSymmetries.trace_step _ _ _ _ _ _ _ _ _ _ _ _ _ (by omega)
      (hquiet depth depth), if_pos hturn,
      GetPathsAndSymmetries.trace_step _ _ _ _ _ _ _ _ _ _ _ _ _ (by omega)
      (hquiet (depth + 1) depth), if_neg (by omega)]
    exact ih f (turn + 1 + 1) (depth + 1) [] (by omega) (by omega) (by omega)

/-- C22 (as amended): when the wave fronts never overlap, the loop of
`GetPathsAndSymmetries` starts with `ldepth = rdepth = 1`, ends, and returns no
solutions; it stops as soon as one of the two depths has reached `maxdepth`:
for `maxdepth ≥ 2` with `ldepth = maxdepth` and `rdepth = maxdepth - 1`, for
`maxdepth ≤ 1` without a turn, with both depths 1. -/
theorem GetPathsAndSymmetries_stops (INVERSE_ARROWS : List (Int × Int)) (ord : IncidenceOrder)
    (answer : GoString → List NodePtr → Int → GoString → List GoString →
      Option (List (List Link)))
    (start_set end_set : List NodePtr) (chapter : GoString) (context : List GoString)
    (maxdepth : Int)
    (hquiet : ∀ ldepth rdepth : Int, ∃ L R loops,
      answer (str "fwd") start_set ldepth chapter context = some L ∧
      answer (str "bwd") end_set rdepth chapter context = some R ∧
      WaveFrontsOverlap INVERSE_ARROWS ord L R L.length R.length = some ([], loops)) :
    GetPathsAndSymmetries INVERSE_ARROWS ord answer (some start_set) (some end_set) chapter
        context maxdepth = some (.ret []) ∧
    GetPathsAndSymmetries.trace INVERSE_ARROWS ord answer start_set end_set chapter context
        maxdepth (2 * maxdepth.toNat + 1) 0 1 1 [] =
      some (.ret ([], if maxdepth ≤ 1 then 1 else maxdepth,
        if maxdepth ≤ 1 then 1 else maxdepth - 1)) := by
  have htrace : GetPathsAndSymmetries.trace INVERSE_ARROWS ord answer start_set end_set chapter
      context maxdepth (2 * maxdepth.toNat + 1) 0 1 1 [] =
      some (.ret ([], if maxdepth ≤ 1 then 1 else maxdepth,
        if maxdepth ≤ 1 then 1 else maxdepth - 1)) := by
    by_cases hm : maxdepth ≤ 1
    · rw [if_pos hm, if_pos hm,
        GetPathsAndSymmetries.trace_stop _ _ _ _ _ _ _ _ _ _ _ _ _ (by omega)]
    · rw [if_neg hm, if_neg hm]
      exact GetPathsAndSymmetries.trace_quiet _ _ _ _ _ _ _ _ hquiet ((maxdepth - 1).toNat - 1)
        _ 0 1 [] (by decide) (by omega) (by omega)
  refine ⟨?_, htrace⟩
  unfold GetPathsAndSymmetries
  simp only
  rw [GetPathsAndSymmetries.loop_forget, htrace]
  rfl

/-- C22 at a store without paths and `maxdepth = 3`: the search ends without a
solution, with `ldepth = 3` and `rdepth = 2`. -/
theorem GetPathsAndSymmetries_stops_witness :
    GetPathsAndSymmetries sampleInverses IncidenceOrder.ascending emptyAnswer
        (some [⟨1, 0⟩]) (some [⟨1, 3⟩]) [] [] 3 = some (.ret []) ∧
    GetPathsAndSymmetries.trace sampleInverses IncidenceOrder.ascending emptyAnswer
        [⟨1, 0⟩] [⟨1, 3⟩] [] [] 3 (2 * (3 : Int).toNat + 1) 0 1 1 [] =
      some (.ret ([], if (3 : Int) ≤ 1 then 1 else 3, if (3 : Int) ≤ 1 then 1 else 3 - 1)) :=
  GetPathsAndSymmetries_stops sampleInverses IncidenceOrder.ascending emptyAnswer
    [⟨1, 0⟩] [⟨1, 3⟩] [] [] 3 (fun _ _ => ⟨[], [], [], rfl, rfl, by decide⟩)

/-- C22 (counterexample): with a store without paths the wave fronts never
overlap, and for `maxdepth = 3` the loop ends with `rdepth = 2`: the right
depth has not reached `maxdepth`. -/
theorem GetPathsAndSymmetries_stops_early :
    GetPathsAndSymmetries.trace sampleInverses IncidenceOrder.ascending emptyAnswer
        [⟨1, 0⟩] [⟨1, 3⟩] [] [] 3 7 0 1 1 [] = some (.ret ([], 3, 2)) ∧
    (2 : Int) < 3 ∧
    WaveFrontsOverlap sampleInverses IncidenceOrder.ascending [] [] 0 0 = some ([], []) := by
  decide

/-! ## Supernodes: the classes of `Together` -/

theorem InNodeSet_iff (list : List NodePtr) (node : NodePtr) :
    InNodeSet list node = true ↔ node ∈ list := by
  simp [InNodeSet, List.any_eq_true]

theorem mem_IdempAddNodePtr (set : List NodePtr) (n x : NodePtr) :
    x ∈ IdempAddNodePtr set n ↔ x ∈ set ∨ x = n := by
  unfold IdempAddNodePtr
  by_cases h : n ∈ set
  · have h' : InNodeSet set n = true := (InNodeSet_iff set n).2 h
    simp only [h', not_true_eq_false, if_false]
    constructor
    · exact Or.inl
    · rintro (hx | rfl)
      · exact hx
      · exact h
  · have h' : ¬ InNodeSet set n = true := fun e => h ((InNodeSet_iff set n).1 e)
    simp [h']

theorem IdempAddNodePtr_nodup (set : List NodePtr) (n : NodePtr) (h : set.Nodup) :
    (IdempAddNodePtr set n).Nodup := by
  unfold IdempAddNodePtr
  by_cases hn : n ∈ set
  · have h' : InNodeSet set n = true := (InNodeSet_iff set n).2 hn
    simpa [h'] using h
  · have h' : ¬ InNodeSet set n = true := fun e => hn ((InNodeSet_iff set n).1 e)
    simp only [h', not_false_eq_true, if_true]
    exact List.Nodup.append h (List.nodup_singleton n) (by simpa using hn)

theorem Together.scan_none (n1 n2 : NodePtr) (matroid : List (List NodePtr)) :
    Together.scan n1 n2 matroid = none ↔ ∀ c ∈ matroid, n1 ∉ c ∧ n2 ∉ c := by
  induction matroid with
  | nil => simp [Together.scan]
  | cons c rest ih =>
    unfold Together.scan
    by_cases h : n1 ∈ c ∨ n2 ∈ c
    · have h' : (InNodeSet c n1 || InNodeSet c n2) = true := by
        simpa [InNodeSet_iff] using h
      rw [if_pos h']
      constructor
      · intro e; exact absurd e (by simp)
      · intro hall
        have := hall c (List.mem_cons_self _ _)
        tauto
    · have h' : ¬ (InNodeSet c n1 || InNodeSet c n2) = true := by
        simpa [InNodeSet_iff] using h
      rw [if_neg h', Option.map_eq_none', ih]
      simp only [List.mem_cons, forall_eq_or_imp]
      constructor
      · intro hall; exact ⟨by tauto, hall⟩
      · intro hall; exact hall.2

theorem Together.scan_some (n1 n2 : NodePtr) (matroid joined : List (List NodePtr))
    (h : Together.scan n1 n2 matroid = some joined) :
    ∃ pre c post, matroid = pre ++ c :: post ∧ (∀ c' ∈ pre, n1 ∉ c' ∧ n2 ∉ c') ∧
      (n1 ∈ c ∨ n2 ∈ c) ∧ joined = pre ++ IdempAddNodePtr (IdempAddNodePtr c n1) n2 :: post := by
  induction matroid generalizing joined with
  | nil => simp [Together.scan] at h
  | cons c rest ih =>
    unfold Together.scan at h
    by_cases hc : n1 ∈ c ∨ n2 ∈ c
    · have h' : (InNodeSet c n1 || InNodeSet c n2) = true := by
        simpa [InNodeSet_iff] using hc
      rw [if_pos h', Option.some.injEq] at h
      exact ⟨[], c, rest, rfl, by simp, hc, by simp [← h]⟩
    · have h' : ¬ (InNodeSet c n1 || InNodeSet c n2) = true := by
        simpa [InNodeSet_iff] using hc
      rw [if_neg h'] at h
      obtain ⟨j, hj, hjoined⟩ := Option.map_eq_some'.1 h
      subst hjoined
      obtain ⟨pre, c₀, post, hm, hpre, hc₀, hj'⟩ := ih j hj
      subst hm hj'
      refine ⟨c :: pre, c₀, post, rfl, ?_, hc₀, rfl⟩
      intro c' hc'
      rcases List.mem_cons.1 hc' with rfl | hmem
      · tauto
      · exact hpre c' hmem

theorem Together_new (matroid : List (List NodePtr)) (n1 n2 : NodePtr)
    (hnone : ∀ c ∈ matroid, n1 ∉ c ∧ n2 ∉ c) :
    Together matroid n1 n2 = matroid ++ [if n1 = n2 then [n1] else [n1, n2]] := by
  unfold Together
  by_cases hlen : matroid.length = 0
  · rw [if_pos hlen]
    have : matroid = [] := List.length_eq_zero.1 hlen
    subst this
    by_cases h : n1 = n2 <;> simp [h]
  · rw [if_neg hlen, (Together.scan_none n1 n2 matroid).2 hnone]
    by_cases h : n1 = n2
    · subst h; simp [IdempAddNodePtr, InNodeSet]
    · have h' : ¬ n2 = n1 := fun e => h e.symm
      simp [IdempAddNodePtr, InNodeSet, h, h']

theorem Together_old (matroid : List (List NodePtr)) (n1 n2 : NodePtr)
    (hsome : ∃ c ∈ matroid, n1 ∈ c ∨ n2 ∈ c) :
    ∃ pre c post, matroid = pre ++ c :: post ∧ (∀ c' ∈ pre, n1 ∉ c' ∧ n2 ∉ c') ∧
      (n1 ∈ c ∨ n2 ∈ c) ∧
      Together matroid n1 n2 = pre ++ IdempAddNodePtr (IdempAddNodePtr c n1) n2 :: post := by
  obtain ⟨c₀, hc₀, hin⟩ := hsome
  have hlen : ¬ matroid.length = 0 := by
    intro e
    rw [List.length_eq_zero.1 e] at hc₀
    simp at hc₀
  cases hscan : Together.scan n1 n2 matroid with
  | none =>
    have := (Together.scan_none n1 n2 matroid).1 hscan c₀ hc₀
    tauto
  | some joined =>
    obtain ⟨pre, c, post, hm, hpre, hc, hj⟩ := Together.scan_some n1 n2 matroid joined hscan
    refine ⟨pre, c, post, hm, hpre, hc, ?_⟩
    unfold Together
    rw [if_neg hlen, hscan, hj]

/-- C25 (as amended): for classes that are pairwise disjoint and duplicate-free
and nodes `a`, `b` that do not lie in two different classes,
`Together(classes, a, b)` returns classes that are again pairwise disjoint and
duplicate-free, with `a` and `b` in one common class; when no class holds `a`
or `b` exactly one new class (`a` and `b`) is appended, and otherwise the first
class that holds one of them takes the missing one and nothing else changes. -/
theorem Together_spec (classes : List (List NodePtr)) (a b : NodePtr)
    (hdis : classes.Pairwise List.Disjoint) (hnodup : ∀ c ∈ classes, c.Nodup)
    (hsame : ∀ c ∈ classes, ∀ c' ∈ classes, a ∈ c → b ∈ c' → c = c') :
    (Together classes a b).Pairwise List.Disjoint ∧
    (∀ c ∈ Together classes a b, c.Nodup) ∧
    Joined (Together classes a b) a b ∧
    ((∀ c ∈ classes, a ∉ c ∧ b ∉ c) →
      Together classes a b = classes ++ [if a = b then [a] else [a, b]]) ∧
    ((∃ c ∈ classes, a ∈ c ∨ b ∈ c) →
      ∃ pre c post, classes = pre ++ c :: post ∧ (a ∈ c ∨ b ∈ c) ∧
        Together classes a b = pre ++ IdempAddNodePtr (IdempAddNodePtr c a) b :: post) := by
  refine ⟨?_, ?_, ?_, Together_new classes a b, fun h => ?_⟩
  rotate_right
  · obtain ⟨pre, c, post, h1, _, h3, h4⟩ := Together_old classes a b h
    exact ⟨pre, c, post, h1, h3, h4⟩
  all_goals
    by_cases hex : ∃ c ∈ classes, a ∈ c ∨ b ∈ c
    · obtain ⟨pre, c, post, hm, _, hc, hres⟩ := Together_old classes a b hex
      rw [hres]
      have hmem2 : ∀ x, x ∈ IdempAddNodePtr (IdempAddNodePtr c a) b ↔ x ∈ c ∨ x = a ∨ x = b := by
        intro x
        rw [mem_IdempAddNodePtr, mem_IdempAddNodePtr, or_assoc]
      have hcin : c ∈ classes := by rw [hm]; simp
      have hkey : ∀ c', c' ∈ classes → List.Disjoint c' c →
          List.Disjoint c' (IdempAddNodePtr (IdempAddNodePtr c a) b) := by
        intro c' hc' hd x hx1 hx2
        rcases (hmem2 x).1 hx2 with hx | rfl | rfl
        · exact hd hx1 hx
        · rcases hc with ha | hb
          · exact hd hx1 ha
          · have := hsame c' hc' c hcin hx1 hb
            subst this
            exact hd hb hb
        · rcases hc with ha | hb
          · have := hsame c hcin c' hc' ha hx1
            subst this
            exact hd ha ha
          · exact hd hx1 hb
      rw [hm] at hdis
      rw [List.pairwise_append, List.pairwise_cons] at hdis
      obtain ⟨hpre, ⟨hcpost, hpost⟩, hcross⟩ := hdis
      first
      | (rw [List.pairwise_append, List.pairwise_cons]
         refine ⟨hpre, ⟨fun c' hc' => ?_, hpost⟩, fun x hx y hy => ?_⟩
         · exact (hkey c' (by rw [hm]; simp [hc']) (hcpost c' hc').symm).symm
         · rcases List.mem_cons.1 hy with rfl | hy'
           · exact hkey x (by rw [hm]; simp [hx]) (hcross x hx c (List.mem_cons_self _ _))
           · exact hcross x hx y (List.mem_cons_of_mem _ hy'))
      | (intro c' hc'
         rcases List.mem_append.1 hc' with h | h
         · exact hnodup c' (by rw [hm]; simp [h])
         · rcases List.mem_cons.1 h with rfl | h'
           · exact IdempAddNodePtr_nodup _ _ (IdempAddNodePtr_nodup _ _ (hnodup c hcin))
           · exact hnodup c' (by rw [hm]; simp [h']))
      | exact ⟨_, by simp, (hmem2 a).2 (Or.inr (Or.inl rfl)), (hmem2 b).2 (Or.inr (Or.inr rfl))⟩
    · have hnone : ∀ c ∈ classes, a ∉ c ∧ b ∉ c := by
        intro c hc
        constructor
        · intro ha; exact hex ⟨c, hc, Or.inl ha⟩
        · intro hb; exact hex ⟨c, hc, Or.inr hb⟩
      rw [Together_new classes a b hnone]
      first
      | (rw [List.pairwise_append]
         refine ⟨hdis, List.pairwise_singleton _ _, fun x hx y hy => ?_⟩
         rw [List.mem_singleton] at hy
         subst hy
         intro z hz1 hz2
         have hz : z = a ∨ z = b := by
           by_cases hab : a = b
           · rw [if_pos hab] at hz2; simp at hz2; exact Or.inl hz2
           · rw [if_neg hab] at hz2; simpa using hz2
         rcases hz with rfl | rfl
         · exact (hnone x hx).1 hz1
         · exact (hnone x hx).2 hz1)
      | (intro c' hc'
         rcases List.mem_append.1 hc' with h | h
         · exact hnodup c' h
         · rw [List.mem_singleton] at h
           subst h
           by_cases hab : a = b
           · rw [if_pos hab]; simp
           · rw [if_neg hab]; simp [hab])
      | (refine ⟨if a = b then [a] else [a, b], by simp, ?_, ?_⟩
         · by_cases hab : a = b
           · rw [if_pos hab]; simp
           · rw [if_neg hab]; simp
         · by_cases hab : a = b
           · rw [if_pos hab]; simp [hab]
           · rw [if_neg hab]; simp)

/-- C25 at the classes `{A}`, `{B}` and the nodes `A` and `X`: `X` joins the
class of `A`. -/
theorem Together_spec_witness :
    Together [[⟨1, 0⟩], [⟨1, 1⟩]] ⟨1, 0⟩ ⟨1, 5⟩ = [[⟨1, 0⟩, ⟨1, 5⟩], [⟨1, 1⟩]] ∧
    (Together [[⟨1, 0⟩], [⟨1, 1⟩]] ⟨1, 0⟩ ⟨1, 5⟩).Pairwise List.Disjoint ∧
    Joined (Together [[⟨1, 0⟩], [⟨1, 1⟩]] ⟨1, 0⟩ ⟨1, 5⟩) ⟨1, 0⟩ ⟨1, 5⟩ :=
  have h := Together_spec [[⟨1, 0⟩], [⟨1, 1⟩]] ⟨1, 0⟩ ⟨1, 5⟩ (by simp [List.Disjoint])
    (by simp) (by simp)
  ⟨by decide, h.1, h.2.2.1⟩

/-- C25 (counterexample): the classes `{A}`, `{B}` are pairwise disjoint and
duplicate-free; `Together` with `A` and `B` returns `{A, B}`, `{B}`, two classes
that share `B`. -/
theorem Together_overlapping_classes :
    ([[⟨1, 0⟩], [⟨1, 1⟩]] : List (List NodePtr)).Pairwise List.Disjoint ∧
    (∀ c ∈ ([[⟨1, 0⟩], [⟨1, 1⟩]] : List (List NodePtr)), c.Nodup) ∧
    Together [[⟨1, 0⟩], [⟨1, 1⟩]] ⟨1, 0⟩ ⟨1, 1⟩ = [[⟨1, 0⟩, ⟨1, 1⟩], [⟨1, 1⟩]] ∧
    ¬ (Together [[⟨1, 0⟩], [⟨1, 1⟩]] ⟨1, 0⟩ ⟨1, 1⟩).Pairwise List.Disjoint := by
  refine ⟨by simp [List.Disjoint], by simp, by decide, ?_⟩
  have h : Together [[⟨1, 0⟩], [⟨1, 1⟩]] ⟨1, 0⟩ ⟨1, 1⟩ = [[⟨1, 0⟩, ⟨1, 1⟩], [⟨1, 1⟩]] := by
    decide
  rw [h]
  simp [List.Disjoint]

/-! ## Supernodes: the scenario and the index panic -/

/-- C24 (as amended): for the two solutions `A,B,C,D,E` and `A,X,E`, in either
order, `SuperNodesByConicPath` with `maxdepth = 4` returns six classes of one
node each, so `B` and `X` are not merged (`B` is followed by `C`, `X` by `E`);
for the solutions `A,B,E` and `A,X,E` it returns the class `{B, X}`. -/
theorem SuperNodesByConicPath_scenario :
    SuperNodesByConicPath scenarioPaths 4 =
      some [[⟨1, 0⟩], [⟨1, 1⟩], [⟨1, 5⟩], [⟨1, 2⟩], [⟨1, 4⟩], [⟨1, 3⟩]] ∧
    SuperNodesByConicPath scenarioPaths.reverse 4 =
      some [[⟨1, 0⟩], [⟨1, 5⟩], [⟨1, 1⟩], [⟨1, 4⟩], [⟨1, 2⟩], [⟨1, 3⟩]] ∧
    SuperNodesByConicPath diamondPaths 4 = some [[⟨1, 0⟩], [⟨1, 1⟩, ⟨1, 5⟩], [⟨1, 4⟩]] := by
  decide

/-- C24 (counterexample): the result for the two solutions `A,B,C,D,E` and
`A,X,E` with `maxdepth = 4` has no class that holds both `B` and `X`. -/
theorem SuperNodesByConicPath_keeps_apart :
    ∃ classes, SuperNodesByConicPath scenarioPaths 4 = some classes ∧
      ¬ ∃ c ∈ classes, (⟨1, 1⟩ : NodePtr) ∈ c ∧ (⟨1, 5⟩ : NodePtr) ∈ c := by
  refine ⟨[[⟨1, 0⟩], [⟨1, 1⟩], [⟨1, 5⟩], [⟨1, 2⟩], [⟨1, 4⟩], [⟨1, 3⟩]], by decide, ?_⟩
  decide

/-- C29 (the failing input): for the non-empty solutions `A,B` and `A,B,C`,
`SuperNodesByConicPath` with `maxdepth = 1` and `GetPathTransverseSuperNodes`
with `maxdepth = 2` read `solutions[0][2]` at `depth = 1`, outside the first
path, and panic. -/
theorem SuperNodesByConicPath_reads_past_end :
    (∀ p ∈ unevenPaths, p ≠ []) ∧
    SuperNodesByConicPath unevenPaths 1 = none ∧
    GetPathTransverseSuperNodes unevenPaths 2 = none ∧
    SuperNodesByConicPath.pairs 1 (unevenPaths.getD 0 []) (unevenPaths.drop 1)
      [[⟨1, 0⟩], [⟨1, 1⟩]] = none ∧
    index? (unevenPaths.getD 0 []) (1 + 1) = none := by
  decide

/-! ## Supernodes: the classes only grow -/

theorem Grows.grows_refl (m : List (List NodePtr)) : Grows m m :=
  fun c hc => ⟨c, hc, fun _ hx => hx⟩

theorem Grows.grows_trans {m₁ m₂ m₃ : List (List NodePtr)} (h₁ : Grows m₁ m₂) (h₂ : Grows m₂ m₃) :
    Grows m₁ m₃ := by
  intro c hc
  obtain ⟨c', hc', hsub⟩ := h₁ c hc
  obtain ⟨c'', hc'', hsub'⟩ := h₂ c' hc'
  exact ⟨c'', hc'', fun x hx => hsub' x (hsub x hx)⟩

theorem Joined.joined_mono {m m' : List (List NodePtr)} {a b : NodePtr} (h : Grows m m')
    (hj : Joined m a b) : Joined m' a b := by
  obtain ⟨c, hc, ha, hb⟩ := hj
  obtain ⟨c', hc', hsub⟩ := h c hc
  exact ⟨c', hc', hsub a ha, hsub b hb⟩

theorem Joined.joined_symm {m : List (List NodePtr)} {a b : NodePtr} (hj : Joined m a b) :
    Joined m b a := by
  obtain ⟨c, hc, ha, hb⟩ := hj
  exact ⟨c, hc, hb, ha⟩

theorem Together_cases (matroid : List (List NodePtr)) (n1 n2 : NodePtr) :
    Together matroid n1 n2 = matroid ++ [if n1 = n2 then [n1] else [n1, n2]] ∨
    ∃ pre c post, matroid = pre ++ c :: post ∧
      Together matroid n1 n2 = pre ++ IdempAddNodePtr (IdempAddNodePtr c n1) n2 :: post := by
  by_cases hex : ∃ c ∈ matroid, n1 ∈ c ∨ n2 ∈ c
  · obtain ⟨pre, c, post, h1, _, _, h4⟩ := Together_old matroid n1 n2 hex
    exact Or.inr ⟨pre, c, post, h1, h4⟩
  · refine Or.inl (Together_new matroid n1 n2 fun c hc => ⟨fun h => ?_, fun h => ?_⟩)
    · exact hex ⟨c, hc, Or.inl h⟩
    · exact hex ⟨c, hc, Or.inr h⟩

theorem Together_grows (matroid : List (List NodePtr)) (n1 n2 : NodePtr) :
    Grows matroid (Together matroid n1 n2) := by
  rcases Together_cases matroid n1 n2 with h | ⟨pre, c, post, hm, h⟩
  · rw [h]
    intro c hc
    exact ⟨c, List.mem_append_left _ hc, fun _ hx => hx⟩
  · rw [h]
    intro c' hc'
    rw [hm] at hc'
    rcases List.mem_append.1 hc' with hp | hp
    · exact ⟨c', List.mem_append_left _ hp, fun _ hx => hx⟩
    · rcases List.mem_cons.1 hp with rfl | hp'
      · refine ⟨_, List.mem_append_right _ (List.mem_cons_self _ _), fun x hx => ?_⟩
        rw [mem_IdempAddNodePtr, mem_IdempAddNodePtr]
        exact Or.inl (Or.inl hx)
      · exact ⟨c', List.mem_append_right _ (List.mem_cons_of_mem _ hp'), fun _ hx => hx⟩

theorem Together_joined (matroid : List (List NodePtr)) (n1 n2 : NodePtr) :
    Joined (Together matroid n1 n2) n1 n2 := by
  rcases Together_cases matroid n1 n2 with h | ⟨pre, c, post, _, h⟩
  · rw [h]
    refine ⟨if n1 = n2 then [n1] else [n1, n2], by simp, ?_, ?_⟩
    · by_cases hab : n1 = n2
      · rw [if_pos hab]; simp
      · rw [if_neg hab]; simp
    · by_cases hab : n1 = n2
      · rw [if_pos hab]; simp [hab]
      · rw [if_neg hab]; simp
  · rw [h]
    refine ⟨_, List.mem_append_right _ (List.mem_cons_self _ _), ?_, ?_⟩
    · rw [mem_IdempAddNodePtr, mem_IdempAddNodePtr]; exact Or.inl (Or.inr rfl)
    · rw [mem_IdempAddNodePtr]; exact Or.inr rfl

theorem index?_bounds {α : Type} (xs : List α) (i : Int) (x : α) (h : index? xs i = some x) :
    0 ≤ i ∧ i < (xs.length : Int) := by
  obtain ⟨h0, hget⟩ := index?_some xs i x h
  have := (List.getElem?_eq_some_iff.1 hget).1
  exact ⟨h0, by omega⟩

theorem index?_of_bounds {α : Type} (xs : List α) (i : Int) (h0 : 0 ≤ i)
    (h1 : i < (xs.length : Int)) : ∃ x, index? xs i = some x := by
  have hlt : i.toNat < xs.length := by omega
  refine ⟨xs[i.toNat], ?_⟩
  unfold index?
  rw [if_neg (by omega)]
  exact List.getElem?_eq_getElem hlt

/-! ## Supernodes: paths ordered by length -/

theorem Conic.conic_bound {d : Int} {p q : List Link} {x y : NodePtr} (h : Conic d p q x y) :
    1 ≤ d ∧ d + 1 < (p.length : Int) ∧ d + 1 < (q.length : Int) := by
  obtain ⟨h1, bp, bq, ap, aq, hp, hq, _, _, _, hap, haq, _⟩ := h
  exact ⟨h1, (index?_bounds p _ ap hap).2, (index?_bounds q _ aq haq).2⟩

theorem Conic.conic_symm {d : Int} {p q : List Link} {x y : NodePtr} (h : Conic d p q x y) :
    Conic d q p y x := by
  obtain ⟨h1, bp, bq, ap, aq, hp, hq, e1, e2, e3, e4, e5, e6, e7, e8, e9, e10⟩ := h
  exact ⟨h1, bq, bp, aq, ap, hq, hp, e2, e1, e3.symm, e5, e4, e6.symm, e8, e7, e10, e9⟩

theorem SuperNodesByConicPath.pairs_spec (depth : Int) (path_i : List Link)
    (rest : List (List Link)) (supernodes : List (List NodePtr))
    (hshort : ∀ q ∈ rest, q.length ≤ path_i.length)
    (hsorted : rest.Pairwise (fun p q => q.length ≤ p.length)) :
    ∃ found, SuperNodesByConicPath.pairs depth path_i rest supernodes = some found ∧
      Grows supernodes found ∧
      ∀ q ∈ rest, ∀ x y, Conic depth path_i q x y → Joined found x y := by
  induction rest generalizing supernodes with
  | nil => exact ⟨supernodes, rfl, Grows.grows_refl _, by simp⟩
  | cons q rest ih =>
    rw [List.pairwise_cons] at hsorted
    obtain ⟨hq, hrest⟩ := hsorted
    have hqi : q.length ≤ path_i.length := hshort q (List.mem_cons_self _ _)
    have ih' := fun sn => ih sn (fun r hr => hshort r (List.mem_cons_of_mem _ hr)) hrest
    rw [SuperNodesByConicPath.pairs]
    by_cases hbreak : depth < 1 ∨ depth > (q.length : Int) - 2
    · rw [if_pos hbreak]
      refine ⟨supernodes, rfl, Grows.grows_refl _, fun r hr x y hc => ?_⟩
      exfalso
      have hb := hc.conic_bound
      rcases List.mem_cons.1 hr with rfl | hr'
      · omega
      · have := hq r hr'
        omega
    · rw [if_neg hbreak]
      obtain ⟨bi, hbi⟩ := index?_of_bounds path_i (depth - 1) (by omega) (by omega)
      obtain ⟨bq, hbq⟩ := index?_of_bounds q (depth - 1) (by omega) (by omega)
      obtain ⟨ai, hai⟩ := index?_of_bounds path_i (depth + 1) (by omega) (by omega)
      obtain ⟨aq, haq⟩ := index?_of_bounds q (depth + 1) (by omega) (by omega)
      obtain ⟨ci, hci⟩ := index?_of_bounds path_i depth (by omega) (by omega)
      obtain ⟨cq, hcq⟩ := index?_of_bounds q depth (by omega) (by omega)
      simp only [hbi, hbq, hai, haq, hci, hcq, Option.some_bind]
      by_cases hsame : bi.Dst = bq.Dst ∧ ai.Dst = aq.Dst
      · rw [if_pos hsame.1, if_pos hsame.2]
        obtain ⟨found, hrun, hgrow, hjoin⟩ := ih' (Together supernodes ci.Dst cq.Dst)
        refine ⟨found, hrun, (Together_grows _ _ _).grows_trans hgrow, fun r hr x y hc => ?_⟩
        rcases List.mem_cons.1 hr with rfl | hr'
        · obtain ⟨_, bp', bq', ap', aq', hp', hq', _, _, _, _, _, _, e7, e8, e9, e10⟩ := hc
          rw [hci] at e7
          rw [hcq] at e8
          cases e7
          cases e8
          rw [← e9, ← e10]
          exact Joined.joined_mono hgrow (Together_joined _ _ _)
        · exact hjoin r hr' x y hc
      · have hrun : (if bi.Dst = bq.Dst then
              if ai.Dst = aq.Dst then
                SuperNodesByConicPath.pairs depth path_i rest
                  (Together supernodes ci.Dst cq.Dst)
              else SuperNodesByConicPath.pairs depth path_i rest supernodes
            else SuperNodesByConicPath.pairs depth path_i rest supernodes) =
            SuperNodesByConicPath.pairs depth path_i rest supernodes := by
          by_cases h1 : bi.Dst = bq.Dst
          · rw [if_pos h1, if_neg (fun h2 => hsame ⟨h1, h2⟩)]
          · rw [if_neg h1]
        rw [hrun]
        obtain ⟨found, hrun', hgrow, hjoin⟩ := ih' supernodes
        refine ⟨found, hrun', hgrow, fun r hr x y hc => ?_⟩
        rcases List.mem_cons.1 hr with rfl | hr'
        · exfalso
          obtain ⟨_, bp', bq', ap', aq', hp', hq', e1, e2, e3, e4, e5, e6, _⟩ := hc
          rw [hbi] at e1
          rw [hbq] at e2
          rw [hai] at e4
          rw [haq] at e5
          cases e1
          cases e2
          cases e4
          cases e5
          exact hsame ⟨e3, e6⟩
        · exact hjoin r hr' x y hc

theorem SuperNodesByConicPath.last_spec (depth : Int) (path_i : List Link)
    (supernodes : List (List NodePtr)) (hd : 0 ≤ depth) :
    ∃ found, SuperNodesByConicPath.last depth path_i supernodes = some found ∧
      Grows supernodes found := by
  unfold SuperNodesByConicPath.last
  by_cases h : depth = (path_i.length : Int) - 1
  · rw [if_pos h]
    obtain ⟨here, hhere⟩ := index?_of_bounds path_i depth hd (by omega)
    rw [hhere, Option.some_bind]
    exact ⟨_, rfl, Together_grows _ _ _⟩
  · rw [if_neg h]
    exact ⟨_, rfl, Grows.grows_refl _⟩

theorem SuperNodesByConicPath.row_spec (depth : Int) (rows : List (List Link))
    (supernodes : List (List NodePtr)) (hd : 0 ≤ depth)
    (hsorted : rows.Pairwise (fun p q => q.length ≤ p.length)) :
    ∃ found, SuperNodesByConicPath.row depth rows supernodes = some found ∧
      Grows supernodes found ∧
      (∀ p ∈ rows, ∀ here, index? p depth = some here → Joined found here.Dst here.Dst) ∧
      (∀ (i j : Nat) (p q : List Link), i < j → rows[i]? = some p → rows[j]? = some q →
        ∀ x y, Conic depth p q x y → Joined found x y) := by
  induction rows generalizing supernodes with
  | nil => exact ⟨supernodes, rfl, Grows.grows_refl _, by simp, by simp⟩
  | cons p rest ih =>
    rw [List.pairwise_cons] at hsorted
    obtain ⟨hp, hrest⟩ := hsorted
    obtain ⟨sn₁, hlast, hgrow₁⟩ := SuperNodesByConicPath.last_spec depth p supernodes hd
    rw [SuperNodesByConicPath.row, hlast, Option.some_bind]
    by_cases hskip : depth > (p.length : Int) - 1
    · rw [if_pos hskip]
      obtain ⟨found, hrun, hgrow, hself, hpair⟩ := ih sn₁ hrest
      refine ⟨found, hrun, hgrow₁.grows_trans hgrow, fun r hr here hhere => ?_,
        fun i j r q hij hi hj x y hc => ?_⟩
      · rcases List.mem_cons.1 hr with rfl | hr'
        · have := (index?_bounds _ _ _ hhere).2
          omega
        · exact hself r hr' here hhere
      · cases i with
        | zero =>
          simp only [List.getElem?_cons_zero, Option.some.injEq] at hi
          subst hi
          have := hc.conic_bound
          omega
        | succ i =>
          obtain ⟨j, rfl⟩ : ∃ j', j = j' + 1 := ⟨j - 1, by omega⟩
          simp only [List.getElem?_cons_succ] at hi hj
          exact hpair i j r q (by omega) hi hj x y hc
    · rw [if_neg hskip]
      obtain ⟨here₀, hhere₀⟩ := index?_of_bounds p depth hd (by omega)
      rw [hhere₀, Option.some_bind]
      obtain ⟨sn₃, hpairs, hgrow₃, hjoin₃⟩ := SuperNodesByConicPath.pairs_spec depth p rest
        (Together sn₁ here₀.Dst here₀.Dst) hp hrest
      rw [hpairs, Option.some_bind]
      obtain ⟨found, hrun, hgrow, hself, hpair⟩ := ih sn₃ hrest
      refine ⟨found, hrun,
        hgrow₁.grows_trans ((Together_grows _ _ _).grows_trans (hgrow₃.grows_trans hgrow)),
        fun r hr here hhere => ?_, fun i j r q hij hi hj x y hc => ?_⟩
      · rcases List.mem_cons.1 hr with rfl | hr'
        · rw [hhere₀] at hhere
          cases hhere
          exact Joined.joined_mono (hgrow₃.grows_trans hgrow) (Together_joined _ _ _)
        · exact hself r hr' here hhere
      · cases i with
        | zero =>
          simp only [List.getElem?_cons_zero, Option.some.injEq] at hi
          subst hi
          obtain ⟨j, rfl⟩ : ∃ j', j = j' + 1 := ⟨j - 1, by omega⟩
          simp only [List.getElem?_cons_succ] at hj
          exact Joined.joined_mono hgrow (hjoin₃ q (List.getElem?_mem hj) x y hc)
        | succ i =>
          obtain ⟨j, rfl⟩ : ∃ j', j = j' + 1 := ⟨j - 1, by omega⟩
          simp only [List.getElem?_cons_succ] at hi hj
          exact hpair i j r q (by omega) hi hj x y hc

theorem SuperNodesByConicPath.sweep_spec (solutions : List (List Link)) (depths : List Nat)
    (supernodes : List (List NodePtr))
    (hsorted : solutions.Pairwise (fun p q => q.length ≤ p.length)) :
    ∃ found, SuperNodesByConicPath.sweep solutions depths supernodes = some found ∧
      Grows supernodes found ∧
      ∀ d ∈ depths,
        (∀ p ∈ solutions, ∀ here, index? p (d : Int) = some here →
          Joined found here.Dst here.Dst) ∧
        (∀ (i j : Nat) (p q : List Link), i < j → solutions[i]? = some p → solutions[j]? = some q →
          ∀ x y, Conic (d : Int) p q x y → Joined found x y) := by
  induction depths generalizing supernodes with
  | nil => exact ⟨supernodes, rfl, Grows.grows_refl _, by simp⟩
  | cons d more ih =>
    obtain ⟨sn₁, hrow, hgrow₁, hself, hpair⟩ :=
      SuperNodesByConicPath.row_spec (d : Int) solutions supernodes (by omega) hsorted
    obtain ⟨found, hrun, hgrow, hall⟩ := ih sn₁
    rw [SuperNodesByConicPath.sweep, hrow, Option.some_bind]
    refine ⟨found, hrun, hgrow₁.grows_trans hgrow, fun d' hd' => ?_⟩
    rcases List.mem_cons.1 hd' with rfl | hmem
    · exact ⟨fun p hp here hhere => Joined.joined_mono hgrow (hself p hp here hhere),
        fun i j p q hij hi hj x y hc => Joined.joined_mono hgrow (hpair i j p q hij hi hj x y hc)⟩
    · exact hall d' hmem

/-- The merge for paths ordered by length: for every list of solution paths in
which no path is longer than an earlier one, every pair of paths `i` and `j` and every depth `d`
with `1 ≤ d < 2*maxdepth` such that `d+1` is a valid index of both paths, if the
two paths have the same destination at index `d-1` and the same destination at
index `d+1`, then `SuperNodesByConicPath(solutions, maxdepth)` returns, and some
class of its result contains both `solutions[i][d].Dst` and
`solutions[j][d].Dst`. -/
theorem SuperNodesByConicPath_merges (solutions : List (List Link)) (maxdepth : Int)
    (i j : Nat) (d : Int) (path_i path_j : List Link)
    (before_i before_j here_i here_j after_i after_j : Link)
    (hsorted : solutions.Pairwise (fun p q => q.length ≤ p.length))
    (hd : 1 ≤ d ∧ d < 2 * maxdepth)
    (hi : solutions[i]? = some path_i) (hj : solutions[j]? = some path_j)
    (hbi : index? path_i (d - 1) = some before_i) (hbj : index? path_j (d - 1) = some before_j)
    (hhi : index? path_i d = some here_i) (hhj : index? path_j d = some here_j)
    (hai : index? path_i (d + 1) = some after_i) (haj : index? path_j (d + 1) = some after_j)
    (hbefore : before_i.Dst = before_j.Dst) (hafter : after_i.Dst = after_j.Dst) :
    ∃ classes, SuperNodesByConicPath solutions maxdepth = some classes ∧
      ∃ c ∈ classes, here_i.Dst ∈ c ∧ here_j.Dst ∈ c := by
  obtain ⟨found, hrun, _, hall⟩ := SuperNodesByConicPath.sweep_spec solutions
    (List.range (maxdepth * 2).toNat) [] hsorted
  refine ⟨found, hrun, ?_⟩
  have hmem : d.toNat ∈ List.range (maxdepth * 2).toNat := by
    rw [List.mem_range]
    omega
  have hcast : ((d.toNat : Nat) : Int) = d := by omega
  obtain ⟨hself, hpair⟩ := hall d.toNat hmem
  rw [hcast] at hself hpair
  have hconic : Conic d path_i path_j here_i.Dst here_j.Dst :=
    ⟨hd.1, before_i, before_j, after_i, after_j, here_i, here_j, hbi, hbj, hbefore, hai, haj,
      hafter, hhi, hhj, rfl, rfl⟩
  rcases Nat.lt_trichotomy i j with hlt | heq | hgt
  · exact hpair i j path_i path_j hlt hi hj _ _ hconic
  · subst heq
    rw [hi] at hj
    cases hj
    rw [hhi] at hhj
    cases hhj
    exact hself path_i (List.getElem?_mem hi) here_i hhi
  · exact (hpair j i path_j path_i hgt hj hi _ _ hconic.conic_symm).joined_symm

/-- The merge at the solutions `A,B,E` and `A,X,E` with `maxdepth = 2` and
`d = 1`: the result has a class that contains `B` and `X`. -/
theorem SuperNodesByConicPath_merges_witness :
    ∃ classes, SuperNodesByConicPath diamondPaths 2 = some classes ∧
      ∃ c ∈ classes, (plainLink 7 ⟨1, 1⟩).Dst ∈ c ∧ (plainLink 7 ⟨1, 5⟩).Dst ∈ c :=
  SuperNodesByConicPath_merges diamondPaths 2 0 1 1
    [GetSingletonAsLink ⟨1, 0⟩, plainLink 7 ⟨1, 1⟩, plainLink 7 ⟨1, 4⟩]
    [GetSingletonAsLink ⟨1, 0⟩, plainLink 7 ⟨1, 5⟩, plainLink 7 ⟨1, 4⟩]
    (GetSingletonAsLink ⟨1, 0⟩) (GetSingletonAsLink ⟨1, 0⟩) (plainLink 7 ⟨1, 1⟩)
    (plainLink 7 ⟨1, 5⟩) (plainLink 7 ⟨1, 4⟩) (plainLink 7 ⟨1, 4⟩)
    (by simp [diamondPaths]) (by decide) rfl rfl rfl rfl rfl rfl rfl rfl rfl rfl

/-- C23 (the failing input): in the solutions `A,B,C,E`, `A,Y,E`, `A,B,X,E` the
paths 0 and 2 have the same destination at the indices 1 and 3, and index 3 is
valid in both; with `maxdepth = 2` the loop over `p_j` breaks at the short path
`A,Y,E`, and no class of the result contains both `C` and `X`. With the short
path last in the list, the result has the class `{C, X}`. -/
theorem SuperNodesByConicPath_break_skips_pair :
    SuperNodesByConicPath brokenPaths 2 =
      some [[⟨1, 0⟩], [⟨1, 1⟩], [⟨1, 9⟩], [⟨1, 2⟩], [⟨1, 4⟩], [⟨1, 5⟩]] ∧
    Conic 2 (brokenPaths.getD 0 []) (brokenPaths.getD 2 []) ⟨1, 2⟩ ⟨1, 5⟩ ∧
    (¬ ∃ c ∈ [[⟨1, 0⟩], [⟨1, 1⟩], [⟨1, 9⟩], [⟨1, 2⟩], [⟨1, 4⟩], [(⟨1, 5⟩ : NodePtr)]],
      (⟨1, 2⟩ : NodePtr) ∈ c ∧ (⟨1, 5⟩ : NodePtr) ∈ c) ∧
    SuperNodesByConicPath
        [brokenPaths.getD 0 [], brokenPaths.getD 2 [], brokenPaths.getD 1 []] 2 =
      some [[⟨1, 0⟩], [⟨1, 1⟩], [⟨1, 9⟩], [⟨1, 2⟩, ⟨1, 5⟩], [⟨1, 4⟩]] := by
  refine ⟨by decide, ?_, by decide, by decide⟩
  exact ⟨by decide, plainLink 7 ⟨1, 1⟩, plainLink 7 ⟨1, 1⟩, plainLink 7 ⟨1, 4⟩,
    plainLink 7 ⟨1, 4⟩, plainLink 7 ⟨1, 2⟩, plainLink 7 ⟨1, 5⟩, rfl, rfl, rfl, rfl, rfl, rfl,
    rfl, rfl, rfl, rfl⟩

/-! ## Axial paths: the failing inputs -/

/-- C30 (the failing inputs): for the one forward path `A,B` whose hop carries
another arrow, `GetLongestAxialPath` reads `paths[1]` in a list of length 1 and
panics; for three paths along the arrow with 4, 1 and 2 hops it returns the
last one, of length 3, although the first one is cut to length 5. -/
theorem GetLongestAxialPath_not_longest :
    strayPaths ≠ [] ∧
    GetLongestAxialPath sampleArrows (fun _ => strayPaths) 0 = none ∧
    GetLongestAxialPath.loop 0 (List.range strayPaths.length) strayPaths 1 =
      some ([[]], 1) ∧
    GetLongestAxialPath sampleArrows (fun _ => axialPaths) 0 =
      some [GetSingletonAsLink ⟨1, 0⟩, plainLink 0 ⟨1, 6⟩, plainLink 0 ⟨1, 7⟩] ∧
    (TruncatePathsByArrow (axialPaths.getD 2 []) 0).1.length = 3 ∧
    (TruncatePathsByArrow (axialPaths.getD 0 []) 0).1.length = 5 := by
  decide

/-! ## SQL marshalling: string arrays -/

theorem strings_Replace_byte (s new : GoString) (b : Nat) :
    strings_Replace s [b] new = s.flatMap (fun c => if c = b then new else [c]) := by
  unfold strings_Replace
  induction s with
  | nil => rfl
  | cons c rest ih =>
    rw [strings_Replace.go, List.flatMap_cons]
    by_cases h : c = b
    · subst h
      simp [List.isPrefixOf, ih]
    · have h' : ¬ b = c := fun e => h e.symm
      simp [List.isPrefixOf, ih, h, h']

theorem strLE_total (a b : GoString) : strLE a b = true ∨ strLE b a = true := by
  induction a generalizing b with
  | nil => exact Or.inl rfl
  | cons x xs ih =>
    cases b with
    | nil => exact Or.inr rfl
    | cons y ys =>
      unfold strLE
      rcases Nat.lt_trichotomy x y with h | h | h
      · simp [h]
      · subst h
        simpa using ih ys
      · have h' : ¬ x < y := by omega
        simp [h, h']

theorem strLE_trans (a b c : GoString) (hab : strLE a b = true) (hbc : strLE b c = true) :
    strLE a c = true := by
  induction a generalizing b c with
  | nil => rfl
  | cons x xs ih =>
    cases b with
    | nil => simp [strLE] at hab
    | cons y ys =>
      cases c with
      | nil => simp [strLE] at hbc
      | cons z zs =>
        unfold strLE at hab hbc ⊢
        by_cases hxy : x < y
        · by_cases hyz : y < z
          · have : x < z := by omega
            simp [this]
          · by_cases hzy : z < y
            · simp [hyz, hzy] at hbc
            · have : x < z := by omega
              simp [this]
        · by_cases hyx : y < x
          · simp [hxy, hyx] at hab
          · have hxy' : x = y := by omega
            subst hxy'
            simp only [hxy, if_false] at hab
            by_cases hxz : x < z
            · simp [hxz]
            · by_cases hzx : z < x
              · simp [hxz, hzx] at hbc
              · simp only [hxz, hzx, if_false] at hbc ⊢
                exact ih ys zs hab hbc

theorem strLE_antisymm (a b : GoString) (hab : strLE a b = true) (hba : strLE b a = true) :
    a = b := by
  induction a generalizing b with
  | nil =>
    cases b with
    | nil => rfl
    | cons y ys => simp [strLE] at hba
  | cons x xs ih =>
    cases b with
    | nil => simp [strLE] at hab
    | cons y ys =>
      unfold strLE at hab hba
      by_cases hxy : x < y
      · have : ¬ y < x := by omega
        simp [hxy, this] at hba
      · by_cases hyx : y < x
        · simp [hxy, hyx] at hab
        · have hxy' : x = y := by omega
          subst hxy'
          simp only [hxy, if_false] at hab hba
          rw [ih ys hab hba]

theorem sort_Strings_perm (array : List GoString) : (sort_Strings array).Perm array :=
  List.perm_insertionSort _ array

theorem sort_Strings_sorted (array : List GoString) :
    (sort_Strings array).Sorted (fun a b => strLE a b = true) := by
  haveI : IsTotal GoString (fun a b => strLE a b = true) := ⟨strLE_total⟩
  haveI : IsTrans GoString (fun a b => strLE a b = true) := ⟨strLE_trans⟩
  exact List.sorted_insertionSort _ array

theorem sort_Strings_congr (array array' : List GoString) (h : array'.Perm array) :
    sort_Strings array' = sort_Strings array := by
  haveI : IsAntisymm GoString (fun a b => strLE a b = true) := ⟨strLE_antisymm⟩
  exact List.eq_of_perm_of_sorted
    ((sort_Strings_perm array').trans (h.trans (sort_Strings_perm array).symm))
    (sort_Strings_sorted array') (sort_Strings_sorted array)

theorem FormatSQLStringArray.loop_eq_intercalate (array : List GoString) :
    FormatSQLStringArray.loop array =
      (str ", ").intercalate (array.map (fun s => str "\"" ++ SQLEscape s ++ str "\"")) := by
  induction array with
  | nil => rfl
  | cons s rest ih =>
    cases rest with
    | nil => simp [FormatSQLStringArray.loop, List.intercalate]
    | cons t rest =>
      rw [FormatSQLStringArray.loop, ih]
      simp [List.intercalate, List.intersperse]

/-- C28: `FormatSQLStringArray` returns `'{ }'` for an empty list; otherwise it
returns `'{ `, then the elements in ascending byte-wise order, each between
double quotes with every single quote doubled, separated by `", "`, then ` }' `
(with a blank after the closing quote); and its output is the same for every
permutation of the same input list. -/
theorem FormatSQLStringArray_spec (array : List GoString) :
    (array = [] → FormatSQLStringArray array = str "'\x7b \x7d'") ∧
    (array ≠ [] → ∃ sorted : List GoString, sorted.Perm array ∧
      sorted.Sorted (fun a b => strLE a b = true) ∧
      FormatSQLStringArray array =
        str "'\x7b " ++
          (str ", ").intercalate (sorted.map (fun s =>
            str "\"" ++ s.flatMap (fun c => if c = 39 then [39, 39] else [c]) ++ str "\"")) ++
          str " \x7d' ") ∧
    (∀ array' : List GoString, array'.Perm array →
      FormatSQLStringArray array' = FormatSQLStringArray array) := by
  refine ⟨fun h => by rw [h]; rfl, fun h => ?_, fun array' hperm => ?_⟩
  · refine ⟨sort_Strings array, sort_Strings_perm array, sort_Strings_sorted array, ?_⟩
    have hlen : ¬ array.length = 0 := fun e => h (List.length_eq_zero.1 e)
    unfold FormatSQLStringArray
    rw [if_neg hlen, FormatSQLStringArray.loop_eq_intercalate]
    have hesc : ∀ s, SQLEscape s = s.flatMap (fun c => if c = 39 then [39, 39] else [c]) :=
      fun s => strings_Replace_byte s (str "''") 39
    simp only [hesc]
  · unfold FormatSQLStringArray
    rw [hperm.length_eq, sort_Strings_congr array array' hperm]

/-- C28 at the list `b`, `it's`, `a`: the output is `'{ "a", "b", "it''s" }' `,
also for the list in another order. -/
theorem FormatSQLStringArray_spec_witness :
    FormatSQLStringArray [str "b", str "it's", str "a"] =
      str "'\x7b \"a\", \"b\", \"it''s\" \x7d' " ∧
    FormatSQLStringArray [str "a", str "it's", str "b"] =
      FormatSQLStringArray [str "b", str "it's", str "a"] :=
  ⟨by decide,
    (FormatSQLStringArray_spec [str "b", str "it's", str "a"]).2.2
      [str "a", str "it's", str "b"] (by decide)⟩

/-! ## Orbits: proofs -/

theorem IdempAddNote_mem (list : List Orbit) (item o : Orbit) (h : o ∈ IdempAddNote list item) :
    o ∈ list ∨ o = item := by
  unfold IdempAddNote at h
  split_ifs at h
  · exact Or.inl h
  · rcases List.mem_append.1 h with h' | h'
    · exact Or.inl h'
    · exact Or.inr (List.mem_singleton.1 h')

theorem IdempAddNote_keeps (list : List Orbit) (item o : Orbit) (h : o ∈ list) :
    o ∈ IdempAddNote list item := by
  unfold IdempAddNote
  split_ifs
  · exact h
  · exact List.mem_append_left _ h

theorem IdempAddNote_noted (list : List Orbit) (item : Orbit) :
    Noted (IdempAddNote list item) item := by
  unfold IdempAddNote
  split_ifs with h
  · rw [List.any_eq_true] at h
    obtain ⟨o, ho, hkey⟩ := h
    exact ⟨o, ho, by simpa using hkey⟩
  · exact ⟨item, by simp, rfl, rfl, rfl⟩

theorem Noted.of_subset {list list' : List Orbit} {item : Orbit}
    (hsub : ∀ o ∈ list, o ∈ list') (h : Noted list item) : Noted list' item := by
  obtain ⟨o, ho, hkey⟩ := h
  exact ⟨o, hsub o ho, hkey⟩

theorem GetNodeOrbit.deeper_spec (ARROW_DIRECTORY : List ArrowDirectory)
    (text : NodePtr → GoString) (exclude_vector : GoString) (path : List Link)
    (a1 : ArrowDirectory) (notes : List Orbit)
    (hreg : ∀ lnk ∈ path, ∃ entry, index? ARROW_DIRECTORY lnk.Arr = some entry) :
    ∃ found, GetNodeOrbit.deeper ARROW_DIRECTORY text exclude_vector path GetNodeOrbit.depths
        a1 notes = some found ∧
      (∀ o ∈ notes, o ∈ found) ∧
      (∀ o ∈ found, o ∈ notes ∨ ∃ second a2, index? path 2 = some second ∧
        index? ARROW_DIRECTORY second.Arr = some a2 ∧ ¬ Excluded exclude_vector a2 ∧
        STIndexToSTType a2.STAindex ≠ -STIndexToSTType a1.STAindex ∧
        o = ⟨2, a2.Long, a2.STAindex, second.Dst, Array2Str second.Ctx, text second.Dst⟩) ∧
      (∀ second a2, index? path 2 = some second →
        index? ARROW_DIRECTORY second.Arr = some a2 → ¬ Excluded exclude_vector a2 →
        STIndexToSTType a2.STAindex ≠ -STIndexToSTType a1.STAindex →
        Noted found
          ⟨2, a2.Long, a2.STAindex, second.Dst, Array2Str second.Ctx, text second.Dst⟩) := by
  have hdepths : GetNodeOrbit.depths = [2] := by decide
  by_cases hlen : (2 : Int) < (path.length : Int)
  · obtain ⟨second, hsecond⟩ := index?_of_bounds path 2 (by omega) hlen
    have hmem : second ∈ path := by
      obtain ⟨_, hget⟩ := index?_some path 2 second hsecond
      exact List.getElem?_mem hget
    obtain ⟨a2, ha2⟩ := hreg second hmem
    by_cases hex : a2.Long = exclude_vector ∨ a2.Short = exclude_vector
    · have hrun : GetNodeOrbit.deeper ARROW_DIRECTORY text exclude_vector path
          GetNodeOrbit.depths a1 notes = some notes := by
        rw [hdepths, GetNodeOrbit.deeper, if_neg (not_not.2 hlen)]
        simp only [hsecond, GetDBArrowByPtr, ha2, Option.some_bind]
        rw [if_pos hex]
      refine ⟨notes, hrun, fun o h => h, fun o h => Or.inl h, fun s a hs ha hne _ => ?_⟩
      rw [hsecond] at hs
      cases hs
      rw [ha2] at ha
      cases ha
      exact absurd hex hne
    · by_cases hback : STIndexToSTType a2.STAindex ≠ -STIndexToSTType a1.STAindex
      · have hrun : GetNodeOrbit.deeper ARROW_DIRECTORY text exclude_vector path
            GetNodeOrbit.depths a1 notes = some (IdempAddNote notes
              ⟨2, a2.Long, a2.STAindex, second.Dst, Array2Str second.Ctx, text second.Dst⟩) := by
          rw [hdepths, GetNodeOrbit.deeper, if_neg (not_not.2 hlen)]
          simp only [hsecond, GetDBArrowByPtr, ha2, Option.some_bind]
          rw [if_neg hex, if_pos hback, GetNodeOrbit.deeper]
        refine ⟨_, hrun, fun o h => IdempAddNote_keeps _ _ _ h, fun o h => ?_,
          fun s a hs ha _ _ => ?_⟩
        · rcases IdempAddNote_mem _ _ _ h with h' | h'
          · exact Or.inl h'
          · exact Or.inr ⟨second, a2, hsecond, ha2, hex, hback, h'⟩
        · rw [hsecond] at hs
          cases hs
          rw [ha2] at ha
          cases ha
          exact IdempAddNote_noted _ _
      · have hrun : GetNodeOrbit.deeper ARROW_DIRECTORY text exclude_vector path
            GetNodeOrbit.depths a1 notes = some notes := by
          rw [hdepths, GetNodeOrbit.deeper, if_neg (not_not.2 hlen)]
          simp only [hsecond, GetDBArrowByPtr, ha2, Option.some_bind]
          rw [if_neg hex, if_neg hback, GetNodeOrbit.deeper]
        refine ⟨notes, hrun, fun o h => h, fun o h => Or.inl h, fun s a hs ha _ hnb => ?_⟩
        rw [hsecond] at hs
        cases hs
        rw [ha2] at ha
        cases ha
        exact absurd hnb hback
  · have hrun : GetNodeOrbit.deeper ARROW_DIRECTORY text exclude_vector path
        GetNodeOrbit.depths a1 notes = some notes := by
      rw [hdepths, GetNodeOrbit.deeper, if_pos hlen]
    refine ⟨notes, hrun, fun o h => h, fun o h => Or.inl h, fun s a hs _ _ _ => ?_⟩
    have := (index?_bounds path 2 s hs).2
    exact absurd this hlen

theorem GetNodeOrbit.angles_spec (ARROW_DIRECTORY : List ArrowDirectory)
    (text : NodePtr → GoString) (exclude_vector : GoString) (stindex : Int)
    (paths : List (List Link)) (notes : List Orbit)
    (hreg : ∀ path ∈ paths, ∀ lnk ∈ path, ∃ entry, index? ARROW_DIRECTORY lnk.Arr = some entry) :
    ∃ found, GetNodeOrbit.angles ARROW_DIRECTORY text exclude_vector stindex paths notes =
        some found ∧
      (∀ o ∈ notes, o ∈ found) ∧
      (∀ o ∈ found, o ∈ notes ∨
        ∃ path ∈ paths, OrbitOrigin ARROW_DIRECTORY text exclude_vector stindex path o) ∧
      (∀ path ∈ paths, ∀ o, OrbitOrigin ARROW_DIRECTORY text exclude_vector stindex path o →
        Noted found o) := by
  induction paths generalizing notes with
  | nil => exact ⟨notes, rfl, fun o h => h, fun o h => Or.inl h, by simp⟩
  | cons path more ih =>
    have hreg' : ∀ p ∈ more, ∀ lnk ∈ p, ∃ entry, index? ARROW_DIRECTORY lnk.Arr = some entry :=
      fun p hp => hreg p (List.mem_cons_of_mem _ hp)
    -- the paths that add nothing
    have hskip : GetNodeOrbit.angles ARROW_DIRECTORY text exclude_vector stindex (path :: more)
          notes = GetNodeOrbit.angles ARROW_DIRECTORY text exclude_vector stindex more notes →
        (∀ o, ¬ OrbitOrigin ARROW_DIRECTORY text exclude_vector stindex path o) →
        ∃ found, GetNodeOrbit.angles ARROW_DIRECTORY text exclude_vector stindex (path :: more)
            notes = some found ∧
          (∀ o ∈ notes, o ∈ found) ∧
          (∀ o ∈ found, o ∈ notes ∨ ∃ p ∈ path :: more,
            OrbitOrigin ARROW_DIRECTORY text exclude_vector stindex p o) ∧
          (∀ p ∈ path :: more, ∀ o,
            OrbitOrigin ARROW_DIRECTORY text exclude_vector stindex p o → Noted found o) := by
      intro hrun hnone
      obtain ⟨found, hfound, hkeep, horigin, hcover⟩ := ih notes hreg'
      refine ⟨found, hrun.trans hfound, hkeep, fun o ho => ?_, fun p hp o hor => ?_⟩
      · rcases horigin o ho with h | ⟨p, hp, hor⟩
        · exact Or.inl h
        · exact Or.inr ⟨p, List.mem_cons_of_mem _ hp, hor⟩
      · rcases List.mem_cons.1 hp with rfl | hp'
        · exact absurd hor (hnone o)
        · exact hcover p hp' o hor
    by_cases hlen : path.length > 1
    · obtain ⟨start, hstart⟩ := index?_of_bounds path 1 (by omega) (by omega)
      have hmem : start ∈ path := by
        obtain ⟨_, hget⟩ := index?_some path 1 start hstart
        exact List.getElem?_mem hget
      obtain ⟨a1, ha1⟩ := hreg path (List.mem_cons_self _ _) start hmem
      have hunique : ∀ o, OrbitOrigin ARROW_DIRECTORY text exclude_vector stindex path o →
          a1.STAindex = stindex ∧ ¬ Excluded exclude_vector a1 ∧
          (o = ⟨1, a1.Long, a1.STAindex, start.Dst, [], text start.Dst⟩ ∨
            ∃ second a2, index? path 2 = some second ∧
              index? ARROW_DIRECTORY second.Arr = some a2 ∧ ¬ Excluded exclude_vector a2 ∧
              STIndexToSTType a2.STAindex ≠ -STIndexToSTType a1.STAindex ∧
              o = ⟨2, a2.Long, a2.STAindex, second.Dst, Array2Str second.Ctx,
                text second.Dst⟩) := by
        rintro o ⟨first, a, hf, ha, hst, hex, hor⟩
        rw [hstart] at hf
        cases hf
        rw [ha1] at ha
        cases ha
        exact ⟨hst, hex, hor⟩
      by_cases hst : a1.STAindex = stindex
      · by_cases hex : a1.Long = exclude_vector ∨ a1.Short = exclude_vector
        · refine hskip ?_ (fun o hor => (hunique o hor).2.1 hex)
          rw [GetNodeOrbit.angles, if_pos hlen]
          simp only [hstart, GetDBArrowByPtr, ha1, Option.some_bind]
          rw [if_pos hst, if_pos hex]
        · obtain ⟨notes₂, hdeep, hkeep₂, horigin₂, hcover₂⟩ :=
            GetNodeOrbit.deeper_spec ARROW_DIRECTORY text exclude_vector path a1
              (IdempAddNote notes ⟨1, a1.Long, a1.STAindex, start.Dst, [], text start.Dst⟩)
              (hreg path (List.mem_cons_self _ _))
          obtain ⟨found, hfound, hkeep, horigin, hcover⟩ := ih notes₂ hreg'
          have hrun : GetNodeOrbit.angles ARROW_DIRECTORY text exclude_vector stindex
              (path :: more) notes = some found := by
            rw [GetNodeOrbit.angles, if_pos hlen]
            simp only [hstart, GetDBArrowByPtr, ha1, Option.some_bind]
            rw [if_pos hst, if_neg hex, hdeep, Option.some_bind, hfound]
          refine ⟨found, hrun,
            fun o ho => hkeep o (hkeep₂ o (IdempAddNote_keeps _ _ _ ho)),
            fun o ho => ?_, fun p hp o hor => ?_⟩
          · rcases horigin o ho with h | ⟨p, hp, hor⟩
            · rcases horigin₂ o h with h' | h'
              · rcases IdempAddNote_mem _ _ _ h' with h'' | h''
                · exact Or.inl h''
                · exact Or.inr ⟨path, List.mem_cons_self _ _, start, a1, hstart, ha1, hst, hex,
                    Or.inl h''⟩
              · exact Or.inr ⟨path, List.mem_cons_self _ _, start, a1, hstart, ha1, hst, hex,
                  Or.inr h'⟩
            · exact Or.inr ⟨p, List.mem_cons_of_mem _ hp, hor⟩
          · rcases List.mem_cons.1 hp with rfl | hp'
            · rcases (hunique o hor).2.2 with rfl | ⟨second, a2, h2, ha2, hex2, hnb, rfl⟩
              · exact Noted.of_subset (fun o ho => hkeep o (hkeep₂ o ho))
                  (IdempAddNote_noted _ _)
              · exact Noted.of_subset hkeep (hcover₂ second a2 h2 ha2 hex2 hnb)
            · exact hcover p hp' o hor
      · refine hskip ?_ (fun o hor => hst (hunique o hor).1)
        rw [GetNodeOrbit.angles, if_pos hlen]
        simp only [hstart, GetDBArrowByPtr, ha1, Option.some_bind]
        rw [if_neg hst]
    · refine hskip ?_ ?_
      · rw [GetNodeOrbit.angles, if_neg hlen]
      · rintro o ⟨first, a, hf, _⟩
        have := (index?_bounds path 1 first hf).2
        omega

theorem GetNodeOrbit.buckets_spec (ARROW_DIRECTORY : List ArrowDirectory)
    (text : NodePtr → GoString) (exclude_vector : GoString) (sweep : List (List Link))
    (stindexes : List Nat)
    (hreg : ∀ path ∈ sweep, ∀ lnk ∈ path, ∃ entry, index? ARROW_DIRECTORY lnk.Arr = some entry) :
    ∃ notes, GetNodeOrbit.buckets ARROW_DIRECTORY text exclude_vector sweep stindexes =
        some notes ∧
      List.Forall₂ (fun (stindex : Nat) bucket =>
        GetNodeOrbit.angles ARROW_DIRECTORY text exclude_vector (stindex : Int) sweep [] =
          some bucket) stindexes notes := by
  induction stindexes with
  | nil => exact ⟨[], rfl, List.Forall₂.nil⟩
  | cons stindex more ih =>
    obtain ⟨bucket, hbucket, _⟩ := GetNodeOrbit.angles_spec ARROW_DIRECTORY text exclude_vector
      (stindex : Int) sweep [] hreg
    obtain ⟨rest, hrest, hall⟩ := ih
    refine ⟨bucket :: rest, ?_, List.Forall₂.cons hbucket hall⟩
    rw [GetNodeOrbit.buckets, hbucket, Option.some_bind, hrest]
    rfl

/-- C26 (as amended): when every arrow of the swept probe paths is registered,
`GetNodeOrbit` returns the 7 lists `notes[stindex]`; the notes of
`notes[stindex]` are exactly (up to the merge of `IdempAddNote`, which compares
`Dst`, `Arrow` and `Text`) the satellites at hop 1 of the probe paths whose
first-hop arrow has that `STAindex` and is not the excluded one, with
`Radius = 1`, and the satellites at hop 2 of these paths, with `Radius = 2`,
unless hop 2 carries the excluded arrow or backtracks (its STType is the
negative of the first hop's). Hop 3 is never read (`depth < probe_radius`), so
every note has `Radius` 1 or 2. -/
theorem GetNodeOrbit_spec (ARROW_DIRECTORY : List ArrowDirectory) (text : NodePtr → GoString)
    (exclude_vector : GoString) (sweep : List (List Link))
    (hreg : ∀ path ∈ sweep, ∀ lnk ∈ path, (index? ARROW_DIRECTORY lnk.Arr).isSome = true) :
    ∃ notes, GetNodeOrbit ARROW_DIRECTORY text exclude_vector sweep = some notes ∧
      notes.length = 7 ∧
      ∀ (stindex : Nat) (bucket : List Orbit), notes[stindex]? = some bucket →
        (∀ o ∈ bucket, ∃ path ∈ sweep,
          OrbitOrigin ARROW_DIRECTORY text exclude_vector stindex path o) ∧
        (∀ path ∈ sweep, ∀ o,
          OrbitOrigin ARROW_DIRECTORY text exclude_vector stindex path o → Noted bucket o) ∧
        (∀ o ∈ bucket, o.Radius = 1 ∨ o.Radius = 2) := by
  have hreg' : ∀ path ∈ sweep, ∀ lnk ∈ path,
      ∃ entry, index? ARROW_DIRECTORY lnk.Arr = some entry :=
    fun path hp lnk hl => Option.isSome_iff_exists.1 (hreg path hp lnk hl)
  obtain ⟨notes, hrun, hall⟩ := GetNodeOrbit.buckets_spec ARROW_DIRECTORY text exclude_vector
    sweep (List.range ST_TOP.toNat) hreg'
  have hlen : notes.length = 7 := by
    rw [← hall.length_eq]
    decide
  refine ⟨notes, hrun, hlen, fun stindex bucket hb => ?_⟩
  obtain ⟨hlt, hget⟩ := List.getElem?_eq_some_iff.1 hb
  have hrel := (List.forall₂_iff_get.1 hall).2 stindex
    (by rw [hall.length_eq]; exact hlt) hlt
  simp only [List.get_eq_getElem, List.getElem_range, hget] at hrel
  obtain ⟨found, hfound, _, horigin, hcover⟩ := GetNodeOrbit.angles_spec ARROW_DIRECTORY text
    exclude_vector (stindex : Int) sweep [] hreg'
  rw [hrel] at hfound
  cases hfound
  have horigin' : ∀ o ∈ bucket, ∃ path ∈ sweep,
      OrbitOrigin ARROW_DIRECTORY text exclude_vector stindex path o := by
    intro o ho
    rcases horigin o ho with h | h
    · simp at h
    · exact h
  refine ⟨horigin', hcover, fun o ho => ?_⟩
  obtain ⟨path, _, first, a1, _, _, _, _, hor⟩ := horigin' o ho
  rcases hor with rfl | ⟨second, a2, _, _, _, _, rfl⟩
  · exact Or.inl rfl
  · exact Or.inr rfl

/-- C26 at the story `A then B then C then D`: the store returns one probe path
of radius 3 from `A`, the seed link followed by the hops to `B` and to `C`, and
`notes[4]` holds the notes of `B` with radius 1 and of `C` with radius 2. -/
theorem GetNodeOrbit_spec_witness :
    GetEntireConePathsAsLinks chainDB 3 SliceOrder.stable (str "any") ⟨1, 0⟩ probe_radius =
      some ([[GetSingletonAsLink ⟨1, 0⟩, plainLink 1 ⟨1, 1⟩, plainLink 1 ⟨1, 2⟩]], 1) ∧
    GetNodeOrbit chainArrows sampleText (str "none")
        [[GetSingletonAsLink ⟨1, 0⟩, plainLink 1 ⟨1, 1⟩, plainLink 1 ⟨1, 2⟩]] =
      some [[], [], [], [],
        [⟨1, str "then", 4, ⟨1, 1⟩, [], str "B"⟩, ⟨2, str "then", 4, ⟨1, 2⟩, [], str "C"⟩],
        [], []] ∧
    ∃ notes, GetNodeOrbit chainArrows sampleText (str "none")
        [[GetSingletonAsLink ⟨1, 0⟩, plainLink 1 ⟨1, 1⟩, plainLink 1 ⟨1, 2⟩]] = some notes ∧
      notes.length = 7 ∧
      ∀ (stindex : Nat) (bucket : List Orbit), notes[stindex]? = some bucket →
        (∀ o ∈ bucket,
          ∃ path ∈ [[GetSingletonAsLink ⟨1, 0⟩, plainLink 1 ⟨1, 1⟩, plainLink 1 ⟨1, 2⟩]],
            OrbitOrigin chainArrows sampleText (str "none") stindex path o) ∧
        (∀ path ∈ [[GetSingletonAsLink ⟨1, 0⟩, plainLink 1 ⟨1, 1⟩, plainLink 1 ⟨1, 2⟩]], ∀ o,
          OrbitOrigin chainArrows sampleText (str "none") stindex path o → Noted bucket o) ∧
        (∀ o ∈ bucket, o.Radius = 1 ∨ o.Radius = 2) :=
  ⟨by decide, by decide, GetNodeOrbit_spec chainArrows sampleText (str "none") _ (by decide)⟩

/-- C26 (counterexample): in the story `A then B then C then D` the node `D` is
three hops from `A` along the arrow `then`, which is not excluded and does not
backtrack. The stored function `AllPathsAsLinks` with the radius 3 returns the
one path `A,B,C` (the seed link and two hops), so the probe paths of
`GetNodeOrbit` hold no third hop; the orbit of `A` has the notes of `B`
(radius 1) and of `C` (radius 2), no note of `D` and no note with
`Radius = 3`. -/
theorem GetNodeOrbit_skips_third_hop :
    bucketOf chainDB ⟨1, 0⟩ 1 = [plainLink 1 ⟨1, 1⟩] ∧
    bucketOf chainDB ⟨1, 1⟩ 1 = [plainLink 1 ⟨1, 2⟩] ∧
    bucketOf chainDB ⟨1, 2⟩ 1 = [plainLink 1 ⟨1, 3⟩] ∧
    AllPathsAsLinks chainDB 3 ⟨1, 0⟩ (str "any") probe_radius =
      some (some [[], [], [],
        [GetSingletonAsLink ⟨1, 0⟩, plainLink 1 ⟨1, 1⟩, plainLink 1 ⟨1, 2⟩]]) ∧
    GetEntireConePathsAsLinks chainDB 3 SliceOrder.stable (str "any") ⟨1, 0⟩ probe_radius =
      some ([[GetSingletonAsLink ⟨1, 0⟩, plainLink 1 ⟨1, 1⟩, plainLink 1 ⟨1, 2⟩]], 1) ∧
    ((GetEntireConePathsAsLinks chainDB 3 SliceOrder.stable (str "any") ⟨1, 0⟩ probe_radius).bind
        fun sweep => GetNodeOrbit chainArrows sampleText (str "none") sweep.1) =
      some [[], [], [], [],
        [⟨1, str "then", 4, ⟨1, 1⟩, [], str "B"⟩, ⟨2, str "then", 4, ⟨1, 2⟩, [], str "C"⟩],
        [], []] ∧
    ∀ bucket ∈ [[], [], [], [],
        [(⟨1, str "then", 4, ⟨1, 1⟩, [], str "B"⟩ : Orbit),
          ⟨2, str "then", 4, ⟨1, 2⟩, [], str "C"⟩], [], []],
      ∀ o ∈ bucket, o.Radius ≠ 3 ∧ o.Dst ≠ ⟨1, 3⟩ := by
  refine ⟨by decide, by decide, by decide, by decide, by decide, by decide, by decide⟩

/-! ## Probe paths: their length -/

theorem formatLines_lines (a b : Option PathText) (bound : Int) (hb : 0 ≤ bound)
    (ha : ∀ t, a = some t → ∀ line ∈ t, (line.length : Int) ≤ bound)
    (hb' : ∀ t, b = some t → ∀ line ∈ t, (line.length : Int) ≤ bound) :
    ∀ line ∈ formatLines a b, (line.length : Int) ≤ bound := by
  intro line hline
  unfold formatLines at hline
  rcases List.mem_append.1 hline with h | h
  · cases a with
    | none =>
      simp only [Option.getD_none, List.mem_singleton] at h
      subst h
      simpa using hb
    | some t => exact ha t rfl line h
  · cases b with
    | none =>
      simp only [Option.getD_none, List.mem_singleton] at h
      subst h
      simpa using hb
    | some t => exact hb' t rfl line h

theorem SumAllPaths.walk_lines
    (descend : Link → List Link → List NodePtr → Option (Option PathText))
    (path : List Link) (bound : Int) (hpath : (path.length : Int) + 1 ≤ bound)
    (hdesc : ∀ lnk excl text, descend lnk (path ++ [lnk]) excl = some (some text) →
      ∀ line ∈ text, (line.length : Int) ≤ bound) :
    ∀ (links : List Link) (exclude : List NodePtr) (ret_paths result : Option PathText),
      (∀ t, ret_paths = some t → ∀ line ∈ t, (line.length : Int) ≤ bound) →
      SumAllPaths.walk descend path links exclude ret_paths = some result →
      ∀ t, result = some t → ∀ line ∈ t, (line.length : Int) ≤ bound := by
  have hb : 0 ≤ bound := by omega
  intro links
  induction links with
  | nil =>
    intro exclude ret_paths result hret hrun
    rw [SumAllPaths.walk] at hrun
    cases hrun
    exact hret
  | cons lnk rest ih =>
    intro exclude ret_paths result hret hrun
    rw [SumAllPaths.walk] at hrun
    by_cases hex : lnk.Dst ∈ exclude
    · rw [if_pos hex] at hrun
      exact ih exclude ret_paths result hret hrun
    · rw [if_neg hex] at hrun
      cases hd : descend lnk (path ++ [lnk]) (exclude ++ [lnk.Dst]) with
      | none => rw [hd] at hrun; cases hrun
      | some appendix =>
        rw [hd] at hrun
        cases appendix with
        | some text =>
          refine ih _ _ result ?_ hrun
          intro t ht
          cases ht
          exact formatLines_lines _ _ bound hb hret
            (fun t ht => by cases ht; exact hdesc lnk _ text hd)
        | none =>
          refine ih _ _ result ?_ hrun
          intro t ht
          cases ht
          refine formatLines_lines _ _ bound hb hret (fun t ht => ?_)
          cases ht
          intro line hline
          rw [List.mem_singleton] at hline
          subst hline
          simpa using hpath

theorem SumAllPaths_lines (db : List NodeRow) (orientation : SQLText) (maxdepth : Int) :
    ∀ (fuel : Nat) (start : Link) (path : List Link) (depth : Int) (exclude : List NodePtr)
      (text : PathText), (path.length : Int) = depth → depth ≤ maxdepth →
      SumAllPaths db fuel start path orientation depth maxdepth exclude = some (some text) →
      ∀ line ∈ text, (line.length : Int) ≤ maxdepth := by
  intro fuel
  induction fuel with
  | zero =>
    intro start path depth exclude text _ _ hrun
    rw [SumAllPaths] at hrun
    cases hrun
  | succ fuel ih =>
    intro start path depth exclude text hlen hle hrun
    rw [SumAllPaths] at hrun
    have hb : 0 ≤ maxdepth := by omega
    by_cases hd : depth = maxdepth
    · rw [if_pos hd] at hrun
      cases hrun
      refine formatLines_lines _ _ maxdepth hb (fun t ht => by cases ht) (fun t ht => ?_)
      cases ht
      intro line hline
      rw [List.mem_singleton] at hline
      subst hline
      omega
    · rw [if_neg hd] at hrun
      cases hp : probeTypes (fun st => GetFwdLinks db start.Dst (some exclude) st)
          (SumAllPaths.types orientation) with
      | none => rw [hp] at hrun; cases hrun
      | some fwdlinks =>
        rw [hp] at hrun
        refine SumAllPaths.walk_lines _ path maxdepth (by omega) ?_ fwdlinks exclude none
          (some text) (fun t ht => by cases ht) hrun text rfl
        intro lnk excl text' hrun'
        exact ih lnk (path ++ [lnk]) (depth + 1) excl text'
          (by rw [List.length_append]; simp; omega) (by omega) hrun'

/-- Every probe path that `GetEntireConePathsAsLinks` returns for the depth
`depth` has at least 2 and at most `depth` links: the seed link and at most
`depth - 1` hops. -/
theorem GetEntireConePathsAsLinks_length (db : List NodeRow) (fuel : Nat) (ord : SliceOrder)
    (orientation : GoString) (start : NodePtr) (depth : Int) (hdepth : 1 ≤ depth)
    (sweep : List (List Link)) (n : Int)
    (hrun : GetEntireConePathsAsLinks db fuel ord orientation start depth = some (sweep, n)) :
    ∀ path ∈ sweep, 2 ≤ path.length ∧ (path.length : Int) ≤ depth := by
  unfold GetEntireConePathsAsLinks at hrun
  cases hall : AllPathsAsLinks db fuel start orientation depth with
  | none => rw [hall] at hrun; cases hrun
  | some whole =>
    rw [hall] at hrun
    simp only [Option.map_some', Option.some.injEq, Prod.mk.injEq] at hrun
    obtain ⟨hsweep, _⟩ := hrun
    intro path hpath
    rw [← hsweep] at hpath
    have hmem := (ord.perm _).mem_iff.1 hpath
    unfold ParseLinkPath at hmem
    rw [List.mem_filter] at hmem
    obtain ⟨hin, hlen⟩ := hmem
    refine ⟨by simpa using hlen, ?_⟩
    cases whole with
    | none => simp at hin
    | some text =>
      unfold AllPathsAsLinks at hall
      exact SumAllPaths_lines db orientation depth fuel _ _ 1 _ text (by simp) hdepth hall path
        (by simpa using hin)

/-! ## SQL marshalling: the text of a link -/

theorem strings_Replace_remove (s : GoString) (b : Nat) :
    strings_Replace s [b] [] = s.filter (fun c => c ≠ b) := by
  rw [strings_Replace_byte]
  induction s with
  | nil => rfl
  | cons c rest ih =>
    rw [List.flatMap_cons, ih]
    by_cases h : c = b
    · simp [h]
    · simp [h]

theorem strings_Replace_quotes (s : GoString) :
    (strings_Replace s [34, 34] [59]).filter (fun b => b ≠ 34 ∧ b ≠ 59) =
      s.filter (fun b => b ≠ 34 ∧ b ≠ 59) := by
  unfold strings_Replace
  have key : ∀ (n : Nat) (s : GoString), s.length ≤ n →
      (strings_Replace.go [34, 34] [59] 0 s).filter (fun b => b ≠ 34 ∧ b ≠ 59) =
        s.filter (fun b => b ≠ 34 ∧ b ≠ 59) := by
    intro n
    induction n with
    | zero =>
      intro s hs
      have : s = [] := List.length_eq_zero.1 (by omega)
      subst this
      rfl
    | succ n ih =>
      intro s hs
      cases s with
      | nil => rfl
      | cons c rest =>
        rw [strings_Replace.go]
        by_cases hpre : [34, 34].isPrefixOf (c :: rest) = true
        · rw [if_pos hpre]
          cases rest with
          | nil => simp [List.isPrefixOf] at hpre
          | cons d rest' =>
            have hcd : c = 34 ∧ d = 34 := by
              simp [List.isPrefixOf] at hpre
              omega
            obtain ⟨rfl, rfl⟩ := hcd
            have hlen : rest'.length ≤ n := by
              simp only [List.length_cons] at hs
              omega
            have := ih rest' hlen
            simp only [List.length_cons, List.length_nil, Nat.add_one_sub_one,
              strings_Replace.go]
            simpa using this
        · rw [if_neg hpre]
          have hlen : rest.length ≤ n := by
            simp only [List.length_cons] at hs
            omega
          have := ih rest hlen
          rw [List.filter_cons, List.filter_cons, this]
  exact key s.length s (Nat.le_refl _)

theorem strings_Split_ne_nil (sep : Nat) (s : GoString) :
    ∃ piece more, strings_Split sep s = piece :: more := by
  cases s with
  | nil => exact ⟨[], [], rfl⟩
  | cons c rest =>
    rw [strings_Split]
    by_cases h : c = sep
    · rw [if_pos h]; exact ⟨_, _, rfl⟩
    · rw [if_neg h]
      cases strings_Split sep rest with
      | nil => exact ⟨_, _, rfl⟩
      | cons piece more => exact ⟨_, _, rfl⟩

theorem strings_Split_cons_ne (sep c : Nat) (rest piece : GoString) (more : List GoString)
    (hc : c ≠ sep) (h : strings_Split sep rest = piece :: more) :
    strings_Split sep (c :: rest) = (c :: piece) :: more := by
  rw [strings_Split, if_neg hc, h]

theorem strings_Split_filter (sep : Nat) (p : Nat → Bool) (hp : p sep = true) (s : GoString) :
    (strings_Split sep s).map (fun item => item.filter p) = strings_Split sep (s.filter p) := by
  induction s with
  | nil => rfl
  | cons c rest ih =>
    obtain ⟨piece, more, hsplit⟩ := strings_Split_ne_nil sep rest
    rw [hsplit, List.map_cons] at ih
    by_cases hc : c = sep
    · subst hc
      rw [List.filter_cons_of_pos hp, strings_Split, if_pos rfl, strings_Split, if_pos rfl,
        List.map_cons, hsplit, List.map_cons, ← ih]
      rfl
    · rw [strings_Split_cons_ne sep c rest piece more hc hsplit, List.map_cons]
      by_cases hpc : p c = true
      · rw [List.filter_cons_of_pos hpc, List.filter_cons_of_pos hpc,
          strings_Split_cons_ne sep c _ _ _ hc ih.symm]
      · rw [List.filter_cons_of_neg hpc, List.filter_cons_of_neg hpc, ih]

theorem strings_Split_piece (sep : Nat) (a rest : GoString) (ha : sep ∉ a) :
    strings_Split sep (a ++ sep :: rest) = a :: strings_Split sep rest := by
  induction a with
  | nil => rw [List.nil_append, strings_Split, if_pos rfl]
  | cons c a ih =>
    have hc : c ≠ sep := fun e => ha (by rw [e]; exact List.mem_cons_self _ _)
    have ha' : sep ∉ a := fun h => ha (List.mem_cons_of_mem _ h)
    rw [List.cons_append, strings_Split_cons_ne sep c _ _ _ hc (ih ha')]

theorem strings_Split_last (sep : Nat) (a : GoString) (ha : sep ∉ a) :
    strings_Split sep a = [a] := by
  induction a with
  | nil => rfl
  | cons c a ih =>
    have hc : c ≠ sep := fun e => ha (by rw [e]; exact List.mem_cons_self _ _)
    have ha' : sep ∉ a := fun h => ha (List.mem_cons_of_mem _ h)
    rw [strings_Split_cons_ne sep c _ _ _ hc (ih ha')]

theorem filter_pred_congr {p q : Nat → Bool} (h : ∀ b, p b = true ↔ q b = true) (s : GoString) :
    s.filter p = s.filter q := by
  apply List.filter_congr
  intro b _
  rw [Bool.eq_iff_iff]
  exact h b

theorem linkClean_pipeline (s : GoString) :
    (strings_Replace (strings_Replace (strings_Replace (strings_Replace (strings_Replace s
      (str "(") []) (str ")") []) (str "\"\"") (str ";")) (str "\"") []) (str "\\") []).filter
        (fun b => b ≠ 123 ∧ b ≠ 125 ∧ b ≠ 59) = linkClean s := by
  have h40 : str "(" = [40] := by decide
  have h41 : str ")" = [41] := by decide
  have h34 : str "\"" = [34] := by decide
  have h92 : str "\\" = [92] := by decide
  have h3434 : str "\"\"" = [34, 34] := by decide
  have h59 : str ";" = [59] := by decide
  rw [h40, h41, h34, h92, h3434, h59]
  rw [strings_Replace_remove _ 92, strings_Replace_remove _ 34, strings_Replace_remove _ 41,
    strings_Replace_remove _ 40]
  have hQ := strings_Replace_quotes
    ((s.filter (fun c => c ≠ 40)).filter (fun c => c ≠ 41))
  have hsplit : ∀ y : GoString,
      ((y.filter (fun c => c ≠ 34)).filter (fun c => c ≠ 92)).filter
          (fun b => b ≠ 123 ∧ b ≠ 125 ∧ b ≠ 59) =
        (y.filter (fun b => b ≠ 34 ∧ b ≠ 59)).filter
          (fun b => b ≠ 123 ∧ b ≠ 125 ∧ b ≠ 92) := by
    intro y
    rw [List.filter_filter, List.filter_filter, List.filter_filter]
    apply filter_pred_congr
    intro b
    simp only [Bool.and_eq_true, decide_eq_true_eq]
    tauto
  rw [hsplit, hQ, List.filter_filter, List.filter_filter, List.filter_filter]
  unfold linkClean
  apply filter_pred_congr
  intro b
  simp only [Bool.and_eq_true, decide_eq_true_eq]
  tauto

theorem ParseSQLLinkString_items (trim : GoString → GoString) (s : GoString) :
    (strings_Split 44 (strings_Replace (strings_Replace (strings_Replace (strings_Replace
      (strings_Replace s (str "(") []) (str ")") []) (str "\"\"") (str ";")) (str "\"") [])
      (str "\\") [])).map (fun item =>
        trim (strings_Replace (strings_Replace (strings_Replace item (str "\x7b") [])
          (str "\x7d") []) (str ";") [])) =
      (strings_Split 44 (linkClean s)).map trim := by
  have h123 : str "\x7b" = [123] := by decide
  have h125 : str "\x7d" = [125] := by decide
  have h59 : str ";" = [59] := by decide
  have hfun : (fun item : GoString =>
      trim (strings_Replace (strings_Replace (strings_Replace item (str "\x7b") [])
        (str "\x7d") []) (str ";") [])) =
      (fun item => trim (item.filter (fun b => b ≠ 123 ∧ b ≠ 125 ∧ b ≠ 59))) := by
    funext item
    rw [h123, h125, h59, strings_Replace_remove, strings_Replace_remove, strings_Replace_remove,
      List.filter_filter, List.filter_filter]
    congr 1
    apply filter_pred_congr
    intro b
    simp only [Bool.and_eq_true, decide_eq_true_eq]
    tauto
  rw [hfun, ← linkClean_pipeline s, ← strings_Split_filter 44 _ (by decide), List.map_map]
  rfl

/-! ## SQL marshalling: decimal numerals -/

theorem decimal.digits_isDigit (fuel n : Nat) (acc : GoString)
    (hacc : ∀ b ∈ acc, 48 ≤ b ∧ b ≤ 57) : ∀ b ∈ decimal.digits fuel n acc, 48 ≤ b ∧ b ≤ 57 := by
  induction fuel generalizing n acc with
  | zero => exact hacc
  | succ fuel ih =>
    rw [decimal.digits]
    by_cases h : n < 10
    · rw [if_pos h]
      intro b hb
      rcases List.mem_cons.1 hb with rfl | hb'
      · omega
      · exact hacc b hb'
    · rw [if_neg h]
      apply ih
      intro b hb
      rcases List.mem_cons.1 hb with rfl | hb'
      · omega
      · exact hacc b hb'

theorem decimal.digits_ne_nil (fuel n : Nat) (acc : GoString) :
    decimal.digits (fuel + 1) n acc ≠ [] := by
  induction fuel generalizing n acc with
  | zero =>
    rw [decimal.digits]
    by_cases h : n < 10
    · rw [if_pos h]; simp
    · rw [if_neg h, decimal.digits]; simp
  | succ fuel ih =>
    rw [decimal.digits]
    by_cases h : n < 10
    · rw [if_pos h]; simp
    · rw [if_neg h]; exact ih _ _

theorem decimal.digits_value (fuel n : Nat) (acc : GoString) (hfuel : n < fuel) :
    (decimal.digits fuel n acc).foldl (fun v b => 10 * v + (b - 48)) 0 =
      acc.foldl (fun v b => 10 * v + (b - 48)) n := by
  induction fuel generalizing n acc with
  | zero => omega
  | succ fuel ih =>
    rw [decimal.digits]
    by_cases h : n < 10
    · rw [if_pos h, List.foldl_cons]
      congr 1
      omega
    · rw [if_neg h, ih (n / 10) _ (by omega), List.foldl_cons]
      congr 1
      omega

theorem Sscanf_d.unsigned_digits (n : Nat) :
    Sscanf_d.unsigned (decimal.digits (n + 1) n []) = some n := by
  have hall : ∀ b ∈ decimal.digits (n + 1) n [], (decide (48 ≤ b ∧ b ≤ 57)) = true := by
    intro b hb
    have := decimal.digits_isDigit (n + 1) n [] (by simp) b hb
    simpa using this
  have htake : (decimal.digits (n + 1) n []).takeWhile (fun b => 48 ≤ b ∧ b ≤ 57) =
      decimal.digits (n + 1) n [] := List.takeWhile_eq_self_iff.2 hall
  unfold Sscanf_d.unsigned
  rw [htake, if_neg (decimal.digits_ne_nil n n []), Sscanf_d.value,
    decimal.digits_value (n + 1) n [] (by omega)]
  rfl

theorem Sscanf_d_decimal (n : Int) (hlo : -(2 ^ 63 : Int) ≤ n) (hhi : n < (2 ^ 63 : Int)) :
    Sscanf_d (decimal n) = some n := by
  unfold decimal
  by_cases hneg : n < 0
  · rw [if_pos hneg]
    show (Sscanf_d.unsigned (decimal.digits (n.natAbs + 1) n.natAbs [])).bind
      (fun (v : Nat) => if v ≤ 2 ^ 63 then some (-(v : Int)) else none) = some n
    rw [Sscanf_d.unsigned_digits, Option.some_bind, if_pos (by omega)]
    simp only [Option.some.injEq]
    omega
  · rw [if_neg hneg]
    have hval := Sscanf_d.unsigned_digits n.natAbs
    cases hs : decimal.digits (n.natAbs + 1) n.natAbs [] with
    | nil => exact absurd hs (decimal.digits_ne_nil _ _ _)
    | cons d tl =>
      have hd : 48 ≤ d ∧ d ≤ 57 :=
        decimal.digits_isDigit (n.natAbs + 1) n.natAbs [] (by simp) d
          (by rw [hs]; exact List.mem_cons_self _ _)
      rw [hs] at hval
      unfold Sscanf_d
      split
      · rename_i rest heq
        cases heq
        omega
      · rename_i rest heq
        cases heq
        omega
      · rw [hval, Option.some_bind, if_pos (by omega)]
        simp only [Option.some.injEq]
        omega

theorem decimal_bytes (n : Int) : ∀ b ∈ decimal n, b = 45 ∨ (48 ≤ b ∧ b ≤ 57) := by
  intro b hb
  unfold decimal at hb
  by_cases hneg : n < 0
  · rw [if_pos hneg] at hb
    rcases List.mem_cons.1 hb with rfl | hb'
    · exact Or.inl rfl
    · exact Or.inr (decimal.digits_isDigit _ _ [] (by simp) b hb')
  · rw [if_neg hneg] at hb
    exact Or.inr (decimal.digits_isDigit _ _ [] (by simp) b hb)

/-! ## SQL marshalling: the round trip of a link -/

theorem linkClean_append (s t : GoString) : linkClean (s ++ t) = linkClean s ++ linkClean t := by
  simp [linkClean]

theorem linkClean_plain (s : GoString) (h : ∀ b ∈ s, linkSpecial b = false) :
    linkClean s = s := by
  unfold linkClean
  rw [List.filter_eq_self]
  intro b hb
  have := h b hb
  simp only [linkSpecial, decide_eq_false_iff_not, not_or] at this
  simp only [decide_eq_true_eq]
  tauto

theorem linkClean_decimal (n : Int) : linkClean (decimal n) = decimal n := by
  unfold linkClean
  rw [List.filter_eq_self]
  intro b hb
  have := decimal_bytes n b hb
  simp only [decide_eq_true_eq]
  omega

theorem decimal_no_comma (n : Int) : 44 ∉ decimal n := by
  intro h
  have := decimal_bytes n 44 h
  omega

theorem sqlLiteralValue.scan_quote (rest : GoString) :
    sqlLiteralValue.scan (39 :: 39 :: rest) = 39 :: sqlLiteralValue.scan rest := by
  rw [sqlLiteralValue.scan]
  simp

theorem sqlLiteralValue.scan_plain (c : Nat) (rest : GoString) (hc : c ≠ 39) :
    sqlLiteralValue.scan (c :: rest) = c :: sqlLiteralValue.scan rest := by
  cases rest with
  | nil => simp [sqlLiteralValue.scan, hc]
  | cons d rest => rw [sqlLiteralValue.scan, if_neg hc]

theorem sqlLiteralValue.scan_escaped (s rest : GoString) :
    sqlLiteralValue.scan (SQLEscape s ++ rest) = s ++ sqlLiteralValue.scan rest := by
  have hesc : ∀ s, SQLEscape s = s.flatMap (fun c => if c = 39 then [39, 39] else [c]) :=
    fun s => strings_Replace_byte s (str "''") 39
  rw [hesc]
  induction s with
  | nil => rfl
  | cons c s ih =>
    rw [List.flatMap_cons]
    by_cases hc : c = 39
    · subst hc
      rw [if_pos rfl]
      simp only [List.cons_append, List.nil_append, List.append_assoc]
      rw [sqlLiteralValue.scan_quote, ih]
    · rw [if_neg hc]
      simp only [List.cons_append, List.nil_append, List.append_assoc]
      rw [sqlLiteralValue.scan_plain c _ hc, ih]

theorem linkClean_cons_quote (s : GoString) : linkClean (34 :: s) = linkClean s := by
  simp [linkClean]

theorem linkClean_loop (array : List GoString) (rest : GoString)
    (hfree : ∀ c ∈ array, ∀ b ∈ c, linkSpecial b = false) :
    linkClean (sqlLiteralValue.scan (FormatSQLStringArray.loop array ++ rest)) =
      Array2Str array ++ linkClean (sqlLiteralValue.scan rest) := by
  have hq : str "\"" = [34] := by decide
  have hs : str ", " = [44, 32] := by decide
  have hsep : ∀ s, linkClean (44 :: 32 :: s) = 44 :: 32 :: linkClean s := fun s => by
    simp [linkClean]
  induction array with
  | nil => rfl
  | cons c more ih =>
    have hc : linkClean c = c := linkClean_plain c (hfree c (List.mem_cons_self _ _))
    cases more with
    | nil =>
      rw [FormatSQLStringArray.loop, Array2Str, hq]
      simp only [List.cons_append, List.nil_append, List.append_assoc]
      rw [sqlLiteralValue.scan_plain 34 _ (by decide), sqlLiteralValue.scan_escaped,
        sqlLiteralValue.scan_plain 34 _ (by decide), linkClean_cons_quote, linkClean_append,
        linkClean_cons_quote, hc]
    | cons d more =>
      rw [FormatSQLStringArray.loop, Array2Str, hq, hs]
      simp only [List.cons_append, List.nil_append, List.append_assoc]
      rw [sqlLiteralValue.scan_plain 34 _ (by decide), sqlLiteralValue.scan_escaped,
        sqlLiteralValue.scan_plain 34 _ (by decide), sqlLiteralValue.scan_plain 44 _ (by decide),
        sqlLiteralValue.scan_plain 32 _ (by decide), linkClean_cons_quote, linkClean_append,
        linkClean_cons_quote, hc, hsep, ih (fun c' hc' => hfree c' (List.mem_cons_of_mem _ hc'))]

theorem linkClean_recordQuote (field : GoString) :
    linkClean (recordQuote field) = linkClean field := by
  have hq : linkClean (str "\"") = [] := by decide
  have hmap : linkClean (field.flatMap (fun b => if b = 34 ∨ b = 92 then [b, b] else [b])) =
      linkClean field := by
    induction field with
    | nil => rfl
    | cons b field ih =>
      rw [List.flatMap_cons, linkClean_append, ih]
      by_cases hb : b = 34 ∨ b = 92
      · rw [if_pos hb]
        rcases hb with rfl | rfl <;> simp [linkClean]
      · rw [if_neg hb, ← linkClean_append]
        rfl
  unfold recordQuote
  rw [linkClean_append, linkClean_append, hq, hmap]
  simp

theorem linkClean_context (ctx : List GoString) (hctx : ctx ≠ [])
    (hfree : ∀ c ∈ ctx, ∀ b ∈ c, linkSpecial b = false) :
    linkClean (recordQuote (sqlLiteralValue (FormatSQLStringArray ctx))) =
      32 :: (Array2Str (sort_Strings ctx) ++ [32]) := by
  have hlen : ¬ ctx.length = 0 := fun e => hctx (List.length_eq_zero.1 e)
  have hopen : str "'\x7b " = [39, 123, 32] := by decide
  have hclose : str " \x7d' " = [32, 125, 39, 32] := by decide
  have hend : linkClean (sqlLiteralValue.scan [32, 125, 39, 32]) = [32] := by decide
  have hbrace : ∀ s, linkClean (123 :: 32 :: s) = 32 :: linkClean s := fun s => by
    simp [linkClean]
  have hsorted : ∀ c ∈ sort_Strings ctx, ∀ b ∈ c, linkSpecial b = false :=
    fun c hc => hfree c ((sort_Strings_perm ctx).mem_iff.1 hc)
  rw [linkClean_recordQuote]
  unfold FormatSQLStringArray
  rw [if_neg hlen, hopen, hclose]
  simp only [List.cons_append, List.nil_append]
  rw [sqlLiteralValue, if_pos rfl, sqlLiteralValue.scan_plain 123 _ (by decide),
    sqlLiteralValue.scan_plain 32 _ (by decide), hbrace, linkClean_loop _ _ hsorted, hend]

theorem strings_Split_contexts (trim : GoString → GoString)
    (hT1 : ∀ s, trim (32 :: s) = trim s) (hT2 : ∀ s, trim (s ++ [32]) = trim s)
    (c : GoString) (more : List GoString) (rest : GoString)
    (hfree : ∀ c' ∈ c :: more, trim c' = c' ∧ ∀ b ∈ c', linkSpecial b = false) :
    (strings_Split 44 (32 :: (Array2Str (c :: more) ++ 32 :: 44 :: rest))).map trim =
      (c :: more) ++ (strings_Split 44 rest).map trim := by
  induction more generalizing c with
  | nil =>
    obtain ⟨htrim, hplain⟩ := hfree c (List.mem_cons_self _ _)
    have hno : 44 ∉ 32 :: (c ++ [32]) := by
      intro h
      rcases List.mem_cons.1 h with h' | h'
      · omega
      · rcases List.mem_append.1 h' with h'' | h''
        · have := hplain 44 h''
          simp [linkSpecial] at this
        · simp at h''
    have hshape : 32 :: (Array2Str [c] ++ 32 :: 44 :: rest) =
        (32 :: (c ++ [32])) ++ 44 :: rest := by
      simp [Array2Str]
    rw [hshape, strings_Split_piece 44 _ _ hno, List.map_cons, hT1, hT2, htrim]
    rfl
  | cons d more ih =>
    obtain ⟨htrim, hplain⟩ := hfree c (List.mem_cons_self _ _)
    have hno : 44 ∉ 32 :: c := by
      intro h
      rcases List.mem_cons.1 h with h' | h'
      · omega
      · have := hplain 44 h'
        simp [linkSpecial] at this
    have hsep : str ", " = [44, 32] := by decide
    have hshape : 32 :: (Array2Str (c :: d :: more) ++ 32 :: 44 :: rest) =
        (32 :: c) ++ 44 :: (32 :: (Array2Str (d :: more) ++ 32 :: 44 :: rest)) := by
      rw [Array2Str, hsep]
      simp
    rw [hshape, strings_Split_piece 44 _ _ hno, List.map_cons, hT1, htrim,
      ih d (fun c' hc' => hfree c' (List.mem_cons_of_mem _ hc'))]
    rfl

theorem linkClean_linkText (wgt : GoString) (lnk : Link) (hctx : lnk.Ctx ≠ [])
    (hfree : ∀ c ∈ lnk.Ctx, ∀ b ∈ c, linkSpecial b = false) :
    linkClean (linkText wgt lnk) =
      decimal lnk.Arr ++ 44 :: (linkClean wgt ++ 44 :: (32 :: (Array2Str (sort_Strings lnk.Ctx) ++
        32 :: 44 :: (decimal lnk.Dst.Class ++ 44 :: decimal lnk.Dst.CPtr)))) := by
  have h1 : linkClean (str "(") = [] := by decide
  have h2 : linkClean (str ",") = [44] := by decide
  have h3 : linkClean (str ")") = [] := by decide
  have hdst : linkClean (recordQuote
      (str "(" ++ decimal lnk.Dst.Class ++ str "," ++ decimal lnk.Dst.CPtr ++ str ")")) =
      decimal lnk.Dst.Class ++ 44 :: decimal lnk.Dst.CPtr := by
    rw [linkClean_recordQuote]
    simp only [linkClean_append, h1, h2, h3, linkClean_decimal]
    simp
  unfold linkText
  simp only [linkClean_append, h1, h2, h3, linkClean_decimal, hdst,
    linkClean_context lnk.Ctx hctx hfree]
  simp

theorem ParseSQLLinkString_items_linkText (trim : GoString → GoString) (wgt : GoString)
    (lnk : Link)
    (hT1 : ∀ s, trim (32 :: s) = trim s) (hT2 : ∀ s, trim (s ++ [32]) = trim s)
    (hnum : ∀ n ∈ [lnk.Arr, lnk.Dst.Class, lnk.Dst.CPtr], trim (decimal n) = decimal n)
    (hwgt : 44 ∉ wgt) (hctx : lnk.Ctx ≠ [])
    (hfree : ∀ c ∈ lnk.Ctx, trim c = c ∧ ∀ b ∈ c, linkSpecial b = false) :
    (strings_Split 44 (linkClean (linkText wgt lnk))).map trim =
      decimal lnk.Arr :: trim (linkClean wgt) ::
        (sort_Strings lnk.Ctx ++ [decimal lnk.Dst.Class, decimal lnk.Dst.CPtr]) := by
  rw [linkClean_linkText wgt lnk hctx (fun c hc => (hfree c hc).2)]
  have hw : 44 ∉ linkClean wgt := fun h => hwgt (List.mem_of_mem_filter h)
  have hsorted : ∀ c ∈ sort_Strings lnk.Ctx, trim c = c ∧ ∀ b ∈ c, linkSpecial b = false :=
    fun c hc => hfree c ((sort_Strings_perm lnk.Ctx).mem_iff.1 hc)
  obtain ⟨c, more, hcm⟩ : ∃ c more, sort_Strings lnk.Ctx = c :: more := by
    cases h : sort_Strings lnk.Ctx with
    | nil =>
      have hperm := sort_Strings_perm lnk.Ctx
      rw [h] at hperm
      exact absurd hperm.nil_eq.symm hctx
    | cons c more => exact ⟨c, more, rfl⟩
  rw [strings_Split_piece 44 _ _ (decimal_no_comma _), List.map_cons,
    strings_Split_piece 44 _ _ hw, List.map_cons, hcm,
    strings_Split_contexts trim hT1 hT2 c more _ (by rw [← hcm]; exact hsorted),
    strings_Split_piece 44 _ _ (decimal_no_comma _),
    strings_Split_last 44 _ (decimal_no_comma _)]
  simp only [List.map_cons, List.map_nil, hnum lnk.Arr (by simp),
    hnum lnk.Dst.Class (by simp), hnum lnk.Dst.CPtr (by simp)]

theorem getElem?_framed {α : Type} (a w c p : α) (ctx : List α) :
    (a :: w :: (ctx ++ [c, p]))[1]? = some w ∧
    (a :: w :: (ctx ++ [c, p]))[ctx.length + 2]? = some c ∧
    (a :: w :: (ctx ++ [c, p]))[ctx.length + 3]? = some p ∧
    ((a :: w :: (ctx ++ [c, p])).take ((a :: w :: (ctx ++ [c, p])).length - 2)).drop 2 =
      ctx := by
  refine ⟨by simp, ?_, ?_, ?_⟩
  · rw [List.getElem?_cons_succ, List.getElem?_cons_succ,
      List.getElem?_append_right (Nat.le_refl _)]
    simp
  · rw [List.getElem?_cons_succ, List.getElem?_cons_succ,
      List.getElem?_append_right (by omega)]
    simp
  · have hlen : (a :: w :: (ctx ++ [c, p])).length - 2 = ctx.length + 2 := by
      simp
    rw [hlen, List.take_succ_cons, List.take_succ_cons, List.drop_succ_cons,
      List.drop_succ_cons, List.drop_zero, List.take_append_of_le_length (Nat.le_refl _),
      List.take_length]

/-- C27 (as amended): for every link whose arrow and destination are numbers of
64 bits and whose context list is not empty and holds strings free of commas,
double quotes, braces, parentheses, semicolons, backslashes and surrounding
blanks, `ParseSQLLinkString` applied to the store's text form of the link
returns a link with the same arrow, the same destination and the context
strings of the link in ascending order, as `FormatSQLStringArray` wrote them
(the weight aside). `trim` is `strings.TrimSpace`: it drops a blank at either
end and leaves the numerals and the context strings as they are. -/
theorem ParseSQLLinkString_roundtrip (trim : GoString → GoString) (scanWgt : GoString → Nat)
    (wgt : GoString) (lnk : Link)
    (hT1 : ∀ s, trim (32 :: s) = trim s) (hT2 : ∀ s, trim (s ++ [32]) = trim s)
    (hnum : ∀ n ∈ [lnk.Arr, lnk.Dst.Class, lnk.Dst.CPtr], trim (decimal n) = decimal n)
    (hrange : ∀ n ∈ [lnk.Arr, lnk.Dst.Class, lnk.Dst.CPtr],
      -(2 ^ 63 : Int) ≤ n ∧ n < (2 ^ 63 : Int))
    (hwgt : 44 ∉ wgt) (hctx : lnk.Ctx ≠ [])
    (hfree : ∀ c ∈ lnk.Ctx, trim c = c ∧ ∀ b ∈ c, linkSpecial b = false) :
    ∃ parsed, ParseSQLLinkString trim scanWgt (linkText wgt lnk) = some parsed ∧
      parsed.Arr = lnk.Arr ∧ parsed.Ctx = sort_Strings lnk.Ctx ∧ parsed.Dst = lnk.Dst := by
  have hitems := ParseSQLLinkString_items_linkText trim wgt lnk hT1 hT2 hnum hwgt hctx hfree
  have hlen : ((decimal lnk.Arr :: trim (linkClean wgt) ::
      (sort_Strings lnk.Ctx ++ [decimal lnk.Dst.Class, decimal lnk.Dst.CPtr])).length : Int) =
      (((sort_Strings lnk.Ctx).length + 4 : Nat) : Int) := by
    simp only [List.length_cons, List.length_append, List.length_nil]
  obtain ⟨g1, g2, g3, g4⟩ := getElem?_framed (decimal lnk.Arr) (trim (linkClean wgt))
    (decimal lnk.Dst.Class) (decimal lnk.Dst.CPtr) (sort_Strings lnk.Ctx)
  have h0 : index? (decimal lnk.Arr :: trim (linkClean wgt) ::
      (sort_Strings lnk.Ctx ++ [decimal lnk.Dst.Class, decimal lnk.Dst.CPtr])) 0 =
      some (decimal lnk.Arr) := by
    simp [index?]
  have h1 : index? (decimal lnk.Arr :: trim (linkClean wgt) ::
      (sort_Strings lnk.Ctx ++ [decimal lnk.Dst.Class, decimal lnk.Dst.CPtr])) 1 =
      some (trim (linkClean wgt)) := by
    have : (1 : Int) = ((1 : Nat) : Int) := rfl
    rw [this, index?_natCast, g1]
  have h2 : index? (decimal lnk.Arr :: trim (linkClean wgt) ::
      (sort_Strings lnk.Ctx ++ [decimal lnk.Dst.Class, decimal lnk.Dst.CPtr]))
      ((((sort_Strings lnk.Ctx).length + 4 : Nat) : Int) - 2) =
      some (decimal lnk.Dst.Class) := by
    have : ((((sort_Strings lnk.Ctx).length + 4 : Nat) : Int) - 2) =
        (((sort_Strings lnk.Ctx).length + 2 : Nat) : Int) := by
      omega
    rw [this, index?_natCast, g2]
  have h3 : index? (decimal lnk.Arr :: trim (linkClean wgt) ::
      (sort_Strings lnk.Ctx ++ [decimal lnk.Dst.Class, decimal lnk.Dst.CPtr]))
      ((((sort_Strings lnk.Ctx).length + 4 : Nat) : Int) - 1) =
      some (decimal lnk.Dst.CPtr) := by
    have : ((((sort_Strings lnk.Ctx).length + 4 : Nat) : Int) - 1) =
        (((sort_Strings lnk.Ctx).length + 3 : Nat) : Int) := by
      omega
    rw [this, index?_natCast, g3]
  have ha := Sscanf_d_decimal lnk.Arr (hrange lnk.Arr (by simp)).1 (hrange lnk.Arr (by simp)).2
  have hc := Sscanf_d_decimal lnk.Dst.Class (hrange lnk.Dst.Class (by simp)).1
    (hrange lnk.Dst.Class (by simp)).2
  have hp := Sscanf_d_decimal lnk.Dst.CPtr (hrange lnk.Dst.CPtr (by simp)).1
    (hrange lnk.Dst.CPtr (by simp)).2
  have hrun : ParseSQLLinkString trim scanWgt (linkText wgt lnk) =
      some ⟨lnk.Arr, scanWgt (trim (linkClean wgt)), sort_Strings lnk.Ctx,
        ⟨lnk.Dst.Class, lnk.Dst.CPtr⟩⟩ := by
    unfold ParseSQLLinkString
    simp only [ParseSQLLinkString_items, hitems, hlen, h0, h1, h2, h3, g4, Option.some_bind,
      ha, hc, hp, Option.getD_some]
  exact ⟨_, hrun, rfl, rfl, rfl⟩

theorem TrimSpace_cons_blank (s : GoString) : TrimSpace (32 :: s) = TrimSpace s := by
  simp [TrimSpace, List.dropWhile, asciiSpace]

theorem dropWhile_snoc (p : Nat → Bool) (s : GoString) (x : Nat) :
    (s ++ [x]).dropWhile p =
      if s.dropWhile p = [] then [x].dropWhile p else s.dropWhile p ++ [x] := by
  induction s with
  | nil => simp
  | cons c rest ih =>
    by_cases hc : p c = true
    · simp only [List.cons_append, List.dropWhile_cons_of_pos hc, ih]
    · simp only [List.cons_append, List.dropWhile_cons_of_neg hc]
      simp

theorem TrimSpace_append_blank (s : GoString) : TrimSpace (s ++ [32]) = TrimSpace s := by
  unfold TrimSpace
  rw [dropWhile_snoc]
  by_cases h : s.dropWhile asciiSpace = []
  · rw [if_pos h, h]
    simp [List.dropWhile, asciiSpace]
  · rw [if_neg h, List.reverse_append, List.reverse_singleton, List.singleton_append,
      List.dropWhile_cons_of_pos (by decide)]

/-- C27 at the link of the comment in the source, with the contexts
`fairy castles` and `angel air`: the store's text form is
`(77,0.34,"{ ""angel air"", ""fairy castles"" }","(4,2)")`, and the link read
back holds `angel air` before `fairy castles`. -/
theorem ParseSQLLinkString_roundtrip_witness :
    linkText (str "0.34") fairyLink =
      str "(77,0.34,\"\x7b \"\"angel air\"\", \"\"fairy castles\"\" \x7d\",\"(4,2)\")" ∧
    sort_Strings fairyLink.Ctx = [str "angel air", str "fairy castles"] ∧
    ∃ parsed, ParseSQLLinkString TrimSpace (fun _ => 0) (linkText (str "0.34") fairyLink) =
        some parsed ∧
      parsed.Arr = fairyLink.Arr ∧ parsed.Ctx = sort_Strings fairyLink.Ctx ∧
      parsed.Dst = fairyLink.Dst :=
  ⟨by decide, by decide,
    ParseSQLLinkString_roundtrip TrimSpace (fun _ => 0) (str "0.34") fairyLink
      TrimSpace_cons_blank TrimSpace_append_blank (by decide) (by decide) (by decide) (by decide)
      (by decide)⟩

/-- C27 (counterexample): the text form of the link `(0, 0, {}, (4,1))` with an
empty context list is `(0,0,"{ }","(4,1)")`, and `ParseSQLLinkString` returns a
link whose context list holds one empty string; so it does for the seed link of
the stored functions, which the store prints as `(0,0,{},"(4,1)")`. -/
theorem ParseSQLLinkString_empty_context :
    linkText (str "0") ⟨0, 0, [], ⟨4, 1⟩⟩ = str "(0,0,\"\x7b \x7d\",\"(4,1)\")" ∧
    ParseSQLLinkString TrimSpace (fun _ => 0) (linkText (str "0") ⟨0, 0, [], ⟨4, 1⟩⟩) =
      some ⟨0, 0, [[]], ⟨4, 1⟩⟩ ∧
    ParseSQLLinkString TrimSpace (fun _ => 0) (str "(0,0,\x7b\x7d,\"(4,1)\")") =
      some ⟨0, 0, [[]], ⟨4, 1⟩⟩ ∧
    ([[]] : List GoString) ≠ [] := by
  decide

end SSTorytime
